import Mathlib

/-!
# Lambda Photon: lexer and parser

A shallow embedding of `src/lexer.c` and `src/parser.c`.

* A source buffer is the list of its bytes before the terminating NUL; reading
  at or past the end of the list yields the NUL byte `0`.
* Pointers into the buffer (`current`, `start`, `Token.start`) are byte offsets.
* `uint32_t` counters (`line`, `col`) wrap modulo `2 ^ 32`.
* Loops whose every iteration consumes at least one byte run on a fuel equal to
  the number of bytes left, so the fuel never cuts a loop short.
-/

namespace LambdaPhoton

/-! ## lexer.h -/

/-- The enumeration `TokenType` of `lexer.h`, in declaration order. -/
inductive TokenType where
  | TOK_INT | TOK_FLOAT | TOK_STRING | TOK_IDENT
  | TOK_LET | TOK_FOR | TOK_IN | TOK_ASYNC | TOK_AWAIT | TOK_GPU | TOK_KERNEL | TOK_PARALLEL
  | TOK_TYPE_I8 | TOK_TYPE_I16 | TOK_TYPE_I32 | TOK_TYPE_I64
  | TOK_TYPE_U8 | TOK_TYPE_U16 | TOK_TYPE_U32 | TOK_TYPE_U64
  | TOK_TYPE_F32 | TOK_TYPE_F64 | TOK_TYPE_STR | TOK_TYPE_PTR | TOK_TYPE_VOID
  | TOK_PLUS | TOK_MINUS | TOK_STAR | TOK_SLASH | TOK_PERCENT
  | TOK_EQ | TOK_EQEQ | TOK_NEQ | TOK_LT | TOK_GT | TOK_LTE | TOK_GTE
  | TOK_AND | TOK_OR | TOK_NOT | TOK_BITAND | TOK_BITOR | TOK_BITXOR | TOK_SHL | TOK_SHR
  | TOK_BACKSLASH | TOK_ARROW | TOK_QUESTION | TOK_COLON | TOK_DOTDOT
  | TOK_LPAREN | TOK_RPAREN | TOK_LBRACE | TOK_RBRACE | TOK_LBRACKET | TOK_RBRACKET
  | TOK_SEMICOLON | TOK_COMMA | TOK_AT
  | TOK_EOF | TOK_ERROR
deriving DecidableEq, Repr

open TokenType

/-- An IEEE double produced by `strtod`. Floating point arithmetic is outside the
embedding, so the value is kept as the decimal numeral that `strtod` converts. -/
structure Double where
  numeral : List Nat
deriving DecidableEq, Repr

/-- The union `value` of a token: `make_token` leaves it unset, `number` stores
`int_val` or `float_val`. -/
inductive TokenValue where
  | unset
  | int_val (v : Int)
  | float_val (d : Double)
deriving DecidableEq, Repr

/-- The struct `Token`; `start` is the offset of the slice in the source buffer. -/
structure Token where
  type : TokenType
  start : Nat
  length : Nat
  line : Nat
  col : Nat
  value : TokenValue
deriving DecidableEq, Repr

/-- The struct `Lexer`; `source` holds the bytes before the terminating NUL. -/
structure Lexer where
  source : List Nat
  current : Nat
  start : Nat
  line : Nat
  col : Nat
deriving DecidableEq, Repr

/-! ## lexer.c -/

/-- The modulus of `uint32_t` arithmetic. -/
def U32 : Nat := 4294967296

/-- The byte at offset `i` of a NUL-terminated buffer. -/
def byteAt (src : List Nat) (i : Nat) : Nat := src.getD i 0

/-- Number of bytes between the cursor and the end of the buffer. -/
def remaining (l : Lexer) : Nat := l.source.length - l.current

/-- The test `isdigit` of `ctype.h` in the C locale. -/
def isdigit (c : Nat) : Bool := decide (48 ≤ c) && decide (c ≤ 57)

/-- The test `isalpha` of `ctype.h` in the C locale: the ASCII letters only. -/
def isalpha (c : Nat) : Bool :=
  (decide (65 ≤ c) && decide (c ≤ 90)) || (decide (97 ≤ c) && decide (c ≤ 122))

/-- The test `isalnum` of `ctype.h` in the C locale. -/
def isalnum (c : Nat) : Bool := isalpha c || isdigit c

def peek (l : Lexer) : Nat := byteAt l.source l.current

def is_at_end (l : Lexer) : Bool := peek l == 0

/-- The state change of `advance`; the byte it returns is `peek` of the old state. -/
def advance (l : Lexer) : Lexer :=
  { l with col := (l.col + 1) % U32, current := l.current + 1 }

def peek_next (l : Lexer) : Nat :=
  if is_at_end l then 0 else byteAt l.source (l.current + 1)

/-- The function `match` of `lexer.c`: the flag and the new state. -/
def match_char (l : Lexer) (expected : Nat) : Bool × Lexer :=
  if is_at_end l || peek l != expected then (false, l)
  else (true, { l with current := l.current + 1, col := (l.col + 1) % U32 })

/-- The inner loop of a line comment: `while (peek(l) != '\n' && !is_at_end(l)) advance(l);`. -/
def skip_comment : Nat → Lexer → Lexer
  | 0, l => l
  | n + 1, l =>
    if peek l != 10 && !is_at_end l then skip_comment n (advance l) else l

/-- The loop of `skip_whitespace`, one iteration per unit of fuel. -/
def skip_whitespace_loop : Nat → Lexer → Lexer
  | 0, l => l
  | n + 1, l =>
    let c := peek l
    if c = 32 ∨ c = 9 ∨ c = 13 then skip_whitespace_loop n (advance l)
    else if c = 10 then
      skip_whitespace_loop n (advance { l with line := (l.line + 1) % U32, col := 0 })
    else if c = 47 then
      if peek_next l = 47 then skip_whitespace_loop n (skip_comment (remaining l) l)
      else l
    else l

def skip_whitespace (l : Lexer) : Lexer := skip_whitespace_loop (remaining l) l

def make_token (l : Lexer) (type : TokenType) : Token :=
  let length := l.current - l.start
  { type := type, start := l.start, length := length, line := l.line,
    col := (l.col + (U32 - length % U32)) % U32, value := TokenValue.unset }

def error_token (l : Lexer) : Token :=
  { type := TOK_ERROR, start := l.start, length := 1, line := l.line, col := l.col,
    value := TokenValue.unset }

/-- The test `memcmp(p, lit, n) == 0` on the buffer, `p` an offset and `n` the length of `lit`. -/
def memcmp_eq (src : List Nat) (p : Nat) (lit : List Nat) : Bool :=
  (src.drop p).take lit.length == lit

def check_keyword (src : List Nat) (start len : Nat) (rest : List Nat)
    (type : TokenType) : TokenType :=
  if len = rest.length + 1 ∧ memcmp_eq src (start + 1) rest = true then type else TOK_IDENT

/-- The exact-match chain at the head of `identifier_type`; `none` when control
falls through to the `switch`. -/
def identifier_type_exact (src : List Nat) (start len : Nat) : Option TokenType :=
  if len = 2 then
    if memcmp_eq src start [105, 56] then some TOK_TYPE_I8          -- "i8"
    else if memcmp_eq src start [117, 56] then some TOK_TYPE_U8     -- "u8"
    else none
  else if len = 3 then
    if memcmp_eq src start [105, 49, 54] then some TOK_TYPE_I16       -- "i16"
    else if memcmp_eq src start [105, 51, 50] then some TOK_TYPE_I32  -- "i32"
    else if memcmp_eq src start [105, 54, 52] then some TOK_TYPE_I64  -- "i64"
    else if memcmp_eq src start [117, 49, 54] then some TOK_TYPE_U16  -- "u16"
    else if memcmp_eq src start [117, 51, 50] then some TOK_TYPE_U32  -- "u32"
    else if memcmp_eq src start [117, 54, 52] then some TOK_TYPE_U64  -- "u64"
    else if memcmp_eq src start [102, 51, 50] then some TOK_TYPE_F32  -- "f32"
    else if memcmp_eq src start [102, 54, 52] then some TOK_TYPE_F64  -- "f64"
    else if memcmp_eq src start [115, 116, 114] then some TOK_TYPE_STR  -- "str"
    else if memcmp_eq src start [112, 116, 114] then some TOK_TYPE_PTR  -- "ptr"
    else if memcmp_eq src start [103, 112, 117] then some TOK_GPU     -- "gpu"
    else if memcmp_eq src start [102, 111, 114] then some TOK_FOR     -- "for"
    else if memcmp_eq src start [108, 101, 116] then some TOK_LET     -- "let"
    else none
  else if len = 4 then
    if memcmp_eq src start [118, 111, 105, 100] then some TOK_TYPE_VOID  -- "void"
    else none
  else none

def identifier_type (l : Lexer) : TokenType :=
  let len := l.current - l.start
  match identifier_type_exact l.source l.start len with
  | some t => t
  | none =>
    let c0 := byteAt l.source l.start
    if c0 = 97 then                                     -- case 'a'
      if len > 1 then
        if byteAt l.source (l.start + 1) = 115 then     -- 's'
          check_keyword l.source (l.start + 1) (len - 1) [121, 110, 99] TOK_ASYNC
        else if byteAt l.source (l.start + 1) = 119 then  -- 'w'
          check_keyword l.source (l.start + 1) (len - 1) [97, 105, 116] TOK_AWAIT
        else TOK_IDENT
      else TOK_IDENT
    else if c0 = 105 then                               -- case 'i'
      if len = 2 ∧ byteAt l.source (l.start + 1) = 110 then TOK_IN else TOK_IDENT
    else if c0 = 107 then                               -- case 'k'
      check_keyword l.source l.start len [101, 114, 110, 101, 108] TOK_KERNEL
    else TOK_IDENT

/-- The loop `while (isalnum(peek(l)) || peek(l) == '_') advance(l);`. -/
def skip_ident : Nat → Lexer → Lexer
  | 0, l => l
  | n + 1, l => if isalnum (peek l) || peek l == 95 then skip_ident n (advance l) else l

def identifier (l : Lexer) : Token × Lexer :=
  let l1 := skip_ident (remaining l) l
  (make_token l1 (identifier_type l1), l1)

/-- The loop `while (isdigit(peek(l))) advance(l);`. -/
def skip_digits : Nat → Lexer → Lexer
  | 0, l => l
  | n + 1, l => if isdigit (peek l) then skip_digits n (advance l) else l

/-- Value of a run of decimal digits. -/
def digits_value (ds : List Nat) : Nat := ds.foldl (fun acc d => 10 * acc + (d - 48)) 0

/-- The call `strtoll(p, NULL, 10)` at a digit: the leading digit run, clamped to `LLONG_MAX`. -/
def strtoll (bytes : List Nat) : Int :=
  (min (digits_value (bytes.takeWhile isdigit)) 9223372036854775807 : Nat)

/-- The part of the text that `strtod(p, NULL)` converts when `p` is at a digit:
digits, an optional point with its digits, and an exponent only if it has a digit. -/
def strtod (bytes : List Nat) : Double :=
  let ds := bytes.takeWhile isdigit
  let r1 := bytes.dropWhile isdigit
  let frac := if r1.headD 0 = 46 then 46 :: r1.tail.takeWhile isdigit else []
  let r2 := if r1.headD 0 = 46 then r1.tail.dropWhile isdigit else r1
  let expo :=
    if r2.headD 0 = 101 ∨ r2.headD 0 = 69 then
      let r3 := r2.tail
      let sign := if r3.headD 0 = 43 ∨ r3.headD 0 = 45 then [r3.headD 0] else []
      let r4 := if r3.headD 0 = 43 ∨ r3.headD 0 = 45 then r3.tail else r3
      let eds := r4.takeWhile isdigit
      if eds = [] then [] else r2.headD 0 :: (sign ++ eds)
    else []
  ⟨ds ++ frac ++ expo⟩

/-- The first `if` of `number`: a point followed by a digit starts a fraction.
Returns whether it was taken and the state after it. -/
def number_frac (l : Lexer) : Bool × Lexer :=
  if peek l = 46 ∧ isdigit (peek_next l) = true then
    (true, skip_digits (remaining (advance l)) (advance l))
  else (false, l)

/-- The second `if` of `number`: an `e` or `E` starts an exponent, with an optional sign.
Returns whether it was taken and the state after it. -/
def number_exp (l : Lexer) : Bool × Lexer :=
  if peek l = 101 ∨ peek l = 69 then
    let a := advance l
    let b := if peek a = 43 ∨ peek a = 45 then advance a else a
    (true, skip_digits (remaining b) b)
  else (false, l)

def number (l : Lexer) : Token × Lexer :=
  let l1 := skip_digits (remaining l) l
  let f := number_frac l1
  let e := number_exp f.2
  let is_float := f.1 || e.1
  let t := make_token e.2 (if is_float then TOK_FLOAT else TOK_INT)
  if is_float then
    ({ t with value := TokenValue.float_val (strtod (e.2.source.drop e.2.start)) }, e.2)
  else
    ({ t with value := TokenValue.int_val (strtoll (e.2.source.drop e.2.start)) }, e.2)

/-- The loop of `string`: runs to the closing quote or to the end of the buffer. -/
def string_loop : Nat → Lexer → Lexer
  | 0, l => l
  | n + 1, l =>
    if peek l != 34 && !is_at_end l then
      let l1 := if peek l = 10 then { l with line := (l.line + 1) % U32, col := 0 } else l
      let l2 := if peek l1 = 92 ∧ peek_next l1 ≠ 0 then advance l1 else l1
      string_loop n (advance l2)
    else l

/-- The function `string` of `lexer.c`. -/
def string_token (l : Lexer) : Token × Lexer :=
  let l1 := string_loop (remaining l) l
  if is_at_end l1 then (error_token l1, l1)
  else (make_token (advance l1) TOK_STRING, advance l1)

/-- The part of `scan_token` after `char c = advance(l);`: the two character-class
tests and the `switch`, on the byte `c` just consumed and the state after it. -/
def scan_dispatch (c : Nat) (l : Lexer) : Token × Lexer :=
  if isalpha c || c == 95 then identifier l
  else if isdigit c then number l
  else if c = 40 then (make_token l TOK_LPAREN, l)
  else if c = 41 then (make_token l TOK_RPAREN, l)
  else if c = 123 then (make_token l TOK_LBRACE, l)
  else if c = 125 then (make_token l TOK_RBRACE, l)
  else if c = 91 then (make_token l TOK_LBRACKET, l)
  else if c = 93 then (make_token l TOK_RBRACKET, l)
  else if c = 59 then (make_token l TOK_SEMICOLON, l)
  else if c = 44 then (make_token l TOK_COMMA, l)
  else if c = 64 then (make_token l TOK_AT, l)
  else if c = 92 then (make_token l TOK_BACKSLASH, l)
  else if c = 63 then (make_token l TOK_QUESTION, l)
  else if c = 58 then (make_token l TOK_COLON, l)
  else if c = 43 then (make_token l TOK_PLUS, l)
  else if c = 42 then (make_token l TOK_STAR, l)
  else if c = 47 then (make_token l TOK_SLASH, l)
  else if c = 37 then (make_token l TOK_PERCENT, l)
  else if c = 94 then (make_token l TOK_BITXOR, l)
  else if c = 34 then string_token l
  else if c = 45 then
    let m := match_char l 62
    (make_token m.2 (if m.1 then TOK_ARROW else TOK_MINUS), m.2)
  else if c = 46 then
    let m := match_char l 46
    (make_token m.2 (if m.1 then TOK_DOTDOT else TOK_ERROR), m.2)
  else if c = 61 then
    let m := match_char l 61
    (make_token m.2 (if m.1 then TOK_EQEQ else TOK_EQ), m.2)
  else if c = 33 then
    let m := match_char l 61
    (make_token m.2 (if m.1 then TOK_NEQ else TOK_NOT), m.2)
  else if c = 60 then
    let m := match_char l 60
    if m.1 then (make_token m.2 TOK_SHL, m.2)
    else
      let m := match_char l 61
      (make_token m.2 (if m.1 then TOK_LTE else TOK_LT), m.2)
  else if c = 62 then
    let m := match_char l 62
    if m.1 then (make_token m.2 TOK_SHR, m.2)
    else
      let m := match_char l 61
      (make_token m.2 (if m.1 then TOK_GTE else TOK_GT), m.2)
  else if c = 38 then
    let m := match_char l 38
    (make_token m.2 (if m.1 then TOK_AND else TOK_BITAND), m.2)
  else if c = 124 then
    let m := match_char l 124
    (make_token m.2 (if m.1 then TOK_OR else TOK_BITOR), m.2)
  else (error_token l, l)

/-- The first two statements of `scan_token`: blanks and comments skipped, then
`l->start = l->current`. -/
def token_start (l : Lexer) : Lexer :=
  { skip_whitespace l with start := (skip_whitespace l).current }

def scan_token (l : Lexer) : Token × Lexer :=
  let l := token_start l
  if is_at_end l then (make_token l TOK_EOF, l)
  else scan_dispatch (peek l) (advance l)

def lexer_init (source : List Nat) : Lexer :=
  { source := source, current := 0, start := 0, line := 1, col := 1 }

/-- The loop of `lexer_tokenize`; `none` when the fuel runs out before a final token. -/
def lexer_tokenize_loop : Nat → Lexer → List Token → Option (List Token)
  | 0, _, _ => none
  | fuel + 1, l, list =>
    let r := scan_token l
    let list := list ++ [r.1]
    if r.1.type = TOK_EOF ∨ r.1.type = TOK_ERROR then some list
    else lexer_tokenize_loop fuel r.2 list

/-- The function `lexer_tokenize`: one unit of fuel per byte left, plus one for the final token. -/
def lexer_tokenize (l : Lexer) : Option (List Token) :=
  lexer_tokenize_loop (remaining l + 1) l []

/-- Tokenizing a source from a fresh lexer, as `main` does. -/
def lex (source : List Nat) : Option (List Token) := lexer_tokenize (lexer_init source)

/-- The bytes of the slice of a token. -/
def Token.text (src : List Nat) (t : Token) : List Nat := (src.drop t.start).take t.length

/-! ## ast.h -/

/-- The enumeration `Operator` of `ast.h`. -/
inductive Operator where
  | OP_ADD | OP_SUB | OP_MUL | OP_DIV | OP_MOD
  | OP_EQ | OP_NEQ | OP_LT | OP_GT | OP_LTE | OP_GTE
  | OP_AND | OP_OR
  | OP_BITAND | OP_BITOR | OP_BITXOR | OP_SHL | OP_SHR
  | OP_NEG | OP_NOT
deriving DecidableEq, Repr

/-- The enumeration `kind` of `struct Type`. -/
inductive TypeKind where
  | TYPE_UNKNOWN | TYPE_VOID
  | TYPE_I8 | TYPE_I16 | TYPE_I32 | TYPE_I64
  | TYPE_U8 | TYPE_U16 | TYPE_U32 | TYPE_U64
  | TYPE_F32 | TYPE_F64
  | TYPE_STR | TYPE_PTR | TYPE_ARRAY | TYPE_FUNC | TYPE_ASYNC
deriving DecidableEq, Repr

/-- The struct `Type`; a null `Type *` field is `none`, `params` has `param_count` entries. -/
inductive AstType where
  | mk (kind : TypeKind) (inner : Option AstType) (params : List AstType)
      (ret : Option AstType) (array_len : Nat)
deriving Repr

open Operator TypeKind

/-- The function `type_new`: `calloc` zeroes every field but `kind`. -/
def type_new (kind : TypeKind) : AstType := AstType.mk kind none [] none 0

/-- The struct `ASTNode`, one constructor per `NodeType` with the fields of its payload,
and `null` for the null pointer. Every node carries `line` and `col`; `resolved_type` is
left out, `ast_new` zeroes it and nothing assigns it. Arrays with a count are lists;
strings are byte lists. -/
inductive ASTNode where
  | null
  | IntLit (line col : Nat) (int_val : Int)
  | FloatLit (line col : Nat) (float_val : Double)
  | StringLit (line col : Nat) (value : List Nat) (len : Nat)
  | Ident (line col : Nat) (name : List Nat) (len : Nat)
  | Binary (line col : Nat) (op : Operator) (left right : ASTNode)
  | Unary (line col : Nat) (op : Operator) (operand : ASTNode)
  | Lambda (line col : Nat) (params : List (List Nat)) (param_types : List AstType)
      (body : ASTNode)
  | Apply (line col : Nat) (func : ASTNode) (args : List ASTNode)
  | Ternary (line col : Nat) (cond then_branch else_branch : ASTNode)
  | Array (line col : Nat) (elements : List ASTNode)
  | Index (line col : Nat) (array index : ASTNode)
  | Builtin (line col : Nat) (name : List Nat) (elements : List ASTNode)
  | Let (line col : Nat) (name : List Nat) ( type_annotation : Option AstType) (value : ASTNode)
  | For (line col : Nat) (var : List Nat) (start end_ body : ASTNode) (parallel : Nat)
  | Block (line col : Nat) (stmts : List ASTNode)
  | Async (line col : Nat) (expr : ASTNode)
  | Await (line col : Nat) (expr : ASTNode)
  | GpuKernel (line col : Nat) (name : List Nat) (params : List (List Nat))
      (param_types : List AstType) (body : ASTNode)
  | Program (line col : Nat) (stmts : List ASTNode)
deriving Repr

/-! ## parser.h, parser.c -/

/-- The struct `Parser`: the token array and the index of the current token. `source` is
the buffer the token slices point into. -/
structure Parser where
  source : List Nat
  tokens : List Token
  current : Nat
deriving Repr

/-- What a read past the end of the token array yields in the embedding: an `EOF` token. -/
def eof_sentinel : Token :=
  { type := TOK_EOF, start := 0, length := 0, line := 0, col := 0, value := TokenValue.unset }

/-- The member `value.int_val` of a token; `0` when `number` did not store an integer. -/
def Token.int_val (t : Token) : Int :=
  match t.value with
  | TokenValue.int_val v => v
  | _ => 0

/-- The member `value.float_val` of a token; the empty numeral when `number` did not store a float. -/
def Token.float_val (t : Token) : Double :=
  match t.value with
  | TokenValue.float_val d => d
  | _ => ⟨[]⟩

/-- The modulus of `size_t` arithmetic. -/
def SIZE : Nat := 18446744073709551616

namespace parser

def current (p : Parser) : Token := p.tokens.getD p.current eof_sentinel

def previous (p : Parser) : Token := p.tokens.getD (p.current - 1) eof_sentinel

def is_at_end (p : Parser) : Bool := decide ((current p).type = TOK_EOF)

/-- The state change of `advance`; the token it returns is `previous` of the new state. -/
def advance (p : Parser) : Parser :=
  if !is_at_end p then { p with current := p.current + 1 } else p

def check (p : Parser) (type : TokenType) : Bool :=
  if is_at_end p then false else decide ((current p).type = type)

/-- The function `match` of `parser.c`: the flag and the new state. -/
def match_tok (p : Parser) (type : TokenType) : Bool × Parser :=
  if check p type then (true, advance p) else (false, p)

def copy_token_str (src : List Nat) (t : Token) : List Nat := (src.drop t.start).take t.length

def parse_type (p : Parser) : AstType × Parser :=
  match (current p).type with
  | TOK_TYPE_I8 => (type_new TYPE_I8, advance p)
  | TOK_TYPE_I16 => (type_new TYPE_I16, advance p)
  | TOK_TYPE_I32 => (type_new TYPE_I32, advance p)
  | TOK_TYPE_I64 => (type_new TYPE_I64, advance p)
  | TOK_TYPE_U8 => (type_new TYPE_U8, advance p)
  | TOK_TYPE_U16 => (type_new TYPE_U16, advance p)
  | TOK_TYPE_U32 => (type_new TYPE_U32, advance p)
  | TOK_TYPE_U64 => (type_new TYPE_U64, advance p)
  | TOK_TYPE_F32 => (type_new TYPE_F32, advance p)
  | TOK_TYPE_F64 => (type_new TYPE_F64, advance p)
  | TOK_TYPE_STR => (type_new TYPE_STR, advance p)
  | TOK_TYPE_PTR => (type_new TYPE_PTR, advance p)
  | TOK_TYPE_VOID => (type_new TYPE_VOID, advance p)
  | _ => (type_new TYPE_I64, p)

/-- The parameter loop of a lambda: `while (check(p, TOK_IDENT))`, one token per iteration. -/
def lambda_params : Nat → Parser → List (List Nat) → List (List Nat) × Parser
  | 0, p, params => (params, p)
  | n + 1, p, params =>
    if check p TOK_IDENT then
      lambda_params n (advance p) (params ++ [copy_token_str p.source (current p)])
    else (params, p)

/-- The result of a parsing function: the node and the state after it, or `none` when the
recursion depth allowed by the fuel is used up. -/
abbrev PResult := Option (ASTNode × Parser)

mutual

def primary : Nat → Parser → PResult
  | 0, _ => none
  | fuel + 1, p =>
    let t := current p
    let m := match_tok p TOK_INT
    if m.1 then some (ASTNode.IntLit t.line t.col (previous m.2).int_val, m.2)
    else
    let m := match_tok p TOK_FLOAT
    if m.1 then some (ASTNode.FloatLit t.line t.col (previous m.2).float_val, m.2)
    else
    let m := match_tok p TOK_STRING
    if m.1 then
      let prev := previous m.2
      let len := (prev.length + (SIZE - 2)) % SIZE
      some (ASTNode.StringLit t.line t.col ((p.source.drop (prev.start + 1)).take len) len, m.2)
    else
    let m := match_tok p TOK_IDENT
    if m.1 then
      some (ASTNode.Ident t.line t.col (copy_token_str p.source (previous m.2))
        (previous m.2).length, m.2)
    else
    let m := match_tok p TOK_LPAREN
    if m.1 then
      match expression fuel m.2 with
      | none => none
      | some (expr, p1) => some (expr, (match_tok p1 TOK_RPAREN).2)
    else
    let m := match_tok p TOK_LBRACKET
    if m.1 then
      if !check m.2 TOK_RBRACKET then
        match expr_list fuel m.2 [] with
        | none => none
        | some (elements, p1) =>
          some (ASTNode.Array t.line t.col elements, (match_tok p1 TOK_RBRACKET).2)
      else some (ASTNode.Array t.line t.col [], (match_tok m.2 TOK_RBRACKET).2)
    else
    let m := match_tok p TOK_AT
    if m.1 then
      let name := copy_token_str p.source (current m.2)
      let p1 := advance m.2
      let m2 := match_tok p1 TOK_LPAREN
      if m2.1 then
        if !check m2.2 TOK_RPAREN then
          match expr_list fuel m2.2 [] with
          | none => none
          | some (elements, p2) =>
            some (ASTNode.Builtin t.line t.col name elements, (match_tok p2 TOK_RPAREN).2)
        else some (ASTNode.Builtin t.line t.col name [], (match_tok m2.2 TOK_RPAREN).2)
      else some (ASTNode.Builtin t.line t.col name [], m2.2)
    else
    let m := match_tok p TOK_BACKSLASH
    if m.1 then
      let ps := lambda_params (m.2.tokens.length - m.2.current) m.2 []
      let p1 := (match_tok ps.2 TOK_ARROW).2
      match expression fuel p1 with
      | none => none
      | some (body, p2) => some (ASTNode.Lambda t.line t.col ps.1 [] body, p2)
    else some (ASTNode.null, p)

/-- The loop `do { ... = expression(p); } while (match(p, TOK_COMMA));` of `primary`, for the
elements of an array literal and for the arguments of a builtin. -/
def expr_list : Nat → Parser → List ASTNode → Option (List ASTNode × Parser)
  | 0, _, _ => none
  | fuel + 1, p, acc =>
    match expression fuel p with
    | none => none
    | some (e, p1) =>
      let m := match_tok p1 TOK_COMMA
      if m.1 then expr_list fuel m.2 (acc ++ [e]) else some (acc ++ [e], m.2)

/-- The function `postfix` of `parser.c`. -/
def postfix_expr : Nat → Parser → PResult
  | 0, _ => none
  | fuel + 1, p =>
    match primary fuel p with
    | none => none
    | some (ASTNode.null, p1) => some (ASTNode.null, p1)
    | some (left, p1) => postfix_loop fuel left p1

/-- The loop `for (;;)` of `postfix`. -/
def postfix_loop : Nat → ASTNode → Parser → PResult
  | 0, _, _ => none
  | fuel + 1, left, p =>
    let t := current p
    if check p TOK_LBRACKET then
      let p1 := advance p
      match expression fuel p1 with
      | none => none
      | some (index, p2) =>
        postfix_loop fuel (ASTNode.Index t.line t.col left index) (match_tok p2 TOK_RBRACKET).2
    else some (left, p)

def unary : Nat → Parser → PResult
  | 0, _ => none
  | fuel + 1, p =>
    let t := current p
    let m := match_tok p TOK_MINUS
    if m.1 then
      match unary fuel m.2 with
      | none => none
      | some (operand, p1) => some (ASTNode.Unary t.line t.col Operator.OP_NEG operand, p1)
    else
    let m := match_tok p TOK_NOT
    if m.1 then
      match unary fuel m.2 with
      | none => none
      | some (operand, p1) => some (ASTNode.Unary t.line t.col Operator.OP_NOT operand, p1)
    else postfix_expr fuel p

def factor : Nat → Parser → PResult
  | 0, _ => none
  | fuel + 1, p =>
    match unary fuel p with
    | none => none
    | some (left, p1) => factor_loop fuel left p1

/-- The loop `while` of `factor`. -/
def factor_loop : Nat → ASTNode → Parser → PResult
  | 0, _, _ => none
  | fuel + 1, left, p =>
    if check p TOK_STAR || check p TOK_SLASH || check p TOK_PERCENT then
      let t := current p
      let m := match_tok p TOK_STAR
      let r : Operator × Parser :=
        if m.1 then (Operator.OP_MUL, m.2)
        else
          let m := match_tok p TOK_SLASH
          if m.1 then (Operator.OP_DIV, m.2)
          else (Operator.OP_MOD, (match_tok p TOK_PERCENT).2)
      match unary fuel r.2 with
      | none => none
      | some (right, p1) => factor_loop fuel (ASTNode.Binary t.line t.col r.1 left right) p1
    else some (left, p)

def term : Nat → Parser → PResult
  | 0, _ => none
  | fuel + 1, p =>
    match factor fuel p with
    | none => none
    | some (left, p1) => term_loop fuel left p1

/-- The loop `while` of `term`. -/
def term_loop : Nat → ASTNode → Parser → PResult
  | 0, _, _ => none
  | fuel + 1, left, p =>
    if check p TOK_PLUS || check p TOK_MINUS then
      let t := current p
      let m := match_tok p TOK_PLUS
      let r : Operator × Parser :=
        if m.1 then (Operator.OP_ADD, m.2) else (Operator.OP_SUB, advance p)
      match factor fuel r.2 with
      | none => none
      | some (right, p1) => term_loop fuel (ASTNode.Binary t.line t.col r.1 left right) p1
    else some (left, p)

def comparison : Nat → Parser → PResult
  | 0, _ => none
  | fuel + 1, p =>
    match term fuel p with
    | none => none
    | some (left, p1) => comparison_loop fuel left p1

/-- The loop `while` of `comparison`. -/
def comparison_loop : Nat → ASTNode → Parser → PResult
  | 0, _, _ => none
  | fuel + 1, left, p =>
    if check p TOK_LT || check p TOK_GT || check p TOK_LTE || check p TOK_GTE then
      let t := current p
      let m := match_tok p TOK_LT
      let r : Operator × Parser :=
        if m.1 then (Operator.OP_LT, m.2)
        else
          let m := match_tok p TOK_GT
          if m.1 then (Operator.OP_GT, m.2)
          else
            let m := match_tok p TOK_LTE
            if m.1 then (Operator.OP_LTE, m.2)
            else (Operator.OP_GTE, (match_tok p TOK_GTE).2)
      match term fuel r.2 with
      | none => none
      | some (right, p1) => comparison_loop fuel (ASTNode.Binary t.line t.col r.1 left right) p1
    else some (left, p)

def equality : Nat → Parser → PResult
  | 0, _ => none
  | fuel + 1, p =>
    match comparison fuel p with
    | none => none
    | some (left, p1) => equality_loop fuel left p1

/-- The loop `while` of `equality`. -/
def equality_loop : Nat → ASTNode → Parser → PResult
  | 0, _, _ => none
  | fuel + 1, left, p =>
    if check p TOK_EQEQ || check p TOK_NEQ then
      let t := current p
      let m := match_tok p TOK_EQEQ
      let r : Operator × Parser :=
        if m.1 then (Operator.OP_EQ, m.2) else (Operator.OP_NEQ, advance p)
      match comparison fuel r.2 with
      | none => none
      | some (right, p1) => equality_loop fuel (ASTNode.Binary t.line t.col r.1 left right) p1
    else some (left, p)

def logical_and : Nat → Parser → PResult
  | 0, _ => none
  | fuel + 1, p =>
    match equality fuel p with
    | none => none
    | some (left, p1) => logical_and_loop fuel left p1

/-- The loop `while (match(p, TOK_AND))` of `logical_and`. -/
def logical_and_loop : Nat → ASTNode → Parser → PResult
  | 0, _, _ => none
  | fuel + 1, left, p =>
    let m := match_tok p TOK_AND
    if m.1 then
      let t := previous m.2
      match equality fuel m.2 with
      | none => none
      | some (right, p1) =>
        logical_and_loop fuel (ASTNode.Binary t.line t.col Operator.OP_AND left right) p1
    else some (left, m.2)

def logical_or : Nat → Parser → PResult
  | 0, _ => none
  | fuel + 1, p =>
    match logical_and fuel p with
    | none => none
    | some (left, p1) => logical_or_loop fuel left p1

/-- The loop `while (match(p, TOK_OR))` of `logical_or`. -/
def logical_or_loop : Nat → ASTNode → Parser → PResult
  | 0, _, _ => none
  | fuel + 1, left, p =>
    let m := match_tok p TOK_OR
    if m.1 then
      let t := previous m.2
      match logical_and fuel m.2 with
      | none => none
      | some (right, p1) =>
        logical_or_loop fuel (ASTNode.Binary t.line t.col Operator.OP_OR left right) p1
    else some (left, m.2)

def ternary_expr : Nat → Parser → PResult
  | 0, _ => none
  | fuel + 1, p =>
    match logical_or fuel p with
    | none => none
    | some (cond, p1) =>
      let m := match_tok p1 TOK_QUESTION
      if m.1 then
        let t := previous m.2
        match expression fuel m.2 with
        | none => none
        | some (then_branch, p2) =>
          match ternary_expr fuel (match_tok p2 TOK_COLON).2 with
          | none => none
          | some (else_branch, p3) =>
            some (ASTNode.Ternary t.line t.col cond then_branch else_branch, p3)
      else some (cond, m.2)

def expression : Nat → Parser → PResult
  | 0, _ => none
  | fuel + 1, p => ternary_expr fuel p

def block : Nat → Parser → PResult
  | 0, _ => none
  | fuel + 1, p =>
    let t := current p
    match block_loop fuel p [] with
    | none => none
    | some (stmts, p1) => some (ASTNode.Block t.line t.col stmts, (match_tok p1 TOK_RBRACE).2)

/-- The loop `while (!check(p, TOK_RBRACE) && !is_at_end(p))` of `block`. -/
def block_loop : Nat → Parser → List ASTNode → Option (List ASTNode × Parser)
  | 0, _, _ => none
  | fuel + 1, p, stmts =>
    if !check p TOK_RBRACE && !is_at_end p then
      match statement fuel p with
      | none => none
      | some (s, p1) => block_loop fuel p1 (stmts ++ [s])
    else some (stmts, p)

def statement : Nat → Parser → PResult
  | 0, _ => none
  | fuel + 1, p0 =>
    let t0 := current p0
    let m := match_tok p0 TOK_AT
    -- the annotation check: the parallel flag, the token `t` and the state after it
    let a : Nat × Token × Parser :=
      if m.1 then
        let annotation := current m.2
        if annotation.length = 8 ∧
            memcmp_eq m.2.source annotation.start [112, 97, 114, 97, 108, 108, 101, 108] = true
        then (1, current (advance m.2), advance m.2)
        else (0, t0, { m.2 with current := m.2.current - 1 })
      else (0, t0, m.2)
    let is_parallel := a.1
    let t := a.2.1
    let p := a.2.2
    let m := match_tok p TOK_LET
    if m.1 then
      let name := copy_token_str p.source (current m.2)
      let p1 := advance m.2
      let mc := match_tok p1 TOK_COLON
      let ty : Option AstType × Parser :=
        if mc.1 then (some (parse_type mc.2).1, (parse_type mc.2).2) else (none, mc.2)
      let p2 := (match_tok ty.2 TOK_EQ).2
      match expression fuel p2 with
      | none => none
      | some (value, p3) =>
        some (ASTNode.Let t.line t.col name ty.1 value, (match_tok p3 TOK_SEMICOLON).2)
    else
    let m := match_tok p TOK_FOR
    if m.1 then
      let var := copy_token_str p.source (current m.2)
      let p1 := advance m.2
      let p2 := (match_tok p1 TOK_IN).2
      match expression fuel p2 with
      | none => none
      | some (start, p3) =>
        match expression fuel (match_tok p3 TOK_DOTDOT).2 with
        | none => none
        | some (end_, p4) =>
          match block fuel (match_tok p4 TOK_LBRACE).2 with
          | none => none
          | some (body, p5) =>
            some (ASTNode.For t.line t.col var start end_ body is_parallel,
              (match_tok p5 TOK_SEMICOLON).2)
    else
    let m := match_tok p TOK_LBRACE
    if m.1 then block fuel m.2
    else
      match expression fuel p with
      | none => none
      | some (expr, p1) => some (expr, (match_tok p1 TOK_SEMICOLON).2)

end

def parser_init (source : List Nat) (tokens : List Token) : Parser :=
  { source := source, tokens := tokens, current := 0 }

/-- The loop `while (!is_at_end(p))` of `parser_parse`. -/
def parser_parse_loop : Nat → Parser → List ASTNode → Option (List ASTNode × Parser)
  | 0, _, _ => none
  | fuel + 1, p, stmts =>
    if !is_at_end p then
      match statement fuel p with
      | none => none
      | some (s, p1) => parser_parse_loop fuel p1 (stmts ++ [s])
    else some (stmts, p)

def parser_parse (fuel : Nat) (p : Parser) : PResult :=
  let t := current p
  match parser_parse_loop fuel p [] with
  | none => none
  | some (stmts, p1) => some (ASTNode.Program t.line t.col stmts, p1)

end parser

/-! ## optimize.h, optimize.c -/

/-- The operations of the C type `double` that `optimize.c` applies to the payload of a
`FloatLit`: the conversion `(double)` of an `int64_t`, `+ - * /`, `fmod`, unary minus and the
comparisons `==`, `<`, `<=`. The other comparisons are written with these: `l != r` is
`!(l == r)`, `l > r` is `r < l` and `l >= r` is `r <= l`, as IEEE 754 has them. The
definitions below take the operations as a parameter, so every theorem about them holds for
the arithmetic of the machine the optimizer runs on. -/
structure FloatOps where
  of_int : Int → Double
  add : Double → Double → Double
  sub : Double → Double → Double
  mul : Double → Double → Double
  div : Double → Double → Double
  fmod : Double → Double → Double
  neg : Double → Double
  eq : Double → Double → Bool
  lt : Double → Double → Bool
  le : Double → Double → Bool

/-- The value an `int64_t` holds after a computation whose exact result is `x`: the
representative of `x` modulo `2^64` in `[-2^63, 2^63)`. C leaves signed overflow undefined;
the embedding takes the two's-complement result that the compiled code computes. -/
def wrap64 (x : Int) : Int := (x + 9223372036854775808) % 18446744073709551616 - 9223372036854775808

/-- The `int` value `0` or `1` of a C comparison or logical operator. -/
def c_bool (b : Bool) : Int := if b then 1 else 0

/-- The count of a shift of an `int64_t`: the low six bits of the right operand, as the
shift instructions of x86-64 and AArch64 take it (C leaves other counts undefined). -/
def shift_count (r : Int) : Nat := (r % 64).toNat

/-- The test `!node`. -/
def ASTNode.is_null : ASTNode → Bool
  | ASTNode.null => true
  | _ => false

/-- The test `node->type == NODE_FLOAT_LIT`. -/
def ASTNode.is_float_lit : ASTNode → Bool
  | ASTNode.FloatLit _ _ _ => true
  | _ => false

/-- The member `data.int_val` of a node; `0` for a node that is no `IntLit`. -/
def ASTNode.int_val : ASTNode → Int
  | ASTNode.IntLit _ _ v => v
  | _ => 0

/-- The member `data.float_val` of a node; the empty numeral for a node that is no `FloatLit`. -/
def ASTNode.float_val : ASTNode → Double
  | ASTNode.FloatLit _ _ v => v
  | _ => ⟨[]⟩

def is_constant_expr : ASTNode → Bool
  | ASTNode.IntLit _ _ _ => true
  | ASTNode.FloatLit _ _ _ => true
  | ASTNode.Binary _ _ _ left right => is_constant_expr left && is_constant_expr right
  | ASTNode.Unary _ _ _ operand => is_constant_expr operand
  | ASTNode.Ternary _ _ cond then_branch else_branch =>
    is_constant_expr cond && is_constant_expr then_branch && is_constant_expr else_branch
  | _ => false

def has_float_operand (left right : ASTNode) : Bool := left.is_float_lit || right.is_float_lit

def get_numeric_value (F : FloatOps) : ASTNode → Double
  | ASTNode.FloatLit _ _ v => v
  | ASTNode.IntLit _ _ v => F.of_int v
  | _ => F.of_int 0

/-- The `switch` of the floating-point branch of `eval_binary` on the operands `l` and `r`;
an operator without a case gives `NULL`. -/
def float_binary (F : FloatOps) (line col : Nat) (op : Operator) (l r : Double) : ASTNode :=
  match op with
  | Operator.OP_ADD => ASTNode.FloatLit line col (F.add l r)
  | Operator.OP_SUB => ASTNode.FloatLit line col (F.sub l r)
  | Operator.OP_MUL => ASTNode.FloatLit line col (F.mul l r)
  | Operator.OP_DIV => ASTNode.FloatLit line col (if !F.eq r (F.of_int 0) then F.div l r else F.of_int 0)
  | Operator.OP_MOD => ASTNode.FloatLit line col (F.fmod l r)
  | Operator.OP_EQ => ASTNode.IntLit line col (c_bool (F.eq l r))
  | Operator.OP_NEQ => ASTNode.IntLit line col (c_bool (!F.eq l r))
  | Operator.OP_LT => ASTNode.IntLit line col (c_bool (F.lt l r))
  | Operator.OP_GT => ASTNode.IntLit line col (c_bool (F.lt r l))
  | Operator.OP_LTE => ASTNode.IntLit line col (c_bool (F.le l r))
  | Operator.OP_GTE => ASTNode.IntLit line col (c_bool (F.le r l))
  | _ => ASTNode.null

/-- The operands at which `l / r` and `l % r` on `int64_t` have no result although `r` is
not zero: the quotient of `INT64_MIN` by `-1` is `2^63`, which no `int64_t` holds. C leaves
both expressions undefined there, and the division instruction of x86-64 raises the divide
error, which ends the process. -/
def division_overflows (l r : Int) : Bool :=
  decide (l = -9223372036854775808) && decide (r = -1)

/-- The expression `l / r` on `int64_t` for `r` that is not zero: the quotient truncated
toward zero; `none` where the division traps. -/
def int_div (l r : Int) : Option Int :=
  if division_overflows l r then none else some (wrap64 (Int.tdiv l r))

/-- The expression `l % r` on `int64_t` for `r` that is not zero: the remainder of the
truncated division; `none` where the division traps. -/
def int_mod (l r : Int) : Option Int :=
  if division_overflows l r then none else some (wrap64 (Int.tmod l r))

/-- The `switch` of the integer branch of `eval_binary` on the operands `l` and `r`. A right
shift is arithmetic. The result `none` is the trap of `l / r` or `l % r`, after which
nothing is returned; `some ASTNode.null` is the return of `NULL` of the `default` case. -/
def int_binary (line col : Nat) (op : Operator) (l r : Int) : Option ASTNode :=
  match op with
  | Operator.OP_ADD => some (ASTNode.IntLit line col (wrap64 (l + r)))
  | Operator.OP_SUB => some (ASTNode.IntLit line col (wrap64 (l - r)))
  | Operator.OP_MUL => some (ASTNode.IntLit line col (wrap64 (l * r)))
  | Operator.OP_DIV => (if r ≠ 0 then int_div l r else some 0).map (ASTNode.IntLit line col)
  | Operator.OP_MOD => (if r ≠ 0 then int_mod l r else some 0).map (ASTNode.IntLit line col)
  | Operator.OP_EQ => some (ASTNode.IntLit line col (c_bool (decide (l = r))))
  | Operator.OP_NEQ => some (ASTNode.IntLit line col (c_bool (decide (l ≠ r))))
  | Operator.OP_LT => some (ASTNode.IntLit line col (c_bool (decide (l < r))))
  | Operator.OP_GT => some (ASTNode.IntLit line col (c_bool (decide (l > r))))
  | Operator.OP_LTE => some (ASTNode.IntLit line col (c_bool (decide (l ≤ r))))
  | Operator.OP_GTE => some (ASTNode.IntLit line col (c_bool (decide (l ≥ r))))
  | Operator.OP_AND => some (ASTNode.IntLit line col (c_bool (decide (l ≠ 0) && decide (r ≠ 0))))
  | Operator.OP_OR => some (ASTNode.IntLit line col (c_bool (decide (l ≠ 0) || decide (r ≠ 0))))
  | Operator.OP_BITAND => some (ASTNode.IntLit line col (Int.land l r))
  | Operator.OP_BITOR => some (ASTNode.IntLit line col (Int.lor l r))
  | Operator.OP_BITXOR => some (ASTNode.IntLit line col (Int.xor l r))
  | Operator.OP_SHL => some (ASTNode.IntLit line col (wrap64 (l * 2 ^ shift_count r)))
  | Operator.OP_SHR => some (ASTNode.IntLit line col (l / 2 ^ shift_count r))
  | _ => some ASTNode.null

/-- The function `eval_binary` after its first two statements: `line`, `col` and `op` are
those of the `Binary` node, `left` and `right` the results of `eval_constant` on its
children. The result `none` is the trap of an integer division. -/
def eval_binary (F : FloatOps) (line col : Nat) (op : Operator) (left right : ASTNode) :
    Option ASTNode :=
  if left.is_null || right.is_null then some ASTNode.null
  else if has_float_operand left right then
    some (float_binary F line col op (get_numeric_value F left) (get_numeric_value F right))
  else int_binary line col op left.int_val right.int_val

/-- The `switch` of `eval_unary` on the evaluated operand, which is not `NULL`. The result
has the type of `operand`, which is `IntLit` when it is not `FloatLit`. -/
def unary_result (F : FloatOps) (line col : Nat) (op : Operator) (operand : ASTNode) : ASTNode :=
  match op with
  | Operator.OP_NEG =>
    if operand.is_float_lit then ASTNode.FloatLit line col (F.neg operand.float_val)
    else ASTNode.IntLit line col (wrap64 (- operand.int_val))
  | Operator.OP_NOT =>
    if operand.is_float_lit then
      ASTNode.IntLit line col (c_bool (F.eq operand.float_val (F.of_int 0)))
    else ASTNode.IntLit line col (c_bool (decide (operand.int_val = 0)))
  | _ => ASTNode.null

/-- The function `eval_unary` after its first statement: `operand` is the result of
`eval_constant` on the operand of the `Unary` node. -/
def eval_unary (F : FloatOps) (line col : Nat) (op : Operator) (operand : ASTNode) : ASTNode :=
  if operand.is_null then ASTNode.null else unary_result F line col op operand

/-- The flag `cond_true` that `eval_ternary` and `optimize_const_fold` compute from the
evaluated condition. -/
def cond_true (F : FloatOps) (cond : ASTNode) : Bool :=
  if cond.is_float_lit then !F.eq cond.float_val (F.of_int 0) else decide (cond.int_val ≠ 0)

/-- The function `eval_constant`, with the calls of `eval_binary`, `eval_unary` and
`eval_ternary` on the node itself unfolded up to their recursive calls, which are made in
the order of the code: both operands of a `Binary` node before the test for `NULL`, the
condition of a `Ternary` node and then the branch taken only. The result
`some ASTNode.null` is the pointer `NULL`; the result `none` is the trap of an integer
division on the way, after which the function does not return. -/
def eval_constant (F : FloatOps) : ASTNode → Option ASTNode
  | ASTNode.IntLit line col v => some (ASTNode.IntLit line col v)
  | ASTNode.FloatLit line col v => some (ASTNode.FloatLit line col v)
  | ASTNode.Binary line col op left right =>
    (eval_constant F left).bind fun l =>
      (eval_constant F right).bind fun r => eval_binary F line col op l r
  | ASTNode.Unary line col op operand =>
    (eval_constant F operand).bind fun x => some (eval_unary F line col op x)
  | ASTNode.Ternary _ _ cond then_branch else_branch =>
    (eval_constant F cond).bind fun c =>
      if c.is_null then some ASTNode.null
      else if cond_true F c then eval_constant F then_branch
      else eval_constant F else_branch
  | _ => some ASTNode.null

/-- The step "then try to fold this node" of the `Binary` and `Unary` cases of
`optimize_const_fold`, on the node whose children are folded already. -/
def try_fold (F : FloatOps) (node : ASTNode) : Option ASTNode :=
  if is_constant_expr node then
    (eval_constant F node).bind fun folded => if folded.is_null then some node else some folded
  else some node

/-- The step "if condition is constant, eliminate the branch" of the `Ternary` case of
`optimize_const_fold`, on the folded children. -/
def fold_ternary (F : FloatOps) (line col : Nat) (cond then_branch else_branch : ASTNode) :
    Option ASTNode :=
  if is_constant_expr cond then
    (eval_constant F cond).bind fun c =>
      if c.is_null then some (ASTNode.Ternary line col cond then_branch else_branch)
      else if cond_true F c then some then_branch
      else some else_branch
  else some (ASTNode.Ternary line col cond then_branch else_branch)

mutual

/-- The function `optimize_const_fold`. The children are folded in the order of the code,
all of them before the node itself is looked at; the result `none` is the trap of an integer
division in `eval_constant`, after which the pass does not return. -/
def optimize_const_fold (F : FloatOps) : ASTNode → Option ASTNode
  | ASTNode.Binary line col op left right =>
    (optimize_const_fold F left).bind fun l =>
      (optimize_const_fold F right).bind fun r => try_fold F (ASTNode.Binary line col op l r)
  | ASTNode.Unary line col op operand =>
    (optimize_const_fold F operand).bind fun x => try_fold F (ASTNode.Unary line col op x)
  | ASTNode.Ternary line col cond then_branch else_branch =>
    (optimize_const_fold F cond).bind fun c =>
      (optimize_const_fold F then_branch).bind fun t =>
        (optimize_const_fold F else_branch).bind fun e => fold_ternary F line col c t e
  | ASTNode.Let line col name ty value =>
    (optimize_const_fold F value).bind fun v => some (ASTNode.Let line col name ty v)
  | ASTNode.For line col var start end_ body parallel =>
    (optimize_const_fold F start).bind fun s =>
      (optimize_const_fold F end_).bind fun e =>
        (optimize_const_fold F body).bind fun b => some (ASTNode.For line col var s e b parallel)
  | ASTNode.Block line col stmts =>
    (optimize_const_fold_each F stmts).bind fun ss => some (ASTNode.Block line col ss)
  | ASTNode.Program line col stmts =>
    (optimize_const_fold_each F stmts).bind fun ss => some (ASTNode.Program line col ss)
  | ASTNode.Builtin line col name elements =>
    (optimize_const_fold_each F elements).bind fun es => some (ASTNode.Builtin line col name es)
  | node => some node

/-- The loops `for (i = 0; i < count; i++) stmts[i] = optimize_const_fold(stmts[i]);`. -/
def optimize_const_fold_each (F : FloatOps) : List ASTNode → Option (List ASTNode)
  | [] => some []
  | node :: rest =>
    (optimize_const_fold F node).bind fun n =>
      (optimize_const_fold_each F rest).bind fun ns => some (n :: ns)

end

/-- The function `optimize`; `none` where its pass does not return. -/
def optimize (F : FloatOps) (ast : ASTNode) : Option ASTNode :=
  if ast.is_null then some ASTNode.null else optimize_const_fold F ast

/-! ## codegen.h, codegen.c

The LLVM library is outside the repository. The embedding keeps what `codegen.c` asks of it:
an IR type is a value of `LLVMType`, an `LLVMValueRef` is a value of `LLVMValue` or `none`
for `NULL`, and every `LLVMBuild...` call appends one instruction to the basic block at
the position of the builder and returns the result of that instruction. Value names are
left out. -/

/-- The IR types that `codegen.c` creates in its context. -/
inductive LLVMType where
  | void
  | int (bits : Nat)
  | float
  | double
  | pointer
deriving DecidableEq, Repr

/-- The result of `LLVMFunctionType`: return type, parameter types, variadic flag. -/
structure FunctionType where
  ret : LLVMType
  params : List LLVMType
  var_arg : Bool
deriving DecidableEq, Repr

/-- The values of `LLVMTypeKind` that `codegen.c` tests for. -/
inductive LLVMTypeKind where
  | LLVMVoidTypeKind | LLVMFloatTypeKind | LLVMDoubleTypeKind | LLVMIntegerTypeKind
  | LLVMPointerTypeKind
deriving DecidableEq, Repr

open LLVMTypeKind

def LLVMGetTypeKind : LLVMType → LLVMTypeKind
  | LLVMType.void => LLVMVoidTypeKind
  | LLVMType.int _ => LLVMIntegerTypeKind
  | LLVMType.float => LLVMFloatTypeKind
  | LLVMType.double => LLVMDoubleTypeKind
  | LLVMType.pointer => LLVMPointerTypeKind

def LLVMGetIntTypeWidth : LLVMType → Nat
  | LLVMType.int bits => bits
  | _ => 0

/-- An IR value: a constant of `LLVMConstInt` or `LLVMConstReal`, the pointer to a global
string of `LLVMBuildGlobalStringPtr`, a function of the module, or the result of the
instruction with the number `id`. -/
inductive LLVMValue where
  | const_int (ty : LLVMType) (n : Int)
  | const_real (d : Double)
  | global_string (text : List Nat)
  | function (name : String) (ty : FunctionType)
  | inst (id : Nat) (ty : LLVMType)
deriving DecidableEq, Repr

/-- An `LLVMValueRef`; `none` is `NULL`. -/
abbrev LLVMValueRef := Option LLVMValue

def LLVMTypeOf : LLVMValue → LLVMType
  | LLVMValue.const_int ty _ => ty
  | LLVMValue.const_real _ => LLVMType.double
  | LLVMValue.global_string _ => LLVMType.pointer
  | LLVMValue.function _ _ => LLVMType.pointer
  | LLVMValue.inst _ ty => ty

/-- The two-operand instructions that `codegen.c` builds. -/
inductive Opcode where
  | Add | Sub | Mul | SDiv | SRem | FAdd | FSub | FMul | FDiv | FRem
  | And | Or | Xor | Shl | AShr
deriving DecidableEq, Repr

/-- The conversions that `codegen.c` builds. -/
inductive CastOp where
  | ZExt | SExt | Trunc | SIToFP | FPToSI | FPExt | FPCast
deriving DecidableEq, Repr

inductive LLVMIntPredicate where
  | LLVMIntEQ | LLVMIntNE | LLVMIntSLT | LLVMIntSGT | LLVMIntSLE | LLVMIntSGE
deriving DecidableEq, Repr

inductive LLVMRealPredicate where
  | LLVMRealOEQ | LLVMRealONE | LLVMRealOLT | LLVMRealOGT | LLVMRealOLE | LLVMRealOGE
deriving DecidableEq, Repr

open LLVMIntPredicate LLVMRealPredicate

/-- An instruction in a basic block. `id` numbers the result; a basic block is named by
its index in the function; `loop_md` says whether `llvm.loop` metadata hangs on a
conditional branch. -/
inductive Instruction where
  | binop (id : Nat) (op : Opcode) (lhs rhs : LLVMValue)
  | neg (id : Nat) (v : LLVMValue)
  | fneg (id : Nat) (v : LLVMValue)
  | icmp (id : Nat) (pred : LLVMIntPredicate) (lhs rhs : LLVMValue)
  | fcmp (id : Nat) (pred : LLVMRealPredicate) (lhs rhs : LLVMValue)
  | cast (id : Nat) (op : CastOp) (v : LLVMValue) (dest : LLVMType)
  | select (id : Nat) (cond then_val else_val : LLVMValue)
  | alloca (id : Nat) (ty : LLVMType)
  | store (v ptr : LLVMValue)
  | load (id : Nat) (ty : LLVMType) (ptr : LLVMValue)
  | call (id : Nat) (fn : LLVMValue) (args : List LLVMValue)
  | br (dest : Nat)
  | cond_br (cond : LLVMValue) (then_bb else_bb : Nat) (loop_md : Bool)
  | ret (v : LLVMValue)
deriving DecidableEq, Repr

structure BasicBlock where
  name : String
  instrs : List Instruction
deriving DecidableEq, Repr

/-- The struct `Symbol`; the list of a scope is the chain of `next` pointers. -/
structure Symbol where
  name : List Nat
  value : LLVMValueRef
  type : Option LLVMType
deriving DecidableEq, Repr

/-- The struct `Scope`. A `Scope *` is an index into the list of the scopes allocated so
far, `none` the null pointer. -/
structure Scope where
  symbols : List Symbol
  parent : Option Nat
deriving DecidableEq, Repr

/-- The struct `CodeGen` with what hangs on its pointers: the functions of the module in
the order of their creation, the global strings, the basic blocks of the function under
construction, the block the builder is positioned at, the number of the next instruction
result, and the scopes allocated so far. -/
structure CodeGen where
  functions : List (String × FunctionType)
  globals : List (List Nat)
  blocks : List BasicBlock
  position : Nat
  next_id : Nat
  scopes : List Scope
  current_scope : Option Nat
  opt_level : Int
deriving DecidableEq, Repr

/-! ### Scope management -/

/-- The function `scope_new`: the new scope and the heap with it. -/
def scope_new (scopes : List Scope) (parent : Option Nat) : Nat × List Scope :=
  (scopes.length, scopes ++ [{ symbols := [], parent := parent }])

/-- The assignment to the scope at address `s`. -/
def update_scope : List Scope → Nat → (Scope → Scope) → List Scope
  | [], _, _ => []
  | sc :: rest, 0, f => f sc :: rest
  | sc :: rest, s + 1, f => sc :: update_scope rest s f

def scope_define (scopes : List Scope) (s : Nat) (name : List Nat) (value : LLVMValueRef)
    (type : Option LLVMType) : List Scope :=
  update_scope scopes s
    (fun sc => { sc with symbols := { name := name, value := value, type := type } :: sc.symbols })

/-- The inner loop of `scope_lookup`: the first symbol of the list with the name. -/
def find_symbol : List Symbol → List Nat → Option Symbol
  | [], _ => none
  | sym :: rest, name => if sym.name = name then some sym else find_symbol rest name

/-- The function `scope_lookup`; one unit of fuel per scope of the chain, `none` when the
fuel is used up before the chain ends, `some none` for the result `NULL`. -/
def scope_lookup (scopes : List Scope) : Nat → Option Nat → List Nat → Option LLVMValueRef
  | 0, _, _ => none
  | _ + 1, none, _ => some none
  | fuel + 1, some s, name =>
    match scopes.get? s with
    | none => none
    | some scope =>
      match find_symbol scope.symbols name with
      | some sym => some sym.value
      | none => scope_lookup scopes fuel scope.parent name

/-- The function `scope_lookup_type`, the same loops as `scope_lookup`. -/
def scope_lookup_type (scopes : List Scope) : Nat → Option Nat → List Nat →
    Option (Option LLVMType)
  | 0, _, _ => none
  | _ + 1, none, _ => some none
  | fuel + 1, some s, name =>
    match scopes.get? s with
    | none => none
    | some scope =>
      match find_symbol scope.symbols name with
      | some sym => some sym.type
      | none => scope_lookup_type scopes fuel scope.parent name

/-- The call `scope_lookup(cg->current_scope, name)`: a chain has at most as many scopes
as are allocated, parents being allocated before their children. -/
def CodeGen.lookup (cg : CodeGen) (name : List Nat) : LLVMValueRef :=
  (scope_lookup cg.scopes (cg.scopes.length + 1) cg.current_scope name).getD none

/-- The call `scope_lookup_type(cg->current_scope, name)`. -/
def CodeGen.lookup_type (cg : CodeGen) (name : List Nat) : Option LLVMType :=
  (scope_lookup_type cg.scopes (cg.scopes.length + 1) cg.current_scope name).getD none

/-! ### Type mapping -/

def AstType.kind : AstType → TypeKind
  | AstType.mk kind _ _ _ _ => kind

def get_llvm_type (t : Option AstType) : LLVMType :=
  match t with
  | none => LLVMType.int 64
  | some t =>
    match t.kind with
    | TypeKind.TYPE_VOID => LLVMType.void
    | TypeKind.TYPE_I8 => LLVMType.int 8
    | TypeKind.TYPE_I16 => LLVMType.int 16
    | TypeKind.TYPE_I32 => LLVMType.int 32
    | TypeKind.TYPE_I64 => LLVMType.int 64
    | TypeKind.TYPE_U8 => LLVMType.int 8
    | TypeKind.TYPE_U16 => LLVMType.int 16
    | TypeKind.TYPE_U32 => LLVMType.int 32
    | TypeKind.TYPE_U64 => LLVMType.int 64
    | TypeKind.TYPE_F32 => LLVMType.float
    | TypeKind.TYPE_F64 => LLVMType.double
    | TypeKind.TYPE_STR => LLVMType.pointer
    | TypeKind.TYPE_PTR => LLVMType.pointer
    | _ => LLVMType.int 64

/-! ### The builder -/

/-- Appending an instruction to the block with the index `pos`. -/
def append_instr : List BasicBlock → Nat → Instruction → List BasicBlock
  | [], _, _ => []
  | b :: rest, 0, i => { b with instrs := b.instrs ++ [i] } :: rest
  | b :: rest, pos + 1, i => b :: append_instr rest pos i

/-- A builder call without a result: `LLVMBuildStore`, `LLVMBuildBr`, `LLVMBuildCondBr`,
`LLVMBuildRet`. -/
def CodeGen.emit (cg : CodeGen) (i : Instruction) : CodeGen :=
  { cg with blocks := append_instr cg.blocks cg.position i }

/-- A builder call with a result of the type `ty`: the instruction gets the next number. -/
def CodeGen.build (cg : CodeGen) (mk : Nat → Instruction) (ty : LLVMType) : LLVMValue × CodeGen :=
  (LLVMValue.inst cg.next_id ty,
    { cg with blocks := append_instr cg.blocks cg.position (mk cg.next_id),
              next_id := cg.next_id + 1 })

/-- The call `LLVMBuildGlobalStringPtr`: a global of the module and the pointer to it. -/
def CodeGen.global_string (cg : CodeGen) (text : List Nat) : LLVMValue × CodeGen :=
  (LLVMValue.global_string text, { cg with globals := cg.globals ++ [text] })

/-- The call `LLVMAppendBasicBlockInContext`: the index of the new block. -/
def CodeGen.append_block (cg : CodeGen) (name : String) : Nat × CodeGen :=
  (cg.blocks.length, { cg with blocks := cg.blocks ++ [{ name := name, instrs := [] }] })

/-- The test `kind == LLVMFloatTypeKind || kind == LLVMDoubleTypeKind`. -/
def is_float_kind (kind : LLVMTypeKind) : Bool :=
  decide (kind = LLVMFloatTypeKind) || decide (kind = LLVMDoubleTypeKind)

/-! ### Builtin functions -/

/-- The type `i32 (ptr, ...)` of `printf`. -/
def printf_type : FunctionType :=
  { ret := LLVMType.int 32, params := [LLVMType.pointer], var_arg := true }

/-- The call `LLVMGetNamedFunction`. -/
def get_named_function (functions : List (String × FunctionType)) (name : String) :
    Option (String × FunctionType) :=
  functions.find? (fun f => f.1 == name)

def get_printf (cg : CodeGen) : LLVMValue × CodeGen :=
  match get_named_function cg.functions "printf" with
  | some f => (LLVMValue.function f.1 f.2, cg)
  | none =>
    (LLVMValue.function "printf" printf_type,
      { cg with functions := cg.functions ++ [("printf", printf_type)] })

/-- The format string `"%f\n"`. -/
def fmt_float : List Nat := [37, 102, 10]

/-- The format string `"%s\n"`. -/
def fmt_str : List Nat := [37, 115, 10]

/-- The format string `"%lld\n"`. -/
def fmt_int : List Nat := [37, 108, 108, 100, 10]

/-- The name `"print"`. -/
def print_name : List Nat := [112, 114, 105, 110, 116]

/-- The call `LLVMBuildCall2` on `printf` with the format string and the value. -/
def build_printf_call (cg : CodeGen) (printf_fn : LLVMValue) (fmt : List Nat) (val : LLVMValue) :
    LLVMValueRef × CodeGen :=
  let f := cg.global_string fmt
  let c := f.2.build (fun id => Instruction.call id printf_fn [f.1, val]) (LLVMType.int 32)
  (some c.1, c.2)

/-- The part of `codegen_builtin` for `print` after the argument is lowered to `val`. -/
def codegen_print (cg : CodeGen) (printf_fn : LLVMValue) (val : LLVMValueRef) :
    LLVMValueRef × CodeGen :=
  match val with
  | none => (none, cg)
  | some val =>
    let kind := LLVMGetTypeKind (LLVMTypeOf val)
    if kind = LLVMFloatTypeKind then
      let e := cg.build (fun id => Instruction.cast id CastOp.FPExt val LLVMType.double)
        LLVMType.double
      build_printf_call e.2 printf_fn fmt_float e.1
    else if kind = LLVMDoubleTypeKind then build_printf_call cg printf_fn fmt_float val
    else if kind = LLVMPointerTypeKind then build_printf_call cg printf_fn fmt_str val
    else if kind = LLVMIntegerTypeKind then
      if LLVMGetIntTypeWidth (LLVMTypeOf val) < 64 then
        let e := cg.build (fun id => Instruction.cast id CastOp.SExt val (LLVMType.int 64))
          (LLVMType.int 64)
        build_printf_call e.2 printf_fn fmt_int e.1
      else build_printf_call cg printf_fn fmt_int val
    else build_printf_call cg printf_fn fmt_int val

/-! ### Expressions -/

/-- A comparison of `codegen_binary`: `LLVMBuildFCmp` or `LLVMBuildICmp`, then
`LLVMBuildZExt` to `i64`. -/
def build_compare (cg : CodeGen) (is_float : Bool) (fpred : LLVMRealPredicate)
    (ipred : LLVMIntPredicate) (left right : LLVMValue) : LLVMValueRef × CodeGen :=
  let c :=
    if is_float then cg.build (fun id => Instruction.fcmp id fpred left right) (LLVMType.int 1)
    else cg.build (fun id => Instruction.icmp id ipred left right) (LLVMType.int 1)
  let z := c.2.build (fun id => Instruction.cast id CastOp.ZExt c.1 (LLVMType.int 64))
    (LLVMType.int 64)
  (some z.1, z.2)

/-- An arithmetic case of `codegen_binary`: the float form or the integer form. -/
def build_arith (cg : CodeGen) (is_float : Bool) (fop iop : Opcode) (left right : LLVMValue) :
    LLVMValueRef × CodeGen :=
  let r := cg.build (fun id => Instruction.binop id (if is_float then fop else iop) left right)
    (LLVMTypeOf left)
  (some r.1, r.2)

/-- The cases `Operator.OP_AND` and `Operator.OP_OR` of `codegen_binary`: both sides compared with zero,
the two bits combined by `op`, the result extended to `i64`. -/
def build_logical (cg : CodeGen) (op : Opcode) (left right : LLVMValue) : LLVMValueRef × CodeGen :=
  let zero := LLVMValue.const_int (LLVMType.int 64) 0
  let lb := cg.build (fun id => Instruction.icmp id LLVMIntNE left zero) (LLVMType.int 1)
  let rb := lb.2.build (fun id => Instruction.icmp id LLVMIntNE right zero) (LLVMType.int 1)
  let res := rb.2.build (fun id => Instruction.binop id op lb.1 rb.1) (LLVMType.int 1)
  let z := res.2.build (fun id => Instruction.cast id CastOp.ZExt res.1 (LLVMType.int 64))
    (LLVMType.int 64)
  (some z.1, z.2)

/-- The `switch` of `codegen_binary` on the promoted operands. -/
def binary_switch (cg : CodeGen) (is_float : Bool) (op : Operator) (left right : LLVMValue) :
    LLVMValueRef × CodeGen :=
  match op with
  | Operator.OP_ADD => build_arith cg is_float Opcode.FAdd Opcode.Add left right
  | Operator.OP_SUB => build_arith cg is_float Opcode.FSub Opcode.Sub left right
  | Operator.OP_MUL => build_arith cg is_float Opcode.FMul Opcode.Mul left right
  | Operator.OP_DIV => build_arith cg is_float Opcode.FDiv Opcode.SDiv left right
  | Operator.OP_MOD => build_arith cg is_float Opcode.FRem Opcode.SRem left right
  | Operator.OP_EQ => build_compare cg is_float LLVMRealOEQ LLVMIntEQ left right
  | Operator.OP_NEQ => build_compare cg is_float LLVMRealONE LLVMIntNE left right
  | Operator.OP_LT => build_compare cg is_float LLVMRealOLT LLVMIntSLT left right
  | Operator.OP_GT => build_compare cg is_float LLVMRealOGT LLVMIntSGT left right
  | Operator.OP_LTE => build_compare cg is_float LLVMRealOLE LLVMIntSLE left right
  | Operator.OP_GTE => build_compare cg is_float LLVMRealOGE LLVMIntSGE left right
  | Operator.OP_BITAND => build_arith cg false Opcode.And Opcode.And left right
  | Operator.OP_BITOR => build_arith cg false Opcode.Or Opcode.Or left right
  | Operator.OP_BITXOR => build_arith cg false Opcode.Xor Opcode.Xor left right
  | Operator.OP_SHL => build_arith cg false Opcode.Shl Opcode.Shl left right
  | Operator.OP_SHR => build_arith cg false Opcode.AShr Opcode.AShr left right
  | Operator.OP_AND => build_logical cg Opcode.And left right
  | Operator.OP_OR => build_logical cg Opcode.Or left right
  | _ => (none, cg)

/-- The function `codegen_binary` after its first two statements: `left` and `right` are
the results of `codegen_expr` on the children. -/
def codegen_binary (cg : CodeGen) (op : Operator) (left right : LLVMValueRef) :
    LLVMValueRef × CodeGen :=
  match left, right with
  | some left, some right =>
    let left_is_float := is_float_kind (LLVMGetTypeKind (LLVMTypeOf left))
    let right_is_float := is_float_kind (LLVMGetTypeKind (LLVMTypeOf right))
    let is_float := left_is_float || right_is_float
    let l :=
      if is_float && !left_is_float then
        cg.build (fun id => Instruction.cast id CastOp.SIToFP left LLVMType.double) LLVMType.double
      else (left, cg)
    let r :=
      if is_float && !right_is_float then
        l.2.build (fun id => Instruction.cast id CastOp.SIToFP right LLVMType.double)
          LLVMType.double
      else (right, l.2)
    binary_switch r.2 is_float op l.1 r.1
  | _, _ => (none, cg)

/-- The function `codegen_unary` after its first statement: `operand` is the result of
`codegen_expr` on the operand. -/
def codegen_unary (cg : CodeGen) (op : Operator) (operand : LLVMValueRef) : LLVMValueRef × CodeGen :=
  match operand with
  | none => (none, cg)
  | some operand =>
    let is_float := is_float_kind (LLVMGetTypeKind (LLVMTypeOf operand))
    match op with
    | Operator.OP_NEG =>
      let r :=
        if is_float then cg.build (fun id => Instruction.fneg id operand) (LLVMTypeOf operand)
        else cg.build (fun id => Instruction.neg id operand) (LLVMTypeOf operand)
      (some r.1, r.2)
    | Operator.OP_NOT =>
      let c := cg.build
        (fun id => Instruction.icmp id LLVMIntEQ operand (LLVMValue.const_int (LLVMType.int 64) 0))
        (LLVMType.int 1)
      let z := c.2.build (fun id => Instruction.cast id CastOp.ZExt c.1 (LLVMType.int 64))
        (LLVMType.int 64)
      (some z.1, z.2)
    | _ => (none, cg)

/-- The case `NODE_IDENT` of `codegen_expr`. -/
def codegen_ident (cg : CodeGen) (name : List Nat) : LLVMValueRef × CodeGen :=
  match cg.lookup name with
  | none => (none, cg)
  | some val =>
    match cg.lookup_type name with
    | some type =>
      if LLVMGetTypeKind (LLVMTypeOf val) = LLVMPointerTypeKind then
        let r := cg.build (fun id => Instruction.load id type val) type
        (some r.1, r.2)
      else (some val, cg)
    | none => (some val, cg)

/-- The function `codegen_expr`, with `codegen_binary`, `codegen_unary`, `codegen_ternary`
and `codegen_builtin` unfolded up to their recursive calls. -/
def codegen_expr : CodeGen → ASTNode → LLVMValueRef × CodeGen
  | cg, ASTNode.IntLit _ _ v => (some (LLVMValue.const_int (LLVMType.int 64) v), cg)
  | cg, ASTNode.FloatLit _ _ v => (some (LLVMValue.const_real v), cg)
  | cg, ASTNode.StringLit _ _ value _ =>
    let g := cg.global_string value
    (some g.1, g.2)
  | cg, ASTNode.Ident _ _ name _ => codegen_ident cg name
  | cg, ASTNode.Binary _ _ op left right =>
    let l := codegen_expr cg left
    let r := codegen_expr l.2 right
    codegen_binary r.2 op l.1 r.1
  | cg, ASTNode.Unary _ _ op operand =>
    let o := codegen_expr cg operand
    codegen_unary o.2 op o.1
  | cg, ASTNode.Ternary _ _ cond then_branch else_branch =>
    let c := codegen_expr cg cond
    match c.1 with
    | none => (none, c.2)
    | some cond_val =>
      let cond_bool := c.2.build
        (fun id => Instruction.icmp id LLVMIntNE cond_val (LLVMValue.const_int (LLVMType.int 64) 0))
        (LLVMType.int 1)
      let t := codegen_expr cond_bool.2 then_branch
      let e := codegen_expr t.2 else_branch
      match t.1, e.1 with
      | some then_val, some else_val =>
        let s := e.2.build (fun id => Instruction.select id cond_bool.1 then_val else_val)
          (LLVMTypeOf then_val)
        (some s.1, s.2)
      | _, _ => (none, e.2)
  | cg, ASTNode.Builtin _ _ name [] =>
    if name = print_name then (none, (get_printf cg).2) else (none, cg)
  | cg, ASTNode.Builtin _ _ name (element :: _) =>
    if name = print_name then
      let p := get_printf cg
      let v := codegen_expr p.2 element
      codegen_print v.2 p.1 v.1
    else (none, cg)
  | cg, _ => (none, cg)

/-! ### Statements -/

/-- The conversion of the value `init` of a `let` to the annotated type `type`. -/
def coerce_init (cg : CodeGen) (init : LLVMValue) (type : LLVMType) : LLVMValue × CodeGen :=
  let init_type := LLVMTypeOf init
  let init_kind := LLVMGetTypeKind init_type
  let target_kind := LLVMGetTypeKind type
  let init_is_float := is_float_kind init_kind
  let target_is_float := is_float_kind target_kind
  if init_is_float && !target_is_float then
    cg.build (fun id => Instruction.cast id CastOp.FPToSI init type) type
  else if !init_is_float && target_is_float then
    cg.build (fun id => Instruction.cast id CastOp.SIToFP init type) type
  else if init_is_float && target_is_float && decide (init_type ≠ type) then
    cg.build (fun id => Instruction.cast id CastOp.FPCast init type) type
  else if init_kind = LLVMIntegerTypeKind ∧ target_kind = LLVMIntegerTypeKind then
    if LLVMGetIntTypeWidth init_type > LLVMGetIntTypeWidth type then
      cg.build (fun id => Instruction.cast id CastOp.Trunc init type) type
    else if LLVMGetIntTypeWidth init_type < LLVMGetIntTypeWidth type then
      cg.build (fun id => Instruction.cast id CastOp.SExt init type) type
    else (init, cg)
  else (init, cg)

/-- The function `codegen_let` after its first statement: `init` is the result of
`codegen_expr` on the value of the `Let`. -/
def codegen_let (cg : CodeGen) (name : List Nat) (ann : Option AstType) (init : LLVMValueRef) :
    CodeGen :=
  match init with
  | none => cg
  | some init =>
    let c : LLVMType × LLVMValue × CodeGen :=
      match ann with
      | some t => (get_llvm_type (some t), coerce_init cg init (get_llvm_type (some t)))
      | none => (LLVMTypeOf init, init, cg)
    let a := c.2.2.build (fun id => Instruction.alloca id c.1) LLVMType.pointer
    let s := a.2.emit (Instruction.store c.2.1 a.1)
    match s.current_scope with
    | some scope => { s with scopes := scope_define s.scopes scope name (some a.1) (some c.1) }
    | none => s

/-- The state of `codegen_for` at the start of the loop body. -/
structure ForLoop where
  cg : CodeGen
  loop_var : LLVMValue
  loop_bb : Nat
  after_bb : Nat
  prev_scope : Option Nat

/-- The function `codegen_for` from the store of `start` to the start of the body: the
blocks `loop`, `body` and `after`, the test of the loop, and the scope of the body. -/
def for_header (cg : CodeGen) (var : List Nat) (start end_ : LLVMValue) (parallel : Nat) : ForLoop :=
  let a := cg.build (fun id => Instruction.alloca id (LLVMType.int 64)) LLVMType.pointer
  let s := a.2.emit (Instruction.store start a.1)
  let loop_bb := s.append_block "loop"
  let body_bb := loop_bb.2.append_block "body"
  let after_bb := body_bb.2.append_block "after"
  let b := after_bb.2.emit (Instruction.br loop_bb.1)
  let at_loop := { b with position := loop_bb.1 }
  let cur := at_loop.build (fun id => Instruction.load id (LLVMType.int 64) a.1) (LLVMType.int 64)
  let cond := cur.2.build (fun id => Instruction.icmp id LLVMIntSLT cur.1 end_) (LLVMType.int 1)
  let br := cond.2.emit (Instruction.cond_br cond.1 body_bb.1 after_bb.1 (decide (parallel ≠ 0)))
  let at_body := { br with position := body_bb.1 }
  let loop_scope := scope_new at_body.scopes at_body.current_scope
  { cg := { at_body with
      scopes := scope_define loop_scope.2 loop_scope.1 var (some a.1) (some (LLVMType.int 64)),
      current_scope := some loop_scope.1 },
    loop_var := a.1, loop_bb := loop_bb.1, after_bb := after_bb.1,
    prev_scope := at_body.current_scope }

/-- The function `codegen_for` after the body: the scope restored, the increment, the
branch back, and the builder positioned at `after`. The freed scope stays in the list. -/
def for_footer (h : ForLoop) (cg : CodeGen) : CodeGen :=
  let restored := { cg with current_scope := h.prev_scope }
  let cur_val := restored.build (fun id => Instruction.load id (LLVMType.int 64) h.loop_var)
    (LLVMType.int 64)
  let next := cur_val.2.build
    (fun id => Instruction.binop id Opcode.Add cur_val.1 (LLVMValue.const_int (LLVMType.int 64) 1))
    (LLVMType.int 64)
  let s := next.2.emit (Instruction.store next.1 h.loop_var)
  let b := s.emit (Instruction.br h.loop_bb)
  { b with position := h.after_bb }

mutual

/-- The function `codegen_stmt` with `codegen_let`, `codegen_for` and `codegen_block`
unfolded up to their recursive calls. The body of a `For` is read through the member
`block` of the union: the statements of a `Block` or `Program` node; no statement for
the null pointer, and none in the embedding for a node of another kind. -/
def codegen_stmt : CodeGen → ASTNode → CodeGen
  | cg, ASTNode.null => cg
  | cg, ASTNode.Let _ _ name ann value =>
    let v := codegen_expr cg value
    codegen_let v.2 name ann v.1
  | cg, ASTNode.For _ _ var start end_ body parallel =>
    let s := codegen_expr cg start
    let e := codegen_expr s.2 end_
    match s.1, e.1 with
    | some start_val, some end_val =>
      let h := for_header e.2 var start_val end_val parallel
      for_footer h (codegen_for_body h.cg body)
    | _, _ => e.2
  | cg, ASTNode.Block _ _ stmts =>
    let block_scope := scope_new cg.scopes cg.current_scope
    let inner := codegen_stmts
      { cg with scopes := block_scope.2, current_scope := some block_scope.1 } stmts
    { inner with current_scope := cg.current_scope }
  | cg, node => (codegen_expr cg node).2

/-- The loop over the statements of the body of a `For`. -/
def codegen_for_body : CodeGen → ASTNode → CodeGen
  | cg, ASTNode.Block _ _ stmts => codegen_stmts cg stmts
  | cg, ASTNode.Program _ _ stmts => codegen_stmts cg stmts
  | cg, _ => cg

/-- The loops `for (i = 0; i < count; i++) codegen_stmt(cg, stmts[i]);`. -/
def codegen_stmts : CodeGen → List ASTNode → CodeGen
  | cg, [] => cg
  | cg, node :: rest => codegen_stmts (codegen_stmt cg node) rest

end

/-! ### Public API -/

/-- The state after `codegen_init`: an empty module and the global scope. The target
triple and the target machine are left out. -/
def codegen_init (opt_level : Int) : CodeGen :=
  { functions := [], globals := [], blocks := [], position := 0, next_id := 0,
    scopes := (scope_new [] none).2, current_scope := some (scope_new [] none).1,
    opt_level := opt_level }

/-- The type `i32 ()` of `main`. -/
def main_type : FunctionType := { ret := LLVMType.int 32, params := [], var_arg := false }

/-- The function `codegen_emit` up to the verification of the module: the function
`main`, its block `entry`, the statements of the program, and `ret i32 0`. The passes of
LLVM that follow when `opt_level > 0` are outside the embedding. -/
def codegen_emit (cg : CodeGen) (ast : ASTNode) : CodeGen :=
  let with_main := { cg with functions := cg.functions ++ [("main", main_type)] }
  let entry := with_main.append_block "entry"
  let at_entry := { entry.2 with position := entry.1 }
  let lowered :=
    match ast with
    | ASTNode.Program _ _ stmts => codegen_stmts at_entry stmts
    | _ => at_entry
  lowered.emit (Instruction.ret (LLVMValue.const_int (LLVMType.int 32) 0))

/-! ## Auxiliary definitions for the statements -/

/-- The relation between a lexer state and a later one: same buffer, cursor no further from the end. -/
def Later (l l' : Lexer) : Prop := l'.source = l.source ∧ remaining l' ≤ remaining l

/-- A token type that ends the loop of `lexer_tokenize`. -/
def TokenType.final (t : TokenType) : Prop := t = TOK_EOF ∨ t = TOK_ERROR

instance (t : TokenType) : Decidable t.final := by unfold TokenType.final; infer_instance

/-- The lexer states at which `lexer_tokenize` started from `l0` calls `scan_token`:
`l0` itself, and the state after every call that returned neither `EOF` nor `ERROR`. -/
inductive Reach (l0 : Lexer) : Lexer → Prop
  | init : Reach l0 l0
  | step {l : Lexer} : Reach l0 l → ¬ (scan_token l).1.type.final → Reach l0 (scan_token l).2

/-- The bytes from the cursor to the end of the buffer. -/
def view (l : Lexer) : List Nat := l.source.drop l.current

/-- The token kinds `identifier_type` can return. -/
def word_type (t : TokenType) : Bool :=
  match t with
  | TOK_IDENT | TOK_LET | TOK_FOR | TOK_IN | TOK_ASYNC | TOK_AWAIT | TOK_GPU | TOK_KERNEL
  | TOK_TYPE_I8 | TOK_TYPE_I16 | TOK_TYPE_I32 | TOK_TYPE_I64
  | TOK_TYPE_U8 | TOK_TYPE_U16 | TOK_TYPE_U32 | TOK_TYPE_U64
  | TOK_TYPE_F32 | TOK_TYPE_F64 | TOK_TYPE_STR | TOK_TYPE_PTR | TOK_TYPE_VOID => true
  | _ => false

/-- The bytes that can begin a token, after section 4.1 of the specification: letters,
the underscore, digits, the double quote, and the first bytes of the operators and
delimiters `( ) { } [ ] ; , @ \ ? : + * / % ^ - . = ! < > & |`. -/
def starts_token (c : Nat) : Bool :=
  isalpha c || c == 95 || isdigit c || c == 34 ||
  [40, 41, 123, 125, 91, 93, 59, 44, 64, 92, 63, 58, 43, 42, 47, 37, 94,
    45, 46, 61, 33, 60, 62, 38, 124].contains c

/-- Whether the bytes after an opening double quote hold a closing quote before the end
of the input, a backslash taking the byte after it with it. -/
def string_closes : List Nat → Bool
  | [] => false
  | [b] => b == 34
  | b :: x :: rest =>
    if b = 34 then true
    else if b = 0 then false
    else if b = 92 then (if x = 0 then false else string_closes rest)
    else string_closes (x :: rest)

/-- The three ways a token start fails to lex, on the state at the first byte of the
token: a byte that begins no token, a point not followed by a point, and a double
quote whose string does not close. -/
def ErrorSite (s : Lexer) : Prop :=
  peek s ≠ 0 ∧
    (starts_token (peek s) = false ∨
     (peek s = 46 ∧ byteAt s.source (s.current + 1) ≠ 46) ∨
     (peek s = 34 ∧ string_closes (s.source.drop (s.current + 1)) = false))

/-- The bytes of an identifier after the first: `isalnum(c) || c == '_'`. -/
def is_word_char (c : Nat) : Bool := isalnum c || c == 95

/-- The keywords of section 4.1 of the specification with their token kinds. -/
def keyword_table : List (List Nat × TokenType) :=
  [ ([105, 56], TOK_TYPE_I8), ([105, 49, 54], TOK_TYPE_I16), ([105, 51, 50], TOK_TYPE_I32),
    ([105, 54, 52], TOK_TYPE_I64), ([117, 56], TOK_TYPE_U8), ([117, 49, 54], TOK_TYPE_U16),
    ([117, 51, 50], TOK_TYPE_U32), ([117, 54, 52], TOK_TYPE_U64),
    ([102, 51, 50], TOK_TYPE_F32), ([102, 54, 52], TOK_TYPE_F64),
    ([115, 116, 114], TOK_TYPE_STR), ([112, 116, 114], TOK_TYPE_PTR),
    ([118, 111, 105, 100], TOK_TYPE_VOID),
    ([108, 101, 116], TOK_LET), ([102, 111, 114], TOK_FOR), ([105, 110], TOK_IN),
    ([97, 115, 121, 110, 99], TOK_ASYNC), ([97, 119, 97, 105, 116], TOK_AWAIT),
    ([103, 112, 117], TOK_GPU), ([107, 101, 114, 110, 101, 108], TOK_KERNEL) ]

/-- The two-character operators of section 4.1: first byte, second byte, token kind. -/
def two_char_ops : List (Nat × Nat × TokenType) :=
  [ (61, 61, TOK_EQEQ), (33, 61, TOK_NEQ), (60, 61, TOK_LTE), (60, 60, TOK_SHL),
    (62, 61, TOK_GTE), (62, 62, TOK_SHR), (38, 38, TOK_AND), (124, 124, TOK_OR),
    (45, 62, TOK_ARROW), (46, 46, TOK_DOTDOT) ]

/-- The one-character operators that are prefixes of two-character ones: the byte, its
token kind, and the second bytes that would extend it. -/
def one_char_ops : List (Nat × TokenType × List Nat) :=
  [ (61, TOK_EQ, [61]), (33, TOK_NOT, [61]), (60, TOK_LT, [60, 61]), (62, TOK_GT, [62, 61]),
    (38, TOK_BITAND, [38]), (124, TOK_BITOR, [124]), (45, TOK_MINUS, [62]) ]

/-- The bytes of a line comment after its two slashes: up to the newline or the end of input. -/
def comment_body (rest : List Nat) : List Nat := rest.takeWhile (fun b => b != 10 && b != 0)

/-- The pattern `[0-9]+`. -/
def digits1 (s : List Nat) : Bool := !s.isEmpty && s.all isdigit

/-- The pattern `[0-9]+ '.' [0-9]+`: some split has digits, a point, digits. -/
def matches_float_point (s : List Nat) : Bool :=
  (List.range (s.length + 1)).any fun i =>
    digits1 (s.take i) && s.getD i 0 == 46 && digits1 (s.drop (i + 1))

/-- The pattern `('e'|'E') ('+'|'-')? [0-9]+`. -/
def matches_exponent (s : List Nat) : Bool :=
  (s.headD 0 == 101 || s.headD 0 == 69) &&
    (digits1 s.tail ||
      ((s.tail.headD 0 == 43 || s.tail.headD 0 == 45) && digits1 s.tail.tail))

/-- The pattern `[0-9]+ ('e'|'E') ('+'|'-')? [0-9]+`. -/
def matches_float_exp (s : List Nat) : Bool :=
  (List.range (s.length + 1)).any fun i => digits1 (s.take i) && matches_exponent (s.drop i)

/-- The pattern `[0-9]+ '.' [0-9]+ ('e'|'E') ('+'|'-')? [0-9]+`. -/
def matches_float_point_exp (s : List Nat) : Bool :=
  (List.range (s.length + 1)).any fun i =>
    matches_float_point (s.take i) && matches_exponent (s.drop i)

/-- The state `l'` is the state `l` after the bytes `run` were consumed. -/
def Consumes (l l' : Lexer) (run : List Nat) : Prop :=
  l'.source = l.source ∧ l'.start = l.start ∧ l'.current = l.current + run.length ∧
    view l = run ++ view l'

/-- The shape of a fraction consumed by `number`: nothing, or a point and digits. -/
def FracShape (F : List Nat) : Prop := F = [] ∨ ∃ d2, F = 46 :: d2 ∧ digits1 d2 = true

/-- The shape of an exponent consumed by `number`: nothing, or `e`/`E`, an optional sign and
a run of digits that may be empty. -/
def ExpShape (E : List Nat) : Prop :=
  E = [] ∨ ∃ ech sg d3, E = ech :: (sg ++ d3) ∧ (ech = 101 ∨ ech = 69) ∧
    (sg = [] ∨ sg = [43] ∨ sg = [45]) ∧ d3.all isdigit = true

/-! ## lexer.c: `token_type_str` -/

/-- The array `names` of `token_type_str`, in the order of its initializer. -/
def token_names : List String :=
  [ "INT", "FLOAT", "STRING", "IDENT",
    "LET", "FOR", "IN", "ASYNC", "AWAIT", "GPU", "KERNEL",
    "PLUS", "MINUS", "STAR", "SLASH", "PERCENT",
    "EQ", "EQEQ", "NEQ", "LT", "GT", "LTE", "GTE",
    "AND", "OR", "NOT", "BITAND", "BITOR", "BITXOR", "SHL", "SHR",
    "BACKSLASH", "ARROW", "QUESTION", "COLON", "DOTDOT",
    "LPAREN", "RPAREN", "LBRACE", "RBRACE", "LBRACKET", "RBRACKET",
    "SEMICOLON", "COMMA", "AT",
    "EOF", "ERROR" ]

/-- The value of an enumerator of `TokenType` as an integer: its position in the
enumeration of `lexer.h`, from `TOK_INT = 0` on. -/
def TokenType.index : TokenType → Nat
  | TOK_INT => 0 | TOK_FLOAT => 1 | TOK_STRING => 2 | TOK_IDENT => 3
  | TOK_LET => 4 | TOK_FOR => 5 | TOK_IN => 6 | TOK_ASYNC => 7 | TOK_AWAIT => 8
  | TOK_GPU => 9 | TOK_KERNEL => 10 | TOK_PARALLEL => 11
  | TOK_TYPE_I8 => 12 | TOK_TYPE_I16 => 13 | TOK_TYPE_I32 => 14 | TOK_TYPE_I64 => 15
  | TOK_TYPE_U8 => 16 | TOK_TYPE_U16 => 17 | TOK_TYPE_U32 => 18 | TOK_TYPE_U64 => 19
  | TOK_TYPE_F32 => 20 | TOK_TYPE_F64 => 21 | TOK_TYPE_STR => 22 | TOK_TYPE_PTR => 23
  | TOK_TYPE_VOID => 24
  | TOK_PLUS => 25 | TOK_MINUS => 26 | TOK_STAR => 27 | TOK_SLASH => 28 | TOK_PERCENT => 29
  | TOK_EQ => 30 | TOK_EQEQ => 31 | TOK_NEQ => 32 | TOK_LT => 33 | TOK_GT => 34
  | TOK_LTE => 35 | TOK_GTE => 36
  | TOK_AND => 37 | TOK_OR => 38 | TOK_NOT => 39 | TOK_BITAND => 40 | TOK_BITOR => 41
  | TOK_BITXOR => 42 | TOK_SHL => 43 | TOK_SHR => 44
  | TOK_BACKSLASH => 45 | TOK_ARROW => 46 | TOK_QUESTION => 47 | TOK_COLON => 48
  | TOK_DOTDOT => 49
  | TOK_LPAREN => 50 | TOK_RPAREN => 51 | TOK_LBRACE => 52 | TOK_RBRACE => 53
  | TOK_LBRACKET => 54 | TOK_RBRACKET => 55 | TOK_SEMICOLON => 56 | TOK_COMMA => 57
  | TOK_AT => 58
  | TOK_EOF => 59 | TOK_ERROR => 60

/-- The function `token_type_str`: the entry `names[t]`. The result is `none` where the
index is past the end of the array, a read that C leaves undefined. -/
def token_type_str (t : TokenType) : Option String := token_names.get? t.index

/-- The name of an enumerator of `TokenType`: the identifier of `lexer.h` without the
leading `TOK_`, which is what the claim about `token_type_str` calls the name of `t`. -/
def TokenType.enumerator : TokenType → String
  | TOK_INT => "INT" | TOK_FLOAT => "FLOAT" | TOK_STRING => "STRING" | TOK_IDENT => "IDENT"
  | TOK_LET => "LET" | TOK_FOR => "FOR" | TOK_IN => "IN" | TOK_ASYNC => "ASYNC"
  | TOK_AWAIT => "AWAIT" | TOK_GPU => "GPU" | TOK_KERNEL => "KERNEL"
  | TOK_PARALLEL => "PARALLEL"
  | TOK_TYPE_I8 => "TYPE_I8" | TOK_TYPE_I16 => "TYPE_I16" | TOK_TYPE_I32 => "TYPE_I32"
  | TOK_TYPE_I64 => "TYPE_I64" | TOK_TYPE_U8 => "TYPE_U8" | TOK_TYPE_U16 => "TYPE_U16"
  | TOK_TYPE_U32 => "TYPE_U32" | TOK_TYPE_U64 => "TYPE_U64" | TOK_TYPE_F32 => "TYPE_F32"
  | TOK_TYPE_F64 => "TYPE_F64" | TOK_TYPE_STR => "TYPE_STR" | TOK_TYPE_PTR => "TYPE_PTR"
  | TOK_TYPE_VOID => "TYPE_VOID"
  | TOK_PLUS => "PLUS" | TOK_MINUS => "MINUS" | TOK_STAR => "STAR" | TOK_SLASH => "SLASH"
  | TOK_PERCENT => "PERCENT"
  | TOK_EQ => "EQ" | TOK_EQEQ => "EQEQ" | TOK_NEQ => "NEQ" | TOK_LT => "LT" | TOK_GT => "GT"
  | TOK_LTE => "LTE" | TOK_GTE => "GTE"
  | TOK_AND => "AND" | TOK_OR => "OR" | TOK_NOT => "NOT" | TOK_BITAND => "BITAND"
  | TOK_BITOR => "BITOR" | TOK_BITXOR => "BITXOR" | TOK_SHL => "SHL" | TOK_SHR => "SHR"
  | TOK_BACKSLASH => "BACKSLASH" | TOK_ARROW => "ARROW" | TOK_QUESTION => "QUESTION"
  | TOK_COLON => "COLON" | TOK_DOTDOT => "DOTDOT"
  | TOK_LPAREN => "LPAREN" | TOK_RPAREN => "RPAREN" | TOK_LBRACE => "LBRACE"
  | TOK_RBRACE => "RBRACE" | TOK_LBRACKET => "LBRACKET" | TOK_RBRACKET => "RBRACKET"
  | TOK_SEMICOLON => "SEMICOLON" | TOK_COMMA => "COMMA" | TOK_AT => "AT"
  | TOK_EOF => "EOF" | TOK_ERROR => "ERROR"

/-! ## Auxiliary definitions: the cursor and the layout of the tokens -/

/-- The state `r` is the state `l` after some bytes were consumed within one token: the
same buffer and token start, the cursor not behind, and not past the end of the buffer
when it was not before. -/
def Ahead (l r : Lexer) : Prop :=
  r.source = l.source ∧ r.start = l.start ∧ l.current ≤ r.current ∧
    (l.current ≤ l.source.length → r.current ≤ l.source.length)

/-- The bytes of the buffer from the offset `a` up to the offset `b`. -/
def bytes_between (src : List Nat) (a b : Nat) : List Nat := (src.drop a).take (b - a)

/-- The white space of the lexer: space, tab, carriage return, line feed. -/
def is_space (b : Nat) : Bool := b == 32 || b == 9 || b == 13 || b == 10

/-- Whether the bytes are white space and `//` line comments only. The flag tells whether
the scan is inside a comment, which runs up to the next line feed. -/
def blank_scan : Bool → List Nat → Bool
  | _, [] => true
  | true, b :: rest => if b = 10 then blank_scan false rest else blank_scan true rest
  | false, b :: rest =>
    if is_space b then blank_scan false rest
    else if b = 47 ∧ rest.headD 0 = 47 then blank_scan true rest
    else false

/-- The layout the claim about token slices describes, for the tokens `toks` from the
offset `pos` on: before each token there are only white space and comments; each token
before the last is not empty, lies inside the source and ends where the layout of the
rest begins; the last token is the empty `EOF` token at the end of the source. -/
def tiles (src : List Nat) : Nat → List Token → Prop
  | _, [] => False
  | pos, [t] =>
    t.type = TOK_EOF ∧ t.length = 0 ∧ t.start = src.length ∧ pos ≤ t.start ∧
      blank_scan false (bytes_between src pos t.start) = true
  | pos, t :: u :: rest =>
    pos ≤ t.start ∧ blank_scan false (bytes_between src pos t.start) = true ∧
      0 < t.length ∧ t.start + t.length ≤ src.length ∧ tiles src (t.start + t.length) (u :: rest)

/-- What one call of the `switch` of `scan_token` gives from the state `l`: a later state
within the token, a token that is not `EOF`, and, unless it is an error token, one whose
slice runs from the start of the token to the cursor. -/
def TokenOf (l : Lexer) (r : Token × Lexer) : Prop :=
  Ahead l r.2 ∧ r.1.type ≠ TOK_EOF ∧
    (r.1.type ≠ TOK_ERROR → r.1.start = l.start ∧ r.1.length = r.2.current - l.start)

/-- The source text `x // c`, a line feed, `+1`. -/
def src_commented : List Nat := [120, 32, 47, 47, 32, 99, 10, 43, 49]

/-- The tokens of `src_commented`. -/
def toks_commented : List Token :=
  [ ⟨TOK_IDENT, 0, 1, 1, 1, TokenValue.unset⟩, ⟨TOK_PLUS, 7, 1, 2, 1, TokenValue.unset⟩,
    ⟨TOK_INT, 8, 1, 2, 2, TokenValue.int_val 1⟩, ⟨TOK_EOF, 9, 0, 2, 3, TokenValue.unset⟩ ]

/-! ## Inputs for the parser -/

/-- The source text `@parallel(1);`. -/
def src_parallel_call : List Nat := [64, 112, 97, 114, 97, 108, 108, 101, 108, 40, 49, 41, 59]

/-- The tokens of `@parallel(1);`. -/
def toks_parallel_call : List Token :=
  [ ⟨TOK_AT, 0, 1, 1, 1, TokenValue.unset⟩, ⟨TOK_IDENT, 1, 8, 1, 2, TokenValue.unset⟩,
    ⟨TOK_LPAREN, 9, 1, 1, 10, TokenValue.unset⟩, ⟨TOK_INT, 10, 1, 1, 11, TokenValue.int_val 1⟩,
    ⟨TOK_RPAREN, 11, 1, 1, 12, TokenValue.unset⟩, ⟨TOK_SEMICOLON, 12, 1, 1, 13, TokenValue.unset⟩,
    ⟨TOK_EOF, 13, 0, 1, 14, TokenValue.unset⟩ ]

/-- The source text `@parallel(1, 2);`. -/
def src_parallel_two : List Nat :=
  [64, 112, 97, 114, 97, 108, 108, 101, 108, 40, 49, 44, 32, 50, 41, 59]

/-- The tokens of `@parallel(1, 2);`. -/
def toks_parallel_two : List Token :=
  [ ⟨TOK_AT, 0, 1, 1, 1, TokenValue.unset⟩, ⟨TOK_IDENT, 1, 8, 1, 2, TokenValue.unset⟩,
    ⟨TOK_LPAREN, 9, 1, 1, 10, TokenValue.unset⟩, ⟨TOK_INT, 10, 1, 1, 11, TokenValue.int_val 1⟩,
    ⟨TOK_COMMA, 11, 1, 1, 12, TokenValue.unset⟩, ⟨TOK_INT, 13, 1, 1, 14, TokenValue.int_val 2⟩,
    ⟨TOK_RPAREN, 14, 1, 1, 15, TokenValue.unset⟩, ⟨TOK_SEMICOLON, 15, 1, 1, 16, TokenValue.unset⟩,
    ⟨TOK_EOF, 16, 0, 1, 17, TokenValue.unset⟩ ]

/-- The parser state of `@parallel(1, 2);` at the comma. -/
def at_comma : Parser := ⟨src_parallel_two, toks_parallel_two, 4⟩

/-- The precedence level of a binary operator token, lowest first, after the ladder of
section 4.2 of the specification. -/
def bin_level : TokenType → Option Nat
  | TOK_OR => some 1
  | TOK_AND => some 2
  | TOK_EQEQ | TOK_NEQ => some 3
  | TOK_LT | TOK_GT | TOK_LTE | TOK_GTE => some 4
  | TOK_PLUS | TOK_MINUS => some 5
  | TOK_STAR | TOK_SLASH | TOK_PERCENT => some 6
  | _ => none

/-- The operator of a binary operator token. -/
def bin_op : TokenType → Operator
  | TOK_OR => Operator.OP_OR
  | TOK_AND => Operator.OP_AND
  | TOK_EQEQ => Operator.OP_EQ
  | TOK_NEQ => Operator.OP_NEQ
  | TOK_LT => Operator.OP_LT
  | TOK_GT => Operator.OP_GT
  | TOK_LTE => Operator.OP_LTE
  | TOK_GTE => Operator.OP_GTE
  | TOK_PLUS => Operator.OP_ADD
  | TOK_MINUS => Operator.OP_SUB
  | TOK_STAR => Operator.OP_MUL
  | TOK_SLASH => Operator.OP_DIV
  | _ => Operator.OP_MOD

/-- The parsing function of a precedence level; above the binary levels, `unary`. -/
def parse_level : Nat → Nat → Parser → parser.PResult
  | 1 => parser.logical_or
  | 2 => parser.logical_and
  | 3 => parser.equality
  | 4 => parser.comparison
  | 5 => parser.term
  | 6 => parser.factor
  | _ => parser.unary

/-- The loop of the parsing function of a binary precedence level. -/
def level_loop : Nat → Nat → ASTNode → Parser → parser.PResult
  | 1 => parser.logical_or_loop
  | 2 => parser.logical_and_loop
  | 3 => parser.equality_loop
  | 4 => parser.comparison_loop
  | 5 => parser.term_loop
  | _ => parser.factor_loop

/-- The parser state one token further. -/
def Parser.next (p : Parser) : Parser := { p with current := p.current + 1 }

/-- A call returns `r` on every fuel from some bound on. -/
def Yields (g : Nat → parser.PResult) (r : ASTNode × Parser) : Prop := ∃ F, ∀ f, F ≤ f → g f = some r

/-- A token kind that ends an expression: no binary operator, no `[`, no `?`. -/
def ends_expression (ty : TokenType) : Prop :=
  bin_level ty = none ∧ ty ≠ TOK_LBRACKET ∧ ty ≠ TOK_QUESTION

/-- The source text `2 + 3 * 4`. -/
def src_sum_product : List Nat := [50, 32, 43, 32, 51, 32, 42, 32, 52]

/-- The tokens of `2 + 3 * 4`. -/
def toks_sum_product : List Token :=
  [ ⟨TOK_INT, 0, 1, 1, 1, TokenValue.int_val 2⟩, ⟨TOK_PLUS, 2, 1, 1, 3, TokenValue.unset⟩,
    ⟨TOK_INT, 4, 1, 1, 5, TokenValue.int_val 3⟩, ⟨TOK_STAR, 6, 1, 1, 7, TokenValue.unset⟩,
    ⟨TOK_INT, 8, 1, 1, 9, TokenValue.int_val 4⟩, ⟨TOK_EOF, 9, 0, 1, 10, TokenValue.unset⟩ ]

/-- The source text `8 - 3 - 2`. -/
def src_difference : List Nat := [56, 32, 45, 32, 51, 32, 45, 32, 50]

/-- The tokens of `8 - 3 - 2`. -/
def toks_difference : List Token :=
  [ ⟨TOK_INT, 0, 1, 1, 1, TokenValue.int_val 8⟩, ⟨TOK_MINUS, 2, 1, 1, 3, TokenValue.unset⟩,
    ⟨TOK_INT, 4, 1, 1, 5, TokenValue.int_val 3⟩, ⟨TOK_MINUS, 6, 1, 1, 7, TokenValue.unset⟩,
    ⟨TOK_INT, 8, 1, 1, 9, TokenValue.int_val 2⟩, ⟨TOK_EOF, 9, 0, 1, 10, TokenValue.unset⟩ ]

/-- The source text of the lambda `\x -> x`. -/
def src_lambda : List Nat := [92, 120, 32, 45, 62, 32, 120]

/-- The tokens of the lambda `\x -> x`. -/
def toks_lambda : List Token :=
  [ ⟨TOK_BACKSLASH, 0, 1, 1, 1, TokenValue.unset⟩, ⟨TOK_IDENT, 1, 1, 1, 2, TokenValue.unset⟩,
    ⟨TOK_ARROW, 3, 2, 1, 4, TokenValue.unset⟩, ⟨TOK_IDENT, 6, 1, 1, 7, TokenValue.unset⟩,
    ⟨TOK_EOF, 7, 0, 1, 8, TokenValue.unset⟩ ]

/-- The source text `\x -> x + y * z`: the lambda, `+`, `y`, `*`, `z`. -/
def src_lambda_sum_product : List Nat :=
  [92, 120, 32, 45, 62, 32, 120, 32, 43, 32, 121, 32, 42, 32, 122]

/-- The tokens of `\x -> x + y * z`. -/
def toks_lambda_sum_product : List Token :=
  [ ⟨TOK_BACKSLASH, 0, 1, 1, 1, TokenValue.unset⟩, ⟨TOK_IDENT, 1, 1, 1, 2, TokenValue.unset⟩,
    ⟨TOK_ARROW, 3, 2, 1, 4, TokenValue.unset⟩, ⟨TOK_IDENT, 6, 1, 1, 7, TokenValue.unset⟩,
    ⟨TOK_PLUS, 8, 1, 1, 9, TokenValue.unset⟩, ⟨TOK_IDENT, 10, 1, 1, 11, TokenValue.unset⟩,
    ⟨TOK_STAR, 12, 1, 1, 13, TokenValue.unset⟩, ⟨TOK_IDENT, 14, 1, 1, 15, TokenValue.unset⟩,
    ⟨TOK_EOF, 15, 0, 1, 16, TokenValue.unset⟩ ]

/-- The source text `\x -> x - y + z`: the lambda, `-`, `y`, `+`, `z`. -/
def src_lambda_difference : List Nat :=
  [92, 120, 32, 45, 62, 32, 120, 32, 45, 32, 121, 32, 43, 32, 122]

/-- The tokens of `\x -> x - y + z`. -/
def toks_lambda_difference : List Token :=
  [ ⟨TOK_BACKSLASH, 0, 1, 1, 1, TokenValue.unset⟩, ⟨TOK_IDENT, 1, 1, 1, 2, TokenValue.unset⟩,
    ⟨TOK_ARROW, 3, 2, 1, 4, TokenValue.unset⟩, ⟨TOK_IDENT, 6, 1, 1, 7, TokenValue.unset⟩,
    ⟨TOK_MINUS, 8, 1, 1, 9, TokenValue.unset⟩, ⟨TOK_IDENT, 10, 1, 1, 11, TokenValue.unset⟩,
    ⟨TOK_PLUS, 12, 1, 1, 13, TokenValue.unset⟩, ⟨TOK_IDENT, 14, 1, 1, 15, TokenValue.unset⟩,
    ⟨TOK_EOF, 15, 0, 1, 16, TokenValue.unset⟩ ]

/-! ## Auxiliary definitions for the statements about the optimizer -/

/-- The node is an `IntLit` or a `FloatLit`. -/
def ASTNode.is_literal : ASTNode → Bool
  | ASTNode.IntLit _ _ _ => true
  | ASTNode.FloatLit _ _ _ => true
  | _ => false

/-- The node is an `IntLit`. -/
def ASTNode.is_int_lit : ASTNode → Bool
  | ASTNode.IntLit _ _ _ => true
  | _ => false

/-- The member `line` of a node; `0` for the null pointer. -/
def ASTNode.line : ASTNode → Nat
  | ASTNode.null => 0
  | ASTNode.IntLit line _ _ | ASTNode.FloatLit line _ _ | ASTNode.StringLit line _ _ _
  | ASTNode.Ident line _ _ _ | ASTNode.Binary line _ _ _ _ | ASTNode.Unary line _ _ _
  | ASTNode.Lambda line _ _ _ _ | ASTNode.Apply line _ _ _ | ASTNode.Ternary line _ _ _ _
  | ASTNode.Array line _ _ | ASTNode.Index line _ _ _ | ASTNode.Builtin line _ _ _
  | ASTNode.Let line _ _ _ _ | ASTNode.For line _ _ _ _ _ _ | ASTNode.Block line _ _
  | ASTNode.Async line _ _ | ASTNode.Await line _ _ | ASTNode.GpuKernel line _ _ _ _ _
  | ASTNode.Program line _ _ => line

/-- The member `col` of a node; `0` for the null pointer. -/
def ASTNode.col : ASTNode → Nat
  | ASTNode.null => 0
  | ASTNode.IntLit _ col _ | ASTNode.FloatLit _ col _ | ASTNode.StringLit _ col _ _
  | ASTNode.Ident _ col _ _ | ASTNode.Binary _ col _ _ _ | ASTNode.Unary _ col _ _
  | ASTNode.Lambda _ col _ _ _ | ASTNode.Apply _ col _ _ | ASTNode.Ternary _ col _ _ _
  | ASTNode.Array _ col _ | ASTNode.Index _ col _ _ | ASTNode.Builtin _ col _ _
  | ASTNode.Let _ col _ _ _ | ASTNode.For _ col _ _ _ _ _ | ASTNode.Block _ col _
  | ASTNode.Async _ col _ | ASTNode.Await _ col _ | ASTNode.GpuKernel _ col _ _ _ _
  | ASTNode.Program _ col _ => col

/-- The arithmetic operators `+ - * / %`. -/
def Operator.is_arith : Operator → Bool
  | Operator.OP_ADD | Operator.OP_SUB | Operator.OP_MUL | Operator.OP_DIV | Operator.OP_MOD => true
  | _ => false

/-- The bitwise and shift operators `& | ^ << >>`, which C has on integers only. -/
def Operator.is_bitwise : Operator → Bool
  | Operator.OP_BITAND | Operator.OP_BITOR | Operator.OP_BITXOR | Operator.OP_SHL
  | Operator.OP_SHR => true
  | _ => false

/-- The operators of a `Unary` node: `OP_NEG` and `OP_NOT`. -/
def Operator.is_unary : Operator → Bool
  | Operator.OP_NEG | Operator.OP_NOT => true
  | _ => false

/-- A tree of the kinds named in the specification of the optimizer: `IntLit`, `FloatLit`,
`Binary` with any binary operator, `Unary` with `NEG` or `NOT`, and `Ternary`. -/
def literal_tree : ASTNode → Bool
  | ASTNode.IntLit _ _ _ => true
  | ASTNode.FloatLit _ _ _ => true
  | ASTNode.Binary _ _ op left right => !op.is_unary && literal_tree left && literal_tree right
  | ASTNode.Unary _ _ op operand => op.is_unary && literal_tree operand
  | ASTNode.Ternary _ _ cond then_branch else_branch =>
    literal_tree cond && literal_tree then_branch && literal_tree else_branch
  | _ => false

/-- Written from the specification: the value in 64-bit two's-complement arithmetic with
wrap-around of an exact result `x`, the integer congruent to `x` modulo `2^64` that lies
in `[-2^63, 2^63)`. -/
def twos_complement64 (x : Int) : Int := Int.bmod x (2 ^ 64)

/-- Written from the specification: the value of an expression tree whose leaves are
`IntLit` and whose operators are `+ - * / %`, in 64-bit two's-complement signed arithmetic
with wrap-around, division truncating toward zero. The value is `none` for a tree of
another shape and for a tree in which a divisor is zero. -/
def int_arith_value : ASTNode → Option Int
  | ASTNode.IntLit _ _ v => some v
  | ASTNode.Binary _ _ op left right =>
    match int_arith_value left, int_arith_value right with
    | some l, some r =>
      match op with
      | Operator.OP_ADD => some (twos_complement64 (l + r))
      | Operator.OP_SUB => some (twos_complement64 (l - r))
      | Operator.OP_MUL => some (twos_complement64 (l * r))
      | Operator.OP_DIV => if r = 0 then none else some (twos_complement64 (Int.tdiv l r))
      | Operator.OP_MOD => if r = 0 then none else some (twos_complement64 (Int.tmod l r))
      | _ => none
    | _, _ => none
  | _ => none

/-- The operands of a division of the value `-2^63` by the value `-1`, whose exact quotient
`2^63` is the one quotient of two 64-bit values that is no 64-bit value. -/
def min_by_minus_one (l r : Option Int) : Bool :=
  decide (l = some (-9223372036854775808)) && decide (r = some (-1))

/-- Written from the specification: some `/` or `%` node of an expression tree whose
leaves are `IntLit` and whose operators are `+ - * / %` divides the value `-2^63` by the
value `-1`. -/
def overflowing_division : ASTNode → Bool
  | ASTNode.Binary _ _ op left right =>
    overflowing_division left || overflowing_division right ||
      match op with
      | Operator.OP_DIV => min_by_minus_one (int_arith_value left) (int_arith_value right)
      | Operator.OP_MOD => min_by_minus_one (int_arith_value left) (int_arith_value right)
      | _ => false
  | _ => false

/-- Every `Ternary` node of the tree has constant branches. -/
def branches_constant : ASTNode → Bool
  | ASTNode.Binary _ _ _ left right => branches_constant left && branches_constant right
  | ASTNode.Unary _ _ _ operand => branches_constant operand
  | ASTNode.Ternary _ _ cond then_branch else_branch =>
    branches_constant cond && is_constant_expr then_branch && is_constant_expr else_branch
  | _ => true

/-- The expression `2 + 3 * 4 - 1` as the parser builds it. -/
def ast_two_three_four_one : ASTNode :=
  ASTNode.Binary 1 11 Operator.OP_SUB
    (ASTNode.Binary 1 3 Operator.OP_ADD (ASTNode.IntLit 1 1 2)
      (ASTNode.Binary 1 7 Operator.OP_MUL (ASTNode.IntLit 1 5 3) (ASTNode.IntLit 1 9 4)))
    (ASTNode.IntLit 1 13 1)

/-- The expression `1.5 && 1`. -/
def ast_float_and : ASTNode :=
  ASTNode.Binary 1 5 Operator.OP_AND (ASTNode.FloatLit 1 1 ⟨[49, 46, 53]⟩) (ASTNode.IntLit 1 8 1)

/-- The source text `(0 - 9223372036854775807 - 1) / (0 - 1);`. -/
def src_min_div : List Nat :=
  [40, 48, 32, 45, 32, 57, 50, 50, 51, 51, 55, 50, 48, 51, 54, 56, 53, 52, 55, 55, 53, 56, 48,
    55, 32, 45, 32, 49, 41, 32, 47, 32, 40, 48, 32, 45, 32, 49, 41, 59]

/-- The expression `(0 - 9223372036854775807 - 1) / (0 - 1)` as the parser builds it. -/
def ast_min_div : ASTNode :=
  ASTNode.Binary 1 31 Operator.OP_DIV
    (ASTNode.Binary 1 26 Operator.OP_SUB
      (ASTNode.Binary 1 4 Operator.OP_SUB (ASTNode.IntLit 1 2 0)
        (ASTNode.IntLit 1 6 9223372036854775807))
      (ASTNode.IntLit 1 28 1))
    (ASTNode.Binary 1 36 Operator.OP_SUB (ASTNode.IntLit 1 34 0) (ASTNode.IntLit 1 38 1))

/-- The source text `1 ? 2 : (0 - 9223372036854775807 - 1) / (0 - 1);`. -/
def src_ternary_min_div : List Nat :=
  [49, 32, 63, 32, 50, 32, 58, 32, 40, 48, 32, 45, 32, 57, 50, 50, 51, 51, 55, 50, 48, 51, 54,
    56, 53, 52, 55, 55, 53, 56, 48, 55, 32, 45, 32, 49, 41, 32, 47, 32, 40, 48, 32, 45, 32, 49,
    41, 59]

/-- The expression `1 ? 2 : (0 - 9223372036854775807 - 1) / (0 - 1)` as the parser builds
it. -/
def ast_ternary_min_div : ASTNode :=
  ASTNode.Ternary 1 3 (ASTNode.IntLit 1 1 1) (ASTNode.IntLit 1 5 2)
    (ASTNode.Binary 1 39 Operator.OP_DIV
      (ASTNode.Binary 1 34 Operator.OP_SUB
        (ASTNode.Binary 1 12 Operator.OP_SUB (ASTNode.IntLit 1 10 0)
          (ASTNode.IntLit 1 14 9223372036854775807))
        (ASTNode.IntLit 1 36 1))
      (ASTNode.Binary 1 44 Operator.OP_SUB (ASTNode.IntLit 1 42 0) (ASTNode.IntLit 1 46 1)))

/-- The expression `(1.0 + 2) + 3`. -/
def ast_float_sum : ASTNode :=
  ASTNode.Binary 1 11 Operator.OP_ADD
    (ASTNode.Binary 1 6 Operator.OP_ADD (ASTNode.FloatLit 1 2 ⟨[49, 46, 48]⟩) (ASTNode.IntLit 1 8 2))
    (ASTNode.IntLit 1 13 3)

/-- The expression `1 ? 2 : x`. -/
def ast_ternary_untaken : ASTNode :=
  ASTNode.Ternary 1 3 (ASTNode.IntLit 1 1 1) (ASTNode.IntLit 1 5 2) (ASTNode.Ident 1 9 [120] 1)

/-- The node is of one of the kinds that `eval_constant` evaluates: `IntLit`, `FloatLit`,
`Binary`, `Unary`, `Ternary`. -/
def ASTNode.is_expr_kind : ASTNode → Bool
  | ASTNode.IntLit _ _ _ => true
  | ASTNode.FloatLit _ _ _ => true
  | ASTNode.Binary _ _ _ _ _ => true
  | ASTNode.Unary _ _ _ _ => true
  | ASTNode.Ternary _ _ _ _ _ => true
  | _ => false

/-! ## More inputs for the parser -/

/-- A token kind at which neither a statement nor an expression begins or goes on: no
literal, identifier, `(`, `[`, `@`, `\`, `-`, `!`, no `let`, `for`, `{`, `;`, `?`, no
binary operator, and not `EOF`. Examples are `,`, `)`, `]`, `}`, `:`, `=`, `..`. -/
def stalls (ty : TokenType) : Bool :=
  (bin_level ty).isNone &&
  !([TOK_INT, TOK_FLOAT, TOK_STRING, TOK_IDENT, TOK_LPAREN, TOK_LBRACKET, TOK_AT, TOK_BACKSLASH,
    TOK_MINUS, TOK_NOT, TOK_LET, TOK_FOR, TOK_LBRACE, TOK_SEMICOLON, TOK_QUESTION,
    TOK_EOF].contains ty)

/-- The source text `let x : foo = 1;`. -/
def src_let_unknown : List Nat :=
  [108, 101, 116, 32, 120, 32, 58, 32, 102, 111, 111, 32, 61, 32, 49, 59]

/-- The tokens of `let x : foo = 1;`. -/
def toks_let_unknown : List Token :=
  [ ⟨TOK_LET, 0, 3, 1, 1, TokenValue.unset⟩, ⟨TOK_IDENT, 4, 1, 1, 5, TokenValue.unset⟩,
    ⟨TOK_COLON, 6, 1, 1, 7, TokenValue.unset⟩, ⟨TOK_IDENT, 8, 3, 1, 9, TokenValue.unset⟩,
    ⟨TOK_EQ, 12, 1, 1, 13, TokenValue.unset⟩, ⟨TOK_INT, 14, 1, 1, 15, TokenValue.int_val 1⟩,
    ⟨TOK_SEMICOLON, 15, 1, 1, 16, TokenValue.unset⟩, ⟨TOK_EOF, 16, 0, 1, 17, TokenValue.unset⟩ ]

/-- The source text `let x : i64 = 1;`. -/
def src_let_i64 : List Nat :=
  [108, 101, 116, 32, 120, 32, 58, 32, 105, 54, 52, 32, 61, 32, 49, 59]

/-- The tokens of `let x : i64 = 1;`. -/
def toks_let_i64 : List Token :=
  [ ⟨TOK_LET, 0, 3, 1, 1, TokenValue.unset⟩, ⟨TOK_IDENT, 4, 1, 1, 5, TokenValue.unset⟩,
    ⟨TOK_COLON, 6, 1, 1, 7, TokenValue.unset⟩, ⟨TOK_TYPE_I64, 8, 3, 1, 9, TokenValue.unset⟩,
    ⟨TOK_EQ, 12, 1, 1, 13, TokenValue.unset⟩, ⟨TOK_INT, 14, 1, 1, 15, TokenValue.int_val 1⟩,
    ⟨TOK_SEMICOLON, 15, 1, 1, 16, TokenValue.unset⟩, ⟨TOK_EOF, 16, 0, 1, 17, TokenValue.unset⟩ ]

/-- The source text `a + ;`. -/
def src_missing_operand : List Nat := [97, 32, 43, 32, 59]

/-- The tokens of `a + ;`. -/
def toks_missing_operand : List Token :=
  [ ⟨TOK_IDENT, 0, 1, 1, 1, TokenValue.unset⟩, ⟨TOK_PLUS, 2, 1, 1, 3, TokenValue.unset⟩,
    ⟨TOK_SEMICOLON, 4, 1, 1, 5, TokenValue.unset⟩, ⟨TOK_EOF, 5, 0, 1, 6, TokenValue.unset⟩ ]

/-- The source text `"a\n"`: a string literal with a backslash escape, five bytes. -/
def src_string_escape : List Nat := [34, 97, 92, 110, 34]

/-- The tokens of `"a\n"`. -/
def toks_string_escape : List Token :=
  [ ⟨TOK_STRING, 0, 5, 1, 1, TokenValue.unset⟩, ⟨TOK_EOF, 5, 0, 1, 6, TokenValue.unset⟩ ]

/-- The source text `)`. -/
def src_rparen : List Nat := [41]

/-- The tokens of `)`. -/
def toks_rparen : List Token :=
  [ ⟨TOK_RPAREN, 0, 1, 1, 1, TokenValue.unset⟩, ⟨TOK_EOF, 1, 0, 1, 2, TokenValue.unset⟩ ]

/-! ## Auxiliary definitions: the scope chain -/

/-- The scope chain that starts at the scope pointer `s`: the addresses of the scopes from
`s` outwards, ending at the scope without a parent. -/
inductive ScopeChain (scopes : List Scope) : Option Nat → List Nat → Prop
  | nil : ScopeChain scopes none []
  | cons {s : Nat} {scope : Scope} {rest : List Nat} :
      scopes.get? s = some scope → ScopeChain scopes scope.parent rest →
      ScopeChain scopes (some s) (s :: rest)

/-- The symbols of the scopes at the addresses `chain`, the innermost scope first, each
scope with its latest definition first. -/
def chain_symbols (scopes : List Scope) (chain : List Nat) : List Symbol :=
  chain.flatMap (fun s => ((scopes.get? s).map Scope.symbols).getD [])

/-! ## Auxiliary definitions: the meaning of the emitted instructions

An interpreter for the integer fragment of the instructions that `codegen.c` emits:
64-bit integers with two's-complement wrap-around, `alloca` cells, branches, and calls of
`printf`, which are recorded. It gives the statements about the emitted control flow and
about the calls that run their meaning. -/

/-- A value at run time: an integer, the address of an `alloca` cell, the pointer to a
global string, a function, or the unused result of a call. -/
inductive RtValue where
  | int (n : Int)
  | addr (a : Nat)
  | str (text : List Nat)
  | fn (name : String)
  | undef
deriving DecidableEq, Repr

/-- The state of a run of `main`: the results of the instructions executed so far (the
latest first), the `alloca` cells, the position, the blocks entered by a branch and the
`printf` calls made (format and argument), each in order, and the value returned. -/
structure Machine where
  regs : List (Nat × RtValue)
  memory : List RtValue
  block : Nat
  index : Nat
  entered : List Nat
  printed : List (List Nat × RtValue)
  returned : Option RtValue
deriving DecidableEq, Repr

/-- The state at the first instruction of the block `entry`. -/
def Machine.start : Machine :=
  { regs := [], memory := [], block := 0, index := 0, entered := [], printed := [],
    returned := none }

def Machine.operand (m : Machine) : LLVMValue → Option RtValue
  | LLVMValue.const_int _ n => some (RtValue.int n)
  | LLVMValue.const_real _ => none
  | LLVMValue.global_string text => some (RtValue.str text)
  | LLVMValue.function name _ => some (RtValue.fn name)
  | LLVMValue.inst id _ => m.regs.lookup id

/-- The state after an instruction with the result `v`. -/
def Machine.set (m : Machine) (id : Nat) (v : RtValue) : Machine :=
  { m with regs := (id, v) :: m.regs, index := m.index + 1 }

/-- The state after a branch to the block `dest`. -/
def Machine.jump (m : Machine) (dest : Nat) : Machine :=
  { m with block := dest, index := 0, entered := m.entered ++ [dest] }

def int_compare (pred : LLVMIntPredicate) (a b : Int) : Bool :=
  match pred with
  | LLVMIntEQ => decide (a = b)
  | LLVMIntNE => decide (a ≠ b)
  | LLVMIntSLT => decide (a < b)
  | LLVMIntSGT => decide (a > b)
  | LLVMIntSLE => decide (a ≤ b)
  | LLVMIntSGE => decide (a ≥ b)

/-- The integer instructions on 64-bit operands; a division by zero has no meaning, and
neither has the division of `-2^63` by `-1`, which overflows. -/
def int_binop (op : Opcode) (a b : Int) : Option Int :=
  match op with
  | Opcode.Add => some (wrap64 (a + b))
  | Opcode.Sub => some (wrap64 (a - b))
  | Opcode.Mul => some (wrap64 (a * b))
  | Opcode.SDiv =>
    if b = 0 then none else if division_overflows a b then none else some (Int.tdiv a b)
  | Opcode.SRem =>
    if b = 0 then none else if division_overflows a b then none else some (Int.tmod a b)
  | Opcode.And => some (Int.land a b)
  | Opcode.Or => some (Int.lor a b)
  | Opcode.Xor => some (Int.xor a b)
  | _ => none

/-- The assignment to the cell at the address `a`. -/
def store_cell : List RtValue → Nat → RtValue → List RtValue
  | [], _, _ => []
  | _ :: rest, 0, v => v :: rest
  | c :: rest, a + 1, v => c :: store_cell rest a v

/-- One instruction; `none` where the fragment gives it no meaning. -/
def exec (m : Machine) : Instruction → Option Machine
  | Instruction.binop id op lhs rhs =>
    match m.operand lhs, m.operand rhs with
    | some (RtValue.int a), some (RtValue.int b) =>
      (int_binop op a b).map (fun r => m.set id (RtValue.int r))
    | _, _ => none
  | Instruction.neg id v =>
    match m.operand v with
    | some (RtValue.int a) => some (m.set id (RtValue.int (wrap64 (-a))))
    | _ => none
  | Instruction.icmp id pred lhs rhs =>
    match m.operand lhs, m.operand rhs with
    | some (RtValue.int a), some (RtValue.int b) =>
      some (m.set id (RtValue.int (c_bool (int_compare pred a b))))
    | _, _ => none
  | Instruction.cast id CastOp.ZExt v _ =>
    match m.operand v with
    | some (RtValue.int a) => some (m.set id (RtValue.int a))
    | _ => none
  | Instruction.cast id CastOp.SExt v _ =>
    match m.operand v with
    | some (RtValue.int a) => some (m.set id (RtValue.int a))
    | _ => none
  | Instruction.select id cond then_val else_val =>
    match m.operand cond, m.operand then_val, m.operand else_val with
    | some (RtValue.int c), some t, some e => some (m.set id (if c ≠ 0 then t else e))
    | _, _, _ => none
  | Instruction.alloca id _ =>
    some { m.set id (RtValue.addr m.memory.length) with memory := m.memory ++ [RtValue.undef] }
  | Instruction.store v ptr =>
    match m.operand v, m.operand ptr with
    | some x, some (RtValue.addr a) =>
      some { m with memory := store_cell m.memory a x, index := m.index + 1 }
    | _, _ => none
  | Instruction.load id _ ptr =>
    match m.operand ptr with
    | some (RtValue.addr a) => (m.memory.get? a).map (fun x => m.set id x)
    | _ => none
  | Instruction.call id fn args =>
    match m.operand fn, args with
    | some (RtValue.fn "printf"), [fmt, val] =>
      match m.operand fmt, m.operand val with
      | some (RtValue.str text), some x =>
        some { m.set id RtValue.undef with printed := m.printed ++ [(text, x)] }
      | _, _ => none
    | _, _ => none
  | Instruction.br dest => some (m.jump dest)
  | Instruction.cond_br cond then_bb else_bb _ =>
    match m.operand cond with
    | some (RtValue.int c) => some (m.jump (if c ≠ 0 then then_bb else else_bb))
    | _ => none
  | Instruction.ret v => (m.operand v).map (fun x => { m with returned := some x })
  | _ => none

/-- The instruction at the position of the machine. -/
def fetch (blocks : List BasicBlock) (m : Machine) : Option Instruction :=
  (blocks.get? m.block).bind (fun b => b.instrs.get? m.index)

/-- One step of a run. -/
def step (blocks : List BasicBlock) (m : Machine) : Option Machine :=
  (fetch blocks m).bind (exec m)

/-- A run of at most `fuel` steps up to the `ret`; `none` when the fuel is used up or an
instruction has no meaning. -/
def run (blocks : List BasicBlock) : Nat → Machine → Option Machine
  | 0, _ => none
  | fuel + 1, m =>
    match m.returned with
    | some _ => some m
    | none =>
      match step blocks m with
      | none => none
      | some m1 => run blocks fuel m1

/-- The `printf` calls that a run of the lowered program makes, in order; `none` when the
run does not reach the `ret` within the fuel. -/
def printed_by (fuel : Nat) (ast : ASTNode) : Option (List (List Nat × RtValue)) :=
  (run (codegen_emit (codegen_init 0) ast).blocks fuel Machine.start).map Machine.printed

/-- The state of a run of a single loop at the first instruction of its block `loop`, the
block with the index `1`: the cell of the loop variable holds `i`. -/
def Machine.at_loop (regs : List (Nat × RtValue)) (i : Int) (entered : List Nat)
    (printed : List (List Nat × RtValue)) : Machine :=
  { regs := regs, memory := [RtValue.int i], block := 1, index := 0, entered := entered,
    printed := printed, returned := none }

/-! ## Inputs for the code generator -/

/-- The program `for i in s..e { @print(i); };` with integer literals `s` and `e`. -/
def ast_for_print (s e : Int) : ASTNode :=
  ASTNode.Program 1 1 [ASTNode.For 1 1 [105] (ASTNode.IntLit 1 10 s) (ASTNode.IntLit 1 13 e)
    (ASTNode.Block 1 17 [ASTNode.Builtin 1 17 print_name [ASTNode.Ident 1 24 [105] 1]]) 0]

/-- The blocks of `main` for the program `ast_for_print s e`, as `codegen_emit` builds
them: `entry`, and the blocks `loop`, `body` and `after` of `codegen_for`. -/
def for_print_blocks (s e : Int) : List BasicBlock :=
  [ { name := "entry",
      instrs := [Instruction.alloca 0 (LLVMType.int 64),
        Instruction.store (LLVMValue.const_int (LLVMType.int 64) s)
          (LLVMValue.inst 0 LLVMType.pointer),
        Instruction.br 1] },
    { name := "loop",
      instrs := [Instruction.load 1 (LLVMType.int 64) (LLVMValue.inst 0 LLVMType.pointer),
        Instruction.icmp 2 LLVMIntPredicate.LLVMIntSLT (LLVMValue.inst 1 (LLVMType.int 64))
          (LLVMValue.const_int (LLVMType.int 64) e),
        Instruction.cond_br (LLVMValue.inst 2 (LLVMType.int 1)) 2 3 false] },
    { name := "body",
      instrs := [Instruction.load 3 (LLVMType.int 64) (LLVMValue.inst 0 LLVMType.pointer),
        Instruction.call 4 (LLVMValue.function "printf" printf_type)
          [LLVMValue.global_string fmt_int, LLVMValue.inst 3 (LLVMType.int 64)],
        Instruction.load 5 (LLVMType.int 64) (LLVMValue.inst 0 LLVMType.pointer),
        Instruction.binop 6 Opcode.Add (LLVMValue.inst 5 (LLVMType.int 64))
          (LLVMValue.const_int (LLVMType.int 64) 1),
        Instruction.store (LLVMValue.inst 6 (LLVMType.int 64))
          (LLVMValue.inst 0 LLVMType.pointer),
        Instruction.br 1] },
    { name := "after",
      instrs := [Instruction.ret (LLVMValue.const_int (LLVMType.int 32) 0)] } ]

/-- The source text `1 ? @print(1) : @print(2);`. -/
def src_ternary_prints : List Nat :=
  [49, 32, 63, 32, 64, 112, 114, 105, 110, 116, 40, 49, 41, 32, 58, 32, 64, 112, 114, 105, 110,
    116, 40, 50, 41, 59]

/-- The program `1 ? @print(1) : @print(2);` as the parser builds it. -/
def ast_ternary_prints : ASTNode :=
  ASTNode.Program 1 1 [ASTNode.Ternary 1 3 (ASTNode.IntLit 1 1 1)
    (ASTNode.Builtin 1 5 print_name [ASTNode.IntLit 1 12 1])
    (ASTNode.Builtin 1 17 print_name [ASTNode.IntLit 1 24 2])]

/-! ## Auxiliary definitions: what lowering keeps -/

/-- The functions of the module with the name `main`. -/
def main_functions (cg : CodeGen) : List (String × FunctionType) :=
  cg.functions.filter (fun f => f.1 == "main")

/-- What the lowering of a node keeps from the state `cg` to the state `cg'`: the
functions named `main`, the blocks built so far as a count, and the fact that the builder
stands at a block of the function. -/
def Lowers (cg cg' : CodeGen) : Prop :=
  main_functions cg' = main_functions cg ∧ cg.blocks.length ≤ cg'.blocks.length ∧
    (cg.position < cg.blocks.length → cg'.position < cg'.blocks.length)

/-! ## More inputs for the code generator -/

/-- The source text `let x : i32 = 1; x + 2;`. -/
def src_narrow_add : List Nat :=
  [108, 101, 116, 32, 120, 32, 58, 32, 105, 51, 50, 32, 61, 32, 49, 59, 32, 120, 32, 43, 32,
    50, 59]

/-- The program `let x : i32 = 1; x + 2;` as the parser builds it. -/
def ast_narrow_add : ASTNode :=
  ASTNode.Program 1 1
    [ASTNode.Let 1 1 [120] (some (type_new TypeKind.TYPE_I32)) (ASTNode.IntLit 1 15 1),
     ASTNode.Binary 1 20 Operator.OP_ADD (ASTNode.Ident 1 18 [120] 1) (ASTNode.IntLit 1 22 2)]

/-- The source text `let y : f32 = 1.5; y + 2.5;`. -/
def src_single_add : List Nat :=
  [108, 101, 116, 32, 121, 32, 58, 32, 102, 51, 50, 32, 61, 32, 49, 46, 53, 59, 32, 121, 32,
    43, 32, 50, 46, 53, 59]

/-- The program `let y : f32 = 1.5; y + 2.5;` as the parser builds it. -/
def ast_single_add : ASTNode :=
  ASTNode.Program 1 1
    [ASTNode.Let 1 1 [121] (some (type_new TypeKind.TYPE_F32))
       (ASTNode.FloatLit 1 15 ⟨[49, 46, 53]⟩),
     ASTNode.Binary 1 22 Operator.OP_ADD (ASTNode.Ident 1 20 [121] 1)
       (ASTNode.FloatLit 1 24 ⟨[50, 46, 53]⟩)]

/-- The source text `let s : str = 1;`. -/
def src_let_str : List Nat := [108, 101, 116, 32, 115, 32, 58, 32, 115, 116, 114, 32, 61, 32, 49, 59]

/-- The program `let s : str = 1;` as the parser builds it. -/
def ast_let_str : ASTNode :=
  ASTNode.Program 1 1
    [ASTNode.Let 1 1 [115] (some (type_new TypeKind.TYPE_STR)) (ASTNode.IntLit 1 15 1)]

/-- The source text `let x = 1; let x = 2;`. -/
def src_let_twice : List Nat :=
  [108, 101, 116, 32, 120, 32, 61, 32, 49, 59, 32, 108, 101, 116, 32, 120, 32, 61, 32, 50, 59]

/-- The program `let x = 1; let x = 2;` as the parser builds it. -/
def ast_let_twice : ASTNode :=
  ASTNode.Program 1 1
    [ASTNode.Let 1 1 [120] none (ASTNode.IntLit 1 9 1),
     ASTNode.Let 1 12 [120] none (ASTNode.IntLit 1 20 2)]

/-- The AST of a source text: the tokens of `lex` parsed by `parser_parse` with the fuel
`fuel`; `none` when the lexer or the parser gives no result. -/
def parse_source (fuel : Nat) (src : List Nat) : Option ASTNode :=
  (lex src).bind (fun toks => (parser.parser_parse fuel (parser.parser_init src toks)).map Prod.fst)

/-! ## Auxiliary definitions: operands, slots and scopes -/

/-- The IR types of the two operands of an arithmetic or comparison instruction. -/
def Instruction.operand_types : Instruction → Option (LLVMType × LLVMType)
  | Instruction.binop _ _ lhs rhs => some (LLVMTypeOf lhs, LLVMTypeOf rhs)
  | Instruction.icmp _ _ lhs rhs => some (LLVMTypeOf lhs, LLVMTypeOf rhs)
  | Instruction.fcmp _ _ lhs rhs => some (LLVMTypeOf lhs, LLVMTypeOf rhs)
  | _ => none

/-- The instructions of the blocks, block after block. -/
def all_instrs (blocks : List BasicBlock) : List Instruction := blocks.flatMap BasicBlock.instrs

/-- The scopes of a state and its current scope: what the scope functions read. -/
def scope_state (cg : CodeGen) : List Scope × Option Nat := (cg.scopes, cg.current_scope)

/-- The names of the symbols of the scope at the address `s`, the latest definition first. -/
def scope_names (scopes : List Scope) (s : Nat) : List (List Nat) :=
  ((scopes.get? s).map (fun sc => sc.symbols.map Symbol.name)).getD []

/-- The node is a `Let`. -/
def ASTNode.is_let : ASTNode → Bool
  | ASTNode.Let _ _ _ _ _ => true
  | _ => false

/-- The names of the `Let` statements of `stmts` whose value lowers to a value, in the
order of the statements, when `codegen_stmt` lowers them one after the other from `cg`. -/
def lowered_let_names : CodeGen → List ASTNode → List (List Nat)
  | _, [] => []
  | cg, node :: rest =>
    (match node with
     | ASTNode.Let _ _ name _ value => if (codegen_expr cg value).1.isSome then [name] else []
     | _ => []) ++ lowered_let_names (codegen_stmt cg node) rest

/-- What the lowering of an expression keeps from the state `a` to the state `b`: the
scopes and the current scope. -/
def Keeps (a b : CodeGen) : Prop := b.scopes = a.scopes ∧ b.current_scope = a.current_scope

/-- What the lowering of a statement keeps of the scopes allocated before it, `n` being
their number: the current scope, and every scope with an address below `n`; no scope is
taken from the list. -/
def Frame (n : Nat) (a b : CodeGen) : Prop :=
  b.current_scope = a.current_scope ∧ a.scopes.length ≤ b.scopes.length ∧
    ∀ i, i < n → b.scopes.get? i = a.scopes.get? i

/-- The current scope is none of the first `n` scopes. -/
def Inner (n : Nat) (cg : CodeGen) : Prop := ∀ c, cg.current_scope = some c → n ≤ c

/-- The state `b` has the current scope of the state `a`, and every lookup from it gives in
`b` what it gives in `a`: the bindings visible from the current scope are the same. -/
def SameBindings (a b : CodeGen) : Prop :=
  b.current_scope = a.current_scope ∧
  ∀ (fuel : Nat) (name : List Nat),
    scope_lookup b.scopes fuel a.current_scope name =
      scope_lookup a.scopes fuel a.current_scope name ∧
    scope_lookup_type b.scopes fuel a.current_scope name =
      scope_lookup_type a.scopes fuel a.current_scope name

/-- The float form and the integer form of the arithmetic operators, after the operand
promotion rule of the specification: `FAdd FSub FMul FDiv FRem` and the signed
`Add Sub Mul SDiv SRem`. -/
def arith_forms : List (Operator × Opcode × Opcode) :=
  [ (Operator.OP_ADD, Opcode.FAdd, Opcode.Add), (Operator.OP_SUB, Opcode.FSub, Opcode.Sub),
    (Operator.OP_MUL, Opcode.FMul, Opcode.Mul), (Operator.OP_DIV, Opcode.FDiv, Opcode.SDiv),
    (Operator.OP_MOD, Opcode.FRem, Opcode.SRem) ]

/-- The float form and the integer form of the comparison operators: the ordered
floating-point predicates and the signed integer predicates. -/
def compare_forms : List (Operator × LLVMRealPredicate × LLVMIntPredicate) :=
  [ (Operator.OP_EQ, LLVMRealOEQ, LLVMIntEQ), (Operator.OP_NEQ, LLVMRealONE, LLVMIntNE),
    (Operator.OP_LT, LLVMRealOLT, LLVMIntSLT), (Operator.OP_GT, LLVMRealOGT, LLVMIntSGT),
    (Operator.OP_LTE, LLVMRealOLE, LLVMIntSLE), (Operator.OP_GTE, LLVMRealOGE, LLVMIntSGE) ]

/-- The promotion of an operand for the float form: an operand that is not of a
floating-point type is converted by a signed int-to-float to `double`. -/
def promote_operand (cg : CodeGen) (v : LLVMValue) : LLVMValue × CodeGen :=
  if is_float_kind (LLVMGetTypeKind (LLVMTypeOf v)) then (v, cg)
  else cg.build (fun id => Instruction.cast id CastOp.SIToFP v LLVMType.double) LLVMType.double

/-! ## Auxiliary definitions: the run of a loop -/

/-- The instruction at the index `j` of the block `b`. -/
def instr_at (blocks : List BasicBlock) (b j : Nat) : Option Instruction :=
  (blocks.get? b).bind (fun block => block.instrs.get? j)

/-- The number of instructions of the block `b`; `0` where there is no such block. -/
def block_len (blocks : List BasicBlock) (b : Nat) : Nat :=
  ((blocks.get? b).map (fun block => block.instrs.length)).getD 0

/-- The state after `k` steps of a run; `none` when one of the steps has no meaning. -/
def steps (blocks : List BasicBlock) : Nat → Machine → Option Machine
  | 0, m => some m
  | k + 1, m => (step blocks m).bind (steps blocks k)

/-- The states of a run before each of its first `k` steps, in order. -/
def trace (blocks : List BasicBlock) : Nat → Machine → List Machine
  | 0, _ => []
  | k + 1, m => m :: ((step blocks m).map (trace blocks k)).getD []

/-- The machine stands at the first instruction of the block `b`. -/
def Machine.enters (m : Machine) (b : Nat) : Bool := decide (m.block = b) && decide (m.index = 0)

/-- The contents of the cell `c` in those of the states `ms` that stand at the first
instruction of the block `b`, in order. -/
def arrivals (b c : Nat) (ms : List Machine) : List (Option RtValue) :=
  (ms.filter (fun m => m.enters b)).map (fun m => m.memory.get? c)

/-- The value is a constant, a global string or a function, or the result of an
instruction with a number from `n` on. -/
def LLVMValue.fresh (n : Nat) : LLVMValue → Bool
  | LLVMValue.inst id _ => decide (n ≤ id)
  | _ => true

/-- What holds of every instruction that is built after the instruction number has reached
`n` and the function has `b0` blocks, from operands that are built after that as well: the
result has a number from `n` on, every operand other than the address of a `load` is
fresh from `n` on, every branch goes to a block from `b0` on, and the instruction is no
`ret`. -/
def Instruction.fresh (n b0 : Nat) : Instruction → Bool
  | Instruction.binop id _ lhs rhs => decide (n ≤ id) && lhs.fresh n && rhs.fresh n
  | Instruction.neg id v => decide (n ≤ id) && v.fresh n
  | Instruction.fneg id v => decide (n ≤ id) && v.fresh n
  | Instruction.icmp id _ lhs rhs => decide (n ≤ id) && lhs.fresh n && rhs.fresh n
  | Instruction.fcmp id _ lhs rhs => decide (n ≤ id) && lhs.fresh n && rhs.fresh n
  | Instruction.cast id _ v _ => decide (n ≤ id) && v.fresh n
  | Instruction.select id cond then_val else_val =>
    decide (n ≤ id) && cond.fresh n && then_val.fresh n && else_val.fresh n
  | Instruction.alloca id _ => decide (n ≤ id)
  | Instruction.store v ptr => v.fresh n && ptr.fresh n
  | Instruction.load id _ _ => decide (n ≤ id)
  | Instruction.call id fn args => decide (n ≤ id) && fn.fresh n && args.all (fun v => v.fresh n)
  | Instruction.br dest => decide (b0 ≤ dest)
  | Instruction.cond_br cond then_bb else_bb _ =>
    cond.fresh n && decide (b0 ≤ then_bb) && decide (b0 ≤ else_bb)
  | Instruction.ret _ => false

/-- Every symbol of every scope holds a pointer and a type, as `scope_define` gets them in
`codegen_let` and `codegen_for`: the slot of an `alloca` and the type of the slot. -/
def slots_only (scopes : List Scope) : Prop :=
  ∀ scope, scope ∈ scopes → ∀ sym, sym ∈ scope.symbols →
    ∃ v ty, sym.value = some v ∧ sym.type = some ty ∧
      LLVMGetTypeKind (LLVMTypeOf v) = LLVMTypeKind.LLVMPointerTypeKind

/-- The state `cg` is one that the lowering of the body of a loop passes through, after
the instruction number has reached `n` and the function has `b0` blocks. -/
def Inside (n b0 : Nat) (cg : CodeGen) : Prop :=
  n ≤ cg.next_id ∧ b0 ≤ cg.blocks.length ∧ slots_only cg.scopes

/-- What the lowering from the state `cg` to the state `cg'` does to the blocks, after the
instruction number has reached `n` and the function has `b0` blocks: every instruction
stays where it is, and every instruction that is new is fresh. -/
def Emits (n b0 : Nat) (cg cg' : CodeGen) : Prop :=
  Inside n b0 cg' ∧ cg.next_id ≤ cg'.next_id ∧ cg.blocks.length ≤ cg'.blocks.length ∧
  (∀ b j i, instr_at cg.blocks b j = some i → instr_at cg'.blocks b j = some i) ∧
  (∀ b j i, instr_at cg'.blocks b j = some i →
    instr_at cg.blocks b j = some i ∨ i.fresh n b0 = true)

/-- The value is a constant, a global string or a function, or the result of an
instruction with a number from `n` on and below `k`. -/
def LLVMValue.within (n k : Nat) : LLVMValue → Bool
  | LLVMValue.inst id _ => decide (n ≤ id) && decide (id < k)
  | _ => true

/-- The lowering from `a` to the state of `x` emits fresh instructions only, and the value
it returns is a constant or the result of one of the instructions built so far. -/
def Fine (n b0 : Nat) (a : CodeGen) (x : LLVMValueRef × CodeGen) : Prop :=
  Emits n b0 a x.2 ∧ ∀ v, x.1 = some v → v.within n x.2.next_id = true

/-- The same for a lowering that always returns a value. -/
def FineValue (n b0 : Nat) (a : CodeGen) (x : LLVMValue × CodeGen) : Prop :=
  Emits n b0 a x.2 ∧ x.1.within n x.2.next_id = true

/-- The lowering from `a` to the state of `x` emits fresh instructions only, and the value
it hands on is fresh. -/
def FreshValue (n b0 : Nat) (a : CodeGen) (x : LLVMValue × CodeGen) : Prop :=
  Emits n b0 a x.2 ∧ x.1.fresh n = true

/-- A run of `k` steps from `m` to `m1`: `out` lists the contents of the cell `c` in the
states of the run, `m1` excluded, that stand at the first instruction of the block `b`, and
the branches of the run enter the block `b` `n` times. -/
def Runs (blocks : List BasicBlock) (b c : Nat) (m : Machine) (k : Nat) (m1 : Machine)
    (out : List (Option RtValue)) (n : Nat) : Prop :=
  steps blocks k m = some m1 ∧ arrivals b c (trace blocks k m) = out ∧
  ∃ ent, m1.entered = m.entered ++ ent ∧ ent.count b = n
/-! ## Inputs for the run of a loop -/

theorem Later.lrefl (l : Lexer) : Later l l := ⟨rfl, le_refl _⟩

theorem Later.ltrans {a b c : Lexer} (h1 : Later a b) (h2 : Later b c) : Later a c :=
  ⟨h2.1.trans h1.1, le_trans h2.2 h1.2⟩

theorem byteAt_eq_zero_of_le {src : List Nat} {i : Nat} (h : src.length ≤ i) : byteAt src i = 0 := by
  unfold byteAt
  rw [List.getD_eq_default _ _ h]

theorem lt_of_peek_ne_zero {l : Lexer} (h : peek l ≠ 0) : l.current < l.source.length := by
  by_contra hc
  exact h (byteAt_eq_zero_of_le (not_lt.mp hc))

theorem remaining_advance_lt {l : Lexer} (h : peek l ≠ 0) : remaining (advance l) < remaining l := by
  have := lt_of_peek_ne_zero h
  simp only [remaining, advance]
  omega

theorem later_advance (l : Lexer) : Later l (advance l) := by
  refine ⟨rfl, ?_⟩
  simp only [remaining, advance]
  omega

theorem later_skip_comment (n : Nat) (l : Lexer) : Later l (skip_comment n l) := by
  induction n generalizing l with
  | zero => exact Later.lrefl l
  | succ n ih =>
    unfold skip_comment
    split
    · exact (later_advance l).ltrans (ih _)
    · exact Later.lrefl l

theorem later_skip_digits (n : Nat) (l : Lexer) : Later l (skip_digits n l) := by
  induction n generalizing l with
  | zero => exact Later.lrefl l
  | succ n ih =>
    unfold skip_digits
    split
    · exact (later_advance l).ltrans (ih _)
    · exact Later.lrefl l

theorem later_skip_ident (n : Nat) (l : Lexer) : Later l (skip_ident n l) := by
  induction n generalizing l with
  | zero => exact Later.lrefl l
  | succ n ih =>
    unfold skip_ident
    split
    · exact (later_advance l).ltrans (ih _)
    · exact Later.lrefl l

theorem later_set_line (l : Lexer) (a b : Nat) : Later l { l with line := a, col := b } :=
  ⟨rfl, le_refl _⟩

theorem ite_prop {α : Type} (P : α → Prop) {c : Prop} [Decidable c] {a b : α}
    (ha : P a) (hb : P b) : P (if c then a else b) := by
  split <;> assumption

theorem later_string_loop (n : Nat) (l : Lexer) : Later l (string_loop n l) := by
  induction n generalizing l with
  | zero => exact Later.lrefl l
  | succ n ih =>
    unfold string_loop
    split
    · refine Later.ltrans ?_ (ih _)
      refine Later.ltrans ?_ (later_advance _)
      have h1 : Later l (if peek l = 10 then { l with line := (l.line + 1) % U32, col := 0 } else l) :=
        ite_prop (Later l) (later_set_line l _ _) (Later.lrefl l)
      refine Later.ltrans h1 ?_
      exact ite_prop (Later _) (later_advance _) (Later.lrefl _)
    · exact Later.lrefl l

theorem later_skip_whitespace_loop (n : Nat) (l : Lexer) : Later l (skip_whitespace_loop n l) := by
  induction n generalizing l with
  | zero => exact Later.lrefl l
  | succ n ih =>
    unfold skip_whitespace_loop
    simp only
    split
    · exact (later_advance l).ltrans (ih _)
    · split
      · exact ((later_set_line l _ _).ltrans (later_advance _)).ltrans (ih _)
      · split
        · split
          · exact (later_skip_comment _ l).ltrans (ih _)
          · exact Later.lrefl l
        · exact Later.lrefl l

theorem later_token_start (l : Lexer) : Later l (token_start l) :=
  later_skip_whitespace_loop _ l

theorem later_match_char (l : Lexer) (c : Nat) : Later l (match_char l c).2 := by
  unfold match_char
  split
  · exact Later.lrefl l
  · refine ⟨rfl, ?_⟩
    simp only [remaining]
    omega

theorem later_identifier (l : Lexer) : Later l (identifier l).2 := later_skip_ident _ l

theorem later_number_frac (l : Lexer) : Later l (number_frac l).2 := by
  unfold number_frac
  exact ite_prop (fun r => Later l (Prod.snd r))
    ((later_advance l).ltrans (later_skip_digits _ _)) (Later.lrefl l)

theorem later_number_exp (l : Lexer) : Later l (number_exp l).2 := by
  unfold number_exp
  refine ite_prop (fun r => Later l (Prod.snd r)) ?_ (Later.lrefl l)
  refine (later_advance l).ltrans (Later.ltrans ?_ (later_skip_digits _ _))
  exact ite_prop (Later _) (later_advance _) (Later.lrefl _)

theorem number_snd (l : Lexer) :
    (number l).2 = (number_exp (number_frac (skip_digits (remaining l) l)).2).2 := by
  unfold number
  simp only
  split <;> rfl

theorem later_number (l : Lexer) : Later l (number l).2 := by
  rw [number_snd]
  exact (later_skip_digits _ l).ltrans ((later_number_frac _).ltrans (later_number_exp _))

theorem later_string_token (l : Lexer) : Later l (string_token l).2 := by
  unfold string_token
  simp only
  split
  · exact later_string_loop _ l
  · exact (later_string_loop _ l).ltrans (later_advance _)

theorem later_scan_dispatch (c : Nat) (l : Lexer) : Later l (scan_dispatch c l).2 := by
  unfold scan_dispatch
  repeat' (first
    | exact Later.lrefl l
    | exact later_identifier l
    | exact later_number l
    | exact later_string_token l
    | exact later_match_char l _
    | refine ite_prop (fun r => Later l (Prod.snd r)) ?_ ?_)

/-- A call of `scan_token` that does not return `EOF` moves the cursor forward. -/
theorem scan_token_progress (l : Lexer) (h : (scan_token l).1.type ≠ TOK_EOF) :
    (scan_token l).2.source = l.source ∧ remaining (scan_token l).2 < remaining l := by
  unfold scan_token at h ⊢
  simp only at h ⊢
  split at h
  · exact absurd rfl h
  · rename_i hend
    have hp : peek (token_start l) ≠ 0 := by
      simpa [is_at_end] using hend
    rw [if_neg hend]
    have h1 := later_token_start l
    have h2 := later_scan_dispatch (peek (token_start l)) (advance (token_start l))
    have h3 := remaining_advance_lt hp
    refine ⟨?_, ?_⟩
    · rw [h2.1]; exact h1.1
    · exact lt_of_le_of_lt h2.2 (lt_of_lt_of_le h3 h1.2)

theorem scan_token_source (l : Lexer) : (scan_token l).2.source = l.source := by
  unfold scan_token
  simp only
  split
  · exact (later_token_start l).1
  · exact ((later_token_start l).ltrans ((later_advance _).ltrans (later_scan_dispatch _ _))).1

/-! ## The token list -/

theorem Reach.prepend {l l' : Lexer} (h0 : ¬ (scan_token l).1.type.final)
    (h : Reach (scan_token l).2 l') : Reach l l' := by
  induction h with
  | init => exact Reach.step Reach.init h0
  | step _ hn ih => exact Reach.step ih hn

theorem Reach.cases_first {l l' : Lexer} (h : Reach l l') :
    l' = l ∨ (¬ (scan_token l).1.type.final ∧ Reach (scan_token l).2 l') := by
  induction h with
  | init => exact Or.inl rfl
  | step hr hn ih =>
    rcases ih with rfl | ⟨h0, h1⟩
    · exact Or.inr ⟨hn, Reach.init⟩
    · exact Or.inr ⟨h0, Reach.step h1 hn⟩

theorem Reach.same_source {l l' : Lexer} (h : Reach l l') : l'.source = l.source := by
  induction h with
  | init => rfl
  | step _ _ ih => rw [scan_token_source, ih]

/-- What the loop of `lexer_tokenize` returns when given one unit of fuel more than there
are bytes left: the tokens scanned at the reachable states, in order, the last one final. -/
theorem lexer_tokenize_loop_spec (fuel : Nat) (l : Lexer) (acc : List Token)
    (hf : remaining l < fuel) :
    ∃ toks t, lexer_tokenize_loop fuel l acc = some (acc ++ toks ++ [t]) ∧
      t.type.final ∧ (∀ u ∈ toks, ¬ u.type.final) ∧
      (∀ u ∈ toks ++ [t], ∃ l', Reach l l' ∧ u = (scan_token l').1) ∧
      (∀ l', Reach l l' → (scan_token l').1 ∈ toks ++ [t]) := by
  induction fuel generalizing l acc with
  | zero => exact absurd hf (Nat.not_lt_zero _)
  | succ fuel ih =>
    unfold lexer_tokenize_loop
    simp only
    by_cases hfin : (scan_token l).1.type.final
    · refine ⟨[], (scan_token l).1, ?_, hfin, ?_, ?_, ?_⟩
      · rw [if_pos (show _ ∨ _ from hfin)]; simp
      · intro u hu; cases hu
      · intro u hu
        simp only [List.nil_append, List.mem_singleton] at hu
        exact ⟨l, Reach.init, hu⟩
      · intro l' hr
        rcases hr.cases_first with rfl | ⟨h0, _⟩
        · simp
        · exact absurd hfin h0
    · rw [if_neg (show ¬ (_ ∨ _) from hfin)]
      have hne : (scan_token l).1.type ≠ TOK_EOF := fun h => hfin (Or.inl h)
      have hp := scan_token_progress l hne
      obtain ⟨toks, t, h1, h2, h3, h4, h5⟩ :=
        ih (scan_token l).2 (acc ++ [(scan_token l).1]) (by omega)
      refine ⟨(scan_token l).1 :: toks, t, ?_, h2, ?_, ?_, ?_⟩
      · rw [h1]; simp
      · intro u hu
        rcases List.mem_cons.mp hu with rfl | hu
        · exact hfin
        · exact h3 u hu
      · intro u hu
        rw [List.cons_append] at hu
        rcases List.mem_cons.mp hu with rfl | hu
        · exact ⟨l, Reach.init, rfl⟩
        · obtain ⟨l', hr, he⟩ := h4 u hu
          exact ⟨l', Reach.prepend hfin hr, he⟩
      · intro l' hr
        rw [List.cons_append]
        rcases hr.cases_first with rfl | ⟨_, h1'⟩
        · exact List.mem_cons_self _ _
        · exact List.mem_cons_of_mem _ (h5 l' h1')

/-- C1: for every source, `lexer_tokenize` returns a token list, the list is not empty, its
last token has kind `EOF` or `ERROR`, and no earlier token has kind `EOF` or `ERROR`. -/
theorem lexer_tokenize_ends_in_one_final_token (src : List Nat) :
    ∃ toks t, lex src = some (toks ++ [t]) ∧
      (t.type = TOK_EOF ∨ t.type = TOK_ERROR) ∧
      ∀ u ∈ toks, u.type ≠ TOK_EOF ∧ u.type ≠ TOK_ERROR := by
  obtain ⟨toks, t, h1, h2, h3, _, _⟩ :=
    lexer_tokenize_loop_spec (remaining (lexer_init src) + 1) (lexer_init src) []
      (Nat.lt_succ_self _)
  refine ⟨toks, t, ?_, h2, ?_⟩
  · simpa [lex, lexer_tokenize] using h1
  · intro u hu
    have := h3 u hu
    exact ⟨fun h => this (Or.inl h), fun h => this (Or.inr h)⟩

/-! ## Error tokens -/

theorem peek_eq_view (l : Lexer) : peek l = (view l).headD 0 := by
  unfold peek byteAt view
  rw [List.getD_eq_getElem?_getD]
  cases h : l.source.drop l.current with
  | nil =>
    have : l.source.length ≤ l.current := by simpa using h
    simp [List.getElem?_eq_none this]
  | cons a t =>
    have h1 : (l.source.drop l.current)[0]? = some a := by rw [h]; simp
    rw [List.getElem?_drop] at h1
    simp at h1
    simp [h1]

theorem view_advance (l : Lexer) : view (advance l) = (view l).tail := by
  unfold view advance
  simp [List.tail_drop]

theorem byteAt_succ_eq_view (l : Lexer) :
    byteAt l.source (l.current + 1) = (view l).tail.headD 0 := by
  have := peek_eq_view (advance l)
  rw [view_advance] at this
  exact this

theorem remaining_eq_view (l : Lexer) : remaining l = (view l).length := by
  simp [remaining, view]

theorem identifier_type_exact_word (src : List Nat) (start len : Nat) :
    ∀ t, identifier_type_exact src start len = some t → word_type t = true := by
  unfold identifier_type_exact
  repeat' (first
    | (intro t h; cases h; rfl)
    | (intro t h; cases h)
    | refine ite_prop (fun r => ∀ t, r = some t → word_type t = true) ?_ ?_)

theorem identifier_type_word (l : Lexer) : word_type (identifier_type l) = true := by
  unfold identifier_type
  simp only
  split
  · rename_i t h
    exact identifier_type_exact_word _ _ _ t h
  · unfold check_keyword
    repeat' (first | rfl | refine ite_prop (fun r => word_type r = true) ?_ ?_)

theorem identifier_word (l : Lexer) : word_type (identifier l).1.type = true :=
  identifier_type_word _

theorem number_type (l : Lexer) :
    (number l).1.type = TOK_INT ∨ (number l).1.type = TOK_FLOAT := by
  unfold number
  simp only
  split
  · right
    rename_i h
    simp only [make_token, if_pos h]
  · left
    rename_i h
    simp only [make_token, if_neg h]

theorem match_char_fst (l : Lexer) (c : Nat) (hc : c ≠ 0) :
    (match_char l c).1 = decide (peek l = c) := by
  unfold match_char is_at_end
  by_cases h : peek l = c
  · have h0 : peek l ≠ 0 := by rw [h]; exact hc
    simp [h, hc]
  · simp [h]

theorem string_token_type (l : Lexer) :
    (string_token l).1.type =
      if is_at_end (string_loop (remaining l) l) then TOK_ERROR else TOK_STRING := by
  unfold string_token
  simp only
  split <;> rfl

theorem scan_dispatch_other (c : Nat) (l : Lexer) (h : starts_token c = false) :
    scan_dispatch c l = (error_token l, l) := by
  unfold starts_token at h
  simp only [Bool.or_eq_false_iff, List.contains_eq_any_beq, List.any_cons, List.any_nil,
    Bool.or_false, beq_eq_false_iff_ne, ne_eq] at h
  obtain ⟨⟨⟨⟨ha, hu⟩, hd⟩, hq⟩, hr⟩ := h
  unfold scan_dispatch
  simp only [ha, hd, hq, hr, beq_eq_false_iff_ne.mpr hu, Bool.or_false, if_false,
    Bool.false_eq_true]

theorem scan_dispatch_error (c : Nat) (l : Lexer) :
    (scan_dispatch c l).1.type = TOK_ERROR ↔
      (starts_token c = false ∨ (c = 46 ∧ peek l ≠ 46) ∨
        (c = 34 ∧ is_at_end (string_loop (remaining l) l) = true)) := by
  by_cases hs : starts_token c = false
  · rw [scan_dispatch_other c l hs]
    exact ⟨fun _ => Or.inl hs, fun _ => rfl⟩
  have hs' : starts_token c = true := by simpa using hs
  have key : (scan_dispatch c l).1.type = TOK_ERROR ↔
      ((c = 46 ∧ peek l ≠ 46) ∨ (c = 34 ∧ is_at_end (string_loop (remaining l) l) = true)) := by
    unfold starts_token at hs'
    simp only [Bool.or_eq_true, List.contains_eq_any_beq, List.any_cons, List.any_nil,
      Bool.or_false, beq_iff_eq] at hs'
    rcases hs' with (((h1 | h1) | h1) | h1) | h1
    · have e : scan_dispatch c l = identifier l := by
        unfold scan_dispatch; simp [h1]
      have hw := identifier_word l
      rw [e]
      constructor
      · intro h; rw [h] at hw; exact absurd hw (by decide)
      · rintro (⟨rfl, _⟩ | ⟨rfl, _⟩) <;> exact absurd h1 (by decide)
    · subst h1
      have e : scan_dispatch 95 l = identifier l := rfl
      have hw := identifier_word l
      rw [e]
      constructor
      · intro h; rw [h] at hw; exact absurd hw (by decide)
      · rintro (⟨h, _⟩ | ⟨h, _⟩) <;> exact absurd h (by decide)
    · have hna : isalpha c = false := by
        unfold isdigit at h1; unfold isalpha
        simp only [Bool.and_eq_true, decide_eq_true_eq] at h1
        simp only [Bool.or_eq_false_iff, Bool.and_eq_false_iff, decide_eq_false_iff_not]
        omega
      have hnu : (c == 95) = false := by
        unfold isdigit at h1
        simp only [Bool.and_eq_true, decide_eq_true_eq] at h1
        simp only [beq_eq_false_iff_ne]
        omega
      have e : scan_dispatch c l = number l := by
        unfold scan_dispatch; simp [h1, hna, hnu]
      rw [e]
      constructor
      · intro h
        rcases number_type l with h' | h' <;> rw [h'] at h <;> cases h
      · rintro (⟨rfl, _⟩ | ⟨rfl, _⟩) <;> exact absurd h1 (by decide)
    · subst h1
      have e : scan_dispatch 34 l = string_token l := rfl
      rw [e, string_token_type]
      simp
    · rcases h1 with rfl | rfl | rfl | rfl | rfl | rfl | rfl | rfl | rfl | rfl | rfl | rfl | rfl |
        rfl | rfl | rfl | rfl | rfl | rfl | rfl | rfl | rfl | rfl | rfl | rfl
      all_goals
        simp only [scan_dispatch, isalpha, isdigit, make_token]
        simp [match_char_fst l 62 (by decide), match_char_fst l 46 (by decide),
          match_char_fst l 61 (by decide), match_char_fst l 60 (by decide),
          match_char_fst l 38 (by decide), match_char_fst l 124 (by decide)] <;>
        (split_ifs <;> simp)
  rw [key]
  simp [hs']

theorem peek_next_eq_view (l : Lexer) :
    peek_next l = if peek l = 0 then 0 else (view l).tail.headD 0 := by
  unfold peek_next is_at_end
  rw [byteAt_succ_eq_view]
  by_cases h : peek l = 0 <;> simp [h]

theorem peek_of_view_nil {l : Lexer} (h : view l = []) : peek l = 0 := by
  rw [peek_eq_view, h]; rfl

theorem peek_of_view_cons {l : Lexer} {b : Nat} {rest : List Nat} (h : view l = b :: rest) :
    peek l = b := by
  rw [peek_eq_view, h]; rfl

theorem view_advance_of_cons {l : Lexer} {b : Nat} {rest : List Nat} (h : view l = b :: rest) :
    view (advance l) = rest := by
  rw [view_advance, h]; rfl

theorem string_closes_cons (b : Nat) (rest : List Nat) :
    string_closes (b :: rest) =
      if b = 34 then true
      else if b = 0 then false
      else if b = 92 then
        match rest with
        | [] => false
        | x :: rest' => if x = 0 then false else string_closes rest'
      else string_closes rest := by
  cases rest with
  | nil =>
    by_cases h : b = 34
    · simp [string_closes, h]
    · by_cases h0 : b = 0 <;> simp [string_closes, h, h0]
  | cons x r => simp [string_closes]

theorem string_closes_of_head_zero (rest : List Nat) (h : rest.headD 0 = 0) :
    string_closes rest = false := by
  cases rest with
  | nil => rfl
  | cons x r =>
    simp only [List.headD_cons] at h
    subst h
    rw [string_closes_cons]; rfl

/-- The loop of `string` stops at the end of the buffer exactly when the string does not close. -/
theorem string_loop_at_end (n : Nat) (l : Lexer) (hn : remaining l ≤ n) :
    is_at_end (string_loop n l) = !string_closes (view l) := by
  induction n generalizing l with
  | zero =>
    have hv : view l = [] := by
      rw [remaining_eq_view] at hn
      exact List.length_eq_zero.mp (Nat.le_zero.mp hn)
    simp [string_loop, is_at_end, peek_of_view_nil hv, hv, string_closes]
  | succ n ih =>
    cases hv : view l with
    | nil =>
      simp [string_loop, is_at_end, peek_of_view_nil hv, string_closes]
    | cons b rest =>
      have hp := peek_of_view_cons hv
      have hlen : rest.length ≤ n := by
        rw [remaining_eq_view, hv] at hn
        simpa using hn
      unfold string_loop
      by_cases h34 : b = 34
      · subst h34
        simp [hp, is_at_end, string_closes_cons]
      by_cases h0 : b = 0
      · subst h0
        simp [hp, is_at_end, string_closes_cons]
      have hc : (peek l != 34 && !is_at_end l) = true := by
        simp [is_at_end, hp, h34, h0]
      rw [if_pos hc]
      dsimp only
      -- the line bookkeeping does not move the cursor
      set l1 := (if peek l = 10 then { l with line := (l.line + 1) % U32, col := 0 } else l) with hl1
      have hv1 : view l1 = b :: rest := by
        rw [hl1]; split <;> exact hv
      have hp1 := peek_of_view_cons hv1
      have hpn1 : peek_next l1 = rest.headD 0 := by
        rw [peek_next_eq_view, hp1, if_neg h0, hv1]; rfl
      by_cases h92 : b = 92
      · subst h92
        cases rest with
        | nil =>
          have hcond : ¬ (peek l1 = 92 ∧ peek_next l1 ≠ 0) := by
            rw [hpn1]; simp
          rw [if_neg hcond, ih _ (by rw [remaining_eq_view, view_advance_of_cons hv1]; exact hlen),
            view_advance_of_cons hv1]
          simp [string_closes_cons, string_closes]
        | cons x rest' =>
          by_cases hx : x = 0
          · subst hx
            have hcond : ¬ (peek l1 = 92 ∧ peek_next l1 ≠ 0) := by
              rw [hpn1]; simp
            rw [if_neg hcond,
              ih _ (by rw [remaining_eq_view, view_advance_of_cons hv1]; exact hlen),
              view_advance_of_cons hv1]
            simp [string_closes_cons, string_closes]
          · have hcond : peek l1 = 92 ∧ peek_next l1 ≠ 0 := by
              rw [hpn1]; exact ⟨hp1, by simpa using hx⟩
            have hv2 : view (advance (advance l1)) = rest' :=
              view_advance_of_cons (view_advance_of_cons hv1)
            rw [if_pos hcond, ih _ (by
              rw [remaining_eq_view, hv2]
              simp only [List.length_cons] at hlen; omega), hv2]
            simp [string_closes_cons, hx]
      · have hcond : ¬ (peek l1 = 92 ∧ peek_next l1 ≠ 0) := by
          rw [hp1]; simp [h92]
        rw [if_neg hcond, ih _ (by rw [remaining_eq_view, view_advance_of_cons hv1]; exact hlen),
          view_advance_of_cons hv1]
        simp [string_closes_cons, h34, h0, h92]

/-- A call of `scan_token` returns `ERROR` exactly at an error site. -/
theorem scan_token_error_iff (l : Lexer) :
    (scan_token l).1.type = TOK_ERROR ↔ ErrorSite (token_start l) := by
  unfold scan_token ErrorSite
  simp only
  by_cases hend : is_at_end (token_start l) = true
  · rw [if_pos hend]
    have hp : peek (token_start l) = 0 := by simpa [is_at_end] using hend
    constructor
    · intro h; cases h
    · rintro ⟨h, _⟩; exact absurd hp h
  · rw [if_neg hend]
    have hp : peek (token_start l) ≠ 0 := by simpa [is_at_end] using hend
    rw [scan_dispatch_error, string_loop_at_end _ _ (le_refl _)]
    have hv : view (advance (token_start l)) =
        (token_start l).source.drop ((token_start l).current + 1) := rfl
    have hpk : peek (advance (token_start l)) =
        byteAt (token_start l).source ((token_start l).current + 1) := rfl
    rw [hv, hpk]
    simp [hp]

/-- C2: the token list ends in `ERROR` exactly when a token start reached by the scan is an
error site (a byte that begins no token, a point not followed by a point, or a double quote
whose string does not close before the end of input); no token before the last is `ERROR`,
so the list holds an `ERROR` token if and only if its last token is `ERROR`. -/
theorem lexer_error_iff_error_site (src : List Nat) :
    ∃ toks t, lex src = some (toks ++ [t]) ∧
      (t.type = TOK_ERROR ∨ t.type = TOK_EOF) ∧
      (t.type = TOK_ERROR ↔
        ∃ l, Reach (lexer_init src) l ∧ ErrorSite (token_start l)) ∧
      (∀ u ∈ toks, u.type ≠ TOK_ERROR) ∧
      ((∃ u ∈ toks ++ [t], u.type = TOK_ERROR) ↔ t.type = TOK_ERROR) := by
  obtain ⟨toks, t, h1, h2, h3, h4, h5⟩ :=
    lexer_tokenize_loop_spec (remaining (lexer_init src) + 1) (lexer_init src) []
      (Nat.lt_succ_self _)
  have hne : ∀ u ∈ toks, u.type ≠ TOK_ERROR := fun u hu h => h3 u hu (Or.inr h)
  refine ⟨toks, t, ?_, h2.symm, ⟨?_, ?_⟩, hne, ⟨?_, ?_⟩⟩
  · simpa [lex, lexer_tokenize] using h1
  · intro ht
    obtain ⟨l, hr, he⟩ := h4 t (List.mem_append_right _ (List.mem_singleton_self t))
    exact ⟨l, hr, (scan_token_error_iff l).mp (he ▸ ht)⟩
  · rintro ⟨l, hr, hs⟩
    have herr := (scan_token_error_iff l).mpr hs
    rcases List.mem_append.mp (h5 l hr) with hm | hm
    · exact absurd herr (hne _ hm)
    · rw [List.mem_singleton] at hm
      rw [← hm]; exact herr
  · rintro ⟨u, hu, hue⟩
    rcases List.mem_append.mp hu with hm | hm
    · exact absurd hue (hne u hm)
    · rw [List.mem_singleton] at hm
      rw [← hm]; exact hue
  · intro ht
    exact ⟨t, List.mem_append_right _ (List.mem_singleton_self t), ht⟩

/-! ## Identifiers and keywords -/

theorem skip_ident_run (run : List Nat) : ∀ (n : Nat) (l : Lexer) (rest : List Nat),
    view l = run ++ rest → (∀ x ∈ run, is_word_char x = true) →
    is_word_char (rest.headD 0) = false → remaining l ≤ n →
    (skip_ident n l).source = l.source ∧ (skip_ident n l).current = l.current + run.length ∧
      (skip_ident n l).start = l.start ∧ (skip_ident n l).line = l.line := by
  induction run with
  | nil =>
    intro n l rest hv _ hmax _
    have hp : (isalnum (peek l) || peek l == 95) = false := by
      rw [peek_eq_view, hv]; exact hmax
    cases n with
    | zero => simp [skip_ident]
    | succ n => simp [skip_ident, hp]
  | cons x run ih =>
    intro n l rest hv hrun hmax hn
    have hp : (isalnum (peek l) || peek l == 95) = true := by
      rw [peek_of_view_cons hv]; exact hrun x (List.mem_cons_self _ _)
    have hva : view (advance l) = run ++ rest := view_advance_of_cons hv
    cases n with
    | zero =>
      rw [remaining_eq_view, hv] at hn
      simp at hn
    | succ n =>
      have hn' : remaining (advance l) ≤ n := by
        rw [remaining_eq_view, hv] at hn
        rw [remaining_eq_view, hva]
        simp only [List.cons_append, List.length_cons] at hn
        omega
      obtain ⟨h1, h2, h3, h4⟩ := ih n (advance l) rest hva
        (fun y hy => hrun y (List.mem_cons_of_mem _ hy)) hmax hn'
      unfold skip_ident
      rw [if_pos hp]
      refine ⟨h1, ?_, h3, h4⟩
      rw [h2]
      simp only [advance, List.length_cons]
      omega

theorem byteAt_eq_drop (src : List Nat) (i : Nat) : byteAt src i = (src.drop i).headD 0 :=
  peek_eq_view ⟨src, i, 0, 0, 0⟩

theorem identifier_type_keyword (l : Lexer) (rest : List Nat) :
    ∀ kw ∈ keyword_table, l.source.drop l.start = kw.1 ++ rest →
      l.current = l.start + kw.1.length → identifier_type l = kw.2 := by
  intro kw hkw
  simp only [keyword_table, List.mem_cons, List.mem_singleton, List.not_mem_nil, or_false] at hkw
  rcases hkw with h | h | h | h | h | h | h | h | h | h | h | h | h | h | h | h | h | h | h | h
  all_goals
    subst h
    intro hd hc
    simp [identifier_type, identifier_type_exact, check_keyword, memcmp_eq, byteAt_eq_drop,
      ← List.tail_drop, hd, hc]

theorem identifier_type_other (l : Lexer) (run rest : List Nat)
    (hd : l.source.drop l.start = run ++ rest) (hc : l.current = l.start + run.length)
    (hnk : run ∉ keyword_table.map Prod.fst) : identifier_type l = TOK_IDENT := by
  simp only [keyword_table, List.map_cons, List.map_nil, List.mem_cons, List.mem_singleton,
    List.not_mem_nil, or_false, not_or] at hnk
  rcases run with _ | ⟨a, _ | ⟨b, _ | ⟨c, _ | ⟨d, _ | ⟨e, _ | ⟨f, _ | ⟨g, more⟩⟩⟩⟩⟩⟩⟩
  all_goals
    simp [identifier_type, identifier_type_exact, check_keyword, memcmp_eq, byteAt_eq_drop,
      ← List.tail_drop, hd, hc] at hnk ⊢
  all_goals first
    | done
    | (simp only [← not_and] at hnk
       simp [hnk]
       done)
    | (intros
       split_ifs <;> simp_all
       done)
    | (intros
       simp_all
       done)

/-- At a byte that is neither a blank nor the start of a comment, `skip_whitespace` does nothing. -/
theorem skip_whitespace_noop (l : Lexer)
    (h : peek l ≠ 32 ∧ peek l ≠ 9 ∧ peek l ≠ 13 ∧ peek l ≠ 10 ∧
      (peek l = 47 → peek_next l ≠ 47)) : skip_whitespace l = l := by
  obtain ⟨h1, h2, h3, h4, h5⟩ := h
  unfold skip_whitespace
  cases remaining l with
  | zero => rfl
  | succ n =>
    unfold skip_whitespace_loop
    simp only [h1, h2, h3, h4, or_self, if_false]
    by_cases h47 : peek l = 47
    · simp [h47, h5 h47]
    · simp [h47]

theorem word_start_ne {c : Nat} (hc : (isalpha c || c == 95) = true) :
    c ≠ 0 ∧ c ≠ 32 ∧ c ≠ 9 ∧ c ≠ 13 ∧ c ≠ 10 ∧ c ≠ 47 := by
  unfold isalpha at hc
  simp only [Bool.or_eq_true, Bool.and_eq_true, decide_eq_true_eq, beq_iff_eq] at hc
  omega

theorem keyword_table_kinds : ∀ kw ∈ keyword_table, kw.2 ≠ TOK_IDENT := by decide

/-- C3: a maximal run `c :: cs` of identifier bytes at the cursor is scanned as one token
whose text is the run; its kind is the keyword kind of the table when the run is one of the
twenty keywords, each keyword having its own kind, and `IDENT` for every other run. -/
theorem identifier_keyword_iff (l : Lexer) (c : Nat) (cs rest : List Nat)
    (hv : l.source.drop l.current = c :: cs ++ rest)
    (hc : (isalpha c || c == 95) = true)
    (hcs : ∀ x ∈ cs, is_word_char x = true)
    (hmax : is_word_char (rest.headD 0) = false) :
    Token.text l.source (scan_token l).1 = c :: cs ∧
    (scan_token l).1.start = l.current ∧
    (scan_token l).2.current = l.current + (c :: cs).length ∧
    (∀ kw ∈ keyword_table, c :: cs = kw.1 → (scan_token l).1.type = kw.2) ∧
    ((scan_token l).1.type ≠ TOK_IDENT ↔ c :: cs ∈ keyword_table.map Prod.fst) ∧
    (keyword_table.map Prod.snd).Nodup := by
  have hv' : view l = c :: (cs ++ rest) := hv
  have hp : peek l = c := peek_of_view_cons hv'
  obtain ⟨c0, c32, c9, c13, c10, c47⟩ := word_start_ne hc
  have hws : skip_whitespace l = l :=
    skip_whitespace_noop l (by rw [hp]; exact ⟨c32, c9, c13, c10, fun h => absurd h c47⟩)
  have hts : token_start l = { l with start := l.current } := by
    unfold token_start; rw [hws]
  have hps : peek (token_start l) = c := by rw [hts]; exact hp
  have hscan : scan_token l = identifier (advance (token_start l)) := by
    unfold scan_token
    have hne : is_at_end (token_start l) = false := by
      simp [is_at_end, hps, c0]
    simp only [hne, hps, Bool.false_eq_true, if_false]
    unfold scan_dispatch
    rw [if_pos hc]
  have hva : view (advance (token_start l)) = cs ++ rest := by
    rw [hts]; exact view_advance_of_cons hv'
  obtain ⟨h1, h2, h3, _⟩ := skip_ident_run cs (remaining (advance (token_start l)))
    (advance (token_start l)) rest hva hcs hmax (le_refl _)
  have hsrc : (identifier (advance (token_start l))).2.source = l.source := by
    unfold identifier; simp only; rw [h1, hts]; rfl
  have hcur : (identifier (advance (token_start l))).2.current = l.current + (cs.length + 1) := by
    unfold identifier; simp only; rw [h2, hts]; simp only [advance]; omega
  have hst : (identifier (advance (token_start l))).2.start = l.current := by
    unfold identifier; simp only; rw [h3, hts]; rfl
  have htype : (identifier (advance (token_start l))).1.type =
      identifier_type (identifier (advance (token_start l))).2 := rfl
  have hstart : (identifier (advance (token_start l))).1.start = l.current := hst
  have hlen : (identifier (advance (token_start l))).1.length = cs.length + 1 := by
    show (identifier (advance (token_start l))).2.current -
      (identifier (advance (token_start l))).2.start = cs.length + 1
    rw [hcur, hst]; omega
  have hdrop : (identifier (advance (token_start l))).2.source.drop
      (identifier (advance (token_start l))).2.start = (c :: cs) ++ rest := by
    rw [hsrc, hst]; exact hv
  have hcur' : (identifier (advance (token_start l))).2.current =
      (identifier (advance (token_start l))).2.start + (c :: cs).length := by
    rw [hcur, hst]; rfl
  have hkw : ∀ kw ∈ keyword_table, c :: cs = kw.1 →
      (identifier (advance (token_start l))).1.type = kw.2 := by
    intro kw hmem he
    rw [htype]
    exact identifier_type_keyword _ rest kw hmem (he ▸ hdrop) (he ▸ hcur')
  rw [hscan]
  refine ⟨?_, hstart, ?_, hkw, ⟨?_, ?_⟩, by decide⟩
  · unfold Token.text
    rw [hstart, hlen, hv]
    simp [List.take_append_eq_append_take]
  · rw [hcur]; rfl
  · intro hne
    by_contra hnot
    exact hne (htype ▸ identifier_type_other _ (c :: cs) rest hdrop hcur' hnot)
  · intro hmem
    obtain ⟨kw, hk, he⟩ := List.mem_map.mp hmem
    rw [hkw kw hk he.symm]
    exact keyword_table_kinds kw hk

theorem identifier_keyword_iff_witness :
    (scan_token (lexer_init [108, 101, 116, 32, 120])).1.type = TOK_LET ∧
    (scan_token ((scan_token (lexer_init [108, 101, 116, 32, 120])).2)).1.type = TOK_IDENT :=
  ⟨(identifier_keyword_iff (lexer_init [108, 101, 116, 32, 120]) 108 [101, 116] [32, 120]
      rfl (by decide) (by decide) (by decide)).2.2.2.1 ([108, 101, 116], TOK_LET)
      (by decide) rfl,
   by decide⟩

/-! ## Maximal munch, comments, positions -/

theorem scan_token_at (l : Lexer) (c : Nat) (hp : peek l = c)
    (hc : c ≠ 0 ∧ c ≠ 32 ∧ c ≠ 9 ∧ c ≠ 13 ∧ c ≠ 10 ∧ (c = 47 → peek_next l ≠ 47)) :
    scan_token l = scan_dispatch c (advance { l with start := l.current }) := by
  obtain ⟨c0, c32, c9, c13, c10, c47⟩ := hc
  have hws : skip_whitespace l = l :=
    skip_whitespace_noop l (by rw [hp]; exact ⟨c32, c9, c13, c10, c47⟩)
  have hts : token_start l = { l with start := l.current } := by
    unfold token_start; rw [hws]
  have hps : peek (token_start l) = c := by rw [hts]; exact hp
  unfold scan_token
  have hne : is_at_end (token_start l) = false := by
    simp [is_at_end, hps, c0]
  simp only [hne, hps, Bool.false_eq_true, if_false]
  rw [hts]

theorem two_char_munch (l : Lexer) (rest : List Nat) :
    ∀ op ∈ two_char_ops, view l = op.1 :: op.2.1 :: rest →
      (scan_token l).1.type = op.2.2 ∧ (scan_token l).1.start = l.current ∧
      (scan_token l).1.length = 2 ∧ (scan_token l).2.current = l.current + 2 := by
  intro op hop hv
  have hp := peek_of_view_cons hv
  have hp2 : peek (advance { l with start := l.current }) = op.2.1 :=
    peek_of_view_cons (view_advance_of_cons (l := { l with start := l.current }) hv)
  simp only [two_char_ops, List.mem_cons, List.mem_singleton, List.not_mem_nil, or_false] at hop
  rcases hop with h | h | h | h | h | h | h | h | h | h
  all_goals
    subst h
    rw [scan_token_at l _ hp ⟨by decide, by decide, by decide, by decide, by decide,
      fun h => absurd h (by decide)⟩]
    simp at hp2
    simp [scan_dispatch, isalpha, isdigit, match_char, is_at_end, hp2, make_token]
    simp [advance]
    omega

theorem one_char_munch (l : Lexer) (rest : List Nat) :
    ∀ op ∈ one_char_ops, view l = op.1 :: rest → rest.headD 0 ∉ op.2.2 →
      (scan_token l).1.type = op.2.1 ∧ (scan_token l).1.start = l.current ∧
      (scan_token l).1.length = 1 ∧ (scan_token l).2.current = l.current + 1 := by
  intro op hop hv hnext
  have hp := peek_of_view_cons hv
  have hp2 : peek (advance { l with start := l.current }) = rest.headD 0 := by
    rw [peek_eq_view, view_advance_of_cons (l := { l with start := l.current }) hv]
  simp only [one_char_ops, List.mem_cons, List.mem_singleton, List.not_mem_nil, or_false] at hop
  rcases hop with h | h | h | h | h | h | h
  all_goals
    subst h
    rw [scan_token_at l _ hp ⟨by decide, by decide, by decide, by decide, by decide,
      fun h => absurd h (by decide)⟩]
    simp at hnext
    simp [scan_dispatch, isalpha, isdigit, match_char, is_at_end, hp2, hnext, make_token]
    simp [advance]

theorem slash_alone (l : Lexer) (rest : List Nat) (hv : view l = 47 :: rest)
    (hnext : rest.headD 0 ≠ 47) :
    (scan_token l).1.type = TOK_SLASH ∧ (scan_token l).1.start = l.current ∧
      (scan_token l).1.length = 1 ∧ (scan_token l).2.current = l.current + 1 := by
  have hp := peek_of_view_cons hv
  have hpn : peek_next l ≠ 47 := by
    rw [peek_next_eq_view, hp, hv]; simpa using hnext
  rw [scan_token_at l _ hp ⟨by decide, by decide, by decide, by decide, by decide,
    fun _ => hpn⟩]
  simp [scan_dispatch, isalpha, isdigit, make_token]
  simp [advance]

theorem peek_eq_zero_of_remaining {l : Lexer} (h : remaining l = 0) : peek l = 0 := by
  by_contra hp
  have := lt_of_peek_ne_zero hp
  unfold remaining at h
  omega

theorem skip_comment_lt (l : Lexer) (h10 : peek l ≠ 10) (h0 : peek l ≠ 0) :
    remaining (skip_comment (remaining l) l) < remaining l := by
  have hlt := remaining_advance_lt h0
  cases hr : remaining l with
  | zero => rw [hr] at hlt; exact absurd hlt (Nat.not_lt_zero _)
  | succ k =>
    unfold skip_comment
    have hc : (peek l != 10 && !is_at_end l) = true := by
      simp [is_at_end, h10, h0]
    rw [if_pos hc]
    have := (later_skip_comment k (advance l)).2
    omega

/-- The loop of `skip_whitespace` gives the same state on every fuel that covers the bytes left. -/
theorem skip_whitespace_loop_fuel (n : Nat) : ∀ (m : Nat) (l : Lexer),
    remaining l ≤ n → remaining l ≤ m →
    skip_whitespace_loop n l = skip_whitespace_loop m l := by
  have hzero : ∀ (k : Nat) (l : Lexer), remaining l = 0 → skip_whitespace_loop k l = l := by
    intro k l h
    have hp := peek_eq_zero_of_remaining h
    cases k with
    | zero => rfl
    | succ k => unfold skip_whitespace_loop; simp [hp]
  induction n with
  | zero =>
    intro m l hn _
    rw [hzero 0 l (Nat.le_zero.mp hn), hzero m l (Nat.le_zero.mp hn)]
  | succ n ih =>
    intro m l hn hm
    cases m with
    | zero => rw [hzero _ l (Nat.le_zero.mp hm), hzero 0 l (Nat.le_zero.mp hm)]
    | succ m =>
      unfold skip_whitespace_loop
      simp only
      by_cases hb : peek l = 32 ∨ peek l = 9 ∨ peek l = 13
      · have h0 : peek l ≠ 0 := by omega
        have hlt := remaining_advance_lt h0
        rw [if_pos hb, if_pos hb]
        exact ih m _ (by omega) (by omega)
      rw [if_neg hb, if_neg hb]
      by_cases h10 : peek l = 10
      · have h0 : peek l ≠ 0 := by omega
        have hlt : remaining (advance { l with line := (l.line + 1) % U32, col := 0 })
            < remaining l := remaining_advance_lt (l := { l with line := (l.line + 1) % U32, col := 0 }) h0
        rw [if_pos h10, if_pos h10]
        exact ih m _ (by omega) (by omega)
      rw [if_neg h10, if_neg h10]
      by_cases h47 : peek l = 47
      · rw [if_pos h47, if_pos h47]
        by_cases hn47 : peek_next l = 47
        · have hlt := skip_comment_lt l (by omega) (by omega)
          rw [if_pos hn47, if_pos hn47]
          exact ih m _ (by omega) (by omega)
        · rw [if_neg hn47, if_neg hn47]
      · rw [if_neg h47, if_neg h47]

theorem skip_comment_run (run : List Nat) : ∀ (n : Nat) (l : Lexer) (rest : List Nat),
    view l = run ++ rest → (∀ x ∈ run, x ≠ 10 ∧ x ≠ 0) →
    (rest.headD 0 = 10 ∨ rest.headD 0 = 0) → remaining l ≤ n →
    (skip_comment n l).source = l.source ∧ (skip_comment n l).current = l.current + run.length ∧
      (skip_comment n l).start = l.start ∧ (skip_comment n l).line = l.line := by
  induction run with
  | nil =>
    intro n l rest hv _ hmax _
    have hp : (peek l != 10 && !is_at_end l) = false := by
      unfold is_at_end
      rw [peek_eq_view, hv, List.nil_append]
      rcases hmax with h | h <;> rw [h] <;> rfl
    cases n with
    | zero => simp [skip_comment]
    | succ n => simp only [skip_comment, hp]; simp
  | cons x run ih =>
    intro n l rest hv hrun hmax hn
    have hx := hrun x (List.mem_cons_self _ _)
    have hp : (peek l != 10 && !is_at_end l) = true := by
      unfold is_at_end
      rw [peek_of_view_cons hv]; simp [hx.1, hx.2]
    have hva : view (advance l) = run ++ rest := view_advance_of_cons hv
    cases n with
    | zero =>
      rw [remaining_eq_view, hv] at hn
      simp at hn
    | succ n =>
      have hn' : remaining (advance l) ≤ n := by
        rw [remaining_eq_view, hv] at hn
        rw [remaining_eq_view, hva]
        simp only [List.cons_append, List.length_cons] at hn
        omega
      obtain ⟨h1, h2, h3, h4⟩ := ih n (advance l) rest hva
        (fun y hy => hrun y (List.mem_cons_of_mem _ hy)) hmax hn'
      unfold skip_comment
      rw [if_pos hp]
      refine ⟨h1, ?_, h3, h4⟩
      rw [h2]
      simp only [advance, List.length_cons]
      omega

theorem slash_slash_comment (l : Lexer) (rest : List Nat) (hv : view l = 47 :: 47 :: rest) :
    scan_token l = scan_token (skip_comment (remaining l) l) ∧
    (skip_comment (remaining l) l).source = l.source ∧
    (skip_comment (remaining l) l).current = l.current + 2 + (comment_body rest).length ∧
    (skip_comment (remaining l) l).line = l.line := by
  have hp := peek_of_view_cons hv
  have hpn : peek_next l = 47 := by
    rw [peek_next_eq_view, hp, hv]; rfl
  have hrun := skip_comment_run (47 :: 47 :: comment_body rest) (remaining l) l
    (rest.dropWhile (fun b => b != 10 && b != 0))
    (by
      rw [hv]
      simp only [List.cons_append, comment_body, List.takeWhile_append_dropWhile])
    (by
      intro x hx
      simp only [List.mem_cons] at hx
      rcases hx with rfl | rfl | hx
      · decide
      · decide
      · have := List.mem_takeWhile_imp hx
        simpa using this)
    (by
      cases hd : rest.dropWhile (fun b => b != 10 && b != 0) with
      | nil => right; rfl
      | cons y ys =>
        have := List.head_dropWhile_not (fun b => b != 10 && b != 0) rest
          (by rw [hd]; simp)
        simp only [hd, List.head_cons] at this
        simp only [List.headD_cons]
        simp at this
        by_cases h10 : y = 10
        · exact Or.inl h10
        · exact Or.inr (this h10))
    (le_refl _)
  obtain ⟨h1, h2, _, h4⟩ := hrun
  refine ⟨?_, h1, ?_, h4⟩
  · have hlt := skip_comment_lt l (by rw [hp]; decide) (by rw [hp]; decide)
    have hsw : skip_whitespace l = skip_whitespace (skip_comment (remaining l) l) := by
      unfold skip_whitespace
      cases hr : remaining l with
      | zero => rw [hr] at hlt; exact absurd hlt (Nat.not_lt_zero _)
      | succ k =>
        rw [← hr]
        conv_lhs => rw [hr]; unfold skip_whitespace_loop
        simp only [hp, hpn]
        simp only [show ¬ ((47 : Nat) = 32 ∨ (47 : Nat) = 9 ∨ (47 : Nat) = 13) by decide,
          show ¬ ((47 : Nat) = 10) by decide, if_false, if_true]
        exact skip_whitespace_loop_fuel k _ _ (by omega) (le_refl _)
    unfold scan_token token_start
    rw [hsw]
  · rw [h2]; simp only [List.length_cons]; omega

/-- C5: maximal munch with one byte of lookahead. At the cursor, each two-character operator
is scanned as its single token of length 2 (and its text alone lexes to that token and
`EOF`); each one-character prefix followed by a byte that does not extend it is scanned as
the one-character token of length 1, the next byte left for the next call; a slash not
followed by a slash is `SLASH`; and two slashes start a comment, skipped up to the newline
or the end of input before the next token is scanned. -/
theorem maximal_munch (l : Lexer) (rest : List Nat) :
    (∀ op ∈ two_char_ops, l.source.drop l.current = op.1 :: op.2.1 :: rest →
      (scan_token l).1.type = op.2.2 ∧ (scan_token l).1.start = l.current ∧
      (scan_token l).1.length = 2 ∧ (scan_token l).2.current = l.current + 2) ∧
    (∀ op ∈ two_char_ops,
      (lex [op.1, op.2.1]).map (List.map Token.type) = some [op.2.2, TOK_EOF]) ∧
    (∀ op ∈ one_char_ops, l.source.drop l.current = op.1 :: rest → rest.headD 0 ∉ op.2.2 →
      (scan_token l).1.type = op.2.1 ∧ (scan_token l).1.start = l.current ∧
      (scan_token l).1.length = 1 ∧ (scan_token l).2.current = l.current + 1) ∧
    (l.source.drop l.current = 47 :: rest → rest.headD 0 ≠ 47 →
      (scan_token l).1.type = TOK_SLASH ∧ (scan_token l).1.start = l.current ∧
      (scan_token l).1.length = 1 ∧ (scan_token l).2.current = l.current + 1) ∧
    (l.source.drop l.current = 47 :: 47 :: rest →
      scan_token l = scan_token (skip_comment (remaining l) l) ∧
      (skip_comment (remaining l) l).source = l.source ∧
      (skip_comment (remaining l) l).current = l.current + 2 + (comment_body rest).length ∧
      (skip_comment (remaining l) l).line = l.line) :=
  ⟨two_char_munch l rest, by decide, one_char_munch l rest, slash_alone l rest,
    slash_slash_comment l rest⟩

theorem maximal_munch_witness :
    (scan_token (lexer_init [60, 61, 120])).1.type = TOK_LTE ∧
    (scan_token (lexer_init [60, 120])).1.type = TOK_LT ∧
    (scan_token (lexer_init [47, 120])).1.type = TOK_SLASH ∧
    scan_token (lexer_init [47, 47, 120, 10, 121]) =
      scan_token (skip_comment 5 (lexer_init [47, 47, 120, 10, 121])) :=
  ⟨((maximal_munch (lexer_init [60, 61, 120]) [120]).1 (60, 61, TOK_LTE) (by decide) rfl).1,
   ((maximal_munch (lexer_init [60, 120]) [120]).2.2.1 (60, TOK_LT, [60, 61]) (by decide) rfl
      (by decide)).1,
   ((maximal_munch (lexer_init [47, 120]) [120]).2.2.2.1 rfl (by decide)).1,
   ((maximal_munch (lexer_init [47, 47, 120, 10, 121]) [120, 10, 121]).2.2.2.2 rfl).1⟩

/-- C4 on a string literal that holds a newline, and on a byte that begins no token: both
tokens start at line 1, column 1; for the string `make_token` records the line of the
closing quote and a column wrapped below zero, and `error_token` records column 2. -/
theorem string_across_lines_position :
    (lex [34, 97, 10, 98, 34]).map (List.map (fun t => (t.type, t.start, t.line, t.col))) =
      some [(TOK_STRING, 0, 2, 4294967294), (TOK_EOF, 5, 2, 3)] ∧
    (lex [36]).map (List.map (fun t => (t.type, t.start, t.line, t.col))) =
      some [(TOK_ERROR, 0, 1, 2)] := by
  decide

/-! ## Number tokens -/

theorem Consumes.crefl (l : Lexer) : Consumes l l [] :=
  ⟨rfl, rfl, rfl, rfl⟩

theorem Consumes.ctrans {a b c : Lexer} {r1 r2 : List Nat} (h1 : Consumes a b r1)
    (h2 : Consumes b c r2) : Consumes a c (r1 ++ r2) := by
  obtain ⟨s1, t1, c1, v1⟩ := h1
  obtain ⟨s2, t2, c2, v2⟩ := h2
  refine ⟨s2.trans s1, t2.trans t1, ?_, ?_⟩
  · rw [c2, c1, List.length_append]; omega
  · rw [v1, v2, List.append_assoc]

theorem consumes_advance {l : Lexer} {b : Nat} {rest : List Nat} (h : view l = b :: rest) :
    Consumes l (advance l) [b] :=
  ⟨rfl, rfl, rfl, by rw [view_advance_of_cons h, h]; rfl⟩

/-- The digit loop consumes the longest run of digits at the cursor. -/
theorem consumes_skip_digits (n : Nat) : ∀ (l : Lexer), remaining l ≤ n →
    Consumes l (skip_digits n l) ((view l).takeWhile isdigit) ∧
      isdigit (peek (skip_digits n l)) = false := by
  induction n with
  | zero =>
    intro l hn
    have hv : view l = [] := by
      rw [remaining_eq_view] at hn
      exact List.length_eq_zero.mp (Nat.le_zero.mp hn)
    have hp := peek_of_view_nil hv
    simp only [skip_digits, hv, List.takeWhile_nil]
    exact ⟨⟨rfl, rfl, rfl, by rw [hv]; rfl⟩, by rw [hp]; rfl⟩
  | succ n ih =>
    intro l hn
    unfold skip_digits
    by_cases hd : isdigit (peek l) = true
    · rw [if_pos hd]
      cases hv : view l with
      | nil => rw [peek_of_view_nil hv] at hd; exact absurd hd (by decide)
      | cons b rest =>
        have hpb := peek_of_view_cons hv
        rw [hpb] at hd
        have hva := view_advance_of_cons hv
        have hn' : remaining (advance l) ≤ n := by
          rw [remaining_eq_view, hv] at hn
          rw [remaining_eq_view, hva]
          simp only [List.length_cons] at hn
          omega
        obtain ⟨h1, h2⟩ := ih (advance l) hn'
        refine ⟨?_, h2⟩
        rw [List.takeWhile_cons_of_pos hd]
        have := (consumes_advance hv).ctrans h1
        rw [hva] at this
        exact this
    · rw [if_neg hd]
      refine ⟨?_, by simpa using hd⟩
      have : (view l).takeWhile isdigit = [] := by
        cases hv : view l with
        | nil => rfl
        | cons b rest =>
          rw [peek_of_view_cons hv] at hd
          rw [List.takeWhile_cons_of_neg hd]
      rw [this]
      exact Consumes.crefl l

theorem takeWhile_all (p : Nat → Bool) (s : List Nat) : (s.takeWhile p).all p = true := by
  rw [List.all_eq_true]
  intro x hx
  exact List.mem_takeWhile_imp hx

theorem consumes_number_frac (l : Lexer) :
    ∃ F, Consumes l (number_frac l).2 F ∧ FracShape F ∧ ((number_frac l).1 = true ↔ F ≠ []) := by
  unfold number_frac
  by_cases h : peek l = 46 ∧ isdigit (peek_next l) = true
  · rw [if_pos h]
    obtain ⟨h46, hd⟩ := h
    cases hv : view l with
    | nil => rw [peek_of_view_nil hv] at h46; exact absurd h46 (by decide)
    | cons b rest =>
      have hb : b = 46 := by rw [← peek_of_view_cons hv]; exact h46
      subst hb
      have hva := view_advance_of_cons hv
      rw [peek_next_eq_view, h46, hv] at hd
      simp only [show ¬ ((46 : Nat) = 0) by decide, if_false, List.tail_cons] at hd
      obtain ⟨h1, _⟩ := consumes_skip_digits (remaining (advance l)) (advance l) (le_refl _)
      rw [hva] at h1
      refine ⟨46 :: rest.takeWhile isdigit, (consumes_advance hv).ctrans h1, ?_, by simp⟩
      right
      refine ⟨rest.takeWhile isdigit, rfl, ?_⟩
      unfold digits1
      rw [takeWhile_all, Bool.and_true]
      cases rest with
      | nil => exact absurd hd (by decide)
      | cons x r =>
        simp only [List.headD_cons] at hd
        rw [List.takeWhile_cons_of_pos hd]
        rfl
  · rw [if_neg h]
    exact ⟨[], Consumes.crefl l, Or.inl rfl, by simp⟩

theorem consumes_number_exp (l : Lexer) :
    ∃ E, Consumes l (number_exp l).2 E ∧ ExpShape E ∧ ((number_exp l).1 = true ↔ E ≠ []) := by
  unfold number_exp
  by_cases h : peek l = 101 ∨ peek l = 69
  · rw [if_pos h]
    dsimp only
    cases hv : view l with
    | nil => rw [peek_of_view_nil hv] at h; exact absurd h (by decide)
    | cons ech rest =>
      rw [peek_of_view_cons hv] at h
      have hva := view_advance_of_cons hv
      have hpa : peek (advance l) = rest.headD 0 := by rw [peek_eq_view, hva]
      by_cases hsg : peek (advance l) = 43 ∨ peek (advance l) = 45
      · rw [if_pos hsg]
        cases hr : rest with
        | nil => rw [hpa, hr] at hsg; exact absurd hsg (by decide)
        | cons sgn rest' =>
          rw [hr] at hva
          rw [hpa, hr] at hsg
          simp only [List.headD_cons] at hsg
          have hvb := view_advance_of_cons hva
          obtain ⟨h1, _⟩ := consumes_skip_digits (remaining (advance (advance l)))
            (advance (advance l)) (le_refl _)
          rw [hvb] at h1
          have hc := ((consumes_advance hv).ctrans (consumes_advance hva)).ctrans h1
          refine ⟨ech :: ([sgn] ++ rest'.takeWhile isdigit), hc, ?_, by simp⟩
          right
          refine ⟨ech, [sgn], rest'.takeWhile isdigit, rfl, h, ?_, takeWhile_all _ _⟩
          rcases hsg with rfl | rfl
          · exact Or.inr (Or.inl rfl)
          · exact Or.inr (Or.inr rfl)
      · rw [if_neg hsg]
        obtain ⟨h1, _⟩ := consumes_skip_digits (remaining (advance l)) (advance l) (le_refl _)
        rw [hva] at h1
        have hc := (consumes_advance hv).ctrans h1
        refine ⟨ech :: ([] ++ rest.takeWhile isdigit),
          (show Consumes _ _ (ech :: ([] ++ rest.takeWhile isdigit)) from hc), ?_, by simp⟩
        right
        exact ⟨ech, [], rest.takeWhile isdigit, rfl, h, Or.inl rfl, takeWhile_all _ _⟩
  · rw [if_neg h]
    exact ⟨[], Consumes.crefl l, Or.inl rfl, by simp⟩

theorem number_fst_type (l : Lexer) :
    (number l).1.type =
      if ((number_frac (skip_digits (remaining l) l)).1 ||
          (number_exp (number_frac (skip_digits (remaining l) l)).2).1) = true
      then TOK_FLOAT else TOK_INT := by
  unfold number
  simp only
  split <;> rfl

theorem number_fst_slice (l : Lexer) :
    (number l).1.start = (number l).2.start ∧
      (number l).1.length = (number l).2.current - (number l).2.start := by
  unfold number
  simp only
  split <;> exact ⟨rfl, rfl⟩

/-- The text of the token scanned by `number` after a first digit `c`: digits, an optional
fraction, an optional exponent; the token is `INT` exactly when both options are absent. -/
theorem number_text (s : Lexer) (c : Nat) (v : List Nat) (hs : s.start = s.current)
    (hv : view s = c :: v) (hc : isdigit c = true) :
    ∃ D F E, Token.text s.source (number (advance s)).1 = D ++ F ++ E ∧ digits1 D = true ∧
      FracShape F ∧ ExpShape E ∧
      ((number (advance s)).1.type = TOK_INT → F = [] ∧ E = []) ∧
      ((number (advance s)).1.type = TOK_FLOAT → F ≠ [] ∨ E ≠ []) := by
  have hva := view_advance_of_cons hv
  obtain ⟨h1, _⟩ := consumes_skip_digits (remaining (advance s)) (advance s) (le_refl _)
  rw [hva] at h1
  obtain ⟨F, hF, hFs, hFi⟩ := consumes_number_frac (skip_digits (remaining (advance s)) (advance s))
  obtain ⟨E, hE, hEs, hEi⟩ := consumes_number_exp
    (number_frac (skip_digits (remaining (advance s)) (advance s))).2
  have hall := (((consumes_advance hv).ctrans h1).ctrans hF).ctrans hE
  rw [← number_snd] at hall
  obtain ⟨a1, a2, a3, a4⟩ := hall
  refine ⟨[c] ++ v.takeWhile isdigit, F, E, ?_, ?_, hFs, hEs, ?_, ?_⟩
  · unfold Token.text
    rw [(number_fst_slice _).1, (number_fst_slice _).2, a2, a3, hs, ← a1]
    have : s.source.drop s.current = view s := rfl
    rw [a1, this, a4, Nat.add_sub_cancel_left]
    exact List.take_left _ _
  · unfold digits1
    simp [hc, takeWhile_all]
  · intro ht
    rw [number_fst_type] at ht
    split at ht
    · cases ht
    · rename_i hb
      simp only [Bool.or_eq_true, not_or, Bool.not_eq_true] at hb
      constructor
      · by_contra hne
        have := hFi.mpr hne
        rw [hb.1] at this; cases this
      · by_contra hne
        have := hEi.mpr hne
        rw [hb.2] at this; cases this
  · intro ht
    rw [number_fst_type] at ht
    split at ht
    · rename_i hb
      simp only [Bool.or_eq_true] at hb
      rcases hb with hb | hb
      · exact Or.inl (hFi.mp hb)
      · exact Or.inr (hEi.mp hb)
    · cases ht

theorem matches_float_point_intro (D d2 : List Nat) (hD : digits1 D = true)
    (hd : digits1 d2 = true) : matches_float_point (D ++ 46 :: d2) = true := by
  unfold matches_float_point
  rw [List.any_eq_true]
  refine ⟨D.length, ?_, ?_⟩
  · rw [List.mem_range, List.length_append]; omega
  · have h1 : (D ++ 46 :: d2).take D.length = D := List.take_left _ _
    have h2 : (D ++ 46 :: d2).drop (D.length + 1) = d2 := by
      rw [← List.drop_drop, List.drop_left]; rfl
    have h3 : (D ++ 46 :: d2).getD D.length 0 = 46 := by
      rw [List.getD_eq_getElem?_getD, List.getElem?_append_right (le_refl _)]
      simp
    rw [h1, h2, h3, hD, hd]; rfl

theorem matches_exponent_intro (ech : Nat) (sg d3 : List Nat) (he : ech = 101 ∨ ech = 69)
    (hsg : sg = [] ∨ sg = [43] ∨ sg = [45]) (hd : digits1 d3 = true) :
    matches_exponent (ech :: (sg ++ d3)) = true := by
  unfold matches_exponent
  rcases he with rfl | rfl <;> rcases hsg with rfl | rfl | rfl <;> simp [hd]

theorem matches_float_exp_intro (D X : List Nat) (hD : digits1 D = true)
    (hX : matches_exponent X = true) : matches_float_exp (D ++ X) = true := by
  unfold matches_float_exp
  rw [List.any_eq_true]
  refine ⟨D.length, ?_, ?_⟩
  · rw [List.mem_range, List.length_append]; omega
  · rw [List.take_left, List.drop_left, hD, hX]; rfl

theorem matches_float_point_exp_intro (P X : List Nat) (hP : matches_float_point P = true)
    (hX : matches_exponent X = true) : matches_float_point_exp (P ++ X) = true := by
  unfold matches_float_point_exp
  rw [List.any_eq_true]
  refine ⟨P.length, ?_, ?_⟩
  · rw [List.mem_range, List.length_append]; omega
  · rw [List.take_left, List.drop_left, hP, hX]; rfl

/-- A text of the shape consumed by `number` is `[0-9]+` when it has neither fraction nor
exponent, and otherwise, when it ends in a digit, matches one of the three float patterns. -/
theorem shape_matches (D F E : List Nat) (hD : digits1 D = true) (hF : FracShape F)
    (hE : ExpShape E) :
    (F = [] ∧ E = [] → digits1 (D ++ F ++ E) = true) ∧
    ((F ≠ [] ∨ E ≠ []) → (∃ d, (D ++ F ++ E).getLast? = some d ∧ isdigit d = true) →
      (matches_float_point (D ++ F ++ E) = true ∨ matches_float_exp (D ++ F ++ E) = true ∨
        matches_float_point_exp (D ++ F ++ E) = true)) := by
  constructor
  · rintro ⟨rfl, rfl⟩
    simpa using hD
  · intro hne ⟨d, hlast, hd⟩
    rcases hE with rfl | ⟨ech, sg, d3, rfl, he, hsg, hd3⟩
    · rcases hF with rfl | ⟨d2, rfl, hd2⟩
      · simp at hne
      · left
        rw [List.append_nil]
        exact matches_float_point_intro D d2 hD hd2
    · have hd3' : digits1 d3 = true := by
        unfold digits1
        rw [hd3, Bool.and_true]
        cases d3 with
        | cons x xs => rfl
        | nil =>
          exfalso
          rcases he with rfl | rfl <;> rcases hsg with rfl | rfl | rfl <;>
            simp at hlast <;> subst hlast <;> exact absurd hd (by decide)
      have hX := matches_exponent_intro ech sg d3 he hsg hd3'
      rcases hF with rfl | ⟨d2, rfl, hd2⟩
      · right; left
        rw [List.append_nil]
        exact matches_float_exp_intro D _ hD hX
      · right; right
        exact matches_float_point_exp_intro _ _ (matches_float_point_intro D d2 hD hd2) hX

theorem scan_dispatch_number (c : Nat) (l : Lexer)
    (h : (scan_dispatch c l).1.type = TOK_INT ∨ (scan_dispatch c l).1.type = TOK_FLOAT) :
    isdigit c = true ∧ scan_dispatch c l = number l := by
  by_cases hs : starts_token c = false
  · rw [scan_dispatch_other c l hs] at h
    rcases h with h | h <;> cases h
  have hs' : starts_token c = true := by simpa using hs
  unfold starts_token at hs'
  simp only [Bool.or_eq_true, List.contains_eq_any_beq, List.any_cons, List.any_nil,
    Bool.or_false, beq_iff_eq] at hs'
  rcases hs' with (((h1 | h1) | h1) | h1) | h1
  · have e : scan_dispatch c l = identifier l := by
      unfold scan_dispatch; simp [h1]
    have hw := identifier_word l
    rw [e] at h
    rcases h with h | h <;> rw [h] at hw <;> exact absurd hw (by decide)
  · subst h1
    have e : scan_dispatch 95 l = identifier l := rfl
    have hw := identifier_word l
    rw [e] at h
    rcases h with h | h <;> rw [h] at hw <;> exact absurd hw (by decide)
  · have hna : isalpha c = false := by
      unfold isdigit at h1; unfold isalpha
      simp only [Bool.and_eq_true, decide_eq_true_eq] at h1
      simp only [Bool.or_eq_false_iff, Bool.and_eq_false_iff, decide_eq_false_iff_not]
      omega
    have hnu : (c == 95) = false := by
      unfold isdigit at h1
      simp only [Bool.and_eq_true, decide_eq_true_eq] at h1
      simp only [beq_eq_false_iff_ne]
      omega
    exact ⟨h1, by unfold scan_dispatch; simp [h1, hna, hnu]⟩
  · subst h1
    have e : scan_dispatch 34 l = string_token l := rfl
    rw [e, string_token_type] at h
    exfalso
    rcases h with h | h <;> split at h <;> cases h
  · exfalso
    rcases h1 with rfl | rfl | rfl | rfl | rfl | rfl | rfl | rfl | rfl | rfl | rfl | rfl | rfl |
      rfl | rfl | rfl | rfl | rfl | rfl | rfl | rfl | rfl | rfl | rfl | rfl
    all_goals
      simp only [scan_dispatch, isalpha, isdigit, make_token] at h
      revert h
      simp <;> (split_ifs <;> simp)

/-- The text of a number token scanned by `scan_token`. -/
theorem scan_token_number_text (l : Lexer) :
    ((scan_token l).1.type = TOK_INT → digits1 (Token.text l.source (scan_token l).1) = true) ∧
    ((scan_token l).1.type = TOK_FLOAT →
      (∃ d, (Token.text l.source (scan_token l).1).getLast? = some d ∧ isdigit d = true) →
      (matches_float_point (Token.text l.source (scan_token l).1) = true ∨
        matches_float_exp (Token.text l.source (scan_token l).1) = true ∨
        matches_float_point_exp (Token.text l.source (scan_token l).1) = true)) := by
  have hsrc : (token_start l).source = l.source := (later_token_start l).1
  unfold scan_token
  simp only
  by_cases hend : is_at_end (token_start l) = true
  · rw [if_pos hend]
    exact ⟨fun h => absurd h (by simp [make_token]), fun h => absurd h (by simp [make_token])⟩
  · rw [if_neg hend]
    have hp : peek (token_start l) ≠ 0 := by simpa [is_at_end] using hend
    by_cases hnum : (scan_dispatch (peek (token_start l)) (advance (token_start l))).1.type = TOK_INT ∨
        (scan_dispatch (peek (token_start l)) (advance (token_start l))).1.type = TOK_FLOAT
    · obtain ⟨hc, he⟩ := scan_dispatch_number _ _ hnum
      rw [he]
      cases hv : view (token_start l) with
      | nil => exact absurd (peek_of_view_nil hv) hp
      | cons c v =>
        have hpc := peek_of_view_cons hv
        rw [hpc] at hc
        obtain ⟨D, F, E, ht, hD, hF, hE, hi, hf⟩ := number_text (token_start l) c v rfl hv hc
        rw [hsrc] at ht
        rw [ht]
        have hm := shape_matches D F E hD hF hE
        exact ⟨fun h => hm.1 (hi h), fun h => hm.2 (hf h)⟩
    · simp only [not_or] at hnum
      exact ⟨fun h => absurd h hnum.1, fun h => absurd h hnum.2⟩

/-- C6, amended: the text of every `INT` token is `[0-9]+`, and the text of every `FLOAT`
token that ends in a digit matches `[0-9]+ '.' [0-9]+`, or `[0-9]+ ('e'|'E') ('+'|'-')? [0-9]+`,
or `[0-9]+ '.' [0-9]+ ('e'|'E') ('+'|'-')? [0-9]+`. -/
theorem number_token_text (src : List Nat) (toks : List Token) (h : lex src = some toks) :
    ∀ t ∈ toks,
      (t.type = TOK_INT → digits1 (t.text src) = true) ∧
      (t.type = TOK_FLOAT → (∃ d, (t.text src).getLast? = some d ∧ isdigit d = true) →
        (matches_float_point (t.text src) = true ∨ matches_float_exp (t.text src) = true ∨
          matches_float_point_exp (t.text src) = true)) := by
  obtain ⟨toks', t', h1, _, _, h4, _⟩ :=
    lexer_tokenize_loop_spec (remaining (lexer_init src) + 1) (lexer_init src) []
      (Nat.lt_succ_self _)
  have he : toks = toks' ++ [t'] := by
    have : lex src = some ([] ++ toks' ++ [t']) := h1
    rw [h] at this
    simpa using this
  intro t ht
  rw [he] at ht
  obtain ⟨l, hr, hl⟩ := h4 t ht
  have hs : l.source = src := hr.same_source
  rw [hl, ← hs]
  exact scan_token_number_text l

theorem number_token_text_witness :
    lex [49, 46, 53, 101, 51, 32, 55] =
      some [⟨TOK_FLOAT, 0, 5, 1, 1, TokenValue.float_val ⟨[49, 46, 53, 101, 51]⟩⟩,
            ⟨TOK_INT, 6, 1, 1, 7, TokenValue.int_val 7⟩,
            ⟨TOK_EOF, 7, 0, 1, 8, TokenValue.unset⟩] ∧
    matches_float_point_exp [49, 46, 53, 101, 51] = true ∧ digits1 [55] = true :=
  ⟨by decide, by decide,
    ((number_token_text [49, 46, 53, 101, 51, 32, 55]
      [⟨TOK_FLOAT, 0, 5, 1, 1, TokenValue.float_val ⟨[49, 46, 53, 101, 51]⟩⟩,
       ⟨TOK_INT, 6, 1, 1, 7, TokenValue.int_val 7⟩,
       ⟨TOK_EOF, 7, 0, 1, 8, TokenValue.unset⟩] (by decide)
      ⟨TOK_INT, 6, 1, 1, 7, TokenValue.int_val 7⟩ (by decide)).1 rfl)⟩

/-- C6 as stated fails on `1.5e3`: one `FLOAT` token whose text has both a fraction and an
exponent, matching neither `[0-9]+ '.' [0-9]+` nor `[0-9]+ ('e'|'E') ('+'|'-')? [0-9]+`. -/
theorem float_fraction_and_exponent :
    ∃ toks, lex [49, 46, 53, 101, 51] = some toks ∧ ∃ t ∈ toks, t.type = TOK_FLOAT ∧
      t.text [49, 46, 53, 101, 51] = [49, 46, 53, 101, 51] ∧
      ¬ (matches_float_point (t.text [49, 46, 53, 101, 51]) = true ∨
         matches_float_exp (t.text [49, 46, 53, 101, 51]) = true) :=
  ⟨_, rfl, ⟨TOK_FLOAT, 0, 5, 1, 1, TokenValue.float_val ⟨[49, 46, 53, 101, 51]⟩⟩, by decide,
    rfl, rfl, by decide⟩

/-! ## Integer ranges -/

theorem takeWhile_append_of_all (p : Nat → Bool) (ds rest : List Nat) (hds : ds.all p = true)
    (hr : p (rest.headD 0) = false) : (ds ++ rest).takeWhile p = ds := by
  induction ds with
  | nil =>
    cases rest with
    | nil => rfl
    | cons x r =>
      simp only [List.headD_cons] at hr
      simp [List.takeWhile_cons, hr]
  | cons d ds ih =>
    simp only [List.all_cons, Bool.and_eq_true] at hds
    simp only [List.cons_append, List.takeWhile_cons, hds.1, if_true, ih hds.2]

theorem digit_byte {c : Nat} (hc : isdigit c = true) : 48 ≤ c ∧ c ≤ 57 := by
  unfold isdigit at hc
  simpa using hc

theorem scan_dispatch_digit (c : Nat) (l : Lexer) (hc : isdigit c = true) :
    scan_dispatch c l = number l := by
  have hb := digit_byte hc
  have hna : isalpha c = false := by
    unfold isalpha
    simp only [Bool.or_eq_false_iff, Bool.and_eq_false_iff, decide_eq_false_iff_not]
    omega
  have hnu : (c == 95) = false := by
    simp only [beq_eq_false_iff_ne]
    omega
  unfold scan_dispatch
  simp [hc, hna, hnu]

/-- A run of digits that is followed neither by a digit, nor by a point and a digit, nor
by `e` or `E`, is scanned as one `INT` token. -/
theorem scan_token_int (l : Lexer) (c : Nat) (ds rest : List Nat)
    (hv : view l = c :: ds ++ rest) (hc : isdigit c = true) (hds : ds.all isdigit = true)
    (hnd : isdigit (rest.headD 0) = false)
    (hfrac : ¬ (rest.headD 0 = 46 ∧ isdigit (rest.tail.headD 0) = true))
    (hexp : rest.headD 0 ≠ 101 ∧ rest.headD 0 ≠ 69) :
    (scan_token l).1.type = TOK_INT ∧ (scan_token l).1.start = l.current ∧
    (scan_token l).1.length = ds.length + 1 ∧
    (scan_token l).1.value = TokenValue.int_val (strtoll (c :: ds)) ∧
    (scan_token l).2.source = l.source ∧ (scan_token l).2.current = l.current + (ds.length + 1) := by
  have hb := digit_byte hc
  have hv' : view l = c :: (ds ++ rest) := hv
  have hp := peek_of_view_cons hv'
  rw [scan_token_at l c hp ⟨by omega, by omega, by omega, by omega, by omega, fun h => by omega⟩,
    scan_dispatch_digit c _ hc]
  have hvs : view { l with start := l.current } = c :: (ds ++ rest) := hv'
  have hva := view_advance_of_cons hvs
  obtain ⟨h1, _⟩ := consumes_skip_digits (remaining (advance { l with start := l.current }))
    (advance { l with start := l.current }) (le_refl _)
  rw [hva, takeWhile_append_of_all isdigit ds rest hds hnd] at h1
  obtain ⟨s1, s2, s3, s4⟩ := h1
  rw [hva] at s4
  have hrest : view (skip_digits (remaining (advance { l with start := l.current }))
      (advance { l with start := l.current })) = rest := (List.append_cancel_left s4).symm
  have hpk : peek (skip_digits (remaining (advance { l with start := l.current }))
      (advance { l with start := l.current })) = rest.headD 0 := by rw [peek_eq_view, hrest]
  have hf : number_frac (skip_digits (remaining (advance { l with start := l.current }))
      (advance { l with start := l.current })) =
      (false, skip_digits (remaining (advance { l with start := l.current }))
        (advance { l with start := l.current })) := by
    unfold number_frac
    rw [if_neg]
    rw [peek_next_eq_view, hpk, hrest]
    intro h
    obtain ⟨h46, hd⟩ := h
    rw [h46] at hd
    simp only [show ¬ ((46 : Nat) = 0) by decide, if_false] at hd
    exact hfrac ⟨h46, hd⟩
  have he : number_exp (skip_digits (remaining (advance { l with start := l.current }))
      (advance { l with start := l.current })) =
      (false, skip_digits (remaining (advance { l with start := l.current }))
        (advance { l with start := l.current })) := by
    unfold number_exp
    rw [if_neg]
    rw [hpk]
    exact fun h => h.elim hexp.1 hexp.2
  have hsrc : (advance { l with start := l.current }).source = l.source := rfl
  have hst : (advance { l with start := l.current }).start = l.current := rfl
  have hcur : (advance { l with start := l.current }).current = l.current + 1 := rfl
  have hval : strtoll (l.source.drop l.current) = strtoll (c :: ds) := by
    have : l.source.drop l.current = c :: ds ++ rest := hv
    unfold strtoll
    rw [this, show c :: ds ++ rest = (c :: ds) ++ rest from rfl,
      takeWhile_append_of_all isdigit (c :: ds) rest (by simp [hc, hds]) hnd]
    have : (c :: ds).takeWhile isdigit = c :: ds := by
      have := takeWhile_append_of_all isdigit (c :: ds) [] (by simp [hc, hds]) (by decide)
      simpa using this
    rw [this]
  unfold number
  simp only [hf, he, Bool.or_self, Bool.false_eq_true, if_false, make_token]
  refine ⟨trivial, ?_, ?_, ?_, ?_, ?_⟩
  · rw [s2, hst]
  · rw [s2, s3, hst, hcur]; omega
  · rw [s1, s2, hsrc, hst, hval]
  · rw [s1, hsrc]
  · rw [s3, hcur]; omega

theorem scan_token_eof (l : Lexer) (hv : view l = []) :
    (scan_token l).1.type = TOK_EOF := by
  have hp := peek_of_view_nil hv
  have hws : skip_whitespace l = l :=
    skip_whitespace_noop l (by rw [hp]; exact ⟨by decide, by decide, by decide, by decide,
      fun h => absurd h (by decide)⟩)
  unfold scan_token token_start
  rw [hws]
  have : is_at_end { l with start := l.current } = true := by
    simp [is_at_end, peek, hp] at hp ⊢
    exact hp
  simp only [this, if_true, make_token]

theorem tokenize_loop_step (n : Nat) (l : Lexer) (acc : List Token)
    (h : (scan_token l).1.type ≠ TOK_EOF ∧ (scan_token l).1.type ≠ TOK_ERROR) :
    lexer_tokenize_loop (n + 1) l acc =
      lexer_tokenize_loop n (scan_token l).2 (acc ++ [(scan_token l).1]) := by
  rw [lexer_tokenize_loop]
  rw [if_neg (by simp [h.1, h.2])]

theorem tokenize_loop_eof (n : Nat) (l : Lexer) (acc : List Token)
    (h : (scan_token l).1.type = TOK_EOF) :
    lexer_tokenize_loop (n + 1) l acc = some (acc ++ [(scan_token l).1]) := by
  rw [lexer_tokenize_loop]
  rw [if_pos (Or.inl h)]

theorem view_of_drop {l : Lexer} {src : List Nat} {k : Nat} (hs : l.source = src)
    (hc : l.current = k) : view l = src.drop k := by
  unfold view; rw [hs, hc]

theorem digits1_cases {a : List Nat} (h : digits1 a = true) :
    ∃ c ds, a = c :: ds ∧ isdigit c = true ∧ ds.all isdigit = true := by
  cases a with
  | nil => simp [digits1] at h
  | cons c ds =>
    simp only [digits1, List.isEmpty_cons, Bool.not_false, Bool.true_and, List.all_cons,
      Bool.and_eq_true] at h
    exact ⟨c, ds, rfl, h.1, h.2⟩

/-- C28: for all non-empty decimal digit strings `a` and `b`, the source `a..b` lexes to
exactly four tokens: an `INT` with the text `a`, `DOTDOT`, an `INT` with the text `b`, and
`EOF`. The point after `a` is not taken as a decimal point. -/
theorem range_lexes_as_int_dotdot_int (a b : List Nat) (ha : digits1 a = true)
    (hb : digits1 b = true) :
    ∃ t1 t2 t3 t4, lex (a ++ [46, 46] ++ b) = some [t1, t2, t3, t4] ∧
      t1.type = TOK_INT ∧ t1.text (a ++ [46, 46] ++ b) = a ∧
      t1.value = TokenValue.int_val (strtoll a) ∧
      t2.type = TOK_DOTDOT ∧ t2.text (a ++ [46, 46] ++ b) = [46, 46] ∧
      t3.type = TOK_INT ∧ t3.text (a ++ [46, 46] ++ b) = b ∧
      t3.value = TokenValue.int_val (strtoll b) ∧
      t4.type = TOK_EOF := by
  obtain ⟨c, ds, rfl, hc, hds⟩ := digits1_cases ha
  obtain ⟨c', ds', rfl, hc', hds'⟩ := digits1_cases hb
  generalize hsrc : (c :: ds) ++ [46, 46] ++ (c' :: ds') = src
  have hsrc' : src = c :: ds ++ (46 :: 46 :: c' :: ds') := by rw [← hsrc]; simp
  have hlen : src.length = ds.length + ds'.length + 4 := by
    rw [hsrc']; simp; omega
  -- first token
  have hv0 : view (lexer_init src) = c :: ds ++ (46 :: 46 :: c' :: ds') := by
    unfold view lexer_init; simpa using hsrc'
  obtain ⟨a1, a2, a3, a4, a5, a6⟩ := scan_token_int (lexer_init src) c ds (46 :: 46 :: c' :: ds')
    hv0 hc hds rfl (by simp; decide) ⟨by simp, by simp⟩
  -- second token
  have hv1 : view (scan_token (lexer_init src)).2 = 46 :: 46 :: (c' :: ds') := by
    rw [view_of_drop a5 a6, hsrc']
    show List.drop (0 + (ds.length + 1)) ((c :: ds) ++ (46 :: 46 :: c' :: ds')) = _
    rw [Nat.zero_add]
    exact List.drop_left' (by simp)
  obtain ⟨b1, b2, b3, b4⟩ := two_char_munch (scan_token (lexer_init src)).2 (c' :: ds')
    (46, 46, TOK_DOTDOT) (by simp [two_char_ops]) hv1
  have b5 := scan_token_source (scan_token (lexer_init src)).2
  rw [a5] at b5
  have a6' : (scan_token (lexer_init src)).2.current = ds.length + 1 := by
    rw [a6]; show 0 + (ds.length + 1) = _; omega
  -- third token
  have hv2 : view (scan_token (scan_token (lexer_init src)).2).2 = c' :: ds' ++ [] := by
    rw [view_of_drop b5 b4, a6', hsrc']
    have : c :: ds ++ (46 :: 46 :: c' :: ds') = (c :: ds ++ [46, 46]) ++ (c' :: ds') := by simp
    rw [this, List.append_nil]
    exact List.drop_left' (by simp)
  obtain ⟨c1, c2, c3, c4, c5, c6⟩ := scan_token_int (scan_token (scan_token (lexer_init src)).2).2
    c' ds' [] hv2 hc' hds' (by decide) (by decide) (by decide)
  rw [b5] at c5
  -- fourth token
  have hv3 : view (scan_token (scan_token (scan_token (lexer_init src)).2).2).2 = [] := by
    rw [view_of_drop c5 c6, b4, a6']
    exact List.drop_eq_nil_of_le (by show src.length ≤ _; rw [hlen]; omega)
  have d1 := scan_token_eof _ hv3
  refine ⟨_, _, _, _, ?_, a1, ?_, a4, b1, ?_, c1, ?_, c4, d1⟩
  · unfold lex lexer_tokenize
    obtain ⟨k, hk⟩ : ∃ k, remaining (lexer_init src) + 1 = k + 4 :=
      ⟨ds.length + ds'.length + 1, by simp [remaining, lexer_init, hlen]⟩
    rw [hk, tokenize_loop_step _ _ _ (by rw [a1]; exact ⟨by decide, by decide⟩),
      tokenize_loop_step _ _ _ (by rw [b1]; exact ⟨by decide, by decide⟩),
      tokenize_loop_step _ _ _ (by rw [c1]; exact ⟨by decide, by decide⟩),
      tokenize_loop_eof _ _ _ d1]
    rfl
  · unfold Token.text
    rw [a2, a3, hsrc']
    show List.take (ds.length + 1) (List.drop 0 ((c :: ds) ++ (46 :: 46 :: c' :: ds'))) = _
    rw [List.drop_zero]
    exact List.take_left' (by simp)
  · unfold Token.text
    rw [b2, b3]
    have : src.drop (scan_token (lexer_init src)).2.current = 46 :: 46 :: (c' :: ds') := hv1 ▸ (view_of_drop a5 rfl).symm
    rw [this]; rfl
  · unfold Token.text
    rw [c2, c3]
    have : src.drop (scan_token (scan_token (lexer_init src)).2).2.current = c' :: ds' ++ [] :=
      hv2 ▸ (view_of_drop b5 rfl).symm
    rw [this, List.append_nil]
    exact List.take_of_length_le (by simp)

theorem range_lexes_as_int_dotdot_int_witness :
    digits1 [48] = true ∧ digits1 [51] = true ∧
    ∃ t1 t2 t3 t4, lex ([48] ++ [46, 46] ++ [51]) = some [t1, t2, t3, t4] ∧
      t1.type = TOK_INT ∧ t1.text ([48] ++ [46, 46] ++ [51]) = [48] ∧
      t1.value = TokenValue.int_val (strtoll [48]) ∧
      t2.type = TOK_DOTDOT ∧ t2.text ([48] ++ [46, 46] ++ [51]) = [46, 46] ∧
      t3.type = TOK_INT ∧ t3.text ([48] ++ [46, 46] ++ [51]) = [51] ∧
      t3.value = TokenValue.int_val (strtoll [51]) ∧
      t4.type = TOK_EOF :=
  ⟨by decide, by decide, range_lexes_as_int_dotdot_int [48] [51] (by decide) (by decide)⟩

/-! ## String tokens -/

theorem scan_dispatch_string (c : Nat) (l : Lexer) (h : (scan_dispatch c l).1.type = TOK_STRING) :
    c = 34 ∧ scan_dispatch c l = string_token l := by
  by_cases hs : starts_token c = false
  · rw [scan_dispatch_other c l hs] at h
    cases h
  have hs' : starts_token c = true := by simpa using hs
  unfold starts_token at hs'
  simp only [Bool.or_eq_true, List.contains_eq_any_beq, List.any_cons, List.any_nil,
    Bool.or_false, beq_iff_eq] at hs'
  rcases hs' with (((h1 | h1) | h1) | h1) | h1
  · have e : scan_dispatch c l = identifier l := by
      unfold scan_dispatch; simp [h1]
    have hw := identifier_word l
    rw [e] at h
    rw [h] at hw
    exact absurd hw (by decide)
  · subst h1
    have e : scan_dispatch 95 l = identifier l := rfl
    have hw := identifier_word l
    rw [e] at h
    rw [h] at hw
    exact absurd hw (by decide)
  · rw [scan_dispatch_digit c l h1] at h
    rcases number_type l with h' | h' <;> rw [h'] at h <;> cases h
  · subst h1
    exact ⟨rfl, rfl⟩
  · exfalso
    rcases h1 with rfl | rfl | rfl | rfl | rfl | rfl | rfl | rfl | rfl | rfl | rfl | rfl | rfl |
      rfl | rfl | rfl | rfl | rfl | rfl | rfl | rfl | rfl | rfl | rfl | rfl
    all_goals
      simp only [scan_dispatch, isalpha, isdigit, make_token] at h
      revert h
      simp <;> (split_ifs <;> simp)

theorem string_loop_cursor (n : Nat) (l : Lexer) :
    (string_loop n l).start = l.start ∧ l.current ≤ (string_loop n l).current := by
  have htrans : ∀ {a b c : Lexer}, (b.start = a.start ∧ a.current ≤ b.current) →
      (c.start = b.start ∧ b.current ≤ c.current) → (c.start = a.start ∧ a.current ≤ c.current) :=
    fun h1 h2 => ⟨h2.1.trans h1.1, le_trans h1.2 h2.2⟩
  have hadv : ∀ a : Lexer, (advance a).start = a.start ∧ a.current ≤ (advance a).current :=
    fun a => ⟨rfl, Nat.le_succ _⟩
  induction n generalizing l with
  | zero => exact ⟨rfl, le_refl _⟩
  | succ n ih =>
    unfold string_loop
    split
    · refine htrans ?_ (ih _)
      refine htrans ?_ (hadv _)
      have h1 : (if peek l = 10 then { l with line := (l.line + 1) % U32, col := 0 } else l).start =
          l.start ∧ l.current ≤
          (if peek l = 10 then { l with line := (l.line + 1) % U32, col := 0 } else l).current :=
        ite_prop (fun x : Lexer => x.start = l.start ∧ l.current ≤ x.current)
          ⟨rfl, le_refl _⟩ ⟨rfl, le_refl _⟩
      refine htrans h1 ?_
      exact ite_prop (fun x : Lexer => x.start = _ ∧ _ ≤ x.current) (hadv _) ⟨rfl, le_refl _⟩
    · exact ⟨rfl, le_refl _⟩

/-- A `STRING` token spans at least the two quotes and lies inside the buffer. -/
theorem scan_token_string (l : Lexer) (h : (scan_token l).1.type = TOK_STRING) :
    2 ≤ (scan_token l).1.length ∧
      (scan_token l).1.start + (scan_token l).1.length ≤ l.source.length := by
  have hsrc : (token_start l).source = l.source := (later_token_start l).1
  unfold scan_token at h ⊢
  simp only at h ⊢
  by_cases hend : is_at_end (token_start l) = true
  · rw [if_pos hend] at h
    simp [make_token] at h
  · rw [if_neg hend] at h ⊢
    obtain ⟨_, he⟩ := scan_dispatch_string _ _ h
    rw [he] at h ⊢
    rw [string_token_type] at h
    have hne : ¬ is_at_end (string_loop (remaining (advance (token_start l)))
        (advance (token_start l))) = true := by
      intro hc; rw [if_pos hc] at h; cases h
    unfold string_token
    simp only [if_neg hne, make_token]
    obtain ⟨h1, h2⟩ := string_loop_cursor (remaining (advance (token_start l)))
      (advance (token_start l))
    have hst : (advance (token_start l)).start = (token_start l).current := rfl
    have hcu : (advance (token_start l)).current = (token_start l).current + 1 := rfl
    have hlt := lt_of_peek_ne_zero (l := string_loop (remaining (advance (token_start l)))
      (advance (token_start l))) (by simpa [is_at_end] using hne)
    have hs2 : (string_loop (remaining (advance (token_start l)))
        (advance (token_start l))).source = l.source := by
      rw [(later_string_loop _ _).1]; exact hsrc
    rw [hs2] at hlt
    have hst' : (advance (string_loop (remaining (advance (token_start l)))
        (advance (token_start l)))).start = (token_start l).current := h1.trans hst
    show 2 ≤ _ + 1 - _ ∧ _ + (_ + 1 - _) ≤ _
    rw [hst']
    rw [hcu] at h2
    omega

/-- Every `STRING` token of a token list of the lexer has a length of at least 2 and lies
inside the source. -/
theorem string_token_length (src : List Nat) (toks : List Token) (h : lex src = some toks) :
    ∀ t ∈ toks, t.type = TOK_STRING → 2 ≤ t.length ∧ t.start + t.length ≤ src.length := by
  obtain ⟨toks', t', h1, _, _, h4, _⟩ :=
    lexer_tokenize_loop_spec (remaining (lexer_init src) + 1) (lexer_init src) []
      (Nat.lt_succ_self _)
  have he : toks = toks' ++ [t'] := by
    have : lex src = some ([] ++ toks' ++ [t']) := h1
    rw [h] at this
    simpa using this
  intro t ht hty
  rw [he] at ht
  obtain ⟨l, hr, hl⟩ := h4 t ht
  have hs : l.source = src := hr.same_source
  rw [hl] at hty ⊢
  rw [← hs]
  exact scan_token_string l hty

/-! ## The names of the token kinds -/

/-- C40 fails: the array `names` of `token_type_str` has 47 entries, the enumeration
`TokenType` has 61 enumerators. The array has no entry for `TOK_PARALLEL` and for the
thirteen type keywords, so from `TOK_PARALLEL` on the index `t` is out of step:
`token_type_str(TOK_PLUS)` is `"NOT"`, and for `TOK_EOF`, with the value 59, the index is
past the end of the array. The function returns the name of `t` exactly for the eleven
enumerators up to `TOK_KERNEL`, and reads past the array exactly from `TOK_QUESTION` on. -/
theorem token_names_out_of_step :
    token_names.length = 47 ∧ TokenType.index TOK_ERROR = 60 ∧
    token_type_str TOK_PLUS = some "NOT" ∧ TokenType.enumerator TOK_PLUS = "PLUS" ∧
    token_type_str TOK_EOF = none ∧
    (∀ t : TokenType, token_type_str t = some t.enumerator ↔ t.index ≤ 10) ∧
    (∀ t : TokenType, token_type_str t = none ↔ 47 ≤ t.index) := by
  refine ⟨rfl, rfl, rfl, rfl, rfl, ?_, ?_⟩
  · intro t
    cases t <;> decide
  · intro t
    cases t <;> decide

/-! ## The cursor stays inside the buffer -/

theorem Ahead.arefl (l : Lexer) : Ahead l l := ⟨rfl, rfl, le_refl _, id⟩

theorem Ahead.atrans {a b c : Lexer} (h1 : Ahead a b) (h2 : Ahead b c) : Ahead a c :=
  ⟨h2.1.trans h1.1, h2.2.1.trans h1.2.1, le_trans h1.2.2.1 h2.2.2.1,
    fun h => by
      have hb := h1.2.2.2 h
      have hc := h2.2.2.2 (by rw [h1.1]; exact hb)
      rw [h1.1] at hc
      exact hc⟩

theorem ahead_advance {l : Lexer} (h : peek l ≠ 0) : Ahead l (advance l) :=
  ⟨rfl, rfl, Nat.le_succ _, fun _ => lt_of_peek_ne_zero h⟩

theorem ahead_set_line (l : Lexer) (a b : Nat) : Ahead l { l with line := a, col := b } :=
  ⟨rfl, rfl, le_refl _, id⟩

theorem peek_ne_zero_of_isdigit {c : Nat} (h : isdigit c = true) : c ≠ 0 := by
  intro e; subst e; simp [isdigit] at h

theorem peek_ne_zero_of_word {c : Nat} (h : (isalnum c || c == 95) = true) : c ≠ 0 := by
  intro e; subst e; simp [isalnum, isalpha, isdigit] at h

theorem ahead_skip_comment (n : Nat) (l : Lexer) : Ahead l (skip_comment n l) := by
  induction n generalizing l with
  | zero => exact Ahead.arefl l
  | succ n ih =>
    unfold skip_comment
    split
    · rename_i hc
      have hp : peek l ≠ 0 := by
        simp only [Bool.and_eq_true, Bool.not_eq_true', is_at_end, beq_eq_false_iff_ne] at hc
        exact hc.2
      exact (ahead_advance hp).atrans (ih _)
    · exact Ahead.arefl l

theorem ahead_skip_digits (n : Nat) (l : Lexer) : Ahead l (skip_digits n l) := by
  induction n generalizing l with
  | zero => exact Ahead.arefl l
  | succ n ih =>
    unfold skip_digits
    split
    · rename_i hc
      exact (ahead_advance (peek_ne_zero_of_isdigit hc)).atrans (ih _)
    · exact Ahead.arefl l

theorem ahead_skip_ident (n : Nat) (l : Lexer) : Ahead l (skip_ident n l) := by
  induction n generalizing l with
  | zero => exact Ahead.arefl l
  | succ n ih =>
    unfold skip_ident
    split
    · rename_i hc
      exact (ahead_advance (peek_ne_zero_of_word hc)).atrans (ih _)
    · exact Ahead.arefl l

theorem peek_advance_eq_peek_next {l : Lexer} (h : peek l ≠ 0) : peek (advance l) = peek_next l := by
  have he : is_at_end l = false := by simp [is_at_end, h]
  simp only [peek_next, he]
  rfl

/-- One iteration of the loop of `string`: the byte after a backslash is consumed with it
only where it is not the terminating NUL. -/
theorem ahead_string_step (l : Lexer) (h : peek l ≠ 0) :
    Ahead l (advance (if peek (if peek l = 10 then { l with line := (l.line + 1) % U32, col := 0 } else l) = 92 ∧
        peek_next (if peek l = 10 then { l with line := (l.line + 1) % U32, col := 0 } else l) ≠ 0
      then advance (if peek l = 10 then { l with line := (l.line + 1) % U32, col := 0 } else l)
      else (if peek l = 10 then { l with line := (l.line + 1) % U32, col := 0 } else l))) := by
  have key : ∀ l1 : Lexer, Ahead l l1 → peek l1 ≠ 0 →
      Ahead l (advance (if peek l1 = 92 ∧ peek_next l1 ≠ 0 then advance l1 else l1)) := by
    intro l1 h1 hp
    by_cases hc : peek l1 = 92 ∧ peek_next l1 ≠ 0
    · rw [if_pos hc]
      have hp2 : peek (advance l1) ≠ 0 := by rw [peek_advance_eq_peek_next hp]; exact hc.2
      exact (h1.atrans (ahead_advance hp)).atrans (ahead_advance hp2)
    · rw [if_neg hc]
      exact h1.atrans (ahead_advance hp)
  by_cases h10 : peek l = 10
  · simp only [h10, if_true]
    exact key _ (ahead_set_line l _ _) (by show peek l ≠ 0; exact h)
  · simp only [h10, if_false]
    exact key l (Ahead.arefl l) h

theorem ahead_string_loop (n : Nat) (l : Lexer) : Ahead l (string_loop n l) := by
  induction n generalizing l with
  | zero => exact Ahead.arefl l
  | succ n ih =>
    unfold string_loop
    split
    · rename_i hc
      have hp : peek l ≠ 0 := by
        simp only [Bool.and_eq_true, Bool.not_eq_true', is_at_end, beq_eq_false_iff_ne] at hc
        exact hc.2
      exact (ahead_string_step l hp).atrans (ih _)
    · exact Ahead.arefl l

theorem ahead_skip_whitespace_loop (n : Nat) (l : Lexer) : Ahead l (skip_whitespace_loop n l) := by
  induction n generalizing l with
  | zero => exact Ahead.arefl l
  | succ n ih =>
    unfold skip_whitespace_loop
    simp only
    split
    · rename_i hc
      exact (ahead_advance (by omega)).atrans (ih _)
    · split
      · rename_i hc
        have hp : peek { l with line := (l.line + 1) % U32, col := 0 } ≠ 0 := by
          show peek l ≠ 0
          omega
        exact ((ahead_set_line l _ _).atrans (ahead_advance hp)).atrans (ih _)
      · split
        · split
          · exact (ahead_skip_comment _ l).atrans (ih _)
          · exact Ahead.arefl l
        · exact Ahead.arefl l

theorem ahead_match_char (l : Lexer) (c : Nat) : Ahead l (match_char l c).2 := by
  unfold match_char
  split
  · exact Ahead.arefl l
  · rename_i hc
    have hp : peek l ≠ 0 := by
      simp only [Bool.or_eq_true, not_or, Bool.not_eq_true, is_at_end, beq_eq_false_iff_ne] at hc
      exact hc.1
    exact ⟨rfl, rfl, Nat.le_succ _, fun _ => lt_of_peek_ne_zero hp⟩

theorem ahead_identifier (l : Lexer) : Ahead l (identifier l).2 := ahead_skip_ident _ l

theorem ahead_number_frac (l : Lexer) : Ahead l (number_frac l).2 := by
  unfold number_frac
  split
  · rename_i hc
    exact (ahead_advance (by rw [hc.1]; decide)).atrans (ahead_skip_digits _ _)
  · exact Ahead.arefl l

theorem ahead_number_exp (l : Lexer) : Ahead l (number_exp l).2 := by
  unfold number_exp
  split
  · rename_i hc
    have hp : peek l ≠ 0 := by omega
    refine (ahead_advance hp).atrans (Ahead.atrans ?_ (ahead_skip_digits _ _))
    split
    · rename_i hs
      exact ahead_advance (by omega)
    · exact Ahead.arefl _
  · exact Ahead.arefl l

theorem ahead_number (l : Lexer) : Ahead l (number l).2 := by
  rw [number_snd]
  exact (ahead_skip_digits _ l).atrans ((ahead_number_frac _).atrans (ahead_number_exp _))

theorem ahead_string_token (l : Lexer) : Ahead l (string_token l).2 := by
  unfold string_token
  simp only
  split
  · exact ahead_string_loop _ l
  · rename_i hc
    have hp : peek (string_loop (remaining l) l) ≠ 0 := by
      simpa [is_at_end] using hc
    exact (ahead_string_loop _ l).atrans (ahead_advance hp)

theorem ahead_scan_dispatch (c : Nat) (l : Lexer) : Ahead l (scan_dispatch c l).2 := by
  unfold scan_dispatch
  repeat' (first
    | exact Ahead.arefl l
    | exact ahead_identifier l
    | exact ahead_number l
    | exact ahead_string_token l
    | exact ahead_match_char l _
    | refine ite_prop (fun r => Ahead l (Prod.snd r)) ?_ ?_)

theorem scan_token_in_bounds (l : Lexer) (h : l.current ≤ l.source.length) :
    (scan_token l).2.current ≤ l.source.length := by
  have h1 := ahead_skip_whitespace_loop (remaining l) l
  have hb : (token_start l).current ≤ l.source.length := h1.2.2.2 h
  have hs : (token_start l).source = l.source := h1.1
  unfold scan_token
  simp only
  split
  · exact hb
  · rename_i hend
    have hp : peek (token_start l) ≠ 0 := by simpa [is_at_end] using hend
    have h2 := (ahead_advance hp).atrans
      (ahead_scan_dispatch (peek (token_start l)) (advance (token_start l)))
    have := h2.2.2.2 (by rw [hs]; exact hb)
    rw [hs] at this
    exact this

theorem reach_in_bounds {l r : Lexer} (hr : Reach l r) (h : l.current ≤ l.source.length) :
    r.current ≤ l.source.length := by
  induction hr with
  | init => exact h
  | @step m hm _ ih =>
    have := scan_token_in_bounds m (by rw [hm.same_source]; exact ih)
    rw [hm.same_source] at this
    exact this

/-- C34: the lexer never moves the cursor past the terminating NUL. From every state whose
cursor is at an offset in `0..n`, `n` the length of the source, the cursor is in `0..n`
after every number of iterations of the loops of a comment, of the white space, of a
string (where the byte after a backslash is consumed only when it is not the NUL), of an
identifier and of a number, after `match`, after the `switch` of `scan_token`, and after
`scan_token`; `advance` is only called where the byte at the cursor is not the NUL, and the
lookahead `peek_next` reads the byte after the cursor only there, at an offset in `1..n`.
So the cursor is in `0..n` at every state at which `lexer_tokenize` calls `scan_token`. -/
theorem cursor_stays_in_source (l : Lexer) (h : l.current ≤ l.source.length) :
    (∀ n, (skip_comment n l).current ≤ l.source.length) ∧
    (∀ n, (skip_whitespace_loop n l).current ≤ l.source.length) ∧
    (∀ n, (string_loop n l).current ≤ l.source.length) ∧
    (∀ n, (skip_ident n l).current ≤ l.source.length ∧
      (skip_digits n l).current ≤ l.source.length) ∧
    (∀ c, (match_char l c).2.current ≤ l.source.length) ∧
    (∀ c, (scan_dispatch c l).2.current ≤ l.source.length) ∧
    (is_at_end l = false →
      (advance l).current ≤ l.source.length ∧
      peek_next l = byteAt l.source (l.current + 1) ∧ l.current + 1 ≤ l.source.length) ∧
    (scan_token l).2.current ≤ l.source.length ∧
    (∀ r, Reach l r → r.current ≤ l.source.length) := by
  refine ⟨fun n => (ahead_skip_comment n l).2.2.2 h,
    fun n => (ahead_skip_whitespace_loop n l).2.2.2 h,
    fun n => (ahead_string_loop n l).2.2.2 h,
    fun n => ⟨(ahead_skip_ident n l).2.2.2 h, (ahead_skip_digits n l).2.2.2 h⟩,
    fun c => (ahead_match_char l c).2.2.2 h,
    fun c => (ahead_scan_dispatch c l).2.2.2 h, ?_,
    scan_token_in_bounds l h, fun r hr => reach_in_bounds hr h⟩
  intro hend
  have hp : peek l ≠ 0 := by simpa [is_at_end] using hend
  exact ⟨lt_of_peek_ne_zero hp, by simp only [peek_next, hend]; rfl, lt_of_peek_ne_zero hp⟩

theorem cursor_stays_in_source_witness :
    (lexer_init src_string_escape).current ≤ (lexer_init src_string_escape).source.length ∧
    (∀ n, (string_loop n (lexer_init src_string_escape)).current ≤
      (lexer_init src_string_escape).source.length) ∧
    (∀ r, Reach (lexer_init src_string_escape) r →
      r.current ≤ (lexer_init src_string_escape).source.length) :=
  ⟨by decide,
    (cursor_stays_in_source (lexer_init src_string_escape) (by decide)).2.2.1,
    (cursor_stays_in_source (lexer_init src_string_escape) (by decide)).2.2.2.2.2.2.2.2⟩

/-! ## The layout of the tokens -/

theorem bytes_between_self (src : List Nat) (a : Nat) : bytes_between src a a = [] := by
  simp [bytes_between]

theorem bytes_between_cons (src : List Nat) (a b : Nat) (hab : a < b) (ha : a < src.length) :
    bytes_between src a b = byteAt src a :: bytes_between src (a + 1) b := by
  unfold bytes_between byteAt
  rw [List.drop_eq_getElem_cons ha, show b - a = (b - (a + 1)) + 1 by omega, List.take_succ_cons,
    List.getD_eq_getElem _ _ ha]

theorem bytes_between_append (src : List Nat) (a b c : Nat) (hab : a ≤ b) (hbc : b ≤ c) :
    bytes_between src a c = bytes_between src a b ++ bytes_between src b c := by
  unfold bytes_between
  rw [show c - a = (b - a) + (c - b) by omega, List.take_add, List.drop_drop,
    show a + (b - a) = b by omega]

theorem blank_true_append (xs ys : List Nat) (h : ∀ x ∈ xs, x ≠ 10) :
    blank_scan true (xs ++ ys) = blank_scan true ys := by
  induction xs with
  | nil => rfl
  | cons x xs ih =>
    have hx := h x (List.mem_cons_self _ _)
    simp only [List.cons_append, blank_scan, hx, if_false]
    exact ih (fun y hy => h y (List.mem_cons_of_mem _ hy))

theorem blank_true_of_false (xs : List Nat) (hh : xs.headD 0 = 10 ∨ xs.headD 0 = 0)
    (hb : blank_scan false xs = true) : blank_scan true xs = true := by
  cases xs with
  | nil => rfl
  | cons x rest =>
    simp only [List.headD_cons] at hh
    rcases hh with rfl | rfl
    · simpa [blank_scan, is_space] using hb
    · simp [blank_scan, is_space] at hb

theorem comment_bytes (n : Nat) : ∀ l : Lexer, l.current ≤ l.source.length →
    ∀ x ∈ bytes_between l.source l.current (skip_comment n l).current, x ≠ 10 := by
  induction n with
  | zero =>
    intro l _ x hx
    simp [skip_comment, bytes_between_self] at hx
  | succ n ih =>
    intro l hb x hx
    unfold skip_comment at hx
    split at hx
    · rename_i hc
      have hc2 : peek l ≠ 10 ∧ peek l ≠ 0 := by
        simpa [is_at_end] using hc
      have ha := ahead_skip_comment n (advance l)
      have hlt := lt_of_peek_ne_zero hc2.2
      have hcur : l.current + 1 ≤ (skip_comment n (advance l)).current := ha.2.2.1
      rw [bytes_between_cons _ _ _ (by omega) hlt] at hx
      rcases List.mem_cons.mp hx with rfl | hx
      · exact hc2.1
      · exact ih (advance l) hlt x hx
    · simp [bytes_between_self] at hx

theorem skip_comment_stops (n : Nat) : ∀ l : Lexer, remaining l ≤ n →
    peek (skip_comment n l) = 10 ∨ peek (skip_comment n l) = 0 := by
  induction n with
  | zero =>
    intro l hn
    right
    exact peek_eq_zero_of_remaining (Nat.le_zero.mp hn)
  | succ n ih =>
    intro l hn
    unfold skip_comment
    split
    · rename_i hc
      have hc2 : peek l ≠ 10 ∧ peek l ≠ 0 := by
        simpa [is_at_end] using hc
      have := remaining_advance_lt hc2.2
      exact ih (advance l) (by omega)
    · rename_i hc
      simp only [Bool.and_eq_true, Bool.not_eq_true', is_at_end, not_and, bne_iff_ne, ne_eq,
        beq_eq_false_iff_ne, not_not] at hc
      by_cases h10 : peek l = 10
      · exact Or.inl h10
      · exact Or.inr (hc h10)

theorem head_bytes_between (src : List Nat) (a b : Nat) (hab : a < b) (ha : a < src.length) :
    (bytes_between src a b).headD 0 = byteAt src a := by
  rw [bytes_between_cons src a b hab ha]
  rfl

/-- The bytes that `skip_whitespace` passes over are white space and line comments. -/
theorem blank_gap (n : Nat) : ∀ l : Lexer, l.current ≤ l.source.length →
    blank_scan false
      (bytes_between l.source l.current (skip_whitespace_loop n l).current) = true := by
  induction n with
  | zero =>
    intro l _
    simp [skip_whitespace_loop, bytes_between_self, blank_scan]
  | succ n ih =>
    intro l hb
    unfold skip_whitespace_loop
    simp only
    split
    · rename_i hc
      have hp : peek l ≠ 0 := by omega
      have hlt := lt_of_peek_ne_zero hp
      have ha := ahead_skip_whitespace_loop n (advance l)
      have hcur : l.current + 1 ≤ (skip_whitespace_loop n (advance l)).current := ha.2.2.1
      rw [bytes_between_cons _ _ _ (by omega) hlt]
      have hs : is_space (byteAt l.source l.current) = true := by
        have : byteAt l.source l.current = peek l := rfl
        rw [this]
        rcases hc with h | h | h <;> rw [h] <;> rfl
      simp only [blank_scan, hs, if_true]
      exact ih (advance l) hlt
    · split
      · rename_i _ hc
        have hp : peek l ≠ 0 := by omega
        have hlt := lt_of_peek_ne_zero hp
        have ha := ahead_skip_whitespace_loop n
          (advance { l with line := (l.line + 1) % U32, col := 0 })
        have hcur : l.current + 1 ≤ (skip_whitespace_loop n
          (advance { l with line := (l.line + 1) % U32, col := 0 })).current := ha.2.2.1
        rw [bytes_between_cons _ _ _ (by omega) hlt]
        have hs : is_space (byteAt l.source l.current) = true := by
          have : byteAt l.source l.current = peek l := rfl
          rw [this, hc]
          rfl
        simp only [blank_scan, hs, if_true]
        exact ih (advance { l with line := (l.line + 1) % U32, col := 0 }) hlt
      · split
        · split
          · rename_i _ _ h47 hn47
            have hp : peek l ≠ 0 := by omega
            have hlt := lt_of_peek_ne_zero hp
            have hp2 : peek (advance l) ≠ 0 := by
              rw [peek_advance_eq_peek_next hp, hn47]; decide
            have hlt2 : l.current + 1 < l.source.length := lt_of_peek_ne_zero hp2
            have hm := ahead_skip_comment (remaining l) l
            have hmb : (skip_comment (remaining l) l).current ≤ l.source.length := hm.2.2.2 hb
            have hr := ahead_skip_whitespace_loop n (skip_comment (remaining l) l)
            have hms : (skip_comment (remaining l) l).source = l.source := hm.1
            -- the comment holds at least its two slashes
            have h2 : l.current + 2 ≤ (skip_comment (remaining l) l).current := by
              have hrem : remaining l = (remaining l - 2) + 1 + 1 := by
                unfold remaining; omega
              have e1 : skip_comment (remaining l) l =
                  skip_comment (remaining l - 2) (advance (advance l)) := by
                have c1 : (peek l != 10 && !is_at_end l) = true := by
                  simp [is_at_end, h47]
                have c2 : (peek (advance l) != 10 && !is_at_end (advance l)) = true := by
                  rw [is_at_end, peek_advance_eq_peek_next hp, hn47]; rfl
                conv_lhs => rw [hrem]
                rw [skip_comment, if_pos c1, skip_comment, if_pos c2]
              rw [e1]
              exact (ahead_skip_comment _ (advance (advance l))).2.2.1
            have hstop := skip_comment_stops (remaining l) l (le_refl _)
            have hih := ih (skip_comment (remaining l) l) (by rw [hms]; exact hmb)
            rw [hms] at hih
            have hrc : (skip_comment (remaining l) l).current ≤
                (skip_whitespace_loop n (skip_comment (remaining l) l)).current := hr.2.2.1
            rw [bytes_between_cons _ _ _ (by omega) hlt,
              bytes_between_cons _ _ _ (by omega) hlt2]
            have hb0 : byteAt l.source l.current = 47 := h47
            have hb1 : byteAt l.source (l.current + 1) = 47 := by
              have : byteAt l.source (l.current + 1) = peek (advance l) := rfl
              rw [this, peek_advance_eq_peek_next hp, hn47]
            rw [hb0, hb1]
            have hsp : is_space 47 = false := rfl
            simp only [blank_scan, hsp, List.headD_cons, true_and, if_true, Bool.false_eq_true,
              if_false, show ¬ ((47 : Nat) = 10) by decide]
            rw [bytes_between_append l.source (l.current + 1 + 1)
              (skip_comment (remaining l) l).current _ (by omega) hrc]
            have hcb : ∀ x ∈ bytes_between l.source (l.current + 1 + 1)
                (skip_comment (remaining l) l).current, x ≠ 10 := by
              intro x hx
              refine comment_bytes (remaining l) l hb x ?_
              rw [bytes_between_append l.source l.current (l.current + 1 + 1) _ (by omega)
                (by omega)]
              exact List.mem_append_right _ hx
            rw [blank_true_append _ _ hcb]
            by_cases hemp : (skip_whitespace_loop n (skip_comment (remaining l) l)).current =
                (skip_comment (remaining l) l).current
            · rw [hemp, bytes_between_self]
              rfl
            · refine blank_true_of_false _ ?_ hih
              have hpm : peek (skip_comment (remaining l) l) ≠ 0 ∨
                  peek (skip_comment (remaining l) l) = 0 := by omega
              rcases hpm with hne | he0
              · have hmlt := lt_of_peek_ne_zero hne
                rw [hms] at hmlt
                rw [head_bytes_between _ _ _ (by omega) hmlt]
                have : byteAt l.source (skip_comment (remaining l) l).current =
                    peek (skip_comment (remaining l) l) := by
                  unfold peek; rw [hms]
                rw [this]
                exact hstop
              · exfalso
                -- at the end of the input the loop of the white space stops
                have : skip_whitespace_loop n (skip_comment (remaining l) l) =
                    skip_comment (remaining l) l := by
                  cases n with
                  | zero => rfl
                  | succ k => unfold skip_whitespace_loop; simp [he0]
                exact hemp (by rw [this])
          · simp [bytes_between_self, blank_scan]
        · simp [bytes_between_self, blank_scan]

theorem token_of_make (l x : Lexer) (ty : TokenType) (h : Ahead l x) (hty : ty ≠ TOK_EOF) :
    TokenOf l (make_token x ty, x) :=
  ⟨h, hty, fun _ => ⟨h.2.1, by simp only [make_token]; rw [h.2.1]⟩⟩

theorem token_of_match (l : Lexer) (c : Nat) (a b : TokenType) (ha : a ≠ TOK_EOF)
    (hb : b ≠ TOK_EOF) :
    TokenOf l (make_token (match_char l c).2 (if (match_char l c).1 = true then a else b),
      (match_char l c).2) :=
  token_of_make l _ _ (ahead_match_char l c) (by split <;> assumption)

theorem token_of_error (l : Lexer) : TokenOf l (error_token l, l) :=
  ⟨Ahead.arefl l, by simp [error_token], fun h => absurd rfl h⟩

theorem token_of_identifier (l : Lexer) : TokenOf l (identifier l) := by
  have hw := identifier_type_word (skip_ident (remaining l) l)
  refine token_of_make l _ _ (ahead_skip_ident _ l) ?_
  intro e
  rw [e] at hw
  cases hw

theorem token_of_number (l : Lexer) : TokenOf l (number l) := by
  have ha := ahead_number l
  have ht := number_type l
  refine ⟨ha, ?_, fun _ => ?_⟩
  · rcases ht with h | h <;> rw [h] <;> decide
  · have hs : (number_exp (number_frac (skip_digits (remaining l) l)).2).2.start = l.start := by
      have := ha.2.1
      rw [number_snd] at this
      exact this
    rw [number_snd]
    unfold number
    simp only
    split <;> exact ⟨hs, by simp only [make_token]; rw [hs]⟩

theorem token_of_string (l : Lexer) : TokenOf l (string_token l) := by
  unfold string_token
  simp only
  split
  · exact ⟨ahead_string_loop _ l, by simp [error_token], fun h => absurd rfl h⟩
  · rename_i hc
    have hp : peek (string_loop (remaining l) l) ≠ 0 := by
      simpa [is_at_end] using hc
    exact token_of_make l _ _ ((ahead_string_loop _ l).atrans (ahead_advance hp)) (by decide)

theorem token_of_scan_dispatch (c : Nat) (l : Lexer) : TokenOf l (scan_dispatch c l) := by
  unfold scan_dispatch
  repeat' (first
    | exact token_of_make l l _ (Ahead.arefl l) (by decide)
    | exact token_of_identifier l
    | exact token_of_number l
    | exact token_of_string l
    | exact token_of_match l _ _ _ (by decide) (by decide)
    | exact token_of_make l _ _ (ahead_match_char l _) (by decide)
    | exact token_of_error l
    | refine ite_prop (fun r => TokenOf l r) ?_ ?_)

theorem scan_token_cases (l : Lexer) :
    (is_at_end (token_start l) = true ∧
      scan_token l = (make_token (token_start l) TOK_EOF, token_start l)) ∨
    (is_at_end (token_start l) = false ∧
      scan_token l = scan_dispatch (peek (token_start l)) (advance (token_start l))) := by
  unfold scan_token
  simp only
  cases h : is_at_end (token_start l)
  · right; exact ⟨rfl, by simp⟩
  · left; exact ⟨rfl, by simp⟩

theorem token_start_gap (l : Lexer) (hb : l.current ≤ l.source.length) :
    (token_start l).source = l.source ∧ (token_start l).start = (token_start l).current ∧
    l.current ≤ (token_start l).current ∧ (token_start l).current ≤ l.source.length ∧
    blank_scan false (bytes_between l.source l.current (token_start l).current) = true := by
  have ha := ahead_skip_whitespace_loop (remaining l) l
  exact ⟨ha.1, rfl, ha.2.2.1, ha.2.2.2 hb, blank_gap (remaining l) l hb⟩

theorem at_end_is_length (l : Lexer) (hsrc : ∀ b ∈ l.source, b ≠ 0)
    (hb : l.current ≤ l.source.length) (hend : is_at_end l = true) :
    l.current = l.source.length := by
  by_contra hne
  have hlt : l.current < l.source.length := lt_of_le_of_ne hb hne
  have hp : peek l = 0 := by simpa [is_at_end] using hend
  have hm : peek l ∈ l.source := by
    unfold peek byteAt
    rw [List.getD_eq_getElem _ _ hlt]
    exact List.getElem_mem _
  exact hsrc _ hm hp

/-- The tokens that the loop of `lexer_tokenize` adds lie in the layout `tiles` when the
last of them is `EOF`. -/
theorem tiles_loop (fuel : Nat) : ∀ (l : Lexer) (acc res : List Token),
    (∀ b ∈ l.source, b ≠ 0) → l.current ≤ l.source.length →
    lexer_tokenize_loop fuel l acc = some res →
    ∃ toks, res = acc ++ toks ∧ toks ≠ [] ∧
      (toks.getLast?.map Token.type = some TOK_EOF → tiles l.source l.current toks) := by
  induction fuel with
  | zero => intro l acc res _ _ h; cases h
  | succ fuel ih =>
    intro l acc res hsrc hb h
    obtain ⟨g1, g2, g3, g4, g5⟩ := token_start_gap l hb
    rw [lexer_tokenize_loop] at h
    rcases scan_token_cases l with ⟨hend, hs⟩ | ⟨hend, hs⟩
    · rw [hs] at h
      simp only [make_token, true_or, if_true, Option.some.injEq] at h
      refine ⟨_, h.symm, by simp, fun _ => ?_⟩
      have hlen : (token_start l).current = l.source.length := by
        have := at_end_is_length (token_start l) (by rw [g1]; exact hsrc) (by rw [g1]; exact g4) hend
        rw [this, g1]
      simp only [tiles]
      refine ⟨trivial, ?_, ?_, ?_, ?_⟩
      · rw [g2]; omega
      · rw [g2]; exact hlen
      · rw [g2]; exact g3
      · rw [g2]; exact g5
    · have hp : peek (token_start l) ≠ 0 := by simpa [is_at_end] using hend
      obtain ⟨ta, tne, tsl⟩ := token_of_scan_dispatch (peek (token_start l)) (advance (token_start l))
      have hadv := ahead_advance hp
      have hall := hadv.atrans ta
      rw [← hs] at ta tne tsl hall
      have hsrc2 : (scan_token l).2.source = l.source := hall.1.trans g1
      have hb2 : (scan_token l).2.current ≤ l.source.length := by
        have := hall.2.2.2 (by rw [g1]; exact g4)
        rw [g1] at this
        exact this
      have hcur : (token_start l).current + 1 ≤ (scan_token l).2.current := ta.2.2.1
      by_cases hfin : (scan_token l).1.type = TOK_EOF ∨ (scan_token l).1.type = TOK_ERROR
      · rw [if_pos hfin] at h
        simp only [Option.some.injEq] at h
        refine ⟨_, h.symm, by simp, fun hl => ?_⟩
        simp only [List.getLast?_singleton, Option.map_some', Option.some.injEq] at hl
        exact absurd hl tne
      · rw [if_neg hfin] at h
        obtain ⟨toks, e1, e2, e3⟩ := ih (scan_token l).2 (acc ++ [(scan_token l).1]) res
          (by rw [hsrc2]; exact hsrc) (by rw [hsrc2]; exact hb2) h
        refine ⟨(scan_token l).1 :: toks, by rw [e1]; simp, by simp, fun hl => ?_⟩
        have hne : (scan_token l).1.type ≠ TOK_ERROR := fun e => hfin (Or.inr e)
        obtain ⟨s1, s2⟩ := tsl hne
        have s1b : (scan_token l).1.start = (token_start l).current := by rw [s1]; exact g2
        have s2b : (scan_token l).1.length = (scan_token l).2.current - (token_start l).current := by
          rw [s2]; show _ - (token_start l).start = _; rw [g2]
        cases toks with
        | nil => exact absurd rfl e2
        | cons u rest =>
          have hl2 : (u :: rest).getLast?.map Token.type = some TOK_EOF := by
            rw [List.getLast?_cons_cons] at hl
            exact hl
          have ht := e3 hl2
          rw [hsrc2] at ht
          simp only [tiles]
          refine ⟨by rw [s1b]; exact g3, by rw [s1b]; exact g5, by rw [s2b]; omega,
            by rw [s1b, s2b]; omega, ?_⟩
          have : (scan_token l).1.start + (scan_token l).1.length = (scan_token l).2.current := by
            rw [s1b, s2b]; omega
          rw [this]
          exact ht

theorem tiles_facts (src : List Nat) : ∀ (toks : List Token) (pos : Nat), tiles src pos toks →
    (∀ t ∈ toks, pos ≤ t.start ∧ t.start + t.length ≤ src.length) ∧
    toks.Pairwise (fun t u => t.start + t.length ≤ u.start) ∧
    (∀ t ∈ toks.dropLast, 0 < t.length)
  | [], _, h => by simp [tiles] at h
  | [t], pos, h => by
    simp only [tiles] at h
    obtain ⟨_, h2, h3, h4, _⟩ := h
    refine ⟨?_, List.pairwise_singleton _ _, by simp⟩
    intro v hv
    rw [List.mem_singleton] at hv
    subst hv
    exact ⟨h4, by omega⟩
  | t :: u :: rest, pos, h => by
    simp only [tiles] at h
    obtain ⟨h1, _, h3, h4, h5⟩ := h
    obtain ⟨i1, i2, i3⟩ := tiles_facts src (u :: rest) _ h5
    refine ⟨?_, ?_, ?_⟩
    · intro v hv
      rcases List.mem_cons.mp hv with rfl | hv
      · exact ⟨h1, h4⟩
      · have := i1 v hv
        exact ⟨by omega, this.2⟩
    · exact List.pairwise_cons.mpr ⟨fun v hv => (i1 v hv).1, i2⟩
    · intro v hv
      rw [List.dropLast_cons₂] at hv
      rcases List.mem_cons.mp hv with rfl | hv
      · exact h3
      · exact i3 v hv

/-- C35: token slices are lossless. For every source without a NUL byte that lexes to
a list ending in `EOF`, the tokens lie in the layout `tiles` from the offset 0: the bytes
before each token, from the end of the token before it, are white space (space, tab, CR,
LF) and `//` line comments only, every token before `EOF` is not empty and lies inside
the source, and `EOF` is the empty slice at the end of the source. So every slice lies
inside the source, the tokens before `EOF` are not empty, and each slice ends at or
before the start of every later one. -/
theorem token_slices_tile (src : List Nat) (toks : List Token) (hsrc : ∀ b ∈ src, b ≠ 0)
    (h : lex src = some toks) (hlast : toks.getLast?.map Token.type = some TOK_EOF) :
    tiles src 0 toks ∧
    (∀ t ∈ toks, t.start + t.length ≤ src.length) ∧
    (∀ t ∈ toks.dropLast, 0 < t.length) ∧
    toks.Pairwise (fun t u => t.start + t.length ≤ u.start) := by
  obtain ⟨ts, e1, _, e3⟩ := tiles_loop (remaining (lexer_init src) + 1) (lexer_init src) [] toks
    hsrc (Nat.zero_le _) h
  rw [List.nil_append] at e1
  subst e1
  have ht := e3 hlast
  obtain ⟨f1, f2, f3⟩ := tiles_facts src toks 0 ht
  exact ⟨ht, fun t ht => (f1 t ht).2, f3, f2⟩

theorem token_slices_tile_witness :
    (∀ b ∈ src_commented, b ≠ 0) ∧ lex src_commented = some toks_commented ∧
    toks_commented.getLast?.map Token.type = some TOK_EOF ∧
    tiles src_commented 0 toks_commented :=
  ⟨by decide, by decide, by decide,
    (token_slices_tile src_commented toks_commented (by decide) (by decide) (by decide)).1⟩

open parser

/-! ## The `@parallel` annotation -/

/-- C10 on `@parallel(1);`: the statement parses to the integer literal `1` of the
parenthesised expression; the `@` and the identifier `parallel` are dropped and no
`Builtin` node is built. -/
theorem parallel_call_drops_builtin :
    lex src_parallel_call = some toks_parallel_call ∧
    ∀ n, parser_parse (n + 30) (parser_init src_parallel_call toks_parallel_call) =
      some (ASTNode.Program 1 1 [ASTNode.IntLit 1 11 1],
        ⟨src_parallel_call, toks_parallel_call, 6⟩) :=
  ⟨by decide, fun _ => rfl⟩

theorem stuck_primary (f : Nat) :
    primary f at_comma = none ∨ primary f at_comma = some (ASTNode.null, at_comma) := by
  cases f with
  | zero => exact Or.inl rfl
  | succ n => exact Or.inr rfl

theorem stuck_postfix (f : Nat) :
    postfix_expr f at_comma = none ∨ postfix_expr f at_comma = some (ASTNode.null, at_comma) := by
  cases f with
  | zero => exact Or.inl rfl
  | succ n =>
    rcases stuck_primary n with h | h
    · left; simp only [postfix_expr, h]
    · right; simp only [postfix_expr, h]

theorem stuck_unary (f : Nat) :
    unary f at_comma = none ∨ unary f at_comma = some (ASTNode.null, at_comma) := by
  cases f with
  | zero => exact Or.inl rfl
  | succ n =>
    have e : unary (n + 1) at_comma = postfix_expr n at_comma := rfl
    rw [e]; exact stuck_postfix n

theorem stuck_factor (f : Nat) :
    factor f at_comma = none ∨ factor f at_comma = some (ASTNode.null, at_comma) := by
  cases f with
  | zero => exact Or.inl rfl
  | succ n =>
    rcases stuck_unary n with h | h
    · left; simp only [factor, h]
    · simp only [factor, h]
      cases n with
      | zero => exact Or.inl rfl
      | succ m => exact Or.inr rfl

theorem stuck_term (f : Nat) :
    term f at_comma = none ∨ term f at_comma = some (ASTNode.null, at_comma) := by
  cases f with
  | zero => exact Or.inl rfl
  | succ n =>
    rcases stuck_factor n with h | h
    · left; simp only [term, h]
    · simp only [term, h]
      cases n with
      | zero => exact Or.inl rfl
      | succ m => exact Or.inr rfl

theorem stuck_comparison (f : Nat) :
    comparison f at_comma = none ∨ comparison f at_comma = some (ASTNode.null, at_comma) := by
  cases f with
  | zero => exact Or.inl rfl
  | succ n =>
    rcases stuck_term n with h | h
    · left; simp only [comparison, h]
    · simp only [comparison, h]
      cases n with
      | zero => exact Or.inl rfl
      | succ m => exact Or.inr rfl

theorem stuck_equality (f : Nat) :
    equality f at_comma = none ∨ equality f at_comma = some (ASTNode.null, at_comma) := by
  cases f with
  | zero => exact Or.inl rfl
  | succ n =>
    rcases stuck_comparison n with h | h
    · left; simp only [equality, h]
    · simp only [equality, h]
      cases n with
      | zero => exact Or.inl rfl
      | succ m => exact Or.inr rfl

theorem stuck_logical_and (f : Nat) :
    logical_and f at_comma = none ∨ logical_and f at_comma = some (ASTNode.null, at_comma) := by
  cases f with
  | zero => exact Or.inl rfl
  | succ n =>
    rcases stuck_equality n with h | h
    · left; simp only [logical_and, h]
    · simp only [logical_and, h]
      cases n with
      | zero => exact Or.inl rfl
      | succ m => exact Or.inr rfl

theorem stuck_logical_or (f : Nat) :
    logical_or f at_comma = none ∨ logical_or f at_comma = some (ASTNode.null, at_comma) := by
  cases f with
  | zero => exact Or.inl rfl
  | succ n =>
    rcases stuck_logical_and n with h | h
    · left; simp only [logical_or, h]
    · simp only [logical_or, h]
      cases n with
      | zero => exact Or.inl rfl
      | succ m => exact Or.inr rfl

theorem stuck_ternary (f : Nat) :
    ternary_expr f at_comma = none ∨ ternary_expr f at_comma = some (ASTNode.null, at_comma) := by
  cases f with
  | zero => exact Or.inl rfl
  | succ n =>
    rcases stuck_logical_or n with h | h
    · left; simp only [ternary_expr, h]
    · right; simp only [ternary_expr, h]; rfl

theorem stuck_expression (f : Nat) :
    expression f at_comma = none ∨ expression f at_comma = some (ASTNode.null, at_comma) := by
  cases f with
  | zero => exact Or.inl rfl
  | succ n => simp only [expression]; exact stuck_ternary n

/-- At the comma `statement` consumes nothing: it returns the null node and the same state. -/
theorem stuck_statement (f : Nat) :
    statement f at_comma = none ∨ statement f at_comma = some (ASTNode.null, at_comma) := by
  cases f with
  | zero => exact Or.inl rfl
  | succ n =>
    have e : statement (n + 1) at_comma =
        (match expression n at_comma with
         | none => none
         | some (expr, p1) => some (expr, (match_tok p1 TOK_SEMICOLON).2)) := rfl
    rw [e]
    rcases stuck_expression n with h | h
    · left; rw [h]
    · right; rw [h]; rfl

theorem stuck_loop (f : Nat) : ∀ stmts, parser_parse_loop f at_comma stmts = none := by
  induction f with
  | zero => intro _; rfl
  | succ n ih =>
    intro stmts
    have e : parser_parse_loop (n + 1) at_comma stmts =
        (match statement n at_comma with
         | none => none
         | some (s, p1) => parser_parse_loop n p1 (stmts ++ [s])) := rfl
    rw [e]
    rcases stuck_statement n with h | h
    · rw [h]
    · rw [h]; exact ih _

theorem first_statement (f : Nat) :
    statement f (parser_init src_parallel_two toks_parallel_two) = none ∨
    statement f (parser_init src_parallel_two toks_parallel_two) =
      some (ASTNode.IntLit 1 11 1, at_comma) := by
  by_cases h : 30 ≤ f
  · obtain ⟨n, rfl⟩ := Nat.exists_eq_add_of_le' h
    exact Or.inr rfl
  · have : f < 30 := Nat.lt_of_not_le h
    interval_cases f <;> first | exact Or.inl rfl | exact Or.inr rfl

/-- C9 on `@parallel(1, 2);`, one well-formed statement: after the first call of `statement`
has stopped at the comma, every further call returns without consuming a token, so the
loop of `parser_parse` never ends; no fuel gives a `Program`. -/
theorem parser_parse_never_returns :
    lex src_parallel_two = some toks_parallel_two ∧
    ∀ fuel, parser_parse fuel (parser_init src_parallel_two toks_parallel_two) = none := by
  refine ⟨by decide, fun fuel => ?_⟩
  have hl : parser_parse_loop fuel (parser_init src_parallel_two toks_parallel_two) [] = none := by
    cases fuel with
    | zero => rfl
    | succ n =>
      have e : parser_parse_loop (n + 1) (parser_init src_parallel_two toks_parallel_two) [] =
          (match statement n (parser_init src_parallel_two toks_parallel_two) with
           | none => none
           | some (s, p1) => parser_parse_loop n p1 ([] ++ [s])) := rfl
      rw [e]
      rcases first_statement n with h | h
      · rw [h]
      · rw [h]; exact stuck_loop n _
  simp only [parser_parse, hl]

/-! ## Precedence and associativity -/

theorem check_eq (p : Parser) (ty : TokenType) (h : ty ≠ TOK_EOF) :
    check p ty = decide ((current p).type = ty) := by
  unfold check parser.is_at_end
  by_cases he : (current p).type = TOK_EOF
  · have : ¬ (current p).type = ty := fun h' => h (h' ▸ he)
    simp [he, this, h.symm]
  · simp [he]

theorem advance_eq_next (p : Parser) (h : (current p).type ≠ TOK_EOF) : parser.advance p = p.next := by
  unfold parser.advance parser.is_at_end
  simp [h, Parser.next]

theorem match_tok_pos (p : Parser) (ty : TokenType) (h : ty ≠ TOK_EOF)
    (hc : (current p).type = ty) : match_tok p ty = (true, p.next) := by
  unfold match_tok
  rw [check_eq p ty h, advance_eq_next p (hc ▸ h)]
  simp [hc]

theorem match_tok_neg (p : Parser) (ty : TokenType) (h : ty ≠ TOK_EOF)
    (hc : (current p).type ≠ ty) : match_tok p ty = (false, p) := by
  unfold match_tok
  rw [check_eq p ty h]
  simp [hc]

theorem previous_next (p : Parser) : previous p.next = current p := by
  unfold previous current Parser.next
  simp

theorem level_loop_step (k : Nat) (hk : 1 ≤ k ∧ k ≤ 6) (f : Nat) (left : ASTNode) (p : Parser)
    (ty : TokenType) (hty : (current p).type = ty) (hl : bin_level ty = some k) :
    level_loop k (f + 1) left p =
      match parse_level (k + 1) f p.next with
      | none => none
      | some (right, p1) =>
        level_loop k f (ASTNode.Binary (current p).line (current p).col (bin_op ty) left right) p1 := by
  obtain ⟨h1, h6⟩ := hk
  cases ty <;> simp only [bin_level, Option.some.injEq, reduceCtorEq] at hl <;> subst hl
  all_goals
    simp only [level_loop, parse_level, logical_or_loop, logical_and_loop, equality_loop,
      comparison_loop, term_loop, factor_loop, bin_op]
  all_goals
    simp only [check_eq _ _ (show TOK_STAR ≠ TOK_EOF by decide),
      check_eq _ _ (show TOK_SLASH ≠ TOK_EOF by decide),
      check_eq _ _ (show TOK_PERCENT ≠ TOK_EOF by decide),
      check_eq _ _ (show TOK_PLUS ≠ TOK_EOF by decide),
      check_eq _ _ (show TOK_MINUS ≠ TOK_EOF by decide),
      check_eq _ _ (show TOK_LT ≠ TOK_EOF by decide),
      check_eq _ _ (show TOK_GT ≠ TOK_EOF by decide),
      check_eq _ _ (show TOK_LTE ≠ TOK_EOF by decide),
      check_eq _ _ (show TOK_GTE ≠ TOK_EOF by decide),
      check_eq _ _ (show TOK_EQEQ ≠ TOK_EOF by decide),
      check_eq _ _ (show TOK_NEQ ≠ TOK_EOF by decide),
      check_eq _ _ (show TOK_AND ≠ TOK_EOF by decide),
      check_eq _ _ (show TOK_OR ≠ TOK_EOF by decide),
      match_tok, advance_eq_next p (by rw [hty]; decide), hty, previous_next]
    rfl

theorem bin_level_range {ty : TokenType} {k : Nat} (h : bin_level ty = some k) :
    1 ≤ k ∧ k ≤ 6 := by
  cases ty <;> simp only [bin_level, Option.some.injEq, reduceCtorEq] at h <;> omega

theorem level_loop_exit (k : Nat) (hk : 1 ≤ k ∧ k ≤ 6) (f : Nat) (left : ASTNode) (p : Parser)
    (h : bin_level (current p).type ≠ some k) :
    level_loop k (f + 1) left p = some (left, p) := by
  obtain ⟨h1, h6⟩ := hk
  have hne : ∀ ty, bin_level ty = some k → (current p).type ≠ ty :=
    fun ty hty he => h (he ▸ hty)
  interval_cases k
  · have a := hne TOK_OR rfl
    simp only [level_loop, logical_or_loop, match_tok_neg p TOK_OR (by decide) a]
    rfl
  · have a := hne TOK_AND rfl
    simp only [level_loop, logical_and_loop, match_tok_neg p TOK_AND (by decide) a]
    rfl
  · have a := hne TOK_EQEQ rfl
    have b := hne TOK_NEQ rfl
    simp [level_loop, equality_loop, check_eq, a, b]
  · have a := hne TOK_LT rfl
    have b := hne TOK_GT rfl
    have c := hne TOK_LTE rfl
    have d := hne TOK_GTE rfl
    simp [level_loop, comparison_loop, check_eq, a, b, c, d]
  · have a := hne TOK_PLUS rfl
    have b := hne TOK_MINUS rfl
    simp [level_loop, term_loop, check_eq, a, b]
  · have a := hne TOK_STAR rfl
    have b := hne TOK_SLASH rfl
    have c := hne TOK_PERCENT rfl
    simp [level_loop, factor_loop, check_eq, a, b, c]

theorem parse_level_succ (k : Nat) (hk : 1 ≤ k ∧ k ≤ 6) (f : Nat) (p : Parser) :
    parse_level k (f + 1) p =
      match parse_level (k + 1) f p with
      | none => none
      | some (left, p1) => level_loop k f left p1 := by
  obtain ⟨h1, h6⟩ := hk
  interval_cases k <;> rfl

theorem yields_level (k : Nat) (hk : 1 ≤ k ∧ k ≤ 6) (p p1 : Parser) (left : ASTNode)
    (r : ASTNode × Parser) (h1 : Yields (fun f => parse_level (k + 1) f p) (left, p1))
    (h2 : Yields (fun f => level_loop k f left p1) r) :
    Yields (fun f => parse_level k f p) r := by
  obtain ⟨F1, hF1⟩ := h1
  obtain ⟨F2, hF2⟩ := h2
  refine ⟨max F1 F2 + 1, fun f hf => ?_⟩
  obtain ⟨g, rfl⟩ : ∃ g, f = g + 1 := ⟨f - 1, by omega⟩
  show parse_level k (g + 1) p = some r
  have e1 : parse_level (k + 1) g p = some (left, p1) := hF1 g (by omega)
  rw [parse_level_succ k hk, e1]
  exact hF2 g (by omega)

theorem yields_loop_step (k : Nat) (hk : 1 ≤ k ∧ k ≤ 6) (p p1 : Parser) (left right : ASTNode)
    (ty : TokenType) (r : ASTNode × Parser)
    (hty : (current p).type = ty) (hl : bin_level ty = some k)
    (h1 : Yields (fun f => parse_level (k + 1) f p.next) (right, p1))
    (h2 : Yields (fun f => level_loop k f
      (ASTNode.Binary (current p).line (current p).col (bin_op ty) left right) p1) r) :
    Yields (fun f => level_loop k f left p) r := by
  obtain ⟨F1, hF1⟩ := h1
  obtain ⟨F2, hF2⟩ := h2
  refine ⟨max F1 F2 + 1, fun f hf => ?_⟩
  obtain ⟨g, rfl⟩ : ∃ g, f = g + 1 := ⟨f - 1, by omega⟩
  show level_loop k (g + 1) left p = some r
  have e1 : parse_level (k + 1) g p.next = some (right, p1) := hF1 g (by omega)
  rw [level_loop_step k hk g left p ty hty hl, e1]
  exact hF2 g (by omega)

theorem yields_loop_exit (k : Nat) (hk : 1 ≤ k ∧ k ≤ 6) (p : Parser) (left : ASTNode)
    (h : bin_level (current p).type ≠ some k) :
    Yields (fun f => level_loop k f left p) (left, p) := by
  refine ⟨1, fun f hf => ?_⟩
  obtain ⟨g, rfl⟩ : ∃ g, f = g + 1 := ⟨f - 1, by omega⟩
  exact level_loop_exit k hk g left p h

theorem yields_lift (k : Nat) (hk : 1 ≤ k ∧ k ≤ 6) (p q : Parser) (x : ASTNode)
    (h1 : Yields (fun f => parse_level (k + 1) f p) (x, q))
    (h : bin_level (current q).type ≠ some k) :
    Yields (fun f => parse_level k f p) (x, q) :=
  yields_level k hk p q x (x, q) h1 (yields_loop_exit k hk q x h)

/-- A node parsed at level `n` is the result at every lower level `m` when the token after
it is no operator of the levels from `m` up to `n`. -/
theorem yields_lift_range (m : Nat) (hm : 1 ≤ m) (p q : Parser) (x : ASTNode) :
    ∀ n, m ≤ n → n ≤ 7 → Yields (fun f => parse_level n f p) (x, q) →
      (∀ k, m ≤ k → k < n → bin_level (current q).type ≠ some k) →
      Yields (fun f => parse_level m f p) (x, q) := by
  intro n hmn
  induction n, hmn using Nat.le_induction with
  | base => intro _ h _; exact h
  | succ n hmn ih =>
    intro hn h hk
    exact ih (by omega) (yields_lift n ⟨by omega, by omega⟩ p q x h (hk n hmn (Nat.lt_succ_self n)))
      (fun k h1 h2 => hk k h1 (by omega))

theorem primary_at_sign (f : Nat) (p : Parser)
    (h : (current p).type = TOK_MINUS ∨ (current p).type = TOK_NOT) :
    primary (f + 1) p = some (ASTNode.null, p) := by
  have hne : ∀ ty, ty ≠ TOK_MINUS → ty ≠ TOK_NOT → (current p).type ≠ ty := by
    intro ty h1 h2 he
    rcases h with h | h
    · exact h1 (he ▸ h)
    · exact h2 (he ▸ h)
  simp only [primary,
    match_tok_neg p TOK_INT (by decide) (hne _ (by decide) (by decide)),
    match_tok_neg p TOK_FLOAT (by decide) (hne _ (by decide) (by decide)),
    match_tok_neg p TOK_STRING (by decide) (hne _ (by decide) (by decide)),
    match_tok_neg p TOK_IDENT (by decide) (hne _ (by decide) (by decide)),
    match_tok_neg p TOK_LPAREN (by decide) (hne _ (by decide) (by decide)),
    match_tok_neg p TOK_LBRACKET (by decide) (hne _ (by decide) (by decide)),
    match_tok_neg p TOK_AT (by decide) (hne _ (by decide) (by decide)),
    match_tok_neg p TOK_BACKSLASH (by decide) (hne _ (by decide) (by decide))]
  rfl

/-- A primary operand followed by a token other than `[` is the result of `unary`. -/
theorem yields_unary (p q : Parser) (x : ASTNode)
    (h : Yields (fun f => primary f p) (x, q)) (hx : x ≠ ASTNode.null)
    (hq : (current q).type ≠ TOK_LBRACKET) :
    Yields (fun f => unary f p) (x, q) := by
  obtain ⟨F, hF⟩ := h
  have hm : (current p).type ≠ TOK_MINUS := by
    intro hc
    have e1 : primary (F + 1) p = some (x, q) := hF (F + 1) (by omega)
    rw [primary_at_sign F p (Or.inl hc)] at e1
    simp only [Option.some.injEq, Prod.mk.injEq] at e1
    exact hx e1.1.symm
  have hn : (current p).type ≠ TOK_NOT := by
    intro hc
    have e1 : primary (F + 1) p = some (x, q) := hF (F + 1) (by omega)
    rw [primary_at_sign F p (Or.inr hc)] at e1
    simp only [Option.some.injEq, Prod.mk.injEq] at e1
    exact hx e1.1.symm
  refine ⟨F + 3, fun f hf => ?_⟩
  obtain ⟨g, rfl⟩ : ∃ g, f = g + 3 := ⟨f - 3, by omega⟩
  have e1 : primary g p = some (x, q) := hF g (by omega)
  have e2 : postfix_loop (g + 1) x q = some (x, q) := by
    simp only [postfix_loop, check_eq q TOK_LBRACKET (by decide), hq]
    rfl
  have e3 : postfix_expr (g + 2) p = some (x, q) := by
    have e1' : primary (g + 1) p = some (x, q) := hF (g + 1) (by omega)
    simp only [postfix_expr, e1']
    cases x with
    | null => exact absurd rfl hx
    | _ => exact e2
  show unary (g + 3) p = some (x, q)
  simp only [unary, match_tok_neg p TOK_MINUS (by decide) hm,
    match_tok_neg p TOK_NOT (by decide) hn]
  exact e3

/-- A node parsed by `logical_or` and not followed by `?` is the result of `expression`. -/
theorem yields_expression (p q : Parser) (x : ASTNode)
    (h : Yields (fun f => logical_or f p) (x, q)) (hq : (current q).type ≠ TOK_QUESTION) :
    Yields (fun f => expression f p) (x, q) := by
  obtain ⟨F, hF⟩ := h
  refine ⟨F + 2, fun f hf => ?_⟩
  obtain ⟨g, rfl⟩ : ∃ g, f = g + 2 := ⟨f - 2, by omega⟩
  have e1 : logical_or g p = some (x, q) := hF g (by omega)
  show expression (g + 2) p = some (x, q)
  simp only [expression, ternary_expr, e1, match_tok_neg q TOK_QUESTION (by decide) hq]
  rfl

/-- A primary operand followed by a token that is no `[` and no operator of the levels from
`m` up is the result of the parsing function of level `m`. -/
theorem yields_operand (m : Nat) (hm : 1 ≤ m) (hm7 : m ≤ 7) (p q : Parser) (x : ASTNode)
    (h : Yields (fun f => primary f p) (x, q)) (hx : x ≠ ASTNode.null)
    (hq : (current q).type ≠ TOK_LBRACKET)
    (hk : ∀ k, m ≤ k → k < 7 → bin_level (current q).type ≠ some k) :
    Yields (fun f => parse_level m f p) (x, q) :=
  yields_lift_range m hm p q x 7 hm7 (le_refl 7) (yields_unary p q x h hx hq) hk

/-- A node parsed at level `n` and followed by a token that ends the expression is the
result of `expression`. -/
theorem yields_expression_of_level (n : Nat) (hn : 1 ≤ n ∧ n ≤ 7) (p q : Parser) (x : ASTNode)
    (h : Yields (fun f => parse_level n f p) (x, q))
    (hq : ends_expression (current q).type) :
    Yields (fun f => expression f p) (x, q) := by
  have h1 := yields_lift_range 1 (le_refl 1) p q x n hn.1 hn.2 h
    (fun k _ _ hc => by rw [hq.1] at hc; cases hc)
  exact yields_expression p q x h1 hq.2.2

theorem ends_expression_level {ty : TokenType} (h : ends_expression ty) (k : Nat) :
    bin_level ty ≠ some k := by
  rw [h.1]; exact fun hc => by cases hc

theorem bin_level_ne_lbracket {ty : TokenType} {k : Nat} (h : bin_level ty = some k) :
    ty ≠ TOK_LBRACKET := by
  rintro rfl; cases h

/-- The parse of `a op1 b op2 c` when `op2` binds tighter than `op1`. -/
theorem parse_right_nested (p0 p1 p2 p3 : Parser) (a b c : ASTNode) (op1 op2 : TokenType)
    (l1 l2 : Nat)
    (ha : Yields (fun f => primary f p0) (a, p1)) (han : a ≠ ASTNode.null)
    (h1 : (current p1).type = op1) (hl1 : bin_level op1 = some l1)
    (hb : Yields (fun f => primary f p1.next) (b, p2)) (hbn : b ≠ ASTNode.null)
    (h2 : (current p2).type = op2) (hl2 : bin_level op2 = some l2)
    (hc : Yields (fun f => primary f p2.next) (c, p3)) (hcn : c ≠ ASTNode.null)
    (hend : ends_expression (current p3).type) (hlt : l1 < l2) :
    Yields (fun f => expression f p0)
      (ASTNode.Binary (current p1).line (current p1).col (bin_op op1) a
        (ASTNode.Binary (current p2).line (current p2).col (bin_op op2) b c), p3) := by
  have r1 := bin_level_range hl1
  have r2 := bin_level_range hl2
  have hp1 : bin_level (current p1).type = some l1 := by rw [h1]; exact hl1
  have hp2 : bin_level (current p2).type = some l2 := by rw [h2]; exact hl2
  -- the operands at the levels above their operators
  have ya := yields_operand (l1 + 1) (by omega) (by omega) p0 p1 a ha han
    (bin_level_ne_lbracket hp1) (fun k hk _ hc => by rw [hp1] at hc; cases hc; omega)
  have yb := yields_operand (l2 + 1) (by omega) (by omega) p1.next p2 b hb hbn
    (bin_level_ne_lbracket hp2) (fun k hk _ hc => by rw [hp2] at hc; cases hc; omega)
  have yc := yields_operand (l2 + 1) (by omega) (by omega) p2.next p3 c hc hcn
    hend.2.1 (fun k _ _ => ends_expression_level hend k)
  -- `b op2 c` at the level of `op2`, then at the level above `op1`
  have ybc := yields_level l2 r2 p1.next p2 b _ yb
    (yields_loop_step l2 r2 p2 p3 b c op2 _ h2 hl2 yc
      (yields_loop_exit l2 r2 p3 _ (ends_expression_level hend l2)))
  have ybc' := yields_lift_range (l1 + 1) (by omega) p1.next p3 _ l2 (by omega) (by omega) ybc
    (fun k _ _ => ends_expression_level hend k)
  -- the whole at the level of `op1`
  have yall := yields_level l1 r1 p0 p1 a _ ya
    (yields_loop_step l1 r1 p1 p3 a _ op1 _ h1 hl1 ybc'
      (yields_loop_exit l1 r1 p3 _ (ends_expression_level hend l1)))
  exact yields_expression_of_level l1 ⟨r1.1, by omega⟩ p0 p3 _ yall hend

/-- The parse of `a op1 b op2 c` when `op2` does not bind tighter than `op1`. -/
theorem parse_left_nested (p0 p1 p2 p3 : Parser) (a b c : ASTNode) (op1 op2 : TokenType)
    (l1 l2 : Nat)
    (ha : Yields (fun f => primary f p0) (a, p1)) (han : a ≠ ASTNode.null)
    (h1 : (current p1).type = op1) (hl1 : bin_level op1 = some l1)
    (hb : Yields (fun f => primary f p1.next) (b, p2)) (hbn : b ≠ ASTNode.null)
    (h2 : (current p2).type = op2) (hl2 : bin_level op2 = some l2)
    (hc : Yields (fun f => primary f p2.next) (c, p3)) (hcn : c ≠ ASTNode.null)
    (hend : ends_expression (current p3).type) (hle : l2 ≤ l1) :
    Yields (fun f => expression f p0)
      (ASTNode.Binary (current p2).line (current p2).col (bin_op op2)
        (ASTNode.Binary (current p1).line (current p1).col (bin_op op1) a b) c, p3) := by
  have r1 := bin_level_range hl1
  have r2 := bin_level_range hl2
  have hp1 : bin_level (current p1).type = some l1 := by rw [h1]; exact hl1
  have hp2 : bin_level (current p2).type = some l2 := by rw [h2]; exact hl2
  have ya := yields_operand (l1 + 1) (by omega) (by omega) p0 p1 a ha han
    (bin_level_ne_lbracket hp1) (fun k hk _ hc => by rw [hp1] at hc; cases hc; omega)
  have yb := yields_operand (l1 + 1) (by omega) (by omega) p1.next p2 b hb hbn
    (bin_level_ne_lbracket hp2) (fun k hk _ hc => by rw [hp2] at hc; cases hc; omega)
  have yc := yields_operand (l2 + 1) (by omega) (by omega) p2.next p3 c hc hcn
    hend.2.1 (fun k _ _ => ends_expression_level hend k)
  rcases Nat.eq_or_lt_of_le hle with heq | hlt
  · -- same level: both operators are taken by one loop
    subst heq
    have yall := yields_level l2 r2 p0 p1 a _ ya
      (yields_loop_step l2 r2 p1 p2 a b op1 _ h1 hl1 yb
        (yields_loop_step l2 r2 p2 p3 _ c op2 _ h2 hl2 yc
          (yields_loop_exit l2 r2 p3 _ (ends_expression_level hend l2))))
    exact yields_expression_of_level l2 ⟨r2.1, by omega⟩ p0 p3 _ yall hend
  · -- `a op1 b` at the level of `op1`, then at the level above `op2`
    have yab := yields_level l1 r1 p0 p1 a _ ya
      (yields_loop_step l1 r1 p1 p2 a b op1 _ h1 hl1 yb
        (yields_loop_exit l1 r1 p2 _ (by rw [hp2]; intro hc; cases hc; omega)))
    have yab' := yields_lift_range (l2 + 1) (by omega) p0 p2 _ l1 (by omega) (by omega) yab
      (fun k hk _ hc => by rw [hp2] at hc; cases hc; omega)
    have yall := yields_level l2 r2 p0 p2 _ _ yab'
      (yields_loop_step l2 r2 p2 p3 _ c op2 _ h2 hl2 yc
        (yields_loop_exit l2 r2 p3 _ (ends_expression_level hend l2)))
    exact yields_expression_of_level l2 ⟨r2.1, by omega⟩ p0 p3 _ yall hend

/-- C7, amended: binary operators of a higher precedence level bind tighter. Let `primary`
parse the operand `a` up to an operator token `op1`, the operand `b` after it up to an
operator token `op2`, and the operand `c` after that up to a token that ends the
expression. When the level of `op1` is lower than the level of `op2`, `expression` returns
`Binary(op1, a, Binary(op2, b, c))`; when it is higher, `Binary(op2, Binary(op1, a, b), c)`. -/
theorem binary_precedence (p0 p1 p2 p3 : Parser) (a b c : ASTNode) (op1 op2 : TokenType)
    (l1 l2 : Nat)
    (ha : Yields (fun f => primary f p0) (a, p1)) (han : a ≠ ASTNode.null)
    (h1 : (current p1).type = op1) (hl1 : bin_level op1 = some l1)
    (hb : Yields (fun f => primary f p1.next) (b, p2)) (hbn : b ≠ ASTNode.null)
    (h2 : (current p2).type = op2) (hl2 : bin_level op2 = some l2)
    (hc : Yields (fun f => primary f p2.next) (c, p3)) (hcn : c ≠ ASTNode.null)
    (hend : ends_expression (current p3).type) :
    (l1 < l2 → Yields (fun f => expression f p0)
      (ASTNode.Binary (current p1).line (current p1).col (bin_op op1) a
        (ASTNode.Binary (current p2).line (current p2).col (bin_op op2) b c), p3)) ∧
    (l2 < l1 → Yields (fun f => expression f p0)
      (ASTNode.Binary (current p2).line (current p2).col (bin_op op2)
        (ASTNode.Binary (current p1).line (current p1).col (bin_op op1) a b) c, p3)) :=
  ⟨fun h => parse_right_nested p0 p1 p2 p3 a b c op1 op2 l1 l2 ha han h1 hl1 hb hbn h2 hl2 hc hcn
      hend h,
   fun h => parse_left_nested p0 p1 p2 p3 a b c op1 op2 l1 l2 ha han h1 hl1 hb hbn h2 hl2 hc hcn
      hend (Nat.le_of_lt h)⟩

theorem binary_precedence_witness :
    Yields (fun f => expression f ⟨src_sum_product, toks_sum_product, 0⟩)
      (ASTNode.Binary 1 3 Operator.OP_ADD (ASTNode.IntLit 1 1 2)
        (ASTNode.Binary 1 7 Operator.OP_MUL (ASTNode.IntLit 1 5 3) (ASTNode.IntLit 1 9 4)),
       ⟨src_sum_product, toks_sum_product, 5⟩) :=
  (binary_precedence ⟨src_sum_product, toks_sum_product, 0⟩ ⟨src_sum_product, toks_sum_product, 1⟩
    ⟨src_sum_product, toks_sum_product, 3⟩ ⟨src_sum_product, toks_sum_product, 5⟩
    (ASTNode.IntLit 1 1 2) (ASTNode.IntLit 1 5 3) (ASTNode.IntLit 1 9 4) TOK_PLUS TOK_STAR 5 6
    ⟨1, fun f hf => by obtain ⟨g, rfl⟩ : ∃ g, f = g + 1 := ⟨f - 1, by omega⟩; rfl⟩
    (fun h => by cases h) rfl rfl
    ⟨1, fun f hf => by obtain ⟨g, rfl⟩ : ∃ g, f = g + 1 := ⟨f - 1, by omega⟩; rfl⟩
    (fun h => by cases h) rfl rfl
    ⟨1, fun f hf => by obtain ⟨g, rfl⟩ : ∃ g, f = g + 1 := ⟨f - 1, by omega⟩; rfl⟩
    (fun h => by cases h) ⟨rfl, by decide, by decide⟩).1 (by decide)

/-- C7 as stated fails when the first operand is a lambda: `\x -> x` alone is a primary
that parses to a `Lambda` with body `x`, but in `\x -> x + y * z` the lambda body takes the
rest of the text, and the expression is a `Lambda` node, no `Binary` node. -/
theorem lambda_operand_precedence :
    (∀ n, primary (n + 20) ⟨src_lambda, toks_lambda, 0⟩ =
      some (ASTNode.Lambda 1 1 [[120]] [] (ASTNode.Ident 1 7 [120] 1),
        ⟨src_lambda, toks_lambda, 4⟩)) ∧
    lex src_lambda_sum_product = some toks_lambda_sum_product ∧
    (∀ n, expression (n + 40) ⟨src_lambda_sum_product, toks_lambda_sum_product, 0⟩ =
      some (ASTNode.Lambda 1 1 [[120]] []
        (ASTNode.Binary 1 9 Operator.OP_ADD (ASTNode.Ident 1 7 [120] 1)
          (ASTNode.Binary 1 13 Operator.OP_MUL (ASTNode.Ident 1 11 [121] 1)
            (ASTNode.Ident 1 15 [122] 1))),
        ⟨src_lambda_sum_product, toks_lambda_sum_product, 8⟩)) ∧
    ¬ ∃ n line col x y,
      expression (n + 40) ⟨src_lambda_sum_product, toks_lambda_sum_product, 0⟩ =
        some (ASTNode.Binary line col Operator.OP_ADD x y,
          ⟨src_lambda_sum_product, toks_lambda_sum_product, 8⟩) := by
  refine ⟨fun _ => rfl, by decide, fun _ => rfl, ?_⟩
  rintro ⟨n, line, col, x, y, h⟩
  have e : expression (n + 40) ⟨src_lambda_sum_product, toks_lambda_sum_product, 0⟩ =
      some (ASTNode.Lambda 1 1 [[120]] []
        (ASTNode.Binary 1 9 Operator.OP_ADD (ASTNode.Ident 1 7 [120] 1)
          (ASTNode.Binary 1 13 Operator.OP_MUL (ASTNode.Ident 1 11 [121] 1)
            (ASTNode.Ident 1 15 [122] 1))),
        ⟨src_lambda_sum_product, toks_lambda_sum_product, 8⟩) := rfl
  rw [e] at h
  simp only [Option.some.injEq, Prod.mk.injEq] at h
  exact ASTNode.noConfusion h.1

/-- C8, amended: binary operators of the same precedence level are left-associative. Let
`primary` parse the operand `a` up to an operator token `op1`, the operand `b` after it up
to an operator token `op2` of the same level, and the operand `c` after that up to a token
that ends the expression. Then `expression` returns `Binary(op2, Binary(op1, a, b), c)`. -/
theorem binary_left_associative (p0 p1 p2 p3 : Parser) (a b c : ASTNode) (op1 op2 : TokenType)
    (l : Nat)
    (ha : Yields (fun f => primary f p0) (a, p1)) (han : a ≠ ASTNode.null)
    (h1 : (current p1).type = op1) (hl1 : bin_level op1 = some l)
    (hb : Yields (fun f => primary f p1.next) (b, p2)) (hbn : b ≠ ASTNode.null)
    (h2 : (current p2).type = op2) (hl2 : bin_level op2 = some l)
    (hc : Yields (fun f => primary f p2.next) (c, p3)) (hcn : c ≠ ASTNode.null)
    (hend : ends_expression (current p3).type) :
    Yields (fun f => expression f p0)
      (ASTNode.Binary (current p2).line (current p2).col (bin_op op2)
        (ASTNode.Binary (current p1).line (current p1).col (bin_op op1) a b) c, p3) :=
  parse_left_nested p0 p1 p2 p3 a b c op1 op2 l l ha han h1 hl1 hb hbn h2 hl2 hc hcn hend
    (le_refl l)

theorem binary_left_associative_witness :
    Yields (fun f => expression f ⟨src_difference, toks_difference, 0⟩)
      (ASTNode.Binary 1 7 Operator.OP_SUB
        (ASTNode.Binary 1 3 Operator.OP_SUB (ASTNode.IntLit 1 1 8) (ASTNode.IntLit 1 5 3))
        (ASTNode.IntLit 1 9 2),
       ⟨src_difference, toks_difference, 5⟩) :=
  binary_left_associative ⟨src_difference, toks_difference, 0⟩ ⟨src_difference, toks_difference, 1⟩
    ⟨src_difference, toks_difference, 3⟩ ⟨src_difference, toks_difference, 5⟩
    (ASTNode.IntLit 1 1 8) (ASTNode.IntLit 1 5 3) (ASTNode.IntLit 1 9 2) TOK_MINUS TOK_MINUS 5
    ⟨1, fun f hf => by obtain ⟨g, rfl⟩ : ∃ g, f = g + 1 := ⟨f - 1, by omega⟩; rfl⟩
    (fun h => by cases h) rfl rfl
    ⟨1, fun f hf => by obtain ⟨g, rfl⟩ : ∃ g, f = g + 1 := ⟨f - 1, by omega⟩; rfl⟩
    (fun h => by cases h) rfl rfl
    ⟨1, fun f hf => by obtain ⟨g, rfl⟩ : ∃ g, f = g + 1 := ⟨f - 1, by omega⟩; rfl⟩
    (fun h => by cases h) ⟨rfl, by decide, by decide⟩

/-- C8 as stated fails when the first operand is a lambda: in `\x -> x - y + z` the lambda
body takes the rest of the text, and the expression is a `Lambda` node whose body is
`Binary(ADD, Binary(SUB, x, y), z)`, no `Binary` node with the lambda as an operand. -/
theorem lambda_operand_associativity :
    (∀ n, primary (n + 20) ⟨src_lambda, toks_lambda, 0⟩ =
      some (ASTNode.Lambda 1 1 [[120]] [] (ASTNode.Ident 1 7 [120] 1),
        ⟨src_lambda, toks_lambda, 4⟩)) ∧
    lex src_lambda_difference = some toks_lambda_difference ∧
    (∀ n, expression (n + 40) ⟨src_lambda_difference, toks_lambda_difference, 0⟩ =
      some (ASTNode.Lambda 1 1 [[120]] []
        (ASTNode.Binary 1 13 Operator.OP_ADD
          (ASTNode.Binary 1 9 Operator.OP_SUB (ASTNode.Ident 1 7 [120] 1)
            (ASTNode.Ident 1 11 [121] 1))
          (ASTNode.Ident 1 15 [122] 1)),
        ⟨src_lambda_difference, toks_lambda_difference, 8⟩)) ∧
    ¬ ∃ n line col x y,
      expression (n + 40) ⟨src_lambda_difference, toks_lambda_difference, 0⟩ =
        some (ASTNode.Binary line col Operator.OP_ADD x y,
          ⟨src_lambda_difference, toks_lambda_difference, 8⟩) := by
  refine ⟨fun _ => rfl, by decide, fun _ => rfl, ?_⟩
  rintro ⟨n, line, col, x, y, h⟩
  have e : expression (n + 40) ⟨src_lambda_difference, toks_lambda_difference, 0⟩ =
      some (ASTNode.Lambda 1 1 [[120]] []
        (ASTNode.Binary 1 13 Operator.OP_ADD
          (ASTNode.Binary 1 9 Operator.OP_SUB (ASTNode.Ident 1 7 [120] 1)
            (ASTNode.Ident 1 11 [121] 1))
          (ASTNode.Ident 1 15 [122] 1)),
        ⟨src_lambda_difference, toks_lambda_difference, 8⟩) := rfl
  rw [e] at h
  simp only [Option.some.injEq, Prod.mk.injEq] at h
  exact ASTNode.noConfusion h.1

/-! ## Tokens at which the parser stalls -/

theorem stalls_ne {ty : TokenType} (h : stalls ty = true) :
    bin_level ty = none ∧ ty ≠ TOK_INT ∧ ty ≠ TOK_FLOAT ∧ ty ≠ TOK_STRING ∧ ty ≠ TOK_IDENT ∧
    ty ≠ TOK_LPAREN ∧ ty ≠ TOK_LBRACKET ∧ ty ≠ TOK_AT ∧ ty ≠ TOK_BACKSLASH ∧ ty ≠ TOK_MINUS ∧
    ty ≠ TOK_NOT ∧ ty ≠ TOK_LET ∧ ty ≠ TOK_FOR ∧ ty ≠ TOK_LBRACE ∧ ty ≠ TOK_SEMICOLON ∧
    ty ≠ TOK_QUESTION ∧ ty ≠ TOK_EOF := by
  cases ty <;> simp [stalls, bin_level] at h ⊢

theorem stall_primary (f : Nat) (p : Parser) (h : stalls (current p).type = true) :
    primary (f + 1) p = some (ASTNode.null, p) := by
  obtain ⟨_, h1, h2, h3, h4, h5, h6, h7, h8, _⟩ := stalls_ne h
  simp only [primary, match_tok_neg p TOK_INT (by decide) h1,
    match_tok_neg p TOK_FLOAT (by decide) h2, match_tok_neg p TOK_STRING (by decide) h3,
    match_tok_neg p TOK_IDENT (by decide) h4, match_tok_neg p TOK_LPAREN (by decide) h5,
    match_tok_neg p TOK_LBRACKET (by decide) h6, match_tok_neg p TOK_AT (by decide) h7,
    match_tok_neg p TOK_BACKSLASH (by decide) h8]
  rfl

theorem stall_unary (f : Nat) (p : Parser) (h : stalls (current p).type = true) :
    unary f p = none ∨ unary f p = some (ASTNode.null, p) := by
  obtain ⟨_, _, _, _, _, _, _, _, _, h9, h10, _⟩ := stalls_ne h
  cases f with
  | zero => exact Or.inl rfl
  | succ n =>
    have e : unary (n + 1) p = postfix_expr n p := by
      simp only [unary, match_tok_neg p TOK_MINUS (by decide) h9,
        match_tok_neg p TOK_NOT (by decide) h10]
      rfl
    rw [e]
    cases n with
    | zero => exact Or.inl rfl
    | succ m =>
      cases m with
      | zero => exact Or.inl rfl
      | succ k =>
        right
        simp only [postfix_expr, stall_primary k p h]

theorem stall_level (p : Parser) (h : stalls (current p).type = true) :
    ∀ (d k f : Nat), k + d = 7 → 1 ≤ k →
      parse_level k f p = none ∨ parse_level k f p = some (ASTNode.null, p) := by
  intro d
  induction d with
  | zero =>
    intro k f hk _
    have : k = 7 := by omega
    subst this
    exact stall_unary f p h
  | succ d ih =>
    intro k f hk h1
    cases f with
    | zero =>
      left
      have : k ≤ 6 := by omega
      interval_cases k <;> rfl
    | succ n =>
      rw [parse_level_succ k ⟨h1, by omega⟩]
      rcases ih (k + 1) n (by omega) (by omega) with e | e
      · left; rw [e]
      · rw [e]
        cases n with
        | zero =>
          left
          have : k ≤ 6 := by omega
          interval_cases k <;> rfl
        | succ m =>
          right
          exact level_loop_exit k ⟨h1, by omega⟩ m _ p (by rw [(stalls_ne h).1]; simp)

theorem stall_expression (f : Nat) (p : Parser) (h : stalls (current p).type = true) :
    expression f p = none ∨ expression f p = some (ASTNode.null, p) := by
  have hq := (stalls_ne h).2.2.2.2.2.2.2.2.2.2.2.2.2.2.2.1
  cases f with
  | zero => exact Or.inl rfl
  | succ n =>
    simp only [expression]
    cases n with
    | zero => exact Or.inl rfl
    | succ m =>
      rcases stall_level p h 6 1 m rfl (le_refl _) with e | e
      · left
        have e' : logical_or m p = none := e
        simp only [ternary_expr, e']
      · right
        have e' : logical_or m p = some (ASTNode.null, p) := e
        simp only [ternary_expr, e', match_tok_neg p TOK_QUESTION (by decide) hq]
        rfl

/-- At a token that stalls, `statement` consumes nothing: it returns the null node and
the same state. -/
theorem stall_statement (f : Nat) (p : Parser) (h : stalls (current p).type = true) :
    statement f p = none ∨ statement f p = some (ASTNode.null, p) := by
  obtain ⟨_, _, _, _, _, _, _, h7, _, _, _, h11, h12, h13, h14, _, _⟩ := stalls_ne h
  cases f with
  | zero => exact Or.inl rfl
  | succ n =>
    have e : statement (n + 1) p =
        (match expression n p with
         | none => none
         | some (expr, p1) => some (expr, (match_tok p1 TOK_SEMICOLON).2)) := by
      simp only [statement, match_tok_neg p TOK_AT (by decide) h7, Bool.false_eq_true, if_false,
        match_tok_neg p TOK_LET (by decide) h11, match_tok_neg p TOK_FOR (by decide) h12,
        match_tok_neg p TOK_LBRACE (by decide) h13] <;> rfl
    rw [e]
    rcases stall_expression n p h with e1 | e1
    · left; rw [e1]
    · right; rw [e1]
      simp only [match_tok_neg p TOK_SEMICOLON (by decide) h14]

/-- At a token that stalls, the loop of `parser_parse` never ends: every call of
`statement` returns without consuming a token. -/
theorem stall_loop (p : Parser) (h : stalls (current p).type = true) :
    ∀ (f : Nat) (stmts : List ASTNode), parser_parse_loop f p stmts = none := by
  have hne : parser.is_at_end p = false := by
    have := (stalls_ne h).2.2.2.2.2.2.2.2.2.2.2.2.2.2.2.2
    simp [parser.is_at_end, this]
  intro f
  induction f with
  | zero => intro _; rfl
  | succ n ih =>
    intro stmts
    rw [parser_parse_loop]
    simp only [hne, Bool.not_false, if_true]
    rcases stall_statement n p h with e | e
    · rw [e]
    · rw [e]; exact ih _

/-! ## A `let` with an unknown type token -/

theorem let_unknown_first (f : Nat) :
    statement f (parser_init src_let_unknown toks_let_unknown) = none ∨
    statement f (parser_init src_let_unknown toks_let_unknown) =
      some (ASTNode.Let 1 1 [120] (some (type_new TypeKind.TYPE_I64))
        (ASTNode.Ident 1 9 [102, 111, 111] 3), ⟨src_let_unknown, toks_let_unknown, 4⟩) := by
  by_cases h : 30 ≤ f
  · obtain ⟨n, rfl⟩ := Nat.exists_eq_add_of_le' h
    exact Or.inr rfl
  · have : f < 30 := Nat.lt_of_not_le h
    interval_cases f <;> first | exact Or.inl rfl | exact Or.inr rfl

/-- C11 on `let x : foo = 1;`: `parse_type` returns `I64` for the token `foo` without
consuming it, so `statement` takes `foo` for the initializer and stops before `=`; there
every further call of `statement` returns without consuming a token, and no fuel gives a
`Program`. For `let x : i64 = 1;` the parser returns the `Let` with the initializer `1`. -/
theorem let_unknown_type_never_returns :
    lex src_let_unknown = some toks_let_unknown ∧
    (∀ n, statement (n + 30) (parser_init src_let_unknown toks_let_unknown) =
      some (ASTNode.Let 1 1 [120] (some (type_new TypeKind.TYPE_I64))
        (ASTNode.Ident 1 9 [102, 111, 111] 3), ⟨src_let_unknown, toks_let_unknown, 4⟩)) ∧
    (∀ fuel, parser_parse fuel (parser_init src_let_unknown toks_let_unknown) = none) ∧
    lex src_let_i64 = some toks_let_i64 ∧
    (∀ n, parser_parse (n + 30) (parser_init src_let_i64 toks_let_i64) =
      some (ASTNode.Program 1 1 [ASTNode.Let 1 1 [120] (some (type_new TypeKind.TYPE_I64))
        (ASTNode.IntLit 1 15 1)], ⟨src_let_i64, toks_let_i64, 7⟩)) := by
  refine ⟨by decide, fun _ => rfl, fun fuel => ?_, by decide, fun _ => rfl⟩
  have hl : parser_parse_loop fuel (parser_init src_let_unknown toks_let_unknown) [] = none := by
    cases fuel with
    | zero => rfl
    | succ n =>
      have e : parser_parse_loop (n + 1) (parser_init src_let_unknown toks_let_unknown) [] =
          (match statement n (parser_init src_let_unknown toks_let_unknown) with
           | none => none
           | some (s, p1) => parser_parse_loop n p1 ([] ++ [s])) := rfl
      rw [e]
      rcases let_unknown_first n with h | h
      · rw [h]
      · rw [h]; exact stall_loop ⟨src_let_unknown, toks_let_unknown, 4⟩ rfl n _
  simp only [parser_parse, hl]

/-! ## Null children -/

/-- C12 on `a + ;`: `parser_parse` returns, and the `Binary` node of the statement has a
null right operand, since `primary` returns `NULL` at the semicolon and `term` stores it. -/
theorem missing_operand_null_child :
    lex src_missing_operand = some toks_missing_operand ∧
    ∀ n, parser_parse (n + 30) (parser_init src_missing_operand toks_missing_operand) =
      some (ASTNode.Program 1 1
        [ASTNode.Binary 1 3 Operator.OP_ADD (ASTNode.Ident 1 1 [97] 1) ASTNode.null],
        ⟨src_missing_operand, toks_missing_operand, 3⟩) :=
  ⟨by decide, fun _ => rfl⟩

/-! ## String literals -/

theorem primary_string (f : Nat) (p : Parser) (h : (current p).type = TOK_STRING) :
    primary (f + 1) p =
      some (ASTNode.StringLit (current p).line (current p).col
        ((p.source.drop ((current p).start + 1)).take (((current p).length + (SIZE - 2)) % SIZE))
        (((current p).length + (SIZE - 2)) % SIZE), p.next) := by
  simp only [primary, match_tok_neg p TOK_INT (by decide) (by rw [h]; decide),
    match_tok_neg p TOK_FLOAT (by decide) (by rw [h]; decide),
    match_tok_pos p TOK_STRING (by decide) h, previous_next]
  rfl

theorem tail_dropLast_take (src : List Nat) (s n : Nat) (hn : 2 ≤ n) (hin : s + n ≤ src.length) :
    ((src.drop s).take n).tail.dropLast = (src.drop (s + 1)).take (n - 2) := by
  have h1 : ((src.drop s).take n).tail = (src.drop (s + 1)).take (n - 1) := by
    rw [← List.drop_one, List.drop_take, List.drop_drop]
  rw [h1, List.dropLast_eq_take, List.length_take, List.length_drop, List.take_take]
  congr 1
  omega

/-- C27: for every `STRING` token of length at least 2 that lies inside the source, the
`StringLit` node built by `primary` holds exactly the bytes of the token without its first
and its last byte, escapes undecoded, and its `len` field is the token length minus 2; and
every `STRING` token that the lexer produces has length at least 2 and lies inside the
source, so the subtraction does not wrap. -/
theorem string_literal_bytes :
    (∀ (f : Nat) (p : Parser), (current p).type = TOK_STRING → 2 ≤ (current p).length →
      (current p).start + (current p).length ≤ p.source.length → p.source.length < SIZE →
      primary (f + 1) p =
        some (ASTNode.StringLit (current p).line (current p).col
          ((current p).text p.source).tail.dropLast ((current p).length - 2), p.next)) ∧
    (∀ (src : List Nat) (toks : List Token), lex src = some toks →
      ∀ t ∈ toks, t.type = TOK_STRING → 2 ≤ t.length ∧ t.start + t.length ≤ src.length) ∧
    lex src_string_escape = some toks_string_escape ∧
    (∀ n, primary (n + 1) (parser_init src_string_escape toks_string_escape) =
      some (ASTNode.StringLit 1 1 [97, 92, 110] 3, ⟨src_string_escape, toks_string_escape, 1⟩)) := by
  refine ⟨fun f p h hlen hin hsz => ?_, string_token_length, by decide, fun _ => rfl⟩
  have hmod : ((current p).length + (SIZE - 2)) % SIZE = (current p).length - 2 := by
    have hl : (current p).length < SIZE := by omega
    unfold SIZE at hl ⊢
    omega
  rw [primary_string f p h, hmod]
  unfold Token.text
  rw [tail_dropLast_take p.source _ _ hlen hin]

/-! ## Termination of the parser -/

/-- C36 fails on `)`: at the token `)`, which is not `EOF`, every call of `statement` with
fuel to return gives the null node and leaves the parser at the same token. The loop of
`parser_parse` tests only for `EOF`, so it calls `statement` again at the same token without
end, and no fuel gives a `Program`. -/
theorem statement_stalls_at_rparen :
    lex src_rparen = some toks_rparen ∧
    parser.is_at_end (parser_init src_rparen toks_rparen) = false ∧
    (∀ n, statement (n + 30) (parser_init src_rparen toks_rparen) =
      some (ASTNode.null, parser_init src_rparen toks_rparen)) ∧
    (∀ fuel, parser_parse fuel (parser_init src_rparen toks_rparen) = none) := by
  refine ⟨by decide, rfl, fun _ => rfl, fun fuel => ?_⟩
  have hl := stall_loop (parser_init src_rparen toks_rparen) rfl fuel []
  simp only [parser_parse, hl]
/-! ## The constant evaluator -/

theorem float_binary_cases (F : FloatOps) (line col : Nat) (op : Operator) (l r : Double) :
    (float_binary F line col op l r).is_null = true ∨
      (float_binary F line col op l r).is_literal = true := by
  cases op <;> first | exact Or.inl rfl | exact Or.inr rfl

theorem int_div_none (l r : Int) : int_div l r = none ↔ division_overflows l r = true := by
  unfold int_div; split <;> simp_all

theorem int_mod_none (l r : Int) : int_mod l r = none ↔ division_overflows l r = true := by
  unfold int_mod; split <;> simp_all

theorem division_overflows_iff (l r : Int) :
    division_overflows l r = true ↔ l = -9223372036854775808 ∧ r = -1 := by
  simp [division_overflows]

theorem int_div_some (l r : Int) (h : division_overflows l r = false) :
    int_div l r = some (wrap64 (Int.tdiv l r)) := by
  simp [int_div, h]

theorem int_mod_some (l r : Int) (h : division_overflows l r = false) :
    int_mod l r = some (wrap64 (Int.tmod l r)) := by
  simp [int_mod, h]

/-- The integer `switch` has no result exactly for `/` and `%` at `INT64_MIN` and `-1`. -/
theorem int_binary_none (line col : Nat) (op : Operator) (l r : Int) :
    int_binary line col op l r = none ↔
      (op = Operator.OP_DIV ∨ op = Operator.OP_MOD) ∧ division_overflows l r = true := by
  cases op <;> simp only [int_binary, reduceCtorEq, false_or, or_false, false_and, true_and,
    Option.map_eq_none']
  · by_cases hr : r = 0
    · subst hr
      simp [division_overflows]
    · simp [hr, int_div_none]
  · by_cases hr : r = 0
    · subst hr
      simp [division_overflows]
    · simp [hr, int_mod_none]

theorem int_binary_cases (line col : Nat) (op : Operator) (l r : Int) (n : ASTNode)
    (h : int_binary line col op l r = some n) : n.is_null = true ∨ n.is_int_lit = true := by
  cases op <;> simp only [int_binary, Option.some.injEq, Option.map_eq_some'] at h <;>
    first
    | (subst h; first | exact Or.inl rfl | exact Or.inr rfl)
    | (obtain ⟨_, _, rfl⟩ := h; exact Or.inr rfl)

theorem is_literal_of_int_lit {n : ASTNode} (h : n.is_int_lit = true) : n.is_literal = true := by
  cases n <;> first | rfl | simp [ASTNode.is_int_lit] at h

theorem eval_binary_cases (F : FloatOps) (line col : Nat) (op : Operator) (left right n : ASTNode)
    (h : eval_binary F line col op left right = some n) :
    n.is_null = true ∨ n.is_literal = true := by
  unfold eval_binary at h
  split at h
  · cases h; exact Or.inl rfl
  · split at h
    · cases h; exact float_binary_cases F line col op _ _
    · exact (int_binary_cases line col op _ _ n h).imp id is_literal_of_int_lit

theorem unary_result_cases (F : FloatOps) (line col : Nat) (op : Operator) (operand : ASTNode) :
    (unary_result F line col op operand).is_null = true ∨
      (unary_result F line col op operand).is_literal = true := by
  cases op <;> simp only [unary_result] <;> first | exact Or.inl rfl | (split <;> exact Or.inr rfl)

theorem eval_unary_cases (F : FloatOps) (line col : Nat) (op : Operator) (operand : ASTNode) :
    (eval_unary F line col op operand).is_null = true ∨
      (eval_unary F line col op operand).is_literal = true := by
  unfold eval_unary
  split
  · exact Or.inl rfl
  · exact unary_result_cases F line col op operand

/-- A result of `eval_constant` is `NULL`, an `IntLit` or a `FloatLit`. -/
theorem eval_constant_cases (F : FloatOps) : ∀ (t n : ASTNode), eval_constant F t = some n →
    n.is_null = true ∨ n.is_literal = true
  | ASTNode.null, _, h => by cases h; exact Or.inl rfl
  | ASTNode.IntLit _ _ _, _, h => by cases h; exact Or.inr rfl
  | ASTNode.FloatLit _ _ _, _, h => by cases h; exact Or.inr rfl
  | ASTNode.StringLit _ _ _ _, _, h => by cases h; exact Or.inl rfl
  | ASTNode.Ident _ _ _ _, _, h => by cases h; exact Or.inl rfl
  | ASTNode.Binary line col op l r, n, h => by
    simp only [eval_constant, Option.bind_eq_some] at h
    obtain ⟨_, _, _, _, h⟩ := h
    exact eval_binary_cases F line col op _ _ n h
  | ASTNode.Unary line col op x, n, h => by
    simp only [eval_constant, Option.bind_eq_some, Option.some.injEq] at h
    obtain ⟨_, _, rfl⟩ := h
    exact eval_unary_cases F line col op _
  | ASTNode.Lambda _ _ _ _ _, _, h => by cases h; exact Or.inl rfl
  | ASTNode.Apply _ _ _ _, _, h => by cases h; exact Or.inl rfl
  | ASTNode.Ternary _ _ c t e, n, h => by
    simp only [eval_constant, Option.bind_eq_some] at h
    obtain ⟨_, _, h⟩ := h
    split at h
    · cases h; exact Or.inl rfl
    · split at h
      · exact eval_constant_cases F t n h
      · exact eval_constant_cases F e n h
  | ASTNode.Array _ _ _, _, h => by cases h; exact Or.inl rfl
  | ASTNode.Index _ _ _ _, _, h => by cases h; exact Or.inl rfl
  | ASTNode.Builtin _ _ _ _, _, h => by cases h; exact Or.inl rfl
  | ASTNode.Let _ _ _ _ _, _, h => by cases h; exact Or.inl rfl
  | ASTNode.For _ _ _ _ _ _ _, _, h => by cases h; exact Or.inl rfl
  | ASTNode.Block _ _ _, _, h => by cases h; exact Or.inl rfl
  | ASTNode.Async _ _ _, _, h => by cases h; exact Or.inl rfl
  | ASTNode.Await _ _ _, _, h => by cases h; exact Or.inl rfl
  | ASTNode.GpuKernel _ _ _ _ _ _, _, h => by cases h; exact Or.inl rfl
  | ASTNode.Program _ _ _, _, h => by cases h; exact Or.inl rfl

theorem is_literal_of_not_null (F : FloatOps) (t n : ASTNode) (h : eval_constant F t = some n)
    (hn : n.is_null = false) : n.is_literal = true := by
  rcases eval_constant_cases F t n h with h1 | h1
  · rw [h1] at hn; cases hn
  · exact h1

theorem literal_cases {n : ASTNode} (h : n.is_literal = true) :
    (∃ line col v, n = ASTNode.IntLit line col v) ∨ (∃ line col v, n = ASTNode.FloatLit line col v) := by
  cases n <;> first
    | exact Or.inl ⟨_, _, _, rfl⟩
    | exact Or.inr ⟨_, _, _, rfl⟩
    | simp [ASTNode.is_literal] at h

theorem eval_constant_literal (F : FloatOps) {n : ASTNode} (h : n.is_literal = true) :
    eval_constant F n = some n := by
  rcases literal_cases h with ⟨_, _, _, rfl⟩ | ⟨_, _, _, rfl⟩ <;> rfl

theorem is_constant_literal {n : ASTNode} (h : n.is_literal = true) : is_constant_expr n = true := by
  rcases literal_cases h with ⟨_, _, _, rfl⟩ | ⟨_, _, _, rfl⟩ <;> rfl

theorem not_null_of_literal {n : ASTNode} (h : n.is_literal = true) : n.is_null = false := by
  rcases literal_cases h with ⟨_, _, _, rfl⟩ | ⟨_, _, _, rfl⟩ <;> rfl

theorem not_literal_of_null {n : ASTNode} (h : n.is_null = true) : n.is_literal = false := by
  cases n <;> first | rfl | simp [ASTNode.is_null] at h

theorem const_fold_literal_node (F : FloatOps) {n : ASTNode} (h : n.is_literal = true) :
    optimize_const_fold F n = some n := by
  rcases literal_cases h with ⟨_, _, _, rfl⟩ | ⟨_, _, _, rfl⟩ <;> simp [optimize_const_fold]

theorem eval_binary_not_null (F : FloatOps) (line col : Nat) (op : Operator)
    (left right n : ASTNode) (h : eval_binary F line col op left right = some n)
    (hn : n.is_null = false) : left.is_null = false ∧ right.is_null = false := by
  unfold eval_binary at h
  by_cases hc : (left.is_null || right.is_null) = true
  · rw [if_pos hc] at h; cases h; cases hn
  · simpa using hc

theorem eval_binary_of_null (F : FloatOps) (line col : Nat) (op : Operator) (left right : ASTNode)
    (h : left.is_null = true ∨ right.is_null = true) :
    eval_binary F line col op left right = some ASTNode.null := by
  unfold eval_binary
  rw [if_pos (by rcases h with h | h <;> simp [h])]

theorem eval_unary_not_null (F : FloatOps) (line col : Nat) (op : Operator) (operand : ASTNode)
    (h : (eval_unary F line col op operand).is_null = false) : operand.is_null = false := by
  unfold eval_unary at h
  by_cases hn : operand.is_null = true
  · rw [if_pos hn] at h; cases h
  · simpa using hn

theorem try_fold_cases (F : FloatOps) (n r : ASTNode) (h : try_fold F n = some r) :
    r = n ∨ r.is_literal = true := by
  unfold try_fold at h
  by_cases hc : is_constant_expr n = true
  · rw [if_pos hc] at h
    simp only [Option.bind_eq_some] at h
    obtain ⟨v, hv, h⟩ := h
    by_cases hn : v.is_null = true
    · rw [if_pos hn] at h; cases h; exact Or.inl rfl
    · rw [if_neg hn] at h; cases h
      exact Or.inr (is_literal_of_not_null F n r hv (by simpa using hn))
  · rw [if_neg hc] at h; cases h; exact Or.inl rfl

theorem try_fold_eq_eval (F : FloatOps) (n v : ASTNode) (hc : is_constant_expr n = true)
    (he : eval_constant F n = some v) (hn : v.is_null = false) : try_fold F n = some v := by
  unfold try_fold
  rw [if_pos hc, he, Option.some_bind, if_neg (by simp [hn])]

theorem try_fold_of_trap (F : FloatOps) (n : ASTNode) (hc : is_constant_expr n = true)
    (he : eval_constant F n = none) : try_fold F n = none := by
  unfold try_fold
  rw [if_pos hc, he, Option.none_bind]

theorem try_fold_not_constant (F : FloatOps) (n : ASTNode) (hc : is_constant_expr n = false) :
    try_fold F n = some n := by
  unfold try_fold
  rw [if_neg (by simp [hc])]

theorem fold_ternary_cases (F : FloatOps) (line col : Nat) (c t e r : ASTNode)
    (h : fold_ternary F line col c t e = some r) :
    r = ASTNode.Ternary line col c t e ∨ r = t ∨ r = e := by
  unfold fold_ternary at h
  split at h
  · simp only [Option.bind_eq_some] at h
    obtain ⟨v, _, h⟩ := h
    split at h
    · cases h; exact Or.inl rfl
    · split at h
      · cases h; exact Or.inr (Or.inl rfl)
      · cases h; exact Or.inr (Or.inr rfl)
  · cases h; exact Or.inl rfl

theorem fold_ternary_literal (F : FloatOps) (line col : Nat) (c t e : ASTNode)
    (h : c.is_literal = true) :
    fold_ternary F line col c t e = some (if cond_true F c then t else e) := by
  unfold fold_ternary
  rw [if_pos (is_constant_literal h), eval_constant_literal F h, Option.some_bind,
    if_neg (by simp [not_null_of_literal h])]
  split <;> rfl

/-- Where `eval_constant` returns a node and `optimize_const_fold` returns, the latter
returns the same literal. -/
theorem const_fold_eq_eval (F : FloatOps) : ∀ (t n r : ASTNode), eval_constant F t = some n →
    n.is_null = false → optimize_const_fold F t = some r → r = n
  | ASTNode.null, _, _, h, hn, _ => by cases h; cases hn
  | ASTNode.IntLit _ _ _, _, _, h, _, hr => by
    simp only [eval_constant, optimize_const_fold, Option.some.injEq] at h hr
    rw [← h, ← hr]
  | ASTNode.FloatLit _ _ _, _, _, h, _, hr => by
    simp only [eval_constant, optimize_const_fold, Option.some.injEq] at h hr
    rw [← h, ← hr]
  | ASTNode.StringLit _ _ _ _, _, _, h, hn, _ => by cases h; cases hn
  | ASTNode.Ident _ _ _ _, _, _, h, hn, _ => by cases h; cases hn
  | ASTNode.Binary line col op l r, n, res, h, hn, hr => by
    simp only [eval_constant, Option.bind_eq_some] at h
    obtain ⟨a, ha, b, hb, h⟩ := h
    simp only [optimize_const_fold, Option.bind_eq_some] at hr
    obtain ⟨l1, hl1, r1, hr1, hr⟩ := hr
    obtain ⟨na, nb⟩ := eval_binary_not_null F line col op _ _ n h hn
    have ea := const_fold_eq_eval F l a l1 ha na hl1
    have eb := const_fold_eq_eval F r b r1 hb nb hr1
    subst ea eb
    have ll := is_literal_of_not_null F l l1 ha na
    have lr := is_literal_of_not_null F r r1 hb nb
    have he : eval_constant F (ASTNode.Binary line col op l1 r1) = some n := by
      simp only [eval_constant, eval_constant_literal F ll, eval_constant_literal F lr,
        Option.some_bind, h]
    rw [try_fold_eq_eval F _ n
      (by simp [is_constant_expr, is_constant_literal ll, is_constant_literal lr]) he hn] at hr
    exact (Option.some.inj hr).symm
  | ASTNode.Unary line col op x, n, res, h, hn, hr => by
    simp only [eval_constant, Option.bind_eq_some, Option.some.injEq] at h
    obtain ⟨a, ha, h⟩ := h
    simp only [optimize_const_fold, Option.bind_eq_some] at hr
    obtain ⟨x1, hx1, hr⟩ := hr
    subst h
    have na := eval_unary_not_null F line col op _ hn
    have ea := const_fold_eq_eval F x a x1 ha na hx1
    subst ea
    have lx := is_literal_of_not_null F x x1 ha na
    have he : eval_constant F (ASTNode.Unary line col op x1) =
        some (eval_unary F line col op x1) := by
      simp only [eval_constant, eval_constant_literal F lx, Option.some_bind]
    rw [try_fold_eq_eval F _ _ (by simp [is_constant_expr, is_constant_literal lx]) he hn] at hr
    exact (Option.some.inj hr).symm
  | ASTNode.Lambda _ _ _ _ _, _, _, h, hn, _ => by cases h; cases hn
  | ASTNode.Apply _ _ _ _, _, _, h, hn, _ => by cases h; cases hn
  | ASTNode.Ternary line col c t e, n, res, h, hn, hr => by
    simp only [eval_constant, Option.bind_eq_some] at h
    obtain ⟨a, ha, h⟩ := h
    simp only [optimize_const_fold, Option.bind_eq_some] at hr
    obtain ⟨c1, hc1, t1, ht1, e1, he1, hr⟩ := hr
    by_cases na : a.is_null = true
    · rw [if_pos na] at h; cases h; cases hn
    · have na' : a.is_null = false := by simpa using na
      rw [if_neg na] at h
      have ea := const_fold_eq_eval F c a c1 ha na' hc1
      subst ea
      have lc := is_literal_of_not_null F c c1 ha na'
      rw [fold_ternary_literal F line col _ _ _ lc] at hr
      by_cases ht : cond_true F c1 = true
      · simp only [ht, if_true, Option.some.injEq] at h hr
        subst hr
        exact const_fold_eq_eval F t n _ h hn ht1
      · simp only [ht, if_false, Option.some.injEq, Bool.false_eq_true] at h hr
        subst hr
        exact const_fold_eq_eval F e n _ h hn he1
  | ASTNode.Array _ _ _, _, _, h, hn, _ => by cases h; cases hn
  | ASTNode.Index _ _ _ _, _, _, h, hn, _ => by cases h; cases hn
  | ASTNode.Builtin _ _ _ _, _, _, h, hn, _ => by cases h; cases hn
  | ASTNode.Let _ _ _ _ _, _, _, h, hn, _ => by cases h; cases hn
  | ASTNode.For _ _ _ _ _ _ _, _, _, h, hn, _ => by cases h; cases hn
  | ASTNode.Block _ _ _, _, _, h, hn, _ => by cases h; cases hn
  | ASTNode.Async _ _ _, _, _, h, hn, _ => by cases h; cases hn
  | ASTNode.Await _ _ _, _, _, h, hn, _ => by cases h; cases hn
  | ASTNode.GpuKernel _ _ _ _ _ _, _, _, h, hn, _ => by cases h; cases hn
  | ASTNode.Program _ _ _, _, _, h, hn, _ => by cases h; cases hn

/-! ## Constant trees -/

/-- Induction over the nodes that `eval_constant` descends into; every other node is a
leaf of the evaluation. -/
theorem expr_induction {P : ASTNode → Prop}
    (int : ∀ line col v, P (ASTNode.IntLit line col v))
    (float : ∀ line col v, P (ASTNode.FloatLit line col v))
    (binary : ∀ line col op l r, P l → P r → P (ASTNode.Binary line col op l r))
    (unary : ∀ line col op x, P x → P (ASTNode.Unary line col op x))
    (ternary : ∀ line col c t e, P c → P t → P e → P (ASTNode.Ternary line col c t e))
    (other : ∀ t : ASTNode, t.is_expr_kind = false → P t) : ∀ t : ASTNode, P t
  | ASTNode.null => other _ rfl
  | ASTNode.IntLit _ _ _ => int _ _ _
  | ASTNode.FloatLit _ _ _ => float _ _ _
  | ASTNode.StringLit _ _ _ _ => other _ rfl
  | ASTNode.Ident _ _ _ _ => other _ rfl
  | ASTNode.Binary _ _ _ l r =>
    binary _ _ _ _ _ (expr_induction int float binary unary ternary other l)
      (expr_induction int float binary unary ternary other r)
  | ASTNode.Unary _ _ _ x => unary _ _ _ _ (expr_induction int float binary unary ternary other x)
  | ASTNode.Lambda _ _ _ _ _ => other _ rfl
  | ASTNode.Apply _ _ _ _ => other _ rfl
  | ASTNode.Ternary _ _ c t e =>
    ternary _ _ _ _ _ (expr_induction int float binary unary ternary other c)
      (expr_induction int float binary unary ternary other t)
      (expr_induction int float binary unary ternary other e)
  | ASTNode.Array _ _ _ => other _ rfl
  | ASTNode.Index _ _ _ _ => other _ rfl
  | ASTNode.Builtin _ _ _ _ => other _ rfl
  | ASTNode.Let _ _ _ _ _ => other _ rfl
  | ASTNode.For _ _ _ _ _ _ _ => other _ rfl
  | ASTNode.Block _ _ _ => other _ rfl
  | ASTNode.Async _ _ _ => other _ rfl
  | ASTNode.Await _ _ _ => other _ rfl
  | ASTNode.GpuKernel _ _ _ _ _ _ => other _ rfl
  | ASTNode.Program _ _ _ => other _ rfl

theorem eval_constant_other (F : FloatOps) {t : ASTNode} (h : t.is_expr_kind = false) :
    eval_constant F t = some ASTNode.null := by
  cases t <;> first | rfl | simp [ASTNode.is_expr_kind] at h

theorem int_arith_value_other {t : ASTNode} (h : t.is_expr_kind = false) : int_arith_value t = none := by
  cases t <;> first | rfl | simp [ASTNode.is_expr_kind] at h

theorem int_binary_int_lit (line col : Nat) (op : Operator) (l r : Int) (n : ASTNode)
    (h : op.is_unary = false) (hn : int_binary line col op l r = some n) :
    n.is_int_lit = true := by
  cases op <;> simp only [int_binary, Option.some.injEq, Option.map_eq_some'] at hn <;>
    first
    | (subst hn; rfl)
    | (obtain ⟨_, _, rfl⟩ := hn; rfl)
    | simp [Operator.is_unary] at h

/-- The floating-point branch of `eval_binary` has no case for `OP_AND` and `OP_OR` either:
on `1.5 && 1` it returns `NULL` and `optimize_const_fold` returns the `Binary` node itself,
where the integer branch, `eval_unary` for `!` and `eval_ternary` take a `FloatLit` that is
not `0.0` for true. -/
theorem float_logical_not_folded :
    literal_tree ast_float_and = true ∧ is_constant_expr ast_float_and = true ∧
    ∀ F : FloatOps, eval_constant F ast_float_and = some ASTNode.null ∧
      optimize_const_fold F ast_float_and = some ast_float_and ∧
      ast_float_and.is_literal = false ∧
      eval_constant F (ASTNode.Unary 1 1 Operator.OP_NOT (ASTNode.FloatLit 1 2 ⟨[49, 46, 53]⟩)) =
        some (ASTNode.IntLit 1 1 (c_bool (F.eq ⟨[49, 46, 53]⟩ (F.of_int 0)))) :=
  ⟨rfl, rfl, fun _ => ⟨rfl, rfl, rfl, rfl⟩⟩
/-! ## Integer arithmetic -/

theorem wrap64_eq_twos_complement64 (x : Int) : wrap64 x = twos_complement64 x := by
  unfold wrap64 twos_complement64 Int.bmod
  simp only [show ((2 : Int) ^ 64) = 18446744073709551616 by norm_num]
  norm_num
  split <;> omega

theorem wrap64_range (x : Int) :
    -9223372036854775808 ≤ wrap64 x ∧ wrap64 x < 9223372036854775808 := by
  unfold wrap64; omega

theorem wrap64_of_range (x : Int) (h1 : -9223372036854775808 ≤ x) (h2 : x < 9223372036854775808) :
    wrap64 x = x := by
  unfold wrap64; omega

theorem min_by_minus_one_iff (a b : Int) :
    min_by_minus_one (some a) (some b) = division_overflows a b := by
  simp [min_by_minus_one, division_overflows]

theorem eval_int_binary (F : FloatOps) (line col : Nat) (op : Operator) (l r : ASTNode)
    (l1 c1 l2 c2 : Nat) (a b : Int) (hl : eval_constant F l = some (ASTNode.IntLit l1 c1 a))
    (hr : eval_constant F r = some (ASTNode.IntLit l2 c2 b)) :
    eval_constant F (ASTNode.Binary line col op l r) = int_binary line col op a b := by
  simp only [eval_constant, hl, hr, Option.some_bind, eval_binary, ASTNode.is_null,
    has_float_operand, ASTNode.is_float_lit, Bool.or_self, Bool.false_eq_true, if_false,
    ASTNode.int_val]

theorem eval_int_binary_lit (F : FloatOps) (line col : Nat) (op : Operator)
    (l1 c1 l2 c2 : Nat) (a b : Int) :
    eval_constant F (ASTNode.Binary line col op (ASTNode.IntLit l1 c1 a) (ASTNode.IntLit l2 c2 b)) =
      int_binary line col op a b :=
  eval_int_binary F line col op _ _ l1 c1 l2 c2 a b rfl rfl

theorem fold_int_binary (F : FloatOps) (line col : Nat) (op : Operator) (l r : ASTNode)
    (l1 c1 l2 c2 : Nat) (a b : Int) (hl : optimize_const_fold F l = some (ASTNode.IntLit l1 c1 a))
    (hr : optimize_const_fold F r = some (ASTNode.IntLit l2 c2 b)) :
    optimize_const_fold F (ASTNode.Binary line col op l r) =
      try_fold F (ASTNode.Binary line col op (ASTNode.IntLit l1 c1 a) (ASTNode.IntLit l2 c2 b)) := by
  simp only [optimize_const_fold, hl, hr, Option.some_bind]

/-- The value that the specification gives a `Binary` node of an integer arithmetic tree,
from the values `a` and `b` of the operands. -/
theorem int_arith_value_binary (line col : Nat) (op : Operator) (l r : ASTNode) (v : Int)
    (h : int_arith_value (ASTNode.Binary line col op l r) = some v) :
    ∃ a b, int_arith_value l = some a ∧ int_arith_value r = some b ∧
      ((op = Operator.OP_ADD ∧ v = twos_complement64 (a + b)) ∨
       (op = Operator.OP_SUB ∧ v = twos_complement64 (a - b)) ∨
       (op = Operator.OP_MUL ∧ v = twos_complement64 (a * b)) ∨
       (op = Operator.OP_DIV ∧ b ≠ 0 ∧ v = twos_complement64 (Int.tdiv a b)) ∨
       (op = Operator.OP_MOD ∧ b ≠ 0 ∧ v = twos_complement64 (Int.tmod a b))) := by
  simp only [int_arith_value] at h
  cases hl : int_arith_value l with
  | none => simp [hl] at h
  | some a =>
    cases hr : int_arith_value r with
    | none => simp [hl, hr] at h
    | some b =>
      refine ⟨a, b, rfl, rfl, ?_⟩
      simp only [hl, hr] at h
      cases op <;> simp only [reduceCtorEq] at h
      · exact Or.inl ⟨rfl, (Option.some.inj h).symm⟩
      · exact Or.inr (Or.inl ⟨rfl, (Option.some.inj h).symm⟩)
      · exact Or.inr (Or.inr (Or.inl ⟨rfl, (Option.some.inj h).symm⟩))
      · by_cases hb : b = 0
        · simp [hb] at h
        · simp only [hb, if_false, Option.some.injEq] at h
          exact Or.inr (Or.inr (Or.inr (Or.inl ⟨rfl, hb, h.symm⟩)))
      · by_cases hb : b = 0
        · simp [hb] at h
        · simp only [hb, if_false, Option.some.injEq] at h
          exact Or.inr (Or.inr (Or.inr (Or.inr ⟨rfl, hb, h.symm⟩)))

/-- The integer `switch` on the operator and operands of a node of an integer arithmetic
tree in which the node itself divides no `INT64_MIN` by `-1`. -/
theorem int_binary_arith (line col : Nat) (op : Operator) (a b v : Int)
    (h : (op = Operator.OP_ADD ∧ v = twos_complement64 (a + b)) ∨
       (op = Operator.OP_SUB ∧ v = twos_complement64 (a - b)) ∨
       (op = Operator.OP_MUL ∧ v = twos_complement64 (a * b)) ∨
       (op = Operator.OP_DIV ∧ b ≠ 0 ∧ v = twos_complement64 (Int.tdiv a b)) ∨
       (op = Operator.OP_MOD ∧ b ≠ 0 ∧ v = twos_complement64 (Int.tmod a b)))
    (ho : (op = Operator.OP_DIV ∨ op = Operator.OP_MOD) → division_overflows a b = false) :
    int_binary line col op a b = some (ASTNode.IntLit line col v) := by
  rcases h with ⟨rfl, rfl⟩ | ⟨rfl, rfl⟩ | ⟨rfl, rfl⟩ | ⟨rfl, hb, rfl⟩ | ⟨rfl, hb, rfl⟩
  · simp only [int_binary, wrap64_eq_twos_complement64]
  · simp only [int_binary, wrap64_eq_twos_complement64]
  · simp only [int_binary, wrap64_eq_twos_complement64]
  · simp only [int_binary, ne_eq, hb, not_false_eq_true, if_true, int_div_some a b (ho (Or.inl rfl)),
      Option.map_some', wrap64_eq_twos_complement64]
  · simp only [int_binary, ne_eq, hb, not_false_eq_true, if_true, int_mod_some a b (ho (Or.inr rfl)),
      Option.map_some', wrap64_eq_twos_complement64]

/-- The division of a node of an integer arithmetic tree, as `overflowing_division` tests
it. -/
theorem overflowing_division_binary (line col : Nat) (op : Operator) (l r : ASTNode) (a b : Int)
    (hl : int_arith_value l = some a) (hr : int_arith_value r = some b) :
    overflowing_division (ASTNode.Binary line col op l r) =
      (overflowing_division l || overflowing_division r ||
        (decide (op = Operator.OP_DIV ∨ op = Operator.OP_MOD) && division_overflows a b)) := by
  cases op <;> simp [overflowing_division, hl, hr, min_by_minus_one_iff]

/-- On an integer arithmetic tree that divides no `INT64_MIN` by `-1`, `eval_constant` and
`optimize_const_fold` return the `IntLit` of the value of the tree. -/
theorem eval_int_arith (F : FloatOps) (t : ASTNode) :
    ∀ v, int_arith_value t = some v → overflowing_division t = false →
      eval_constant F t = some (ASTNode.IntLit t.line t.col v) ∧
      optimize_const_fold F t = some (ASTNode.IntLit t.line t.col v) := by
  induction t using expr_induction with
  | int line col v =>
    intro w h _
    simp only [int_arith_value, Option.some.injEq] at h
    subst h
    exact ⟨rfl, by simp [optimize_const_fold, ASTNode.line, ASTNode.col]⟩
  | float line col v => intro w h; simp [int_arith_value] at h
  | binary line col op l r ihl ihr =>
    intro w h ho
    obtain ⟨a, b, hl, hr, hv⟩ := int_arith_value_binary line col op l r w h
    rw [overflowing_division_binary line col op l r a b hl hr] at ho
    simp only [Bool.or_eq_false_iff, Bool.and_eq_false_imp, decide_eq_true_eq] at ho
    obtain ⟨⟨ol, or_⟩, od⟩ := ho
    obtain ⟨el, fl⟩ := ihl a hl ol
    obtain ⟨er, fr⟩ := ihr b hr or_
    have hb := int_binary_arith line col op a b w hv od
    have he : eval_constant F (ASTNode.Binary line col op l r) =
        some (ASTNode.IntLit line col w) := by
      rw [eval_int_binary F line col op l r _ _ _ _ a b el er, hb]
    refine ⟨he, ?_⟩
    rw [fold_int_binary F line col op l r _ _ _ _ a b fl fr]
    exact try_fold_eq_eval F _ _ rfl (by rw [eval_int_binary_lit, hb]; rfl) rfl
  | unary line col op x ih => intro w h; simp [int_arith_value] at h
  | ternary line col c t e ihc iht ihe => intro w h; simp [int_arith_value] at h
  | other t ht => intro w h; rw [int_arith_value_other ht] at h; cases h

/-- On an integer arithmetic tree that divides `INT64_MIN` by `-1` somewhere, neither
`eval_constant` nor `optimize_const_fold` returns. -/
theorem trap_int_arith (F : FloatOps) (t : ASTNode) :
    ∀ v, int_arith_value t = some v → overflowing_division t = true →
      eval_constant F t = none ∧ optimize_const_fold F t = none := by
  induction t using expr_induction with
  | int line col v => intro w _ ho; simp [overflowing_division] at ho
  | float line col v => intro w h; simp [int_arith_value] at h
  | binary line col op l r ihl ihr =>
    intro w h ho
    obtain ⟨a, b, hl, hr, hv⟩ := int_arith_value_binary line col op l r w h
    rw [overflowing_division_binary line col op l r a b hl hr] at ho
    cases ol : overflowing_division l with
    | true =>
      obtain ⟨el, fl⟩ := ihl a hl ol
      simp only [eval_constant, optimize_const_fold, el, fl, Option.none_bind, and_self]
    | false =>
      obtain ⟨el, fl⟩ := eval_int_arith F l a hl ol
      cases or_ : overflowing_division r with
      | true =>
        obtain ⟨er, fr⟩ := ihr b hr or_
        simp only [eval_constant, optimize_const_fold, el, fl, er, fr, Option.some_bind,
          Option.none_bind, and_self]
      | false =>
        obtain ⟨er, fr⟩ := eval_int_arith F r b hr or_
        simp only [ol, or_, Bool.or_self, Bool.false_or, Bool.and_eq_true, decide_eq_true_eq] at ho
        have hb : int_binary line col op a b = none := (int_binary_none line col op a b).2 ho
        refine ⟨by rw [eval_int_binary F line col op l r _ _ _ _ a b el er, hb], ?_⟩
        rw [fold_int_binary F line col op l r _ _ _ _ a b fl fr]
        exact try_fold_of_trap F _ rfl (by rw [eval_int_binary_lit, hb])
  | unary line col op x ih => intro w h; simp [int_arith_value] at h
  | ternary line col c t e ihc iht ihe => intro w h; simp [int_arith_value] at h
  | other t ht => intro w h; rw [int_arith_value_other ht] at h; cases h

/-- The refinement on the integer arithmetic trees. For every expression tree whose leaves
are `IntLit` and whose operators are `+ - * / %` with non-zero divisors, and whose value in
64-bit two's-complement signed arithmetic with wrap-around is `v`: where no node divides
`INT64_MIN` by `-1`, `eval_constant` and `optimize_const_fold` return the `IntLit` of the
value `v` at the position of the root; where a node does, neither of them returns. -/
theorem int_arith_refinement (F : FloatOps) (t : ASTNode) (v : Int)
    (h : int_arith_value t = some v) :
    (overflowing_division t = false →
      eval_constant F t = some (ASTNode.IntLit t.line t.col v) ∧
      optimize_const_fold F t = some (ASTNode.IntLit t.line t.col v)) ∧
    (overflowing_division t = true →
      eval_constant F t = none ∧ optimize_const_fold F t = none) :=
  ⟨eval_int_arith F t v h, trap_int_arith F t v h⟩

theorem int_arith_refinement_witness :
    int_arith_value ast_two_three_four_one = some 13 ∧
    overflowing_division ast_two_three_four_one = false ∧
    ∀ F : FloatOps, eval_constant F ast_two_three_four_one = some (ASTNode.IntLit 1 11 13) ∧
      optimize_const_fold F ast_two_three_four_one = some (ASTNode.IntLit 1 11 13) :=
  ⟨by decide, by decide,
    fun F => (int_arith_refinement F ast_two_three_four_one 13 (by decide)).1 (by decide)⟩

/-- C14 fails on `(0 - 9223372036854775807 - 1) / (0 - 1)`, a tree of `IntLit` leaves and the
operators `-` and `/` whose divisor `-1` is not zero. Its value in 64-bit two's-complement
arithmetic with wrap-around is `-2^63`: the quotient `2^63` wraps around. The code tests
the divisor for zero only and computes `l / r` on `INT64_MIN` and `-1`, where the
division traps: `eval_constant`, `optimize_const_fold` and `optimize` do not return, and
no `IntLit` is produced. The same holds for `%` at these operands. -/
theorem int_min_division_traps :
    parse_source 80 src_min_div = some (ASTNode.Program 1 1 [ast_min_div]) ∧
    int_arith_value ast_min_div = some (-9223372036854775808) ∧
    (∀ F : FloatOps,
      eval_constant F (ASTNode.Binary 1 26 Operator.OP_SUB
        (ASTNode.Binary 1 4 Operator.OP_SUB (ASTNode.IntLit 1 2 0)
          (ASTNode.IntLit 1 6 9223372036854775807))
        (ASTNode.IntLit 1 28 1)) = some (ASTNode.IntLit 1 26 (-9223372036854775808)) ∧
      eval_constant F (ASTNode.Binary 1 36 Operator.OP_SUB (ASTNode.IntLit 1 34 0)
        (ASTNode.IntLit 1 38 1)) = some (ASTNode.IntLit 1 36 (-1)) ∧
      eval_constant F ast_min_div = none ∧
      optimize_const_fold F ast_min_div = none ∧
      optimize F (ASTNode.Program 1 1 [ast_min_div]) = none) ∧
    (∀ line col, int_binary line col Operator.OP_DIV (-9223372036854775808) (-1) = none ∧
      int_binary line col Operator.OP_MOD (-9223372036854775808) (-1) = none ∧
      int_binary line col Operator.OP_DIV (-9223372036854775808) 0 =
        some (ASTNode.IntLit line col 0)) :=
  ⟨rfl, by decide, fun _ => ⟨rfl, rfl, rfl, rfl, rfl⟩, fun _ _ => ⟨rfl, rfl, rfl⟩⟩
/-! ## Zero divisors and floating point -/

/-- C15: constant folding never traps on a zero divisor. For every integer `l`, folding
`l / 0` and `l % 0` returns `IntLit 0`; for literals `l` and `r` of which at least one is a
`FloatLit`, folding `l / r` returns `FloatLit 0.0`, the conversion of the integer `0`, when
`r` is zero, that is when the test `r != 0` of the code fails. -/
theorem zero_divisor_folds_to_zero (F : FloatOps) (line col : Nat) :
    (∀ l1 c1 l2 c2 l,
      optimize_const_fold F (ASTNode.Binary line col Operator.OP_DIV (ASTNode.IntLit l1 c1 l)
        (ASTNode.IntLit l2 c2 0)) = some (ASTNode.IntLit line col 0)) ∧
    (∀ l1 c1 l2 c2 l,
      optimize_const_fold F (ASTNode.Binary line col Operator.OP_MOD (ASTNode.IntLit l1 c1 l)
        (ASTNode.IntLit l2 c2 0)) = some (ASTNode.IntLit line col 0)) ∧
    (∀ l r : ASTNode, l.is_literal = true → r.is_literal = true →
      has_float_operand l r = true → F.eq (get_numeric_value F r) (F.of_int 0) = true →
      optimize_const_fold F (ASTNode.Binary line col Operator.OP_DIV l r) =
        some (ASTNode.FloatLit line col (F.of_int 0))) := by
  refine ⟨fun l1 c1 l2 c2 l => ?_, fun l1 c1 l2 c2 l => ?_, fun l r hl hr hf hz => ?_⟩
  · simp only [optimize_const_fold, Option.some_bind]
    exact try_fold_eq_eval F _ _ rfl (by rw [eval_int_binary_lit]; rfl) rfl
  · simp only [optimize_const_fold, Option.some_bind]
    exact try_fold_eq_eval F _ _ rfl (by rw [eval_int_binary_lit]; rfl) rfl
  · have he : eval_constant F (ASTNode.Binary line col Operator.OP_DIV l r) =
        some (ASTNode.FloatLit line col (F.of_int 0)) := by
      simp only [eval_constant, eval_constant_literal F hl, eval_constant_literal F hr,
        Option.some_bind, eval_binary, not_null_of_literal hl, not_null_of_literal hr,
        Bool.or_self, Bool.false_eq_true, if_false, hf, if_true, float_binary, hz, Bool.not_true]
    simp only [optimize_const_fold, const_fold_literal_node F hl, const_fold_literal_node F hr,
      Option.some_bind]
    exact try_fold_eq_eval F _ _
      (by simp [is_constant_expr, is_constant_literal hl, is_constant_literal hr]) he rfl

/-- C16, amended: for every `Binary` node with an arithmetic operator whose operands both
evaluate to a literal, `eval_constant` computes in floating point and yields a `FloatLit`
if and only if the evaluated left or right operand is a `FloatLit`; otherwise it computes
in integers and what it yields is an `IntLit`. The integer computation yields a node
unless it is the division or the remainder of `INT64_MIN` by `-1`. -/
theorem arith_float_iff_evaluated_operand (F : FloatOps) (line col : Nat) (op : Operator)
    (l r l1 r1 : ASTNode) (hop : op.is_arith = true)
    (el : eval_constant F l = some l1) (er : eval_constant F r = some r1)
    (hl : l1.is_null = false) (hr : r1.is_null = false) :
    (has_float_operand l1 r1 = true →
      eval_constant F (ASTNode.Binary line col op l r) =
        some (float_binary F line col op (get_numeric_value F l1) (get_numeric_value F r1)) ∧
      (float_binary F line col op (get_numeric_value F l1)
        (get_numeric_value F r1)).is_float_lit = true) ∧
    (has_float_operand l1 r1 = false →
      eval_constant F (ASTNode.Binary line col op l r) =
        int_binary line col op l1.int_val r1.int_val ∧
      (∀ n, int_binary line col op l1.int_val r1.int_val = some n → n.is_int_lit = true) ∧
      (int_binary line col op l1.int_val r1.int_val = none ↔
        (op = Operator.OP_DIV ∨ op = Operator.OP_MOD) ∧
          l1.int_val = -9223372036854775808 ∧ r1.int_val = -1)) := by
  constructor
  · intro hf
    refine ⟨?_, ?_⟩
    · simp only [eval_constant, el, er, Option.some_bind, eval_binary, hl, hr, Bool.or_self,
        Bool.false_eq_true, if_false, hf, if_true]
    · cases op <;> first | rfl | simp [Operator.is_arith] at hop
  · intro hf
    refine ⟨?_, ?_, ?_⟩
    · simp only [eval_constant, el, er, Option.some_bind, eval_binary, hl, hr, Bool.or_self,
        Bool.false_eq_true, if_false, hf]
    · intro n hn
      exact int_binary_int_lit line col op _ _ n
        (by cases op <;> first | rfl | simp [Operator.is_arith] at hop) hn
    · rw [int_binary_none, division_overflows_iff]

theorem arith_float_iff_evaluated_operand_witness :
    Operator.OP_ADD.is_arith = true ∧
    ∀ F : FloatOps,
      eval_constant F (ASTNode.FloatLit 1 1 ⟨[49, 46, 48]⟩) =
        some (ASTNode.FloatLit 1 1 ⟨[49, 46, 48]⟩) ∧
      eval_constant F (ASTNode.IntLit 1 7 2) = some (ASTNode.IntLit 1 7 2) ∧
      eval_constant F (ASTNode.Binary 1 5 Operator.OP_ADD (ASTNode.FloatLit 1 1 ⟨[49, 46, 48]⟩)
        (ASTNode.IntLit 1 7 2)) = some (ASTNode.FloatLit 1 5 (F.add ⟨[49, 46, 48]⟩ (F.of_int 2))) :=
  ⟨rfl, fun F => ⟨rfl, rfl,
    ((arith_float_iff_evaluated_operand F 1 5 Operator.OP_ADD (ASTNode.FloatLit 1 1 ⟨[49, 46, 48]⟩)
      (ASTNode.IntLit 1 7 2) _ _ rfl rfl rfl rfl rfl).1 rfl).1⟩⟩

/-- C16 as stated fails on `(1.0 + 2) + 3`: neither child of the root is a `FloatLit` node
(the left child is a `Binary` node, the right child an `IntLit`), and `eval_constant`
computes in floating point and yields a `FloatLit`, since `has_float_operand` looks at the
evaluated operands. -/
theorem float_from_evaluated_operand :
    is_constant_expr ast_float_sum = true ∧
    (ASTNode.Binary 1 6 Operator.OP_ADD (ASTNode.FloatLit 1 2 ⟨[49, 46, 48]⟩)
      (ASTNode.IntLit 1 8 2)).is_float_lit = false ∧
    (ASTNode.IntLit 1 13 3).is_float_lit = false ∧
    ∀ F : FloatOps, eval_constant F ast_float_sum =
      some (ASTNode.FloatLit 1 11 (F.add (F.add ⟨[49, 46, 48]⟩ (F.of_int 2)) (F.of_int 3))) :=
  ⟨rfl, rfl, rfl, fun _ => rfl⟩

/-! ## Ternary nodes -/

/-- The loop over the statements returns the list of the folded statements, in their
order, where the pass returns on every statement. -/
theorem const_fold_each_some (F : FloatOps) : ∀ ts rs : List ASTNode,
    optimize_const_fold_each F ts = some rs ↔
      List.Forall₂ (fun t r => optimize_const_fold F t = some r) ts rs
  | [], rs => by
    simp only [optimize_const_fold_each, Option.some.injEq]
    constructor
    · intro h; subst h; exact List.Forall₂.nil
    · intro h; cases h; rfl
  | t :: ts, rs => by
    simp only [optimize_const_fold_each, Option.bind_eq_some, Option.some.injEq]
    constructor
    · rintro ⟨n, hn, ns, hns, rfl⟩
      exact List.Forall₂.cons hn ((const_fold_each_some F ts ns).1 hns)
    · intro h
      cases h with
      | cons hn hns => exact ⟨_, hn, _, (const_fold_each_some F ts _).2 hns, rfl⟩

/-- The loop over the statements does not return where the pass does not return on one of
them. -/
theorem const_fold_each_none (F : FloatOps) : ∀ ts : List ASTNode,
    optimize_const_fold_each F ts = none ↔ ∃ t, t ∈ ts ∧ optimize_const_fold F t = none
  | [] => by simp [optimize_const_fold_each]
  | t :: ts => by
    simp only [optimize_const_fold_each, List.mem_cons]
    cases ht : optimize_const_fold F t with
    | none =>
      simp only [Option.none_bind, true_iff]
      exact ⟨t, Or.inl rfl, ht⟩
    | some n =>
      simp only [Option.some_bind]
      cases hts : optimize_const_fold_each F ts with
      | none =>
        simp only [Option.none_bind, true_iff]
        obtain ⟨x, hx, hn⟩ := (const_fold_each_none F ts).1 hts
        exact ⟨x, Or.inr hx, hn⟩
      | some ns =>
        simp only [Option.some_bind, reduceCtorEq, false_iff]
        rintro ⟨x, hx | hx, hn⟩
        · subst hx; rw [ht] at hn; cases hn
        · have := (const_fold_each_none F ts).2 ⟨x, hx, hn⟩
          rw [hts] at this; cases this

theorem try_fold_idempotent_binary (F : FloatOps) (line col : Nat) (op : Operator)
    (l r res : ASTNode) (hl : optimize_const_fold F l = some l)
    (hr : optimize_const_fold F r = some r)
    (h : try_fold F (ASTNode.Binary line col op l r) = some res) :
    optimize_const_fold F res = some res := by
  rcases try_fold_cases F _ res h with h1 | h1
  · subst h1
    simp only [optimize_const_fold, hl, hr, Option.some_bind]
    exact h
  · exact const_fold_literal_node F h1

theorem try_fold_idempotent_unary (F : FloatOps) (line col : Nat) (op : Operator)
    (x res : ASTNode) (hx : optimize_const_fold F x = some x)
    (h : try_fold F (ASTNode.Unary line col op x) = some res) :
    optimize_const_fold F res = some res := by
  rcases try_fold_cases F _ res h with h1 | h1
  · subst h1
    simp only [optimize_const_fold, hx, Option.some_bind]
    exact h
  · exact const_fold_literal_node F h1

theorem fold_ternary_idempotent (F : FloatOps) (line col : Nat) (c t e res : ASTNode)
    (hc : optimize_const_fold F c = some c) (ht : optimize_const_fold F t = some t)
    (he : optimize_const_fold F e = some e) (h : fold_ternary F line col c t e = some res) :
    optimize_const_fold F res = some res := by
  rcases fold_ternary_cases F line col c t e res h with h1 | h1 | h1
  · subst h1
    simp only [optimize_const_fold, hc, ht, he, Option.some_bind]
    exact h
  · subst h1; exact ht
  · subst h1; exact he

mutual

/-- A tree that `optimize_const_fold` returns is returned unchanged by `optimize_const_fold`. -/
theorem const_fold_fixed (F : FloatOps) : ∀ t r : ASTNode,
    optimize_const_fold F t = some r → optimize_const_fold F r = some r
  | ASTNode.null, r, h => by
    simp only [optimize_const_fold, Option.some.injEq] at h; subst h; simp [optimize_const_fold]
  | ASTNode.IntLit _ _ _, r, h => by
    simp only [optimize_const_fold, Option.some.injEq] at h; subst h; simp [optimize_const_fold]
  | ASTNode.FloatLit _ _ _, r, h => by
    simp only [optimize_const_fold, Option.some.injEq] at h; subst h; simp [optimize_const_fold]
  | ASTNode.StringLit _ _ _ _, r, h => by
    simp only [optimize_const_fold, Option.some.injEq] at h; subst h; simp [optimize_const_fold]
  | ASTNode.Ident _ _ _ _, r, h => by
    simp only [optimize_const_fold, Option.some.injEq] at h; subst h; simp [optimize_const_fold]
  | ASTNode.Binary line col op l r, res, h => by
    simp only [optimize_const_fold, Option.bind_eq_some] at h
    obtain ⟨l1, hl, r1, hr, h⟩ := h
    exact try_fold_idempotent_binary F line col op l1 r1 res (const_fold_fixed F l l1 hl)
      (const_fold_fixed F r r1 hr) h
  | ASTNode.Unary line col op x, res, h => by
    simp only [optimize_const_fold, Option.bind_eq_some] at h
    obtain ⟨x1, hx, h⟩ := h
    exact try_fold_idempotent_unary F line col op x1 res (const_fold_fixed F x x1 hx) h
  | ASTNode.Lambda _ _ _ _ _, r, h => by
    simp only [optimize_const_fold, Option.some.injEq] at h; subst h; simp [optimize_const_fold]
  | ASTNode.Apply _ _ _ _, r, h => by
    simp only [optimize_const_fold, Option.some.injEq] at h; subst h; simp [optimize_const_fold]
  | ASTNode.Ternary line col c t e, res, h => by
    simp only [optimize_const_fold, Option.bind_eq_some] at h
    obtain ⟨c1, hc, t1, ht, e1, he, h⟩ := h
    exact fold_ternary_idempotent F line col c1 t1 e1 res (const_fold_fixed F c c1 hc)
      (const_fold_fixed F t t1 ht) (const_fold_fixed F e e1 he) h
  | ASTNode.Array _ _ _, r, h => by
    simp only [optimize_const_fold, Option.some.injEq] at h; subst h; simp [optimize_const_fold]
  | ASTNode.Index _ _ _ _, r, h => by
    simp only [optimize_const_fold, Option.some.injEq] at h; subst h; simp [optimize_const_fold]
  | ASTNode.Builtin _ _ _ elements, r, h => by
    simp only [optimize_const_fold, Option.bind_eq_some, Option.some.injEq] at h
    obtain ⟨es, hes, rfl⟩ := h
    simp only [optimize_const_fold, const_fold_each_fixed F elements es hes, Option.some_bind]
  | ASTNode.Let _ _ _ _ value, r, h => by
    simp only [optimize_const_fold, Option.bind_eq_some, Option.some.injEq] at h
    obtain ⟨v, hv, rfl⟩ := h
    simp only [optimize_const_fold, const_fold_fixed F value v hv, Option.some_bind]
  | ASTNode.For _ _ _ start end_ body _, r, h => by
    simp only [optimize_const_fold, Option.bind_eq_some, Option.some.injEq] at h
    obtain ⟨s, hs, e, he, b, hb, rfl⟩ := h
    simp only [optimize_const_fold, const_fold_fixed F start s hs, const_fold_fixed F end_ e he,
      const_fold_fixed F body b hb, Option.some_bind]
  | ASTNode.Block _ _ stmts, r, h => by
    simp only [optimize_const_fold, Option.bind_eq_some, Option.some.injEq] at h
    obtain ⟨ss, hss, rfl⟩ := h
    simp only [optimize_const_fold, const_fold_each_fixed F stmts ss hss, Option.some_bind]
  | ASTNode.Async _ _ _, r, h => by
    simp only [optimize_const_fold, Option.some.injEq] at h; subst h; simp [optimize_const_fold]
  | ASTNode.Await _ _ _, r, h => by
    simp only [optimize_const_fold, Option.some.injEq] at h; subst h; simp [optimize_const_fold]
  | ASTNode.GpuKernel _ _ _ _ _ _, r, h => by
    simp only [optimize_const_fold, Option.some.injEq] at h; subst h; simp [optimize_const_fold]
  | ASTNode.Program _ _ stmts, r, h => by
    simp only [optimize_const_fold, Option.bind_eq_some, Option.some.injEq] at h
    obtain ⟨ss, hss, rfl⟩ := h
    simp only [optimize_const_fold, const_fold_each_fixed F stmts ss hss, Option.some_bind]

theorem const_fold_each_fixed (F : FloatOps) : ∀ ts rs : List ASTNode,
    optimize_const_fold_each F ts = some rs → optimize_const_fold_each F rs = some rs
  | [], rs, h => by
    simp only [optimize_const_fold_each, Option.some.injEq] at h
    subst h; simp [optimize_const_fold_each]
  | t :: ts, rs, h => by
    simp only [optimize_const_fold_each, Option.bind_eq_some, Option.some.injEq] at h
    obtain ⟨n, hn, ns, hns, rfl⟩ := h
    simp only [optimize_const_fold_each, const_fold_fixed F t n hn,
      const_fold_each_fixed F ts ns hns, Option.some_bind]

end

/-- C18: constant folding is idempotent. For every AST `t`, in particular every tree whose
leaves are literals, on which `optimize_const_fold` returns a tree `r`: the pass on `r`
returns `r` itself, so the second pass returns and changes nothing, and the two passes one
after the other give `r`. The first pass returns unless it divides `INT64_MIN` by `-1`,
where it traps and there is no tree to fold again. -/
theorem const_fold_idempotent (F : FloatOps) (t r : ASTNode)
    (h : optimize_const_fold F t = some r) :
    optimize_const_fold F r = some r ∧
    (optimize_const_fold F t).bind (optimize_const_fold F) = some r :=
  ⟨const_fold_fixed F t r h, by rw [h, Option.some_bind]; exact const_fold_fixed F t r h⟩

theorem const_fold_idempotent_witness :
    literal_tree ast_float_sum = true ∧
    ∀ F : FloatOps,
      optimize_const_fold F ast_float_sum =
        some (ASTNode.FloatLit 1 11 (F.add (F.add ⟨[49, 46, 48]⟩ (F.of_int 2)) (F.of_int 3))) ∧
      optimize_const_fold F
          (ASTNode.FloatLit 1 11 (F.add (F.add ⟨[49, 46, 48]⟩ (F.of_int 2)) (F.of_int 3))) =
        some (ASTNode.FloatLit 1 11 (F.add (F.add ⟨[49, 46, 48]⟩ (F.of_int 2)) (F.of_int 3))) :=
  ⟨rfl, fun F => ⟨rfl, (const_fold_idempotent F ast_float_sum _ rfl).1⟩⟩

/-! ## Nodes that are not constant -/

/-- C20, amended: on every node on which `is_constant_expr` returns 0, when both branches of
every `Ternary` node inside the node are constant, `eval_constant` returns `NULL` and no
node; it returns unless an operand that it evaluates on the way divides `INT64_MIN` by
`-1`. -/
theorem eval_null_of_not_constant (F : FloatOps) (t : ASTNode) (hb : branches_constant t = true)
    (h : is_constant_expr t = false) :
    (eval_constant F t = some ASTNode.null ∨ eval_constant F t = none) ∧
    ∀ n, eval_constant F t = some n → n = ASTNode.null := by
  have key : ∀ n, eval_constant F t = some n → n = ASTNode.null := by
    induction t using expr_induction with
    | int line col v => cases h
    | float line col v => cases h
    | binary line col op l r ihl ihr =>
      intro n hn
      simp only [branches_constant, Bool.and_eq_true] at hb
      simp only [is_constant_expr, Bool.and_eq_false_iff] at h
      simp only [eval_constant, Option.bind_eq_some] at hn
      obtain ⟨a, ha, b, hb', hn⟩ := hn
      rcases h with h | h
      · rw [ihl hb.1 h a ha, eval_binary_of_null F line col op ASTNode.null b (Or.inl rfl)] at hn
        exact (Option.some.inj hn).symm
      · rw [ihr hb.2 h b hb', eval_binary_of_null F line col op a ASTNode.null (Or.inr rfl)] at hn
        exact (Option.some.inj hn).symm
    | unary line col op x ih =>
      intro n hn
      simp only [branches_constant] at hb
      simp only [is_constant_expr] at h
      simp only [eval_constant, Option.bind_eq_some, Option.some.injEq] at hn
      obtain ⟨a, ha, rfl⟩ := hn
      rw [ih hb h a ha]
      rfl
    | ternary line col c t e ihc iht ihe =>
      intro n hn
      simp only [branches_constant, Bool.and_eq_true] at hb
      obtain ⟨⟨hc, ht⟩, he⟩ := hb
      simp only [is_constant_expr, ht, he, Bool.and_true] at h
      simp only [eval_constant, Option.bind_eq_some] at hn
      obtain ⟨a, ha, hn⟩ := hn
      rw [ihc hc h a ha] at hn
      exact (Option.some.inj hn).symm
    | other t ht =>
      intro n hn
      rw [eval_constant_other F ht] at hn
      exact (Option.some.inj hn).symm
  refine ⟨?_, key⟩
  cases hv : eval_constant F t with
  | none => exact Or.inr rfl
  | some n => rw [key n hv]; exact Or.inl rfl

theorem eval_null_of_not_constant_witness :
    branches_constant (ASTNode.Binary 1 3 Operator.OP_ADD (ASTNode.IntLit 1 1 1)
      (ASTNode.Ident 1 5 [120] 1)) = true ∧
    is_constant_expr (ASTNode.Binary 1 3 Operator.OP_ADD (ASTNode.IntLit 1 1 1)
      (ASTNode.Ident 1 5 [120] 1)) = false ∧
    (∀ F : FloatOps, eval_constant F (ASTNode.Binary 1 3 Operator.OP_ADD (ASTNode.IntLit 1 1 1)
      (ASTNode.Ident 1 5 [120] 1)) = some ASTNode.null) ∧
    ∀ (F : FloatOps) (n : ASTNode), eval_constant F (ASTNode.Binary 1 3 Operator.OP_ADD
      (ASTNode.IntLit 1 1 1) (ASTNode.Ident 1 5 [120] 1)) = some n → n = ASTNode.null :=
  ⟨rfl, rfl, fun _ => rfl, fun F => (eval_null_of_not_constant F (ASTNode.Binary 1 3
    Operator.OP_ADD (ASTNode.IntLit 1 1 1) (ASTNode.Ident 1 5 [120] 1)) rfl rfl).2⟩

/-- C20 as stated fails on `1 ? 2 : x`: `is_constant_expr` returns 0, because the
else-branch is an identifier, and `eval_constant` returns `IntLit 2`, because `eval_ternary`
evaluates the condition and the branch taken only. -/
theorem ternary_untaken_branch_ignored :
    is_constant_expr ast_ternary_untaken = false ∧
    ∀ F : FloatOps, eval_constant F ast_ternary_untaken = some (ASTNode.IntLit 1 5 2) :=
  ⟨rfl, fun _ => rfl⟩

/-! ## The nodes the pass leaves alone, and the shape of the others -/

/-- C29: `optimize_const_fold` returns every `Lambda`, `Apply`, `Ident`, `StringLit`,
`Array`, `Index`, `Async`, `Await` and `GpuKernel` node unchanged, constant
sub-expressions inside it included: the array literal `[1 + 2]` keeps its element
`Binary(ADD, 1, 2)`. -/
theorem const_fold_leaves_unchanged (F : FloatOps) :
    (∀ line col params param_types body,
      optimize_const_fold F (ASTNode.Lambda line col params param_types body) =
        some (ASTNode.Lambda line col params param_types body)) ∧
    (∀ line col func args,
      optimize_const_fold F (ASTNode.Apply line col func args) =
        some (ASTNode.Apply line col func args)) ∧
    (∀ line col name len,
      optimize_const_fold F (ASTNode.Ident line col name len) =
        some (ASTNode.Ident line col name len)) ∧
    (∀ line col value len,
      optimize_const_fold F (ASTNode.StringLit line col value len) =
        some (ASTNode.StringLit line col value len)) ∧
    (∀ line col elements,
      optimize_const_fold F (ASTNode.Array line col elements) =
        some (ASTNode.Array line col elements)) ∧
    (∀ line col array index,
      optimize_const_fold F (ASTNode.Index line col array index) =
        some (ASTNode.Index line col array index)) ∧
    (∀ line col expr,
      optimize_const_fold F (ASTNode.Async line col expr) = some (ASTNode.Async line col expr)) ∧
    (∀ line col expr,
      optimize_const_fold F (ASTNode.Await line col expr) = some (ASTNode.Await line col expr)) ∧
    (∀ line col name params param_types body,
      optimize_const_fold F (ASTNode.GpuKernel line col name params param_types body) =
        some (ASTNode.GpuKernel line col name params param_types body)) ∧
    optimize_const_fold F (ASTNode.Array 1 1 [ASTNode.Binary 1 4 Operator.OP_ADD
        (ASTNode.IntLit 1 2 1) (ASTNode.IntLit 1 6 2)]) =
      some (ASTNode.Array 1 1 [ASTNode.Binary 1 4 Operator.OP_ADD
        (ASTNode.IntLit 1 2 1) (ASTNode.IntLit 1 6 2)]) := by
  refine ⟨?_, ?_, ?_, ?_, ?_, ?_, ?_, ?_, ?_, ?_⟩ <;> intros <;> simp only [optimize_const_fold]

/-- C30: `optimize_const_fold` preserves the shape of what it does not fold. A `Let` keeps
its name and type annotation, a `For` its loop variable and parallel flag, a `Block` or
`Program` the number and order of its statements, a `Builtin` its name and argument count,
and a `Binary` or `Unary` node that is not folded to a literal keeps its operator; in each
case every child is replaced by its own folded form. The pass returns on a `Let`, `For`,
`Block`, `Program` or `Builtin` node where it returns on every child, and only there; on a
`Binary` or `Unary` node whose children it has folded it returns unless `eval_constant`
traps on the node of the folded children. -/
theorem const_fold_preserves_shape (F : FloatOps) :
    (∀ line col name ty value,
      (∀ v, optimize_const_fold F value = some v →
        optimize_const_fold F (ASTNode.Let line col name ty value) =
          some (ASTNode.Let line col name ty v)) ∧
      (optimize_const_fold F value = none →
        optimize_const_fold F (ASTNode.Let line col name ty value) = none)) ∧
    (∀ line col var start end_ body parallel,
      (∀ s e b, optimize_const_fold F start = some s → optimize_const_fold F end_ = some e →
        optimize_const_fold F body = some b →
        optimize_const_fold F (ASTNode.For line col var start end_ body parallel) =
          some (ASTNode.For line col var s e b parallel)) ∧
      (optimize_const_fold F start = none ∨ optimize_const_fold F end_ = none ∨
          optimize_const_fold F body = none →
        optimize_const_fold F (ASTNode.For line col var start end_ body parallel) = none)) ∧
    (∀ line col stmts,
      (∀ ss, List.Forall₂ (fun t r => optimize_const_fold F t = some r) stmts ss →
        optimize_const_fold F (ASTNode.Block line col stmts) = some (ASTNode.Block line col ss)) ∧
      ((∃ t, t ∈ stmts ∧ optimize_const_fold F t = none) →
        optimize_const_fold F (ASTNode.Block line col stmts) = none)) ∧
    (∀ line col stmts,
      (∀ ss, List.Forall₂ (fun t r => optimize_const_fold F t = some r) stmts ss →
        optimize_const_fold F (ASTNode.Program line col stmts) =
          some (ASTNode.Program line col ss)) ∧
      ((∃ t, t ∈ stmts ∧ optimize_const_fold F t = none) →
        optimize_const_fold F (ASTNode.Program line col stmts) = none)) ∧
    (∀ line col name elements,
      (∀ es, List.Forall₂ (fun t r => optimize_const_fold F t = some r) elements es →
        optimize_const_fold F (ASTNode.Builtin line col name elements) =
          some (ASTNode.Builtin line col name es)) ∧
      ((∃ t, t ∈ elements ∧ optimize_const_fold F t = none) →
        optimize_const_fold F (ASTNode.Builtin line col name elements) = none)) ∧
    (∀ line col op left right,
      (∀ l r, optimize_const_fold F left = some l → optimize_const_fold F right = some r →
        optimize_const_fold F (ASTNode.Binary line col op left right) =
          some (ASTNode.Binary line col op l r) ∨
        (∃ n, optimize_const_fold F (ASTNode.Binary line col op left right) = some n ∧
          n.is_literal = true) ∨
        (optimize_const_fold F (ASTNode.Binary line col op left right) = none ∧
          eval_constant F (ASTNode.Binary line col op l r) = none)) ∧
      (optimize_const_fold F left = none ∨ optimize_const_fold F right = none →
        optimize_const_fold F (ASTNode.Binary line col op left right) = none)) ∧
    (∀ line col op operand,
      (∀ x, optimize_const_fold F operand = some x →
        optimize_const_fold F (ASTNode.Unary line col op operand) =
          some (ASTNode.Unary line col op x) ∨
        (∃ n, optimize_const_fold F (ASTNode.Unary line col op operand) = some n ∧
          n.is_literal = true) ∨
        (optimize_const_fold F (ASTNode.Unary line col op operand) = none ∧
          eval_constant F (ASTNode.Unary line col op x) = none)) ∧
      (optimize_const_fold F operand = none →
        optimize_const_fold F (ASTNode.Unary line col op operand) = none)) := by
  have shape : ∀ n : ASTNode, try_fold F n = some n ∨
      (∃ r, try_fold F n = some r ∧ r.is_literal = true) ∨
      (try_fold F n = none ∧ eval_constant F n = none) := by
    intro n
    cases h : try_fold F n with
    | some r =>
      rcases try_fold_cases F n r h with h1 | h1
      · exact Or.inl (by rw [h1])
      · exact Or.inr (Or.inl ⟨r, rfl, h1⟩)
    | none =>
      refine Or.inr (Or.inr ⟨rfl, ?_⟩)
      unfold try_fold at h
      split at h
      · cases hv : eval_constant F n with
        | none => rfl
        | some v => rw [hv, Option.some_bind] at h; split at h <;> cases h
      · cases h
  have each_none : ∀ ts : List ASTNode, (∃ t, t ∈ ts ∧ optimize_const_fold F t = none) →
      optimize_const_fold_each F ts = none := fun ts => (const_fold_each_none F ts).2
  have each_some : ∀ ts ss : List ASTNode,
      List.Forall₂ (fun t r => optimize_const_fold F t = some r) ts ss →
      optimize_const_fold_each F ts = some ss := fun ts ss => (const_fold_each_some F ts ss).2
  refine ⟨?_, ?_, ?_, ?_, ?_, ?_, ?_⟩
  · intro line col name ty value
    exact ⟨fun v hv => by simp only [optimize_const_fold, hv, Option.some_bind],
      fun hv => by simp only [optimize_const_fold, hv, Option.none_bind]⟩
  · intro line col var start end_ body parallel
    refine ⟨fun s e b hs he hb => by simp only [optimize_const_fold, hs, he, hb, Option.some_bind],
      fun h => ?_⟩
    simp only [optimize_const_fold]
    rcases h with h | h | h
    · rw [h, Option.none_bind]
    · rw [h]; cases optimize_const_fold F start <;> rfl
    · rw [h]
      cases optimize_const_fold F start <;> cases optimize_const_fold F end_ <;> rfl
  · intro line col stmts
    exact ⟨fun ss h => by simp only [optimize_const_fold, each_some _ _ h, Option.some_bind],
      fun h => by simp only [optimize_const_fold, each_none _ h, Option.none_bind]⟩
  · intro line col stmts
    exact ⟨fun ss h => by simp only [optimize_const_fold, each_some _ _ h, Option.some_bind],
      fun h => by simp only [optimize_const_fold, each_none _ h, Option.none_bind]⟩
  · intro line col name elements
    exact ⟨fun ss h => by simp only [optimize_const_fold, each_some _ _ h, Option.some_bind],
      fun h => by simp only [optimize_const_fold, each_none _ h, Option.none_bind]⟩
  · intro line col op left right
    refine ⟨fun l r hl hr => ?_, fun h => ?_⟩
    · simp only [optimize_const_fold, hl, hr, Option.some_bind]
      exact shape _
    · simp only [optimize_const_fold]
      rcases h with h | h
      · rw [h, Option.none_bind]
      · rw [h]; cases optimize_const_fold F left <;> rfl
  · intro line col op operand
    refine ⟨fun x hx => ?_, fun h => ?_⟩
    · simp only [optimize_const_fold, hx, Option.some_bind]
      exact shape _
    · simp only [optimize_const_fold, h, Option.none_bind]
/-! ## The fold and the evaluator -/

/-- Where `eval_constant` returns a literal on an AST `t`, `optimize_const_fold` returns the
same node, an `IntLit` or a `FloatLit` with the same value, line and column, unless it
does not return: it folds every branch of a `Ternary` node, also the branch that
`eval_constant` skips, and traps where one of them divides `INT64_MIN` by `-1`. -/
theorem fold_agrees_with_eval (F : FloatOps) (t n : ASTNode)
    (h : eval_constant F t = some n) (hl : n.is_literal = true) :
    (optimize_const_fold F t = some n ∨ optimize_const_fold F t = none) ∧
    ∀ r, optimize_const_fold F t = some r → r = n := by
  have key := fun r => const_fold_eq_eval F t n r h (not_null_of_literal hl)
  refine ⟨?_, key⟩
  cases hr : optimize_const_fold F t with
  | none => exact Or.inr rfl
  | some r => rw [key r hr]; exact Or.inl rfl

theorem fold_agrees_with_eval_witness :
    is_constant_expr ast_ternary_untaken = false ∧
    ∀ F : FloatOps, eval_constant F ast_ternary_untaken = some (ASTNode.IntLit 1 5 2) ∧
      optimize_const_fold F ast_ternary_untaken = some (ASTNode.IntLit 1 5 2) ∧
      ∀ r, optimize_const_fold F ast_ternary_untaken = some r → r = ASTNode.IntLit 1 5 2 :=
  ⟨rfl, fun F => ⟨rfl, rfl, (fold_agrees_with_eval F ast_ternary_untaken _ rfl rfl).2⟩⟩

/-- C37 fails on `1 ? 2 : (0 - 9223372036854775807 - 1) / (0 - 1)`: `eval_constant` returns
the literal `IntLit 2` of the then-branch, since `eval_ternary` evaluates the condition and
the branch taken only; `optimize_const_fold` folds the else-branch before it looks at the
condition, computes `l / r` on `INT64_MIN` and `-1` there and traps, so it returns no node
at all, and neither does `optimize` on the program. -/
theorem fold_traps_where_eval_returns :
    parse_source 80 src_ternary_min_div = some (ASTNode.Program 1 1 [ast_ternary_min_div]) ∧
    ∀ F : FloatOps,
      eval_constant F ast_ternary_min_div = some (ASTNode.IntLit 1 5 2) ∧
      (ASTNode.IntLit 1 5 2).is_literal = true ∧
      optimize_const_fold F (ASTNode.IntLit 1 1 1) = some (ASTNode.IntLit 1 1 1) ∧
      optimize_const_fold F (ASTNode.IntLit 1 5 2) = some (ASTNode.IntLit 1 5 2) ∧
      optimize_const_fold F ast_ternary_min_div = none ∧
      optimize F (ASTNode.Program 1 1 [ast_ternary_min_div]) = none :=
  ⟨rfl, fun _ => ⟨rfl, rfl, rfl, rfl, rfl, rfl⟩⟩

/-! ## Scopes -/

theorem find_symbol_eq_find (syms : List Symbol) (name : List Nat) :
    find_symbol syms name = syms.find? (fun sym => decide (sym.name = name)) := by
  induction syms with
  | nil => rfl
  | cons sym rest ih =>
    unfold find_symbol
    by_cases h : sym.name = name
    · simp [h]
    · simp [h, ih]

theorem find_symbol_append (a b : List Symbol) (name : List Nat) :
    find_symbol (a ++ b) name =
      match find_symbol a name with
      | some sym => some sym
      | none => find_symbol b name := by
  induction a with
  | nil => rfl
  | cons sym rest ih =>
    simp only [List.cons_append, find_symbol]
    by_cases h : sym.name = name
    · simp [h]
    · simp [h, ih]

theorem chain_symbols_cons (scopes : List Scope) (s : Nat) (rest : List Nat) (scope : Scope)
    (h : scopes.get? s = some scope) :
    chain_symbols scopes (s :: rest) = scope.symbols ++ chain_symbols scopes rest := by
  simp only [chain_symbols, List.flatMap_cons, h, Option.map_some', Option.getD_some]

theorem scope_lookup_chain (scopes : List Scope) (name : List Nat) (s : Option Nat)
    (chain : List Nat) (h : ScopeChain scopes s chain) :
    ∀ fuel, chain.length < fuel →
      scope_lookup scopes fuel s name =
        some ((find_symbol (chain_symbols scopes chain) name).bind Symbol.value) ∧
      scope_lookup_type scopes fuel s name =
        some ((find_symbol (chain_symbols scopes chain) name).bind Symbol.type) := by
  induction h with
  | nil =>
    intro fuel hf
    cases fuel with
    | zero => exact absurd hf (Nat.lt_irrefl _)
    | succ n => exact ⟨rfl, rfl⟩
  | @cons s scope rest hs _ ih =>
    intro fuel hf
    cases fuel with
    | zero => exact absurd hf (Nat.not_lt_zero _)
    | succ n =>
      have hn : rest.length < n := by simpa using hf
      rw [chain_symbols_cons scopes s rest scope hs, find_symbol_append]
      simp only [scope_lookup, scope_lookup_type, hs]
      cases hfind : find_symbol scope.symbols name with
      | some sym => exact ⟨rfl, rfl⟩
      | none => exact ih n hn

theorem update_scope_get (scopes : List Scope) (c : Nat) (f : Scope → Scope) (i : Nat) :
    (update_scope scopes c f).get? i =
      if i = c then (scopes.get? c).map f else scopes.get? i := by
  induction scopes generalizing c i with
  | nil => cases c <;> simp [update_scope]
  | cons sc rest ih =>
    cases c with
    | zero =>
      cases i with
      | zero => simp [update_scope]
      | succ j => simp [update_scope]
    | succ d =>
      cases i with
      | zero => simp [update_scope]
      | succ j =>
        simp only [update_scope, List.get?_cons_succ, ih d j]
        simp

theorem scope_define_get_other (scopes : List Scope) (c i : Nat) (n : List Nat)
    (v : LLVMValueRef) (t : Option LLVMType) (h : i ≠ c) :
    (scope_define scopes c n v t).get? i = scopes.get? i := by
  unfold scope_define
  rw [update_scope_get, if_neg h]

theorem scope_define_get_self (scopes : List Scope) (c : Nat) (n : List Nat)
    (v : LLVMValueRef) (t : Option LLVMType) (scope : Scope) (h : scopes.get? c = some scope) :
    (scope_define scopes c n v t).get? c =
      some { scope with symbols := { name := n, value := v, type := t } :: scope.symbols } := by
  unfold scope_define
  rw [update_scope_get, if_pos rfl, h]
  rfl

theorem scope_chain_bound (scopes : List Scope) (s : Option Nat) (chain : List Nat)
    (h : ScopeChain scopes s chain) : ∀ i ∈ chain, i < scopes.length := by
  induction h with
  | nil => intro i hi; cases hi
  | @cons s scope rest hs _ ih =>
    intro i hi
    rcases List.mem_cons.mp hi with rfl | hi
    · by_contra hge
      rw [List.get?_eq_none.mpr (Nat.le_of_not_lt hge)] at hs
      cases hs
    · exact ih i hi

/-- A definition in the scope `c` changes no lookup that starts at a scope whose chain does
not pass through `c`. -/
theorem scope_define_elsewhere (scopes : List Scope) (c : Nat) (n : List Nat)
    (v : LLVMValueRef) (t : Option LLVMType) (s : Option Nat) (chain : List Nat)
    (h : ScopeChain scopes s chain) (hc : c ∉ chain) :
    ∀ (fuel : Nat) (m : List Nat),
      scope_lookup (scope_define scopes c n v t) fuel s m = scope_lookup scopes fuel s m ∧
      scope_lookup_type (scope_define scopes c n v t) fuel s m =
        scope_lookup_type scopes fuel s m := by
  induction h with
  | nil =>
    intro fuel m
    cases fuel with
    | zero => exact ⟨rfl, rfl⟩
    | succ k => exact ⟨rfl, rfl⟩
  | @cons s scope rest hs _ ih =>
    intro fuel m
    have hsc : s ≠ c := fun e => hc (e ▸ List.mem_cons_self _ _)
    have hrest : c ∉ rest := fun e => hc (List.mem_cons_of_mem _ e)
    cases fuel with
    | zero => exact ⟨rfl, rfl⟩
    | succ k =>
      simp only [scope_lookup, scope_lookup_type, scope_define_get_other scopes c s n v t hsc, hs]
      cases find_symbol scope.symbols m with
      | some sym => exact ⟨rfl, rfl⟩
      | none => exact ih hrest k m

/-- C21: `scope_lookup` resolves a name to the nearest enclosing binding. On every scope
chain, with fuel for the scopes of the chain, `scope_lookup` and `scope_lookup_type`
return the value and the type of the first symbol with the name in the symbols of the
chain, the innermost scope first, and `NULL` when no scope of the chain binds the name;
and after `scope_define(s, n, v, t)` a lookup of `n` from `s` returns `v` and `t`. -/
theorem scope_lookup_nearest_binding (scopes : List Scope) (name : List Nat) :
    (∀ (s : Option Nat) (chain : List Nat), ScopeChain scopes s chain →
      ∀ fuel, chain.length < fuel →
        scope_lookup scopes fuel s name =
          some (((chain_symbols scopes chain).find? (fun sym => decide (sym.name = name))).bind
            Symbol.value) ∧
        scope_lookup_type scopes fuel s name =
          some (((chain_symbols scopes chain).find? (fun sym => decide (sym.name = name))).bind
            Symbol.type)) ∧
    (∀ (s : Nat) (scope : Scope) (v : LLVMValueRef) (t : Option LLVMType) (fuel : Nat),
      scopes.get? s = some scope →
        scope_lookup (scope_define scopes s name v t) (fuel + 1) (some s) name = some v ∧
        scope_lookup_type (scope_define scopes s name v t) (fuel + 1) (some s) name = some t) := by
  constructor
  · intro s chain h fuel hf
    rw [← find_symbol_eq_find]
    exact scope_lookup_chain scopes name s chain h fuel hf
  · intro s scope v t fuel hs
    simp only [scope_lookup, scope_lookup_type, scope_define_get_self scopes s name v t scope hs,
      find_symbol, if_true, and_self]

/-- C22: shadowing never changes outer bindings. Let `c` be a scope whose chain
`c :: chain` does not return to `c`, as for every scope made by `scope_new`. After
`scope_define(c, n, v, t)` the lookups of every name from the parent of `c` and from every
scope of `chain` give what they gave before, and so do the lookups of every name other
than `n` from `c`. -/
theorem scope_define_frame (scopes : List Scope) (c : Nat) (scope : Scope) (chain : List Nat)
    (n : List Nat) (v : LLVMValueRef) (t : Option LLVMType)
    (hc : scopes.get? c = some scope) (h : ScopeChain scopes scope.parent chain)
    (hn : c ∉ chain) :
    (∀ (fuel : Nat) (m : List Nat),
      scope_lookup (scope_define scopes c n v t) fuel scope.parent m =
        scope_lookup scopes fuel scope.parent m ∧
      scope_lookup_type (scope_define scopes c n v t) fuel scope.parent m =
        scope_lookup_type scopes fuel scope.parent m) ∧
    (∀ a ∈ chain, ∀ (fuel : Nat) (m : List Nat),
      scope_lookup (scope_define scopes c n v t) fuel (some a) m =
        scope_lookup scopes fuel (some a) m ∧
      scope_lookup_type (scope_define scopes c n v t) fuel (some a) m =
        scope_lookup_type scopes fuel (some a) m) ∧
    (∀ (fuel : Nat) (m : List Nat), m ≠ n →
      scope_lookup (scope_define scopes c n v t) fuel (some c) m =
        scope_lookup scopes fuel (some c) m ∧
      scope_lookup_type (scope_define scopes c n v t) fuel (some c) m =
        scope_lookup_type scopes fuel (some c) m) := by
  have hp := scope_define_elsewhere scopes c n v t scope.parent chain h hn
  refine ⟨hp, ?_, ?_⟩
  · intro a ha
    have hsuffix : ∀ (s : Option Nat) (ch : List Nat), ScopeChain scopes s ch → c ∉ ch →
        ∀ a ∈ ch, ∃ ch', ScopeChain scopes (some a) ch' ∧ c ∉ ch' := by
      intro s ch hch
      induction hch with
      | nil => intro _ a ha; cases ha
      | @cons s0 sc0 rest hs0 hrest ih =>
        intro hnot a ha
        rcases List.mem_cons.mp ha with rfl | ha
        · exact ⟨a :: rest, ScopeChain.cons hs0 hrest, hnot⟩
        · exact ih (fun e => hnot (List.mem_cons_of_mem _ e)) a ha
    obtain ⟨ch', h1, h2⟩ := hsuffix scope.parent chain h hn a ha
    exact scope_define_elsewhere scopes c n v t (some a) ch' h1 h2
  · intro fuel m hm
    cases fuel with
    | zero => exact ⟨rfl, rfl⟩
    | succ k =>
      have hne : ¬ n = m := fun e => hm e.symm
      simp only [scope_lookup, scope_lookup_type, scope_define_get_self scopes c n v t scope hc,
        hc, find_symbol, hne, if_false]
      cases find_symbol scope.symbols m with
      | some sym => exact ⟨rfl, rfl⟩
      | none => exact hp k m

theorem scope_define_frame_witness :
    (scope_new (codegen_init 0).scopes (some 0)).2.get? 1 = some ⟨[], some 0⟩ ∧
    ScopeChain (scope_new (codegen_init 0).scopes (some 0)).2 (some 0) [0] ∧ 1 ∉ [0] ∧
    ∀ (fuel : Nat) (m : List Nat),
      scope_lookup (scope_define (scope_new (codegen_init 0).scopes (some 0)).2 1 [120]
        (some (LLVMValue.inst 0 LLVMType.pointer)) (some (LLVMType.int 64))) fuel (some 0) m =
      scope_lookup (scope_new (codegen_init 0).scopes (some 0)).2 fuel (some 0) m :=
  ⟨rfl, @ScopeChain.cons _ 0 ⟨[], none⟩ [] rfl ScopeChain.nil, by decide,
    fun fuel m => ((scope_define_frame (scope_new (codegen_init 0).scopes (some 0)).2 1
      ⟨[], some 0⟩ [0] [120] (some (LLVMValue.inst 0 LLVMType.pointer)) (some (LLVMType.int 64))
      rfl (@ScopeChain.cons _ 0 ⟨[], none⟩ [] rfl ScopeChain.nil) (by decide)).1 fuel m).1⟩

/-! ## The conversion of a `let` and the format of `print` -/

theorem printf_call_blocks (cg : CodeGen) (fn : LLVMValue) (fmt : List Nat) (val : LLVMValue) :
    build_printf_call cg fn fmt val =
      (some (LLVMValue.inst cg.next_id (LLVMType.int 32)),
        { cg with
          globals := cg.globals ++ [fmt],
          blocks := append_instr cg.blocks cg.position
            (Instruction.call cg.next_id fn [LLVMValue.global_string fmt, val]),
          next_id := cg.next_id + 1 }) := rfl

/-- C25: for `print(x)`, `codegen_builtin` chooses the `printf` format by the IR kind of
the value of `x`: `"%f\n"` for `float`, after an extension to `double`, and for
`double`; `"%s\n"` for a pointer; `"%lld\n"` for an integer, after a sign extension to 64
bits when it is narrower. A `print` without an argument emits no instruction. -/
theorem print_format_by_kind (cg : CodeGen) (fn val : LLVMValue) :
    (LLVMTypeOf val = LLVMType.float →
      codegen_print cg fn (some val) =
        build_printf_call
          (cg.build (fun id => Instruction.cast id CastOp.FPExt val LLVMType.double)
            LLVMType.double).2 fn fmt_float (LLVMValue.inst cg.next_id LLVMType.double)) ∧
    (LLVMTypeOf val = LLVMType.double →
      codegen_print cg fn (some val) = build_printf_call cg fn fmt_float val) ∧
    (LLVMTypeOf val = LLVMType.pointer →
      codegen_print cg fn (some val) = build_printf_call cg fn fmt_str val) ∧
    (∀ bits, LLVMTypeOf val = LLVMType.int bits → bits < 64 →
      codegen_print cg fn (some val) =
        build_printf_call
          (cg.build (fun id => Instruction.cast id CastOp.SExt val (LLVMType.int 64))
            (LLVMType.int 64)).2 fn fmt_int (LLVMValue.inst cg.next_id (LLVMType.int 64))) ∧
    (∀ bits, LLVMTypeOf val = LLVMType.int bits → 64 ≤ bits →
      codegen_print cg fn (some val) = build_printf_call cg fn fmt_int val) ∧
    (∀ line col element rest,
      codegen_expr cg (ASTNode.Builtin line col print_name (element :: rest)) =
        codegen_print (codegen_expr (get_printf cg).2 element).2 (get_printf cg).1
          (codegen_expr (get_printf cg).2 element).1) ∧
    (∀ line col,
      (codegen_expr cg (ASTNode.Builtin line col print_name [])).1 = none ∧
      (codegen_expr cg (ASTNode.Builtin line col print_name [])).2.blocks = cg.blocks) ∧
    fmt_float = "%f\n".data.map Char.toNat ∧
    fmt_str = "%s\n".data.map Char.toNat ∧
    fmt_int = "%lld\n".data.map Char.toNat := by
  refine ⟨?_, ?_, ?_, ?_, ?_, ?_, ?_, by decide, by decide, by decide⟩
  · intro h
    simp only [codegen_print, h, LLVMGetTypeKind, if_true]
    rfl
  · intro h
    simp only [codegen_print, h, LLVMGetTypeKind]
    simp
  · intro h
    simp only [codegen_print, h, LLVMGetTypeKind]
    simp
  · intro bits h hlt
    simp only [codegen_print, h, LLVMGetTypeKind, LLVMGetIntTypeWidth]
    simp [hlt]
    rfl
  · intro bits h hge
    simp only [codegen_print, h, LLVMGetTypeKind, LLVMGetIntTypeWidth]
    simp [Nat.not_lt.mpr hge]
  · intro line col element rest
    simp only [codegen_expr, if_true]
  · intro line col
    simp only [codegen_expr, if_true]
    refine ⟨trivial, ?_⟩
    unfold get_printf
    split <;> rfl

/-! ## The function `main` -/

theorem Lowers.same (cg : CodeGen) : Lowers cg cg := ⟨rfl, le_refl _, id⟩

theorem Lowers.chain {a b c : CodeGen} (h1 : Lowers a b) (h2 : Lowers b c) : Lowers a c :=
  ⟨h2.1.trans h1.1, le_trans h1.2.1 h2.2.1, fun h => h2.2.2 (h1.2.2 h)⟩

theorem append_instr_length (bs : List BasicBlock) (pos : Nat) (i : Instruction) :
    (append_instr bs pos i).length = bs.length := by
  induction bs generalizing pos with
  | nil => rfl
  | cons b rest ih =>
    cases pos with
    | zero => rfl
    | succ p => simp [append_instr, ih]

theorem lowers_emit (cg : CodeGen) (i : Instruction) : Lowers cg (cg.emit i) := by
  refine ⟨rfl, ?_, ?_⟩
  · simp [CodeGen.emit, append_instr_length]
  · intro h; simpa [CodeGen.emit, append_instr_length] using h

theorem lowers_build (cg : CodeGen) (mk : Nat → Instruction) (ty : LLVMType) :
    Lowers cg (cg.build mk ty).2 := by
  refine ⟨rfl, ?_, ?_⟩
  · simp [CodeGen.build, append_instr_length]
  · intro h; simpa [CodeGen.build, append_instr_length] using h

theorem lowers_global_string (cg : CodeGen) (text : List Nat) :
    Lowers cg (cg.global_string text).2 := ⟨rfl, le_refl _, id⟩

theorem lowers_get_printf (cg : CodeGen) : Lowers cg (get_printf cg).2 := by
  unfold get_printf
  split
  · exact Lowers.same cg
  · refine ⟨?_, le_refl _, id⟩
    simp only [main_functions, List.filter_append]
    exact List.append_nil _

theorem Lowers.build {a cg : CodeGen} (h : Lowers a cg) (mk : Nat → Instruction) (ty : LLVMType) :
    Lowers a (cg.build mk ty).2 := h.chain (lowers_build cg mk ty)

theorem Lowers.ite {a : CodeGen} {c : Prop} [Decidable c] {x y : LLVMValue × CodeGen}
    (hx : Lowers a x.2) (hy : Lowers a y.2) : Lowers a (if c then x else y).2 := by
  split <;> assumption

theorem Lowers.ite_ref {a : CodeGen} {c : Prop} [Decidable c] {x y : LLVMValueRef × CodeGen}
    (hx : Lowers a x.2) (hy : Lowers a y.2) : Lowers a (if c then x else y).2 := by
  split <;> assumption

theorem Lowers.printf_call {a cg : CodeGen} (h : Lowers a cg) (fn : LLVMValue) (fmt : List Nat)
    (val : LLVMValue) : Lowers a (build_printf_call cg fn fmt val).2 := by
  dsimp only [build_printf_call]
  exact (h.chain (lowers_global_string cg fmt)).build _ _

theorem lowers_print (cg : CodeGen) (fn : LLVMValue) (val : LLVMValueRef) :
    Lowers cg (codegen_print cg fn val).2 := by
  cases val with
  | none => exact Lowers.same cg
  | some v =>
    dsimp only [codegen_print]
    refine Lowers.ite_ref (((Lowers.same cg).build _ _).printf_call _ _ _) ?_
    refine Lowers.ite_ref ((Lowers.same cg).printf_call _ _ _) ?_
    refine Lowers.ite_ref ((Lowers.same cg).printf_call _ _ _) ?_
    refine Lowers.ite_ref ?_ ((Lowers.same cg).printf_call _ _ _)
    exact Lowers.ite_ref (((Lowers.same cg).build _ _).printf_call _ _ _)
      ((Lowers.same cg).printf_call _ _ _)

theorem Lowers.compare {a cg : CodeGen} (h : Lowers a cg) (is_float : Bool)
    (fpred : LLVMRealPredicate) (ipred : LLVMIntPredicate) (l r : LLVMValue) :
    Lowers a (build_compare cg is_float fpred ipred l r).2 := by
  dsimp only [build_compare]
  exact Lowers.build (Lowers.ite (h.build _ _) (h.build _ _)) _ _

theorem Lowers.arith {a cg : CodeGen} (h : Lowers a cg) (is_float : Bool) (fop iop : Opcode)
    (l r : LLVMValue) : Lowers a (build_arith cg is_float fop iop l r).2 := by
  dsimp only [build_arith]
  exact h.build _ _

theorem Lowers.logical {a cg : CodeGen} (h : Lowers a cg) (op : Opcode) (l r : LLVMValue) :
    Lowers a (build_logical cg op l r).2 := by
  dsimp only [build_logical]
  exact (((h.build _ _).build _ _).build _ _).build _ _

theorem Lowers.binary_switch {a cg : CodeGen} (h : Lowers a cg) (is_float : Bool) (op : Operator)
    (l r : LLVMValue) : Lowers a (binary_switch cg is_float op l r).2 := by
  cases op <;> dsimp only [LambdaPhoton.binary_switch] <;>
    first
      | exact h.arith _ _ _ _ _
      | exact h.compare _ _ _ _ _
      | exact h.logical _ _ _
      | exact h

theorem lowers_binary (cg : CodeGen) (op : Operator) (left right : LLVMValueRef) :
    Lowers cg (codegen_binary cg op left right).2 := by
  cases left with
  | none => exact Lowers.same cg
  | some l =>
    cases right with
    | none => exact Lowers.same cg
    | some r =>
      dsimp only [codegen_binary]
      refine Lowers.binary_switch ?_ _ _ _ _
      refine Lowers.ite (Lowers.build ?_ _ _) ?_
      · exact Lowers.ite ((Lowers.same cg).build _ _) (Lowers.same cg)
      · exact Lowers.ite ((Lowers.same cg).build _ _) (Lowers.same cg)

theorem lowers_unary (cg : CodeGen) (op : Operator) (operand : LLVMValueRef) :
    Lowers cg (codegen_unary cg op operand).2 := by
  cases operand with
  | none => exact Lowers.same cg
  | some v =>
    cases op <;> dsimp only [codegen_unary] <;>
      first
        | exact Lowers.same _
        | exact ((Lowers.same cg).build _ _).build _ _
        | exact Lowers.ite ((Lowers.same cg).build _ _) ((Lowers.same cg).build _ _)

theorem lowers_ident (cg : CodeGen) (name : List Nat) : Lowers cg (codegen_ident cg name).2 := by
  unfold codegen_ident
  repeat' split
  all_goals first
    | exact Lowers.same _
    | (dsimp only; exact lowers_build cg _ _)

theorem lowers_expr : ∀ (node : ASTNode) (cg : CodeGen), Lowers cg (codegen_expr cg node).2
  | ASTNode.null, cg => by simp only [codegen_expr]; exact Lowers.same cg
  | ASTNode.IntLit _ _ _, cg => by simp only [codegen_expr]; exact Lowers.same cg
  | ASTNode.FloatLit _ _ _, cg => by simp only [codegen_expr]; exact Lowers.same cg
  | ASTNode.StringLit _ _ _ _, cg => by simp only [codegen_expr]; exact Lowers.same cg
  | ASTNode.Ident _ _ name _, cg => by simp only [codegen_expr]; exact lowers_ident cg name
  | ASTNode.Binary _ _ op l r, cg => by
    simp only [codegen_expr]
    exact ((lowers_expr l cg).chain (lowers_expr r _)).chain (lowers_binary _ _ _ _)
  | ASTNode.Unary _ _ op x, cg => by
    simp only [codegen_expr]
    exact (lowers_expr x cg).chain (lowers_unary _ _ _)
  | ASTNode.Lambda _ _ _ _ _, cg => by simp only [codegen_expr]; exact Lowers.same cg
  | ASTNode.Apply _ _ _ _, cg => by simp only [codegen_expr]; exact Lowers.same cg
  | ASTNode.Ternary _ _ c t e, cg => by
    simp only [codegen_expr]
    have hc := lowers_expr c cg
    split
    · exact hc
    · have hall : ∀ b : CodeGen, Lowers cg b → Lowers cg (codegen_expr (codegen_expr b t).2 e).2 :=
        fun b hb => (hb.chain (lowers_expr t b)).chain (lowers_expr e _)
      split
      · dsimp only
        exact (hall _ (hc.build _ _)).build _ _
      · exact hall _ (hc.build _ _)
  | ASTNode.Array _ _ _, cg => by simp only [codegen_expr]; exact Lowers.same cg
  | ASTNode.Index _ _ _ _, cg => by simp only [codegen_expr]; exact Lowers.same cg
  | ASTNode.Builtin _ _ name [], cg => by
    simp only [codegen_expr]
    split
    · exact lowers_get_printf cg
    · exact Lowers.same cg
  | ASTNode.Builtin _ _ name (element :: _), cg => by
    simp only [codegen_expr]
    split
    · exact ((lowers_get_printf cg).chain (lowers_expr element _)).chain (lowers_print _ _ _)
    · exact Lowers.same cg
  | ASTNode.Let _ _ _ _ _, cg => by simp only [codegen_expr]; exact Lowers.same cg
  | ASTNode.For _ _ _ _ _ _ _, cg => by simp only [codegen_expr]; exact Lowers.same cg
  | ASTNode.Block _ _ _, cg => by simp only [codegen_expr]; exact Lowers.same cg
  | ASTNode.Async _ _ _, cg => by simp only [codegen_expr]; exact Lowers.same cg
  | ASTNode.Await _ _ _, cg => by simp only [codegen_expr]; exact Lowers.same cg
  | ASTNode.GpuKernel _ _ _ _ _ _, cg => by simp only [codegen_expr]; exact Lowers.same cg
  | ASTNode.Program _ _ _, cg => by simp only [codegen_expr]; exact Lowers.same cg

theorem lowers_coerce (cg : CodeGen) (init : LLVMValue) (type : LLVMType) :
    Lowers cg (coerce_init cg init type).2 := by
  dsimp only [coerce_init]
  refine Lowers.ite ((Lowers.same cg).build _ _) ?_
  refine Lowers.ite ((Lowers.same cg).build _ _) ?_
  refine Lowers.ite ((Lowers.same cg).build _ _) ?_
  refine Lowers.ite ?_ (Lowers.same cg)
  refine Lowers.ite ((Lowers.same cg).build _ _) ?_
  exact Lowers.ite ((Lowers.same cg).build _ _) (Lowers.same cg)

theorem lowers_scopes (cg : CodeGen) (scopes : List Scope) (cur : Option Nat) :
    Lowers cg { cg with scopes := scopes, current_scope := cur } := ⟨rfl, le_refl _, id⟩

theorem lowers_let (cg : CodeGen) (name : List Nat) (ann : Option AstType) (init : LLVMValueRef) :
    Lowers cg (codegen_let cg name ann init) := by
  cases init with
  | none => exact Lowers.same cg
  | some v =>
    have key : ∀ (c : LLVMType × LLVMValue × CodeGen), Lowers cg c.2.2 →
        Lowers cg
          (match ((c.2.2.build (fun id => Instruction.alloca id c.1) LLVMType.pointer).2.emit
              (Instruction.store c.2.1
                (c.2.2.build (fun id => Instruction.alloca id c.1) LLVMType.pointer).1)).current_scope with
          | some scope =>
            { (c.2.2.build (fun id => Instruction.alloca id c.1) LLVMType.pointer).2.emit
                (Instruction.store c.2.1
                  (c.2.2.build (fun id => Instruction.alloca id c.1) LLVMType.pointer).1) with
              scopes := scope_define
                ((c.2.2.build (fun id => Instruction.alloca id c.1) LLVMType.pointer).2.emit
                  (Instruction.store c.2.1
                    (c.2.2.build (fun id => Instruction.alloca id c.1) LLVMType.pointer).1)).scopes
                scope name
                (some (c.2.2.build (fun id => Instruction.alloca id c.1) LLVMType.pointer).1)
                (some c.1) }
          | none =>
            (c.2.2.build (fun id => Instruction.alloca id c.1) LLVMType.pointer).2.emit
              (Instruction.store c.2.1
                (c.2.2.build (fun id => Instruction.alloca id c.1) LLVMType.pointer).1)) := by
      intro c hc
      have h1 := (hc.build (fun id => Instruction.alloca id c.1) LLVMType.pointer).chain
        (lowers_emit _ (Instruction.store c.2.1
          (c.2.2.build (fun id => Instruction.alloca id c.1) LLVMType.pointer).1))
      split
      · exact h1.chain ⟨rfl, le_refl _, id⟩
      · exact h1
    cases ann with
    | none => exact key (LLVMTypeOf v, v, cg) (Lowers.same cg)
    | some t =>
      exact key (get_llvm_type (some t), coerce_init cg v (get_llvm_type (some t)))
        (lowers_coerce cg v _)

theorem append_block_length (cg : CodeGen) (name : String) :
    (cg.append_block name).1 = cg.blocks.length ∧
    (cg.append_block name).2.blocks.length = cg.blocks.length + 1 ∧
    main_functions (cg.append_block name).2 = main_functions cg ∧
    (cg.append_block name).2.position = cg.position := by
  simp [CodeGen.append_block, main_functions]

theorem build_length (cg : CodeGen) (mk : Nat → Instruction) (ty : LLVMType) :
    (cg.build mk ty).2.blocks.length = cg.blocks.length ∧
    main_functions (cg.build mk ty).2 = main_functions cg := by
  simp [CodeGen.build, append_instr_length, main_functions]

theorem emit_length (cg : CodeGen) (i : Instruction) :
    (cg.emit i).blocks.length = cg.blocks.length ∧ main_functions (cg.emit i) = main_functions cg := by
  simp [CodeGen.emit, append_instr_length, main_functions]

/-- The header of a `for` loop leaves the builder at the new block `body`; the blocks
`loop` and `after` are blocks of the function. -/
theorem for_header_blocks (cg : CodeGen) (var : List Nat) (start end_ : LLVMValue) (parallel : Nat) :
    main_functions (for_header cg var start end_ parallel).cg = main_functions cg ∧
    (for_header cg var start end_ parallel).cg.blocks.length = cg.blocks.length + 3 ∧
    (for_header cg var start end_ parallel).cg.position = cg.blocks.length + 1 ∧
    (for_header cg var start end_ parallel).loop_bb = cg.blocks.length ∧
    (for_header cg var start end_ parallel).after_bb = cg.blocks.length + 2 := by
  simp [for_header, CodeGen.build, CodeGen.emit, CodeGen.append_block, append_instr_length,
    main_functions]

theorem for_footer_blocks (h : ForLoop) (cg : CodeGen) :
    main_functions (for_footer h cg) = main_functions cg ∧
    (for_footer h cg).blocks.length = cg.blocks.length ∧
    (for_footer h cg).position = h.after_bb := by
  simp [for_footer, CodeGen.build, CodeGen.emit, append_instr_length, main_functions]

theorem lowers_for (cg : CodeGen) (var : List Nat) (start end_ : LLVMValue) (parallel : Nat)
    (body : CodeGen)
    (hb : Lowers (for_header cg var start end_ parallel).cg body) :
    Lowers cg (for_footer (for_header cg var start end_ parallel) body) := by
  obtain ⟨h1, h2, _, _, h5⟩ := for_header_blocks cg var start end_ parallel
  obtain ⟨f1, f2, f3⟩ := for_footer_blocks (for_header cg var start end_ parallel) body
  obtain ⟨b1, b2, _⟩ := hb
  refine ⟨?_, ?_, fun _ => ?_⟩
  · rw [f1, b1, h1]
  · rw [f2]; omega
  · rw [f2, f3, h5]; omega

mutual

theorem lowers_stmt : ∀ (node : ASTNode) (cg : CodeGen), Lowers cg (codegen_stmt cg node)
  | ASTNode.null, cg => by simp only [codegen_stmt]; exact Lowers.same cg
  | ASTNode.IntLit _ _ _, cg => by simp only [codegen_stmt]; exact lowers_expr _ cg
  | ASTNode.FloatLit _ _ _, cg => by simp only [codegen_stmt]; exact lowers_expr _ cg
  | ASTNode.StringLit _ _ _ _, cg => by simp only [codegen_stmt]; exact lowers_expr _ cg
  | ASTNode.Ident _ _ _ _, cg => by simp only [codegen_stmt]; exact lowers_expr _ cg
  | ASTNode.Binary _ _ _ _ _, cg => by simp only [codegen_stmt]; exact lowers_expr _ cg
  | ASTNode.Unary _ _ _ _, cg => by simp only [codegen_stmt]; exact lowers_expr _ cg
  | ASTNode.Lambda _ _ _ _ _, cg => by simp only [codegen_stmt]; exact lowers_expr _ cg
  | ASTNode.Apply _ _ _ _, cg => by simp only [codegen_stmt]; exact lowers_expr _ cg
  | ASTNode.Ternary _ _ _ _ _, cg => by simp only [codegen_stmt]; exact lowers_expr _ cg
  | ASTNode.Array _ _ _, cg => by simp only [codegen_stmt]; exact lowers_expr _ cg
  | ASTNode.Index _ _ _ _, cg => by simp only [codegen_stmt]; exact lowers_expr _ cg
  | ASTNode.Builtin _ _ _ _, cg => by simp only [codegen_stmt]; exact lowers_expr _ cg
  | ASTNode.Let _ _ name ann value, cg => by
    simp only [codegen_stmt]
    exact (lowers_expr value cg).chain (lowers_let _ _ _ _)
  | ASTNode.For _ _ var start end_ body parallel, cg => by
    simp only [codegen_stmt]
    have hse := (lowers_expr start cg).chain (lowers_expr end_ _)
    split
    · exact hse.chain (lowers_for _ _ _ _ _ _ (lowers_for_body body _))
    · exact hse
  | ASTNode.Block _ _ stmts, cg => by
    simp only [codegen_stmt]
    have h1 := lowers_scopes cg (scope_new cg.scopes cg.current_scope).2
      (some (scope_new cg.scopes cg.current_scope).1)
    exact (h1.chain (lowers_stmts stmts _)).chain ⟨rfl, le_refl _, id⟩
  | ASTNode.Async _ _ _, cg => by simp only [codegen_stmt]; exact lowers_expr _ cg
  | ASTNode.Await _ _ _, cg => by simp only [codegen_stmt]; exact lowers_expr _ cg
  | ASTNode.GpuKernel _ _ _ _ _ _, cg => by simp only [codegen_stmt]; exact lowers_expr _ cg
  | ASTNode.Program _ _ _, cg => by simp only [codegen_stmt]; exact lowers_expr _ cg

theorem lowers_for_body : ∀ (node : ASTNode) (cg : CodeGen), Lowers cg (codegen_for_body cg node)
  | ASTNode.null, cg => by simp only [codegen_for_body]; exact Lowers.same cg
  | ASTNode.IntLit _ _ _, cg => by simp only [codegen_for_body]; exact Lowers.same cg
  | ASTNode.FloatLit _ _ _, cg => by simp only [codegen_for_body]; exact Lowers.same cg
  | ASTNode.StringLit _ _ _ _, cg => by simp only [codegen_for_body]; exact Lowers.same cg
  | ASTNode.Ident _ _ _ _, cg => by simp only [codegen_for_body]; exact Lowers.same cg
  | ASTNode.Binary _ _ _ _ _, cg => by simp only [codegen_for_body]; exact Lowers.same cg
  | ASTNode.Unary _ _ _ _, cg => by simp only [codegen_for_body]; exact Lowers.same cg
  | ASTNode.Lambda _ _ _ _ _, cg => by simp only [codegen_for_body]; exact Lowers.same cg
  | ASTNode.Apply _ _ _ _, cg => by simp only [codegen_for_body]; exact Lowers.same cg
  | ASTNode.Ternary _ _ _ _ _, cg => by simp only [codegen_for_body]; exact Lowers.same cg
  | ASTNode.Array _ _ _, cg => by simp only [codegen_for_body]; exact Lowers.same cg
  | ASTNode.Index _ _ _ _, cg => by simp only [codegen_for_body]; exact Lowers.same cg
  | ASTNode.Builtin _ _ _ _, cg => by simp only [codegen_for_body]; exact Lowers.same cg
  | ASTNode.Let _ _ _ _ _, cg => by simp only [codegen_for_body]; exact Lowers.same cg
  | ASTNode.For _ _ _ _ _ _ _, cg => by simp only [codegen_for_body]; exact Lowers.same cg
  | ASTNode.Block _ _ stmts, cg => by simp only [codegen_for_body]; exact lowers_stmts stmts cg
  | ASTNode.Async _ _ _, cg => by simp only [codegen_for_body]; exact Lowers.same cg
  | ASTNode.Await _ _ _, cg => by simp only [codegen_for_body]; exact Lowers.same cg
  | ASTNode.GpuKernel _ _ _ _ _ _, cg => by simp only [codegen_for_body]; exact Lowers.same cg
  | ASTNode.Program _ _ stmts, cg => by simp only [codegen_for_body]; exact lowers_stmts stmts cg

theorem lowers_stmts : ∀ (stmts : List ASTNode) (cg : CodeGen), Lowers cg (codegen_stmts cg stmts)
  | [], cg => by simp only [codegen_stmts]; exact Lowers.same cg
  | node :: rest, cg => by
    simp only [codegen_stmts]
    exact (lowers_stmt node cg).chain (lowers_stmts rest _)

end

theorem get_append_instr_last (bs : List BasicBlock) (pos : Nat) (i : Instruction)
    (h : pos < bs.length) :
    ((append_instr bs pos i).get? pos).bind (fun b => b.instrs.getLast?) = some i := by
  induction bs generalizing pos with
  | nil => exact absurd h (Nat.not_lt_zero _)
  | cons b rest ih =>
    cases pos with
    | zero => simp [append_instr]
    | succ p =>
      simp only [append_instr, List.get?_cons_succ]
      exact ih p (by simpa using h)

/-- C26: for every AST, the module that `codegen_emit` builds from the state of
`codegen_init` has exactly one function named `main`, of the type `i32 ()`; `codegen_emit`
lowers the statements of a `Program` in order and then builds `ret i32 0`, which is the last
instruction of the block the builder stands at. -/
theorem emit_one_main (opt_level : Int) (ast : ASTNode) :
    main_functions (codegen_emit (codegen_init opt_level) ast) = [("main", main_type)] ∧
    main_type = { ret := LLVMType.int 32, params := [], var_arg := false } ∧
    (∀ line col stmts, ast = ASTNode.Program line col stmts →
      codegen_emit (codegen_init opt_level) ast =
        (codegen_stmts
          { codegen_init opt_level with
            functions := [("main", main_type)], blocks := [{ name := "entry", instrs := [] }],
            position := 0 } stmts).emit
          (Instruction.ret (LLVMValue.const_int (LLVMType.int 32) 0))) ∧
    ((codegen_emit (codegen_init opt_level) ast).blocks.get?
        (codegen_emit (codegen_init opt_level) ast).position).bind
      (fun b => b.instrs.getLast?) =
      some (Instruction.ret (LLVMValue.const_int (LLVMType.int 32) 0)) := by
  have key : ∀ lowered : CodeGen,
      Lowers { codegen_init opt_level with
        functions := [("main", main_type)], blocks := [{ name := "entry", instrs := [] }],
        position := 0 } lowered →
      main_functions (lowered.emit (Instruction.ret (LLVMValue.const_int (LLVMType.int 32) 0))) =
        [("main", main_type)] ∧
      ((lowered.emit (Instruction.ret (LLVMValue.const_int (LLVMType.int 32) 0))).blocks.get?
        (lowered.emit (Instruction.ret (LLVMValue.const_int (LLVMType.int 32) 0))).position).bind
        (fun b => b.instrs.getLast?) =
        some (Instruction.ret (LLVMValue.const_int (LLVMType.int 32) 0)) := by
    intro lowered h
    obtain ⟨h1, _, h3⟩ := h
    refine ⟨?_, ?_⟩
    · rw [(emit_length lowered _).2, h1]; rfl
    · exact get_append_instr_last lowered.blocks lowered.position _ (h3 (Nat.zero_lt_one))
  refine ⟨?_, rfl, ?_, ?_⟩
  · cases ast
    case Program line col stmts => exact (key _ (lowers_stmts stmts _)).1
    all_goals exact (key _ (Lowers.same _)).1
  · intro line col stmts h
    subst h
    rfl
  · cases ast
    case Program line col stmts => exact (key _ (lowers_stmts stmts _)).2
    all_goals exact (key _ (Lowers.same _)).2
/-! ## The optimizer and the lowering of `Ternary` -/

/-- C19 on `1 ? @print(1) : @print(2);`: the parser builds `ast_ternary_prints`; `optimize`
replaces the `Ternary` by its first branch; the run of the lowering of the program calls
`printf` twice, with `1` and with `2`, since `codegen_ternary` lowers both branches before the
`select`, and the run of the lowering of the optimized program calls it once, with `1`. -/
theorem ternary_prints_differ :
    (lex src_ternary_prints).bind
      (fun toks => (parser_parse 60 (parser_init src_ternary_prints toks)).map Prod.fst) =
      some ast_ternary_prints ∧
    (∀ F : FloatOps, optimize F ast_ternary_prints =
      some (ASTNode.Program 1 1 [ASTNode.Builtin 1 5 print_name [ASTNode.IntLit 1 12 1]])) ∧
    (∀ n, printed_by (n + 20) ast_ternary_prints =
      some [(fmt_int, RtValue.int 1), (fmt_int, RtValue.int 2)]) ∧
    (∀ (F : FloatOps) (n : Nat), (optimize F ast_ternary_prints).bind (printed_by (n + 20)) =
      some [(fmt_int, RtValue.int 1)]) :=
  ⟨rfl, fun _ => rfl, fun _ => rfl, fun _ _ => rfl⟩

/-! ## Runs of the emitted instructions -/

theorem run_exec (blocks : List BasicBlock) (f : Nat) (m : Machine) (i : Instruction)
    (m1 : Machine) (hr : m.returned = none) (hf : fetch blocks m = some i)
    (he : exec m i = some m1) : run blocks (f + 1) m = run blocks f m1 := by
  simp only [run, hr, step, hf, Option.some_bind, he]

theorem run_returned (blocks : List BasicBlock) (f : Nat) (m : Machine) (x : RtValue)
    (hr : m.returned = some x) : run blocks (f + 1) m = some m := by
  simp only [run, hr]

theorem exec_load (m : Machine) (id : Nat) (ty : LLVMType) (ptr : LLVMValue) (a : Nat)
    (x : RtValue) (hp : m.operand ptr = some (RtValue.addr a)) (hx : m.memory.get? a = some x) :
    exec m (Instruction.load id ty ptr) = some (m.set id x) := by
  simp only [exec, hp, hx, Option.map_some']

theorem exec_icmp (m : Machine) (id : Nat) (pred : LLVMIntPredicate) (lhs rhs : LLVMValue)
    (a b : Int) (hl : m.operand lhs = some (RtValue.int a))
    (hr : m.operand rhs = some (RtValue.int b)) :
    exec m (Instruction.icmp id pred lhs rhs) =
      some (m.set id (RtValue.int (c_bool (int_compare pred a b)))) := by
  simp only [exec, hl, hr]

theorem exec_cond_br (m : Machine) (cond : LLVMValue) (then_bb else_bb : Nat) (md : Bool)
    (c : Int) (hc : m.operand cond = some (RtValue.int c)) :
    exec m (Instruction.cond_br cond then_bb else_bb md) =
      some (m.jump (if c ≠ 0 then then_bb else else_bb)) := by
  simp only [exec, hc]

theorem exec_printf (m : Machine) (id : Nat) (ty : FunctionType) (fmt val : LLVMValue)
    (text : List Nat) (x : RtValue) (hf : m.operand fmt = some (RtValue.str text))
    (hx : m.operand val = some x) :
    exec m (Instruction.call id (LLVMValue.function "printf" ty) [fmt, val]) =
      some { m.set id RtValue.undef with printed := m.printed ++ [(text, x)] } := by
  have hfn : m.operand (LLVMValue.function "printf" ty) = some (RtValue.fn "printf") := rfl
  simp only [exec, hfn, hf, hx]

theorem exec_add (m : Machine) (id : Nat) (lhs rhs : LLVMValue) (a b : Int)
    (hl : m.operand lhs = some (RtValue.int a)) (hr : m.operand rhs = some (RtValue.int b)) :
    exec m (Instruction.binop id Opcode.Add lhs rhs) =
      some (m.set id (RtValue.int (wrap64 (a + b)))) := by
  simp only [exec, hl, hr, int_binop, Option.map_some']

theorem exec_store (m : Machine) (v ptr : LLVMValue) (x : RtValue) (a : Nat)
    (hv : m.operand v = some x) (hp : m.operand ptr = some (RtValue.addr a)) :
    exec m (Instruction.store v ptr) =
      some { m with memory := store_cell m.memory a x, index := m.index + 1 } := by
  simp only [exec, hv, hp]

/-- A property of all pairs of integers holds when it holds at a pair chosen against it. The
choice is a closed term, at which the code generator is evaluated. -/
theorem of_chosen_pair (P : Int → Int → Prop)
    (h : P (Classical.epsilon (fun p : Int × Int => ¬ P p.1 p.2)).1
      (Classical.epsilon (fun p : Int × Int => ¬ P p.1 p.2)).2) (s e : Int) : P s e := by
  by_contra hn
  exact Classical.epsilon_spec_aux ⟨(0, 0)⟩ (fun p : Int × Int => ¬ P p.1 p.2) ⟨(s, e), hn⟩ h

theorem emit_for_print : ∀ s e : Int,
    (codegen_emit (codegen_init 0) (ast_for_print s e)).blocks = for_print_blocks s e :=
  of_chosen_pair
    (fun s e => (codegen_emit (codegen_init 0) (ast_for_print s e)).blocks = for_print_blocks s e)
    rfl

theorem for_print_iteration (s e i : Int) (regs : List (Nat × RtValue)) (en : List Nat)
    (pr : List (List Nat × RtValue)) (f : Nat)
    (h0 : regs.lookup 0 = some (RtValue.addr 0)) (hlt : i < e) :
    run (for_print_blocks s e) (f + 9) (Machine.at_loop regs i en pr) =
      run (for_print_blocks s e) f
        (Machine.at_loop
          ((6, RtValue.int (wrap64 (i + 1))) :: (5, RtValue.int i) :: (4, RtValue.undef) ::
            (3, RtValue.int i) :: (2, RtValue.int (c_bool (int_compare LLVMIntSLT i e))) ::
            (1, RtValue.int i) :: regs)
          (wrap64 (i + 1)) (en ++ [2] ++ [1]) (pr ++ [(fmt_int, RtValue.int i)])) := by
  have hc : c_bool (int_compare LLVMIntSLT i e) ≠ 0 := by
    simp [int_compare, c_bool, hlt]
  refine Eq.trans (run_exec _ (f + 8) _ _ _ rfl rfl (exec_load _ _ _ _ 0 _ h0 rfl)) ?_
  refine Eq.trans (run_exec _ (f + 7) _ _ _ rfl rfl (exec_icmp _ _ _ _ _ i e rfl rfl)) ?_
  refine Eq.trans (run_exec _ (f + 6) _ _ _ rfl rfl (exec_cond_br _ _ _ _ _ _ rfl)) ?_
  rw [if_pos hc]
  refine Eq.trans (run_exec _ (f + 5) _ _ _ rfl rfl (exec_load _ _ _ _ 0 _ h0 rfl)) ?_
  refine Eq.trans (run_exec _ (f + 4) _ _ _ rfl rfl (exec_printf _ _ _ _ _ _ _ rfl rfl)) ?_
  refine Eq.trans (run_exec _ (f + 3) _ _ _ rfl rfl (exec_load _ _ _ _ 0 _ h0 rfl)) ?_
  refine Eq.trans (run_exec _ (f + 2) _ _ _ rfl rfl (exec_add _ _ _ _ i 1 rfl rfl)) ?_
  refine Eq.trans (run_exec _ (f + 1) _ _ _ rfl rfl (exec_store _ _ _ _ 0 rfl h0)) ?_
  refine Eq.trans (run_exec _ f _ _ _ rfl rfl (rfl : exec _ (Instruction.br 1) = some _)) ?_
  rfl

theorem for_print_exit (s e i : Int) (regs : List (Nat × RtValue)) (en : List Nat)
    (pr : List (List Nat × RtValue)) (k : Nat)
    (h0 : regs.lookup 0 = some (RtValue.addr 0)) (hge : e ≤ i) :
    run (for_print_blocks s e) (k + 5) (Machine.at_loop regs i en pr) =
      some { regs := (2, RtValue.int (c_bool (int_compare LLVMIntSLT i e))) ::
               (1, RtValue.int i) :: regs,
             memory := [RtValue.int i], block := 3, index := 0, entered := en ++ [3],
             printed := pr, returned := some (RtValue.int 0) } := by
  have hc : ¬ c_bool (int_compare LLVMIntSLT i e) ≠ 0 := by
    simp [int_compare, c_bool, not_lt.mpr hge]
  refine Eq.trans (run_exec _ (k + 4) _ _ _ rfl rfl (exec_load _ _ _ _ 0 _ h0 rfl)) ?_
  refine Eq.trans (run_exec _ (k + 3) _ _ _ rfl rfl (exec_icmp _ _ _ _ _ i e rfl rfl)) ?_
  refine Eq.trans (run_exec _ (k + 2) _ _ _ rfl rfl (exec_cond_br _ _ _ _ _ _ rfl)) ?_
  rw [if_neg hc]
  refine Eq.trans (run_exec _ (k + 1) _ _ _ rfl rfl
    (rfl : exec _ (Instruction.ret (LLVMValue.const_int (LLVMType.int 32) 0)) = some _)) ?_
  exact run_returned _ k _ (RtValue.int 0) rfl

theorem for_print_entry (s e : Int) (f : Nat) :
    run (for_print_blocks s e) (f + 3) Machine.start =
      run (for_print_blocks s e) f (Machine.at_loop [(0, RtValue.addr 0)] s [1] []) := by
  refine Eq.trans (run_exec _ (f + 2) _ _ _ rfl rfl
    (rfl : exec _ (Instruction.alloca 0 (LLVMType.int 64)) = some _)) ?_
  refine Eq.trans (run_exec _ (f + 1) _ _ _ rfl rfl (exec_store _ _ _ _ 0 rfl rfl)) ?_
  refine Eq.trans (run_exec _ f _ _ _ rfl rfl (rfl : exec _ (Instruction.br 1) = some _)) ?_
  rfl

theorem for_print_loop (s e : Int) (he : e < 9223372036854775808) :
    ∀ (n : Nat) (i : Int) (regs : List (Nat × RtValue)) (en : List Nat)
      (pr : List (List Nat × RtValue)) (k : Nat),
      regs.lookup 0 = some (RtValue.addr 0) → -9223372036854775808 ≤ i → (e - i).toNat = n →
      ∃ m : Machine, run (for_print_blocks s e) (9 * n + 5 + k) (Machine.at_loop regs i en pr) =
          some m ∧ m.returned = some (RtValue.int 0) ∧
        m.entered.count 2 = en.count 2 + n ∧
        m.printed = pr ++ (List.range n).map (fun j : Nat => (fmt_int, RtValue.int (i + (j : Int)))) := by
  intro n
  induction n with
  | zero =>
    intro i regs en pr k h0 _ hn
    have hge : e ≤ i := by omega
    rw [show 9 * 0 + 5 + k = k + 5 by omega]
    exact ⟨_, for_print_exit s e i regs en pr k h0 hge, rfl, by simp, by simp⟩
  | succ n ih =>
    intro i regs en pr k h0 hlo hn
    have hlt : i < e := by omega
    have hw : wrap64 (i + 1) = i + 1 := wrap64_of_range _ (by omega) (by omega)
    obtain ⟨m, hrun, hret, hcount, hprinted⟩ := ih (i + 1) _ (en ++ [2] ++ [1])
      (pr ++ [(fmt_int, RtValue.int i)]) k
      (show List.lookup 0 ((6, RtValue.int (i + 1)) :: (5, RtValue.int i) ::
        (4, RtValue.undef) :: (3, RtValue.int i) ::
        (2, RtValue.int (c_bool (int_compare LLVMIntSLT i e))) :: (1, RtValue.int i) :: regs) =
        some (RtValue.addr 0) from h0) (by omega) (by omega)
    refine ⟨m, ?_, hret, ?_, ?_⟩
    · rw [show 9 * (n + 1) + 5 + k = 9 * n + 5 + k + 9 by omega,
        for_print_iteration s e i regs en pr _ h0 hlt, hw]
      exact hrun
    · rw [hcount]
      simp [List.count_append]
      omega
    · rw [hprinted, List.range_succ_eq_map, List.map_cons, List.map_map, List.append_assoc]
      simp [Function.comp, add_assoc, add_comm]
      intro a _
      omega

/-- The programs `for i in s..e { @print(i); }` with literals `s` and `e` in the range of
`int64_t`, from `main` to `ret`: a run of the blocks that `codegen_emit` builds reaches
`ret i32 0` within
`9 * max(0, e - s) + 8` steps; the block `body`, which is the block `2`, is entered exactly
`max(0, e - s)` times, and the values of the loop variable that the body prints are
`s, s + 1, ..., e - 1` in order; when `e <= s` the body is not entered. -/
theorem for_print_run (s e : Int) (hs : -9223372036854775808 ≤ s)
    (he : e < 9223372036854775808) (k : Nat) :
    ((codegen_emit (codegen_init 0) (ast_for_print s e)).blocks.get? 2).map BasicBlock.name =
      some "body" ∧
    ∃ m : Machine,
      run (codegen_emit (codegen_init 0) (ast_for_print s e)).blocks
        (9 * (e - s).toNat + 8 + k) Machine.start = some m ∧
      m.returned = some (RtValue.int 0) ∧
      m.entered.count 2 = (e - s).toNat ∧
      m.printed =
        (List.range (e - s).toNat).map (fun j : Nat => (fmt_int, RtValue.int (s + (j : Int)))) ∧
      (e ≤ s → m.entered.count 2 = 0 ∧ m.printed = []) := by
  rw [emit_for_print]
  obtain ⟨m, hrun, hret, hcount, hprinted⟩ :=
    for_print_loop s e he (e - s).toNat s [(0, RtValue.addr 0)] [1] [] k rfl hs rfl
  refine ⟨rfl, m, ?_, hret, ?_, ?_, ?_⟩
  · rw [show 9 * (e - s).toNat + 8 + k = 9 * (e - s).toNat + 5 + k + 3 by omega, for_print_entry]
    exact hrun
  · rw [hcount]
    simp
  · rw [hprinted]
    simp
  · intro hle
    have hz : (e - s).toNat = 0 := by omega
    rw [hcount, hprinted, hz]
    simp

theorem for_print_run_witness :
    (-9223372036854775808 : Int) ≤ 0 ∧ (3 : Int) < 9223372036854775808 ∧
    (((codegen_emit (codegen_init 0) (ast_for_print 0 3)).blocks.get? 2).map BasicBlock.name =
      some "body" ∧
    ∃ m : Machine,
      run (codegen_emit (codegen_init 0) (ast_for_print 0 3)).blocks
        (9 * ((3 : Int) - 0).toNat + 8 + 0) Machine.start = some m ∧
      m.returned = some (RtValue.int 0) ∧
      m.entered.count 2 = ((3 : Int) - 0).toNat ∧
      m.printed =
        (List.range ((3 : Int) - 0).toNat).map
          (fun j : Nat => (fmt_int, RtValue.int (0 + (j : Int)))) ∧
      ((3 : Int) ≤ 0 → m.entered.count 2 = 0 ∧ m.printed = [])) :=
  ⟨by decide, by decide, for_print_run 0 3 (by decide) (by decide) 0⟩

/-! ## The IR types of operands and slots -/

/-- C39 fails on `let x : i32 = 1; x + 2;`: the `Let` truncates `1` to `i32` and stores it
in an `i32` slot, the identifier `x` is loaded as `i32`, the literal `2` is an `i64`
constant, and `codegen_binary` hands both to `add` without a conversion, so the operands
of the emitted `add` have the types `i32` and `i64`. In the same way
`let y : f32 = 1.5; y + 2.5;` gives an `fadd` of a `float` and a `double`: only operands
that are not floating-point are converted. `optimize` leaves both programs as they are. -/
theorem narrow_add_operand_types :
    parse_source 80 src_narrow_add = some ast_narrow_add ∧
    (∀ F : FloatOps, optimize F ast_narrow_add = some ast_narrow_add) ∧
    (codegen_emit (codegen_init 0) ast_narrow_add).blocks =
      [ { name := "entry",
          instrs := [
            Instruction.cast 0 CastOp.Trunc (LLVMValue.const_int (LLVMType.int 64) 1)
              (LLVMType.int 32),
            Instruction.alloca 1 (LLVMType.int 32),
            Instruction.store (LLVMValue.inst 0 (LLVMType.int 32))
              (LLVMValue.inst 1 LLVMType.pointer),
            Instruction.load 2 (LLVMType.int 32) (LLVMValue.inst 1 LLVMType.pointer),
            Instruction.binop 3 Opcode.Add (LLVMValue.inst 2 (LLVMType.int 32))
              (LLVMValue.const_int (LLVMType.int 64) 2),
            Instruction.ret (LLVMValue.const_int (LLVMType.int 32) 0)] } ] ∧
    (all_instrs (codegen_emit (codegen_init 0) ast_narrow_add).blocks).filterMap
      Instruction.operand_types = [(LLVMType.int 32, LLVMType.int 64)] ∧
    parse_source 80 src_single_add = some ast_single_add ∧
    (∀ F : FloatOps, optimize F ast_single_add = some ast_single_add) ∧
    (all_instrs (codegen_emit (codegen_init 0) ast_single_add).blocks).filterMap
      Instruction.operand_types = [(LLVMType.float, LLVMType.double)] :=
  ⟨rfl, fun _ => rfl, rfl, rfl, rfl, fun _ => rfl, rfl⟩

/-- C38 as stated fails on `let s : str = 1;`: the value `1` is an `i64` constant and the
annotated type is a pointer; neither is floating-point and they are not both integers, so
`codegen_let` converts nothing and stores the `i64` constant in the slot of the type
`ptr`, which is also the type recorded for `s`. -/
theorem int_stored_in_pointer_slot :
    parse_source 80 src_let_str = some ast_let_str ∧
    (∀ F : FloatOps, optimize F ast_let_str = some ast_let_str) ∧
    (codegen_emit (codegen_init 0) ast_let_str).blocks =
      [ { name := "entry",
          instrs := [
            Instruction.alloca 0 LLVMType.pointer,
            Instruction.store (LLVMValue.const_int (LLVMType.int 64) 1)
              (LLVMValue.inst 0 LLVMType.pointer),
            Instruction.ret (LLVMValue.const_int (LLVMType.int 32) 0)] } ] ∧
    LLVMTypeOf (LLVMValue.const_int (LLVMType.int 64) 1) ≠ LLVMType.pointer ∧
    (codegen_emit (codegen_init 0) ast_let_str).scopes =
      [ { symbols := [ { name := [115], value := some (LLVMValue.inst 0 LLVMType.pointer),
                         type := some LLVMType.pointer } ],
          parent := none } ] :=
  ⟨rfl, fun _ => rfl, rfl, by decide, rfl⟩

/-- C31 as stated fails on `let x = 1; let x = 2;`: both statements are lowered into the
global scope, `scope_define` puts a new symbol in front of the list without looking for
the name, and the list of the scope ends with two symbols named `x`. -/
theorem let_twice_two_symbols :
    parse_source 80 src_let_twice = some ast_let_twice ∧
    (∀ F : FloatOps, optimize F ast_let_twice = some ast_let_twice) ∧
    (codegen_emit (codegen_init 0) ast_let_twice).scopes =
      [ { symbols := [ { name := [120], value := some (LLVMValue.inst 1 LLVMType.pointer),
                         type := some (LLVMType.int 64) },
                       { name := [120], value := some (LLVMValue.inst 0 LLVMType.pointer),
                         type := some (LLVMType.int 64) } ],
          parent := none } ] ∧
    scope_names (codegen_emit (codegen_init 0) ast_let_twice).scopes 0 = [[120], [120]] ∧
    ¬ (scope_names (codegen_emit (codegen_init 0) ast_let_twice).scopes 0).Nodup :=
  ⟨rfl, fun _ => rfl, rfl, rfl, by decide⟩

/-! ## The scopes during the lowering of expressions -/

theorem Keeps.ksame (cg : CodeGen) : Keeps cg cg := ⟨rfl, rfl⟩

theorem Keeps.kchain {a b c : CodeGen} (h1 : Keeps a b) (h2 : Keeps b c) : Keeps a c :=
  ⟨h2.1.trans h1.1, h2.2.trans h1.2⟩

theorem keeps_emit (cg : CodeGen) (i : Instruction) : Keeps cg (cg.emit i) := ⟨rfl, rfl⟩

theorem keeps_build (cg : CodeGen) (mk : Nat → Instruction) (ty : LLVMType) :
    Keeps cg (cg.build mk ty).2 := ⟨rfl, rfl⟩

theorem keeps_global_string (cg : CodeGen) (text : List Nat) :
    Keeps cg (cg.global_string text).2 := ⟨rfl, rfl⟩

theorem keeps_get_printf (cg : CodeGen) : Keeps cg (get_printf cg).2 := by
  unfold get_printf
  split
  · exact Keeps.ksame cg
  · exact ⟨rfl, rfl⟩

theorem Keeps.kbuild {a cg : CodeGen} (h : Keeps a cg) (mk : Nat → Instruction) (ty : LLVMType) :
    Keeps a (cg.build mk ty).2 := h.kchain (keeps_build cg mk ty)

theorem Keeps.kite {a : CodeGen} {c : Prop} [Decidable c] {x y : LLVMValue × CodeGen}
    (hx : Keeps a x.2) (hy : Keeps a y.2) : Keeps a (if c then x else y).2 := by
  split <;> assumption

theorem Keeps.kite_ref {a : CodeGen} {c : Prop} [Decidable c] {x y : LLVMValueRef × CodeGen}
    (hx : Keeps a x.2) (hy : Keeps a y.2) : Keeps a (if c then x else y).2 := by
  split <;> assumption

theorem Keeps.kprintf_call {a cg : CodeGen} (h : Keeps a cg) (fn : LLVMValue) (fmt : List Nat)
    (val : LLVMValue) : Keeps a (build_printf_call cg fn fmt val).2 := by
  dsimp only [build_printf_call]
  exact (h.kchain (keeps_global_string cg fmt)).kbuild _ _

theorem keeps_print (cg : CodeGen) (fn : LLVMValue) (val : LLVMValueRef) :
    Keeps cg (codegen_print cg fn val).2 := by
  cases val with
  | none => exact Keeps.ksame cg
  | some v =>
    dsimp only [codegen_print]
    refine Keeps.kite_ref (((Keeps.ksame cg).kbuild _ _).kprintf_call _ _ _) ?_
    refine Keeps.kite_ref ((Keeps.ksame cg).kprintf_call _ _ _) ?_
    refine Keeps.kite_ref ((Keeps.ksame cg).kprintf_call _ _ _) ?_
    refine Keeps.kite_ref ?_ ((Keeps.ksame cg).kprintf_call _ _ _)
    exact Keeps.kite_ref (((Keeps.ksame cg).kbuild _ _).kprintf_call _ _ _)
      ((Keeps.ksame cg).kprintf_call _ _ _)

theorem Keeps.kcompare {a cg : CodeGen} (h : Keeps a cg) (is_float : Bool)
    (fpred : LLVMRealPredicate) (ipred : LLVMIntPredicate) (l r : LLVMValue) :
    Keeps a (build_compare cg is_float fpred ipred l r).2 := by
  dsimp only [build_compare]
  exact Keeps.kbuild (Keeps.kite (h.kbuild _ _) (h.kbuild _ _)) _ _

theorem Keeps.karith {a cg : CodeGen} (h : Keeps a cg) (is_float : Bool) (fop iop : Opcode)
    (l r : LLVMValue) : Keeps a (build_arith cg is_float fop iop l r).2 := by
  dsimp only [build_arith]
  exact h.kbuild _ _

theorem Keeps.klogical {a cg : CodeGen} (h : Keeps a cg) (op : Opcode) (l r : LLVMValue) :
    Keeps a (build_logical cg op l r).2 := by
  dsimp only [build_logical]
  exact (((h.kbuild _ _).kbuild _ _).kbuild _ _).kbuild _ _

theorem Keeps.kbinary_switch {a cg : CodeGen} (h : Keeps a cg) (is_float : Bool) (op : Operator)
    (l r : LLVMValue) : Keeps a (binary_switch cg is_float op l r).2 := by
  cases op <;> dsimp only [LambdaPhoton.binary_switch] <;>
    first
      | exact h.karith _ _ _ _ _
      | exact h.kcompare _ _ _ _ _
      | exact h.klogical _ _ _
      | exact h

theorem keeps_binary (cg : CodeGen) (op : Operator) (left right : LLVMValueRef) :
    Keeps cg (codegen_binary cg op left right).2 := by
  cases left with
  | none => exact Keeps.ksame cg
  | some l =>
    cases right with
    | none => exact Keeps.ksame cg
    | some r =>
      dsimp only [codegen_binary]
      refine Keeps.kbinary_switch ?_ _ _ _ _
      refine Keeps.kite (Keeps.kbuild ?_ _ _) ?_
      · exact Keeps.kite ((Keeps.ksame cg).kbuild _ _) (Keeps.ksame cg)
      · exact Keeps.kite ((Keeps.ksame cg).kbuild _ _) (Keeps.ksame cg)

theorem keeps_unary (cg : CodeGen) (op : Operator) (operand : LLVMValueRef) :
    Keeps cg (codegen_unary cg op operand).2 := by
  cases operand with
  | none => exact Keeps.ksame cg
  | some v =>
    cases op <;> dsimp only [codegen_unary] <;>
      first
        | exact Keeps.ksame _
        | exact ((Keeps.ksame cg).kbuild _ _).kbuild _ _
        | exact Keeps.kite ((Keeps.ksame cg).kbuild _ _) ((Keeps.ksame cg).kbuild _ _)

theorem keeps_ident (cg : CodeGen) (name : List Nat) : Keeps cg (codegen_ident cg name).2 := by
  unfold codegen_ident
  repeat' split
  all_goals exact ⟨rfl, rfl⟩

theorem keeps_expr : ∀ (node : ASTNode) (cg : CodeGen), Keeps cg (codegen_expr cg node).2
  | ASTNode.null, cg => by simp only [codegen_expr]; exact Keeps.ksame cg
  | ASTNode.IntLit _ _ _, cg => by simp only [codegen_expr]; exact Keeps.ksame cg
  | ASTNode.FloatLit _ _ _, cg => by simp only [codegen_expr]; exact Keeps.ksame cg
  | ASTNode.StringLit _ _ _ _, cg => by simp only [codegen_expr]; exact Keeps.ksame cg
  | ASTNode.Ident _ _ name _, cg => by simp only [codegen_expr]; exact keeps_ident cg name
  | ASTNode.Binary _ _ op l r, cg => by
    simp only [codegen_expr]
    exact ((keeps_expr l cg).kchain (keeps_expr r _)).kchain (keeps_binary _ _ _ _)
  | ASTNode.Unary _ _ op x, cg => by
    simp only [codegen_expr]
    exact (keeps_expr x cg).kchain (keeps_unary _ _ _)
  | ASTNode.Lambda _ _ _ _ _, cg => by simp only [codegen_expr]; exact Keeps.ksame cg
  | ASTNode.Apply _ _ _ _, cg => by simp only [codegen_expr]; exact Keeps.ksame cg
  | ASTNode.Ternary _ _ c t e, cg => by
    simp only [codegen_expr]
    have hc := keeps_expr c cg
    split
    · exact hc
    · have hall : ∀ b : CodeGen, Keeps cg b → Keeps cg (codegen_expr (codegen_expr b t).2 e).2 :=
        fun b hb => (hb.kchain (keeps_expr t b)).kchain (keeps_expr e _)
      split
      · dsimp only
        exact (hall _ (hc.kbuild _ _)).kbuild _ _
      · exact hall _ (hc.kbuild _ _)
  | ASTNode.Array _ _ _, cg => by simp only [codegen_expr]; exact Keeps.ksame cg
  | ASTNode.Index _ _ _ _, cg => by simp only [codegen_expr]; exact Keeps.ksame cg
  | ASTNode.Builtin _ _ name [], cg => by
    simp only [codegen_expr]
    split
    · exact keeps_get_printf cg
    · exact Keeps.ksame cg
  | ASTNode.Builtin _ _ name (element :: _), cg => by
    simp only [codegen_expr]
    split
    · exact ((keeps_get_printf cg).kchain (keeps_expr element _)).kchain (keeps_print _ _ _)
    · exact Keeps.ksame cg
  | ASTNode.Let _ _ _ _ _, cg => by simp only [codegen_expr]; exact Keeps.ksame cg
  | ASTNode.For _ _ _ _ _ _ _, cg => by simp only [codegen_expr]; exact Keeps.ksame cg
  | ASTNode.Block _ _ _, cg => by simp only [codegen_expr]; exact Keeps.ksame cg
  | ASTNode.Async _ _ _, cg => by simp only [codegen_expr]; exact Keeps.ksame cg
  | ASTNode.Await _ _ _, cg => by simp only [codegen_expr]; exact Keeps.ksame cg
  | ASTNode.GpuKernel _ _ _ _ _ _, cg => by simp only [codegen_expr]; exact Keeps.ksame cg
  | ASTNode.Program _ _ _, cg => by simp only [codegen_expr]; exact Keeps.ksame cg

theorem keeps_coerce (cg : CodeGen) (init : LLVMValue) (type : LLVMType) :
    Keeps cg (coerce_init cg init type).2 := by
  dsimp only [coerce_init]
  refine Keeps.kite ((Keeps.ksame cg).kbuild _ _) ?_
  refine Keeps.kite ((Keeps.ksame cg).kbuild _ _) ?_
  refine Keeps.kite ((Keeps.ksame cg).kbuild _ _) ?_
  refine Keeps.kite ?_ (Keeps.ksame cg)
  refine Keeps.kite ((Keeps.ksame cg).kbuild _ _) ?_
  exact Keeps.kite ((Keeps.ksame cg).kbuild _ _) (Keeps.ksame cg)

/-! ## The scopes during the lowering of statements -/

theorem Frame.fsame (n : Nat) (cg : CodeGen) : Frame n cg cg := ⟨rfl, le_refl _, fun _ _ => rfl⟩

theorem Frame.fchain {n : Nat} {a b c : CodeGen} (h1 : Frame n a b) (h2 : Frame n b c) :
    Frame n a c :=
  ⟨h2.1.trans h1.1, le_trans h1.2.1 h2.2.1, fun i hi => (h2.2.2 i hi).trans (h1.2.2 i hi)⟩

theorem Keeps.frame {a b : CodeGen} (h : Keeps a b) (n : Nat) : Frame n a b :=
  ⟨h.2, by rw [h.1], fun i _ => by rw [h.1]⟩

theorem update_scope_length (scopes : List Scope) (c : Nat) (f : Scope → Scope) :
    (update_scope scopes c f).length = scopes.length := by
  induction scopes generalizing c with
  | nil => cases c <;> rfl
  | cons sc rest ih =>
    cases c with
    | zero => rfl
    | succ d => simp [update_scope, ih]

theorem scope_define_length (scopes : List Scope) (c : Nat) (n : List Nat)
    (v : LLVMValueRef) (t : Option LLVMType) :
    (scope_define scopes c n v t).length = scopes.length := update_scope_length _ _ _

/-- The scopes after `codegen_let`: the definition of the name in the current scope, and
nothing else. -/
theorem codegen_let_scopes (cg : CodeGen) (name : List Nat) (ann : Option AstType)
    (init : LLVMValue) :
    (codegen_let cg name ann (some init)).current_scope = cg.current_scope ∧
    (∀ s, cg.current_scope = some s →
      ∃ (v : LLVMValue) (t : LLVMType), (codegen_let cg name ann (some init)).scopes =
        scope_define cg.scopes s name (some v) (some t)) ∧
    (cg.current_scope = none → (codegen_let cg name ann (some init)).scopes = cg.scopes) := by
  have hc : ∀ t, Keeps cg (coerce_init cg init t).2 := fun t => keeps_coerce cg init t
  refine ⟨?_, ?_, ?_⟩
  · cases hcur : cg.current_scope <;> cases ann <;>
      simp only [codegen_let, CodeGen.build, CodeGen.emit, (hc _).2, hcur]
  · intro s hcur
    cases ann with
    | none =>
      simp only [codegen_let, CodeGen.build, CodeGen.emit, hcur]
      exact ⟨_, _, rfl⟩
    | some t =>
      simp only [codegen_let, CodeGen.build, CodeGen.emit, (hc _).2, (hc _).1, hcur]
      exact ⟨_, _, rfl⟩
  · intro hcur
    cases ann <;> simp only [codegen_let, CodeGen.build, CodeGen.emit, (hc _).2, (hc _).1, hcur]

theorem for_header_scopes (cg : CodeGen) (var : List Nat) (start end_ : LLVMValue)
    (parallel : Nat) :
    (for_header cg var start end_ parallel).cg.current_scope = some cg.scopes.length ∧
    (for_header cg var start end_ parallel).cg.scopes =
      scope_define (cg.scopes ++ [{ symbols := [], parent := cg.current_scope }])
        cg.scopes.length var (some (LLVMValue.inst cg.next_id LLVMType.pointer))
        (some (LLVMType.int 64)) ∧
    (for_header cg var start end_ parallel).prev_scope = cg.current_scope := by
  simp [for_header, CodeGen.build, CodeGen.emit, CodeGen.append_block, scope_new]

theorem for_footer_scopes (h : ForLoop) (cg : CodeGen) :
    (for_footer h cg).current_scope = h.prev_scope ∧ (for_footer h cg).scopes = cg.scopes := by
  simp [for_footer, CodeGen.build, CodeGen.emit]

theorem get_append_below (scopes : List Scope) (sc : Scope) (i : Nat) (h : i < scopes.length) :
    (scopes ++ [sc]).get? i = scopes.get? i := by
  simp only [List.get?_eq_getElem?]
  exact List.getElem?_append_left h

theorem frame_let (n : Nat) (cg : CodeGen) (name : List Nat) (ann : Option AstType)
    (init : LLVMValueRef) (hin : Inner n cg) : Frame n cg (codegen_let cg name ann init) := by
  cases init with
  | none => exact Frame.fsame n cg
  | some v =>
    obtain ⟨h1, h2, h3⟩ := codegen_let_scopes cg name ann v
    cases hcur : cg.current_scope with
    | none =>
      have e := h3 hcur
      exact ⟨h1, by rw [e], fun i _ => by rw [e]⟩
    | some s =>
      obtain ⟨val, t, e⟩ := h2 s hcur
      refine ⟨h1, by rw [e, scope_define_length], fun i hi => ?_⟩
      rw [e]
      exact scope_define_get_other _ _ _ _ _ _ (by have := hin s hcur; omega)

theorem frame_for (n : Nat) (cg : CodeGen) (var : List Nat) (start end_ : LLVMValue)
    (parallel : Nat) (body : CodeGen) (hn : n ≤ cg.scopes.length)
    (hb : Frame n (for_header cg var start end_ parallel).cg body) :
    Frame n cg (for_footer (for_header cg var start end_ parallel) body) := by
  obtain ⟨h1, h2, h3⟩ := for_header_scopes cg var start end_ parallel
  obtain ⟨f1, f2⟩ := for_footer_scopes (for_header cg var start end_ parallel) body
  obtain ⟨_, b2, b3⟩ := hb
  refine ⟨f1.trans h3, ?_, fun i hi => ?_⟩
  · rw [f2]
    refine le_trans ?_ b2
    rw [h2, scope_define_length, List.length_append]
    omega
  · rw [f2, b3 i hi, h2, scope_define_get_other _ _ _ _ _ _ (by omega)]
    exact get_append_below _ _ _ (by omega)

theorem inner_for_header (n : Nat) (cg : CodeGen) (var : List Nat) (start end_ : LLVMValue)
    (parallel : Nat) (hn : n ≤ cg.scopes.length) :
    Inner n (for_header cg var start end_ parallel).cg ∧
    n ≤ (for_header cg var start end_ parallel).cg.scopes.length := by
  obtain ⟨h1, h2, _⟩ := for_header_scopes cg var start end_ parallel
  constructor
  · intro c hc
    rw [h1] at hc
    cases hc
    exact hn
  · rw [h2, scope_define_length, List.length_append]
    omega

theorem Frame.inner {n : Nat} {a b : CodeGen} (h : Frame n a b) (ha : Inner n a) : Inner n b :=
  fun c hc => ha c (h.1 ▸ hc)

mutual

theorem frame_stmt (n : Nat) : ∀ (node : ASTNode) (cg : CodeGen), n ≤ cg.scopes.length →
    (node.is_let = true → Inner n cg) → Frame n cg (codegen_stmt cg node)
  | ASTNode.null, cg, _, _ => by simp only [codegen_stmt]; exact Frame.fsame n cg
  | ASTNode.IntLit _ _ _, cg, _, _ => by
    simp only [codegen_stmt]; exact (keeps_expr _ cg).frame n
  | ASTNode.FloatLit _ _ _, cg, _, _ => by
    simp only [codegen_stmt]; exact (keeps_expr _ cg).frame n
  | ASTNode.StringLit _ _ _ _, cg, _, _ => by
    simp only [codegen_stmt]; exact (keeps_expr _ cg).frame n
  | ASTNode.Ident _ _ _ _, cg, _, _ => by
    simp only [codegen_stmt]; exact (keeps_expr _ cg).frame n
  | ASTNode.Binary _ _ _ _ _, cg, _, _ => by
    simp only [codegen_stmt]; exact (keeps_expr _ cg).frame n
  | ASTNode.Unary _ _ _ _, cg, _, _ => by
    simp only [codegen_stmt]; exact (keeps_expr _ cg).frame n
  | ASTNode.Lambda _ _ _ _ _, cg, _, _ => by
    simp only [codegen_stmt]; exact (keeps_expr _ cg).frame n
  | ASTNode.Apply _ _ _ _, cg, _, _ => by
    simp only [codegen_stmt]; exact (keeps_expr _ cg).frame n
  | ASTNode.Ternary _ _ _ _ _, cg, _, _ => by
    simp only [codegen_stmt]; exact (keeps_expr _ cg).frame n
  | ASTNode.Array _ _ _, cg, _, _ => by
    simp only [codegen_stmt]; exact (keeps_expr _ cg).frame n
  | ASTNode.Index _ _ _ _, cg, _, _ => by
    simp only [codegen_stmt]; exact (keeps_expr _ cg).frame n
  | ASTNode.Builtin _ _ _ _, cg, _, _ => by
    simp only [codegen_stmt]; exact (keeps_expr _ cg).frame n
  | ASTNode.Let _ _ name ann value, cg, _, hin => by
    simp only [codegen_stmt]
    have hk := keeps_expr value cg
    have hi : Inner n (codegen_expr cg value).2 := fun c hc => hin rfl c (hk.2 ▸ hc)
    exact (hk.frame n).fchain (frame_let n _ name ann _ hi)
  | ASTNode.For _ _ var start end_ body parallel, cg, hn, _ => by
    simp only [codegen_stmt]
    have hk := (keeps_expr start cg).kchain (keeps_expr end_ _)
    split
    · have hn2 : n ≤ (codegen_expr (codegen_expr cg start).2 end_).2.scopes.length := by
        rw [hk.1]; exact hn
      obtain ⟨hi, hl⟩ := inner_for_header n _ var _ _ parallel hn2
      exact (hk.frame n).fchain (frame_for n _ var _ _ parallel _ hn2 (frame_for_body n body _ hl hi))
    · exact hk.frame n
  | ASTNode.Block _ _ stmts, cg, hn, _ => by
    simp only [codegen_stmt]
    have hin : Inner n { cg with scopes := (scope_new cg.scopes cg.current_scope).2,
                                 current_scope := some (scope_new cg.scopes cg.current_scope).1 } := by
      intro c hc
      cases hc
      exact hn
    have hl : n ≤ (scope_new cg.scopes cg.current_scope).2.length := by
      simp only [scope_new, List.length_append, List.length_singleton]
      omega
    obtain ⟨_, b2, b3⟩ := frame_stmts n stmts _ hl hin
    refine ⟨rfl, ?_, fun i hi => ?_⟩
    · refine le_trans ?_ b2
      simp only [scope_new, List.length_append, List.length_singleton]
      omega
    · exact (b3 i hi).trans (get_append_below _ _ _ (by omega))
  | ASTNode.Async _ _ _, cg, _, _ => by
    simp only [codegen_stmt]; exact (keeps_expr _ cg).frame n
  | ASTNode.Await _ _ _, cg, _, _ => by
    simp only [codegen_stmt]; exact (keeps_expr _ cg).frame n
  | ASTNode.GpuKernel _ _ _ _ _ _, cg, _, _ => by
    simp only [codegen_stmt]; exact (keeps_expr _ cg).frame n
  | ASTNode.Program _ _ _, cg, _, _ => by
    simp only [codegen_stmt]; exact (keeps_expr _ cg).frame n

theorem frame_for_body (n : Nat) : ∀ (node : ASTNode) (cg : CodeGen), n ≤ cg.scopes.length →
    Inner n cg → Frame n cg (codegen_for_body cg node)
  | ASTNode.null, cg, _, _ => by simp only [codegen_for_body]; exact Frame.fsame n cg
  | ASTNode.IntLit _ _ _, cg, _, _ => by simp only [codegen_for_body]; exact Frame.fsame n cg
  | ASTNode.FloatLit _ _ _, cg, _, _ => by simp only [codegen_for_body]; exact Frame.fsame n cg
  | ASTNode.StringLit _ _ _ _, cg, _, _ => by
    simp only [codegen_for_body]; exact Frame.fsame n cg
  | ASTNode.Ident _ _ _ _, cg, _, _ => by simp only [codegen_for_body]; exact Frame.fsame n cg
  | ASTNode.Binary _ _ _ _ _, cg, _, _ => by
    simp only [codegen_for_body]; exact Frame.fsame n cg
  | ASTNode.Unary _ _ _ _, cg, _, _ => by simp only [codegen_for_body]; exact Frame.fsame n cg
  | ASTNode.Lambda _ _ _ _ _, cg, _, _ => by
    simp only [codegen_for_body]; exact Frame.fsame n cg
  | ASTNode.Apply _ _ _ _, cg, _, _ => by simp only [codegen_for_body]; exact Frame.fsame n cg
  | ASTNode.Ternary _ _ _ _ _, cg, _, _ => by
    simp only [codegen_for_body]; exact Frame.fsame n cg
  | ASTNode.Array _ _ _, cg, _, _ => by simp only [codegen_for_body]; exact Frame.fsame n cg
  | ASTNode.Index _ _ _ _, cg, _, _ => by simp only [codegen_for_body]; exact Frame.fsame n cg
  | ASTNode.Builtin _ _ _ _, cg, _, _ => by
    simp only [codegen_for_body]; exact Frame.fsame n cg
  | ASTNode.Let _ _ _ _ _, cg, _, _ => by simp only [codegen_for_body]; exact Frame.fsame n cg
  | ASTNode.For _ _ _ _ _ _ _, cg, _, _ => by
    simp only [codegen_for_body]; exact Frame.fsame n cg
  | ASTNode.Block _ _ stmts, cg, hn, hin => by
    simp only [codegen_for_body]; exact frame_stmts n stmts cg hn hin
  | ASTNode.Async _ _ _, cg, _, _ => by simp only [codegen_for_body]; exact Frame.fsame n cg
  | ASTNode.Await _ _ _, cg, _, _ => by simp only [codegen_for_body]; exact Frame.fsame n cg
  | ASTNode.GpuKernel _ _ _ _ _ _, cg, _, _ => by
    simp only [codegen_for_body]; exact Frame.fsame n cg
  | ASTNode.Program _ _ stmts, cg, hn, hin => by
    simp only [codegen_for_body]; exact frame_stmts n stmts cg hn hin

theorem frame_stmts (n : Nat) : ∀ (stmts : List ASTNode) (cg : CodeGen), n ≤ cg.scopes.length →
    Inner n cg → Frame n cg (codegen_stmts cg stmts)
  | [], cg, _, _ => by simp only [codegen_stmts]; exact Frame.fsame n cg
  | node :: rest, cg, hn, hin => by
    simp only [codegen_stmts]
    have h1 := frame_stmt n node cg hn (fun _ => hin)
    exact h1.fchain (frame_stmts n rest _ (le_trans hn h1.2.1) (h1.inner hin))

end

/-! ## Blocks, loops and the names of a scope -/

theorem scope_lookup_agree (scopes other : List Scope) (s : Option Nat) (chain : List Nat)
    (h : ScopeChain scopes s chain) (hag : ∀ i ∈ chain, other.get? i = scopes.get? i) :
    ∀ (fuel : Nat) (m : List Nat),
      scope_lookup other fuel s m = scope_lookup scopes fuel s m ∧
      scope_lookup_type other fuel s m = scope_lookup_type scopes fuel s m := by
  induction h with
  | nil =>
    intro fuel m
    cases fuel with
    | zero => exact ⟨rfl, rfl⟩
    | succ k => exact ⟨rfl, rfl⟩
  | @cons s scope rest hs _ ih =>
    intro fuel m
    cases fuel with
    | zero => exact ⟨rfl, rfl⟩
    | succ k =>
      simp only [scope_lookup, scope_lookup_type, hag s (List.mem_cons_self _ _), hs]
      cases find_symbol scope.symbols m with
      | some sym => exact ⟨rfl, rfl⟩
      | none => exact ih (fun i hi => hag i (List.mem_cons_of_mem _ hi)) k m

theorem same_bindings_of_frame (cg r : CodeGen) (chain : List Nat)
    (h : ScopeChain cg.scopes cg.current_scope chain) (hf : Frame cg.scopes.length cg r) :
    SameBindings cg r :=
  ⟨hf.1, scope_lookup_agree cg.scopes r.scopes cg.current_scope chain h
    (fun i hi => hf.2.2 i (scope_chain_bound cg.scopes cg.current_scope chain h i hi))⟩

/-- C32: lowering a `Block` or a `For` leaves the enclosing scope as it was. From every
state whose current scope has a chain of scopes that ends, the state after `codegen_stmt`
on a `Block` and on a `For` has the same current scope, and `scope_lookup` and
`scope_lookup_type` from it give for every name what they gave before: the names bound
inside, and the loop variable, are bound in scopes allocated after the ones that were
there, which no lookup from the current scope reaches. -/
theorem block_and_for_restore_scope (cg : CodeGen) (chain : List Nat)
    (h : ScopeChain cg.scopes cg.current_scope chain) :
    (∀ line col stmts, SameBindings cg (codegen_stmt cg (ASTNode.Block line col stmts))) ∧
    (∀ line col var start end_ body parallel,
      SameBindings cg (codegen_stmt cg (ASTNode.For line col var start end_ body parallel))) :=
  ⟨fun _ _ _ => same_bindings_of_frame cg _ chain h
      (frame_stmt cg.scopes.length _ cg (le_refl _) (fun hl => by cases hl)),
    fun _ _ _ _ _ _ _ => same_bindings_of_frame cg _ chain h
      (frame_stmt cg.scopes.length _ cg (le_refl _) (fun hl => by cases hl))⟩

theorem block_and_for_restore_scope_witness :
    ScopeChain (codegen_init 0).scopes (codegen_init 0).current_scope [0] ∧
    SameBindings (codegen_init 0)
      (codegen_stmt (codegen_init 0)
        (ASTNode.Block 1 1 [ASTNode.Let 1 3 [120] none (ASTNode.IntLit 1 11 1)])) :=
  ⟨@ScopeChain.cons _ 0 ⟨[], none⟩ [] rfl ScopeChain.nil,
    (block_and_for_restore_scope (codegen_init 0) [0]
      (@ScopeChain.cons _ 0 ⟨[], none⟩ [] rfl ScopeChain.nil)).1 1 1
      [ASTNode.Let 1 3 [120] none (ASTNode.IntLit 1 11 1)]⟩

theorem scope_names_define (scopes : List Scope) (s : Nat) (name : List Nat)
    (v : LLVMValueRef) (t : Option LLVMType) (h : s < scopes.length) :
    scope_names (scope_define scopes s name v t) s = name :: scope_names scopes s := by
  obtain ⟨scope, hs⟩ : ∃ scope, scopes.get? s = some scope :=
    ⟨scopes.get ⟨s, h⟩, List.get?_eq_get h⟩
  simp only [scope_names, scope_define_get_self scopes s name v t scope hs, hs, Option.map_some',
    Option.getD_some, List.map_cons]

theorem let_names_step : ∀ (stmts : List ASTNode) (cg : CodeGen) (s : Nat),
    cg.current_scope = some s → s < cg.scopes.length → stmts.all ASTNode.is_let = true →
    scope_names (codegen_stmts cg stmts).scopes s =
      (lowered_let_names cg stmts).reverse ++ scope_names cg.scopes s
  | [], cg, s, _, _, _ => by simp [codegen_stmts, lowered_let_names]
  | node :: rest, cg, s, hs, hlen, hall => by
    have hn : node.is_let = true ∧ rest.all ASTNode.is_let = true := by
      simpa [List.all_cons] using hall
    cases node with
    | Let line col name ann value =>
      have hk := keeps_expr value cg
      have hs1 : (codegen_expr cg value).2.current_scope = some s := hk.2.trans hs
      have hl1 : s < (codegen_expr cg value).2.scopes.length := by rw [hk.1]; exact hlen
      simp only [codegen_stmts, lowered_let_names, List.reverse_append]
      cases hv : (codegen_expr cg value).1 with
      | none =>
        have e : codegen_stmt cg (ASTNode.Let line col name ann value) =
            (codegen_expr cg value).2 := by
          simp only [codegen_stmt, hv, codegen_let]
        rw [e, let_names_step rest _ s hs1 hl1 hn.2, hk.1]
        simp
      | some init =>
        have e : codegen_stmt cg (ASTNode.Let line col name ann value) =
            codegen_let (codegen_expr cg value).2 name ann (some init) := by
          simp only [codegen_stmt, hv]
        obtain ⟨c1, c2, _⟩ := codegen_let_scopes (codegen_expr cg value).2 name ann init
        obtain ⟨v, t, c3⟩ := c2 s hs1
        have hs2 : (codegen_let (codegen_expr cg value).2 name ann (some init)).current_scope =
            some s := c1.trans hs1
        have hl2 : s < (codegen_let (codegen_expr cg value).2 name ann (some init)).scopes.length := by
          rw [c3, scope_define_length]; exact hl1
        rw [e, let_names_step rest _ s hs2 hl2 hn.2, c3, scope_names_define _ _ _ _ _ hl1, hk.1]
        simp
    | _ => simp [ASTNode.is_let] at hn

/-- C31, amended: after a sequence of `Let` statements is lowered into one scope, the list
of the scope holds one symbol for every `Let` whose value lowered, the latest first, in
front of the symbols that were there; `scope_define` looks for no earlier symbol with the
name. So the names of the list are unique exactly when those `Let` statements have
pairwise different names that are none of the names already in the scope. -/
theorem let_sequence_names (cg : CodeGen) (s : Nat) (stmts : List ASTNode)
    (hs : cg.current_scope = some s) (hlen : s < cg.scopes.length)
    (hall : stmts.all ASTNode.is_let = true) :
    scope_names (codegen_stmts cg stmts).scopes s =
      (lowered_let_names cg stmts).reverse ++ scope_names cg.scopes s ∧
    ((scope_names (codegen_stmts cg stmts).scopes s).Nodup ↔
      (lowered_let_names cg stmts).Nodup ∧ (scope_names cg.scopes s).Nodup ∧
        ∀ name ∈ lowered_let_names cg stmts, name ∉ scope_names cg.scopes s) := by
  have e := let_names_step stmts cg s hs hlen hall
  refine ⟨e, ?_⟩
  rw [e, List.nodup_append, List.nodup_reverse]
  constructor
  · rintro ⟨h1, h2, h3⟩
    exact ⟨h1, h2, fun name hn hm => h3 (List.mem_reverse.mpr hn) hm⟩
  · rintro ⟨h1, h2, h3⟩
    exact ⟨h1, h2, fun name hn hm => h3 name (List.mem_reverse.mp hn) hm⟩

theorem let_sequence_names_witness :
    (codegen_init 0).current_scope = some 0 ∧ 0 < (codegen_init 0).scopes.length ∧
    [ASTNode.Let 1 1 [120] none (ASTNode.IntLit 1 9 1),
      ASTNode.Let 1 12 [121] none (ASTNode.IntLit 1 20 2)].all ASTNode.is_let = true ∧
    scope_names (codegen_stmts (codegen_init 0)
      [ASTNode.Let 1 1 [120] none (ASTNode.IntLit 1 9 1),
        ASTNode.Let 1 12 [121] none (ASTNode.IntLit 1 20 2)]).scopes 0 =
      (lowered_let_names (codegen_init 0)
        [ASTNode.Let 1 1 [120] none (ASTNode.IntLit 1 9 1),
          ASTNode.Let 1 12 [121] none (ASTNode.IntLit 1 20 2)]).reverse ++
        scope_names (codegen_init 0).scopes 0 :=
  ⟨rfl, by decide, rfl,
    (let_sequence_names (codegen_init 0) 0
      [ASTNode.Let 1 1 [120] none (ASTNode.IntLit 1 9 1),
        ASTNode.Let 1 12 [121] none (ASTNode.IntLit 1 20 2)] rfl (by decide) rfl).1⟩

/-! ## The types that `codegen_let` and `codegen_binary` work with -/

theorem coerce_init_type (cg : CodeGen) (init : LLVMValue) (type : LLVMType) :
    LLVMTypeOf (coerce_init cg init type).1 = type ↔
      (is_float_kind (LLVMGetTypeKind (LLVMTypeOf init)) = true ∨
       is_float_kind (LLVMGetTypeKind type) = true ∨
       (LLVMGetTypeKind (LLVMTypeOf init) = LLVMIntegerTypeKind ∧
         LLVMGetTypeKind type = LLVMIntegerTypeKind) ∨
       LLVMTypeOf init = type) := by
  have hb : ∀ (mk : Nat → Instruction) (ty : LLVMType), LLVMTypeOf (cg.build mk ty).1 = ty :=
    fun _ _ => rfl
  generalize hT : LLVMTypeOf init = ti
  cases ti with
  | int a =>
    cases type with
    | int b =>
      simp only [coerce_init, hT, LLVMGetTypeKind, is_float_kind, LLVMGetIntTypeWidth]
      simp [hb, hT]
      by_cases h1 : b < a
      · rw [if_pos h1]; rfl
      · rw [if_neg h1]
        by_cases h2 : a < b
        · rw [if_pos h2]; rfl
        · rw [if_neg h2, hT]
          congr 1
          omega
    | _ =>
      simp only [coerce_init, hT, LLVMGetTypeKind, is_float_kind, LLVMGetIntTypeWidth]
      simp [hb, hT]
  | _ =>
    cases type <;>
      simp only [coerce_init, hT, LLVMGetTypeKind, is_float_kind, LLVMGetIntTypeWidth] <;>
      simp [hb, hT]

/-- C38, amended: `codegen_let` allocates a slot of the annotated type, or of the type of
the value when there is no annotation, stores the converted value in it, and records the
type of the slot for the name. The converted value has the type of the slot exactly when
the value or the annotated type is floating-point, or both are integers, or the value has
the annotated type already; in the other cases, an integer for a pointer or `void`
annotation and a pointer for an integer or `void` annotation, the value is stored as it is.
Without an annotation the stored value has the type of the slot. -/
theorem let_slot_type (cg : CodeGen) (name : List Nat) (init : LLVMValue) :
    (∀ t : AstType,
      LLVMTypeOf (coerce_init cg init (get_llvm_type (some t))).1 = get_llvm_type (some t) ↔
        (is_float_kind (LLVMGetTypeKind (LLVMTypeOf init)) = true ∨
         is_float_kind (LLVMGetTypeKind (get_llvm_type (some t))) = true ∨
         (LLVMGetTypeKind (LLVMTypeOf init) = LLVMIntegerTypeKind ∧
           LLVMGetTypeKind (get_llvm_type (some t)) = LLVMIntegerTypeKind) ∨
         LLVMTypeOf init = get_llvm_type (some t))) ∧
    (∀ (t : AstType) (c : LLVMValue × CodeGen),
      c = coerce_init cg init (get_llvm_type (some t)) →
      (codegen_let cg name (some t) (some init)).blocks =
        append_instr
          (append_instr c.2.blocks c.2.position
            (Instruction.alloca c.2.next_id (get_llvm_type (some t))))
          c.2.position (Instruction.store c.1 (LLVMValue.inst c.2.next_id LLVMType.pointer)) ∧
      ∀ s, cg.current_scope = some s →
        (codegen_let cg name (some t) (some init)).scopes =
          scope_define cg.scopes s name (some (LLVMValue.inst c.2.next_id LLVMType.pointer))
            (some (get_llvm_type (some t)))) ∧
    ((codegen_let cg name none (some init)).blocks =
        append_instr
          (append_instr cg.blocks cg.position (Instruction.alloca cg.next_id (LLVMTypeOf init)))
          cg.position (Instruction.store init (LLVMValue.inst cg.next_id LLVMType.pointer)) ∧
      ∀ s, cg.current_scope = some s →
        (codegen_let cg name none (some init)).scopes =
          scope_define cg.scopes s name (some (LLVMValue.inst cg.next_id LLVMType.pointer))
            (some (LLVMTypeOf init))) := by
  refine ⟨fun t => coerce_init_type cg init _, ?_, ?_, ?_⟩
  · intro t c hc
    subst hc
    have hk := keeps_coerce cg init (get_llvm_type (some t))
    constructor
    · simp only [codegen_let, CodeGen.build, CodeGen.emit]
      cases (coerce_init cg init (get_llvm_type (some t))).2.current_scope <;> rfl
    · intro s hs
      simp only [codegen_let, CodeGen.build, CodeGen.emit, hk.2, hk.1, hs]
  · simp only [codegen_let, CodeGen.build, CodeGen.emit]
    cases cg.current_scope <;> rfl
  · intro s hs
    simp only [codegen_let, CodeGen.build, CodeGen.emit, hs]

/-- C33: for a `Binary` node with an arithmetic or a comparison operator, `codegen_binary`
emits the float form if and only if a lowered operand has the type `float` or `double`.
Then every operand that is not floating-point is first converted by `sitofp` to `double`,
the left one before the right one; otherwise the operands are used as they are. The float
form of an arithmetic operator is `fadd fsub fmul fdiv frem`, the integer form the signed
`add sub mul sdiv srem`; a comparison is an `fcmp` with an ordered predicate or an `icmp`
with a signed predicate, and its `i1` result is zero-extended to `i64`. -/
theorem binary_form_by_operand_types (cg : CodeGen) (op : Operator) (left right : LLVMValue) :
    ((is_float_kind (LLVMGetTypeKind (LLVMTypeOf left)) ||
        is_float_kind (LLVMGetTypeKind (LLVMTypeOf right))) = true →
      codegen_binary cg op (some left) (some right) =
        binary_switch (promote_operand (promote_operand cg left).2 right).2 true op
          (promote_operand cg left).1 (promote_operand (promote_operand cg left).2 right).1) ∧
    ((is_float_kind (LLVMGetTypeKind (LLVMTypeOf left)) ||
        is_float_kind (LLVMGetTypeKind (LLVMTypeOf right))) = false →
      codegen_binary cg op (some left) (some right) = binary_switch cg false op left right) ∧
    (∀ f ∈ arith_forms, ∀ (c : CodeGen) (is_float : Bool) (a b : LLVMValue),
      binary_switch c is_float f.1 a b =
        (some (LLVMValue.inst c.next_id (LLVMTypeOf a)),
          { c with
            blocks := append_instr c.blocks c.position
              (Instruction.binop c.next_id (if is_float then f.2.1 else f.2.2) a b),
            next_id := c.next_id + 1 })) ∧
    (∀ f ∈ compare_forms, ∀ (c : CodeGen) (is_float : Bool) (a b : LLVMValue),
      binary_switch c is_float f.1 a b =
        (some (LLVMValue.inst (c.next_id + 1) (LLVMType.int 64)),
          { c with
            blocks := append_instr
              (append_instr c.blocks c.position
                (if is_float then Instruction.fcmp c.next_id f.2.1 a b
                 else Instruction.icmp c.next_id f.2.2 a b))
              c.position
              (Instruction.cast (c.next_id + 1) CastOp.ZExt
                (LLVMValue.inst c.next_id (LLVMType.int 1)) (LLVMType.int 64)),
            next_id := c.next_id + 1 + 1 })) := by
  refine ⟨?_, ?_, ?_, ?_⟩
  · intro h
    cases hl : is_float_kind (LLVMGetTypeKind (LLVMTypeOf left)) <;>
      cases hr : is_float_kind (LLVMGetTypeKind (LLVMTypeOf right)) <;>
      simp [hl, hr] at h <;>
      simp [codegen_binary, promote_operand, hl, hr]
  · intro h
    simp only [Bool.or_eq_false_iff] at h
    simp [codegen_binary, h.1, h.2]
  · intro f hf c is_float a b
    simp only [arith_forms, List.mem_cons, List.mem_singleton, List.not_mem_nil, or_false] at hf
    rcases hf with rfl | rfl | rfl | rfl | rfl <;> cases is_float <;> rfl
  · intro f hf c is_float a b
    simp only [compare_forms, List.mem_cons, List.mem_singleton, List.not_mem_nil, or_false] at hf
    rcases hf with rfl | rfl | rfl | rfl | rfl | rfl <;> cases is_float <;> rfl

/-! ## What the lowering of a loop body emits -/

theorem get_append_instr (bs : List BasicBlock) (pos : Nat) (i : Instruction) (b : Nat) :
    (append_instr bs pos i)[b]? =
      bs[b]?.map (fun blk => if b = pos then { blk with instrs := blk.instrs ++ [i] } else blk) := by
  induction bs generalizing pos b with
  | nil => simp [append_instr]
  | cons blk rest ih =>
    cases pos with
    | zero =>
      cases b with
      | zero => simp [append_instr]
      | succ b1 => simp [append_instr]
    | succ p =>
      cases b with
      | zero => simp [append_instr]
      | succ b1 => simp [append_instr, ih p b1]

theorem instr_at_eq (bs : List BasicBlock) (b j : Nat) :
    instr_at bs b j = bs[b]?.bind (fun blk => blk.instrs[j]?) := by
  simp only [instr_at, List.get?_eq_getElem?]

theorem block_len_eq (bs : List BasicBlock) (b : Nat) :
    block_len bs b = (bs[b]?.map (fun blk => blk.instrs.length)).getD 0 := by
  simp only [block_len, List.get?_eq_getElem?]

theorem instr_at_lt (bs : List BasicBlock) (b j : Nat) (x : Instruction)
    (h : instr_at bs b j = some x) : b < bs.length ∧ j < block_len bs b := by
  rw [instr_at_eq] at h
  rw [block_len_eq]
  cases hb : bs[b]? with
  | none => rw [hb] at h; cases h
  | some blk =>
    rw [hb] at h
    simp only [Option.some_bind] at h
    refine ⟨?_, ?_⟩
    · rcases Nat.lt_or_ge b bs.length with hlt | hge
      · exact hlt
      · rw [List.getElem?_eq_none hge] at hb; cases hb
    · simp only [Option.map_some', Option.getD_some]
      rcases Nat.lt_or_ge j blk.instrs.length with hlt | hge
      · exact hlt
      · rw [List.getElem?_eq_none hge] at h; cases h

theorem instr_at_append_old (bs : List BasicBlock) (pos : Nat) (i : Instruction) (b j : Nat)
    (x : Instruction) (h : instr_at bs b j = some x) :
    instr_at (append_instr bs pos i) b j = some x := by
  have hj := (instr_at_lt bs b j x h).2
  rw [instr_at_eq] at h ⊢
  rw [block_len_eq] at hj
  rw [get_append_instr]
  cases hb : bs[b]? with
  | none => rw [hb] at h; cases h
  | some blk =>
    rw [hb] at h hj
    simp only [Option.some_bind, Option.map_some', Option.getD_some] at h hj ⊢
    split
    · simp only
      rw [List.getElem?_append_left hj]
      exact h
    · exact h

theorem instr_at_append_new (bs : List BasicBlock) (pos : Nat) (i : Instruction) (b j : Nat)
    (x : Instruction) (h : instr_at (append_instr bs pos i) b j = some x) :
    instr_at bs b j = some x ∨ (x = i ∧ b = pos ∧ j = block_len bs pos) := by
  rw [instr_at_eq] at h ⊢
  rw [block_len_eq]
  rw [get_append_instr] at h
  cases hb : bs[b]? with
  | none => rw [hb] at h; cases h
  | some blk =>
    rw [hb] at h
    simp only [Option.some_bind, Option.map_some'] at h ⊢
    split at h
    · rename_i hp
      subst hp
      simp only at h
      rcases Nat.lt_or_ge j blk.instrs.length with hj | hj
      · rw [List.getElem?_append_left hj] at h
        exact Or.inl h
      · rw [List.getElem?_append_right hj] at h
        rcases Nat.eq_zero_or_pos (j - blk.instrs.length) with h0 | h0
        · rw [h0] at h
          simp only [List.getElem?_cons_zero, Option.some.injEq] at h
          refine Or.inr ⟨h.symm, rfl, ?_⟩
          simp only [hb, Option.map_some', Option.getD_some]
          omega
        · rw [List.getElem?_eq_none (by simp only [List.length_singleton]; omega)] at h; cases h
    · exact Or.inl h

theorem instr_at_append_block (bs : List BasicBlock) (name : String) (b j : Nat) :
    instr_at (bs ++ [{ name := name, instrs := [] }]) b j = instr_at bs b j := by
  rw [instr_at_eq, instr_at_eq]
  rcases Nat.lt_trichotomy b bs.length with h | h | h
  · rw [List.getElem?_append_left h]
  · subst h
    rw [List.getElem?_append_right (le_refl _), List.getElem?_eq_none (le_refl _)]
    simp
  · rw [List.getElem?_eq_none (by simp; omega), List.getElem?_eq_none (by omega)]

theorem Emits.inside {n b0 : Nat} {a cg : CodeGen} (h : Emits n b0 a cg) : Inside n b0 cg := h.1

theorem Emits.next {n b0 : Nat} {a b c : CodeGen} (h1 : Emits n b0 a b) (h2 : Emits n b0 b c) :
    Emits n b0 a c := by
  refine ⟨h2.1, le_trans h1.2.1 h2.2.1, le_trans h1.2.2.1 h2.2.2.1, ?_, ?_⟩
  · intro b j i h
    exact h2.2.2.2.1 b j i (h1.2.2.2.1 b j i h)
  · intro b j i h
    rcases h2.2.2.2.2 b j i h with h | h
    · exact h1.2.2.2.2 b j i h
    · exact Or.inr h

/-- A change of the state that leaves the blocks and the instruction number as they are. -/
theorem Emits.of_same_blocks {n b0 : Nat} {a cg : CodeGen} (h : Emits n b0 a cg) (cg1 : CodeGen)
    (hb : cg1.blocks = cg.blocks) (hn : cg1.next_id = cg.next_id)
    (hs : slots_only cg1.scopes) : Emits n b0 a cg1 := by
  obtain ⟨⟨i1, i2, _⟩, h2, h3, h4, h5⟩ := h
  exact ⟨⟨hn ▸ i1, hb ▸ i2, hs⟩, hn ▸ h2, hb ▸ h3, hb ▸ h4, hb ▸ h5⟩

theorem Emits.emit {n b0 : Nat} {a cg : CodeGen} (h : Emits n b0 a cg) (i : Instruction)
    (hi : i.fresh n b0 = true) : Emits n b0 a (cg.emit i) := by
  obtain ⟨⟨i1, i2, i3⟩, h2, h3, h4, h5⟩ := h
  refine ⟨⟨i1, ?_, i3⟩, h2, ?_, ?_, ?_⟩
  · simpa [CodeGen.emit, append_instr_length] using i2
  · simpa [CodeGen.emit, append_instr_length] using h3
  · intro b j x hx
    exact instr_at_append_old _ _ _ _ _ _ (h4 b j x hx)
  · intro b j x hx
    rcases instr_at_append_new _ _ _ _ _ _ hx with hx | ⟨rfl, _, _⟩
    · exact h5 b j x hx
    · exact Or.inr hi

theorem Emits.built {n b0 : Nat} {a cg : CodeGen} (h : Emits n b0 a cg) (mk : Nat → Instruction)
    (ty : LLVMType) (hi : (mk cg.next_id).fresh n b0 = true) :
    FineValue n b0 a (cg.build mk ty) := by
  have hn : n ≤ cg.next_id := h.1.1
  obtain ⟨⟨i1, i2, i3⟩, h2, h3, h4, h5⟩ := h
  refine ⟨⟨⟨?_, ?_, i3⟩, ?_, ?_, ?_, ?_⟩, ?_⟩
  · simp only [CodeGen.build]; omega
  · simpa [CodeGen.build, append_instr_length] using i2
  · simp only [CodeGen.build]; omega
  · simpa [CodeGen.build, append_instr_length] using h3
  · intro b j x hx
    exact instr_at_append_old _ _ _ _ _ _ (h4 b j x hx)
  · intro b j x hx
    rcases instr_at_append_new _ _ _ _ _ _ hx with hx | ⟨rfl, _, _⟩
    · exact h5 b j x hx
    · exact Or.inr hi
  · simp only [CodeGen.build, LLVMValue.within, Bool.and_eq_true, decide_eq_true_eq]
    exact ⟨hn, Nat.lt_succ_self _⟩

theorem Emits.append_block {n b0 : Nat} {a cg : CodeGen} (h : Emits n b0 a cg) (name : String) :
    Emits n b0 a (cg.append_block name).2 := by
  obtain ⟨⟨i1, i2, i3⟩, h2, h3, h4, h5⟩ := h
  refine ⟨⟨i1, ?_, i3⟩, h2, ?_, ?_, ?_⟩
  · simp only [CodeGen.append_block, List.length_append, List.length_singleton]; omega
  · simp only [CodeGen.append_block, List.length_append, List.length_singleton]; omega
  · intro b j x hx
    simp only [CodeGen.append_block, instr_at_append_block]
    exact h4 b j x hx
  · intro b j x hx
    simp only [CodeGen.append_block, instr_at_append_block] at hx
    exact h5 b j x hx

theorem Emits.global_string {n b0 : Nat} {a cg : CodeGen} (h : Emits n b0 a cg) (text : List Nat) :
    Emits n b0 a (cg.global_string text).2 :=
  h.of_same_blocks _ rfl rfl h.1.2.2

theorem within_fresh {n k : Nat} {v : LLVMValue} (h : v.within n k = true) : v.fresh n = true := by
  cases v <;> simp_all [LLVMValue.within, LLVMValue.fresh]

theorem within_below {n k : Nat} {v : LLVMValue} (h : v.within n k = true) (id : Nat)
    (ty : LLVMType) (hv : v = LLVMValue.inst id ty) : n ≤ id ∧ id < k := by
  subst hv
  simpa [LLVMValue.within] using h

theorem FineValue.fresh {n b0 : Nat} {a : CodeGen} {x : LLVMValue × CodeGen}
    (h : FineValue n b0 a x) : x.1.fresh n = true := within_fresh h.2

theorem FineValue.weaken {n b0 : Nat} {a : CodeGen} {x : LLVMValue × CodeGen}
    (h : FineValue n b0 a x) : FreshValue n b0 a x := ⟨h.1, within_fresh h.2⟩

theorem Emits.printf {n b0 : Nat} {a cg : CodeGen} (h : Emits n b0 a cg) :
    Emits n b0 a (get_printf cg).2 ∧ (get_printf cg).1.fresh n = true := by
  unfold get_printf
  split
  · exact ⟨h, rfl⟩
  · exact ⟨h.of_same_blocks _ rfl rfl h.1.2.2, rfl⟩

/-! ## The values and instructions of the expressions in a loop body -/

theorem fresh_const_int (n : Nat) (ty : LLVMType) (v : Int) :
    (LLVMValue.const_int ty v).fresh n = true := rfl

theorem fresh_const_real (n : Nat) (d : Double) : (LLVMValue.const_real d).fresh n = true := rfl

theorem fresh_global_string (n : Nat) (text : List Nat) :
    (LLVMValue.global_string text).fresh n = true := rfl

theorem fresh_function (n : Nat) (name : String) (ty : FunctionType) :
    (LLVMValue.function name ty).fresh n = true := rfl

theorem fresh_inst (n id : Nat) (ty : LLVMType) :
    (LLVMValue.inst id ty).fresh n = true ↔ n ≤ id := by
  simp [LLVMValue.fresh]

theorem Fine.of_none {n b0 : Nat} {a cg : CodeGen} (h : Emits n b0 a cg) :
    Fine n b0 a (none, cg) := ⟨h, fun _ hv => by cases hv⟩

theorem Fine.of_some {n b0 : Nat} {a cg : CodeGen} (h : Emits n b0 a cg) (v : LLVMValue)
    (hv : v.within n cg.next_id = true) : Fine n b0 a (some v, cg) :=
  ⟨h, fun w hw => by cases hw; exact hv⟩

theorem FineValue.ref {n b0 : Nat} {a : CodeGen} {x : LLVMValue × CodeGen}
    (h : FineValue n b0 a x) : Fine n b0 a (some x.1, x.2) :=
  ⟨h.1, fun w hw => by cases hw; exact h.2⟩

theorem Fine.either_ref {n b0 : Nat} {a : CodeGen} {c : Prop} [Decidable c]
    {x y : LLVMValueRef × CodeGen} (hx : Fine n b0 a x) (hy : Fine n b0 a y) :
    Fine n b0 a (if c then x else y) := by
  split <;> assumption

theorem FineValue.either {n b0 : Nat} {a : CodeGen} {c : Prop} [Decidable c]
    {x y : LLVMValue × CodeGen} (hx : FineValue n b0 a x) (hy : FineValue n b0 a y) :
    FineValue n b0 a (if c then x else y) := by
  split <;> assumption

theorem FreshValue.either_way {n b0 : Nat} {a : CodeGen} {c : Prop} [Decidable c]
    {x y : LLVMValue × CodeGen} (hx : FreshValue n b0 a x) (hy : FreshValue n b0 a y) :
    FreshValue n b0 a (if c then x else y) := by
  split <;> assumption

theorem FreshValue.of_value {n b0 : Nat} {a cg : CodeGen} (h : Emits n b0 a cg) (v : LLVMValue)
    (hv : v.fresh n = true) : FreshValue n b0 a (v, cg) := ⟨h, hv⟩

theorem Emits.call_printf {n b0 : Nat} {a cg : CodeGen} (h : Emits n b0 a cg)
    (fn : LLVMValue) (fmt : List Nat) (val : LLVMValue) (hf : fn.fresh n = true)
    (hv : val.fresh n = true) : Fine n b0 a (build_printf_call cg fn fmt val) := by
  dsimp only [build_printf_call]
  refine FineValue.ref ((h.global_string fmt).built _ _ ?_)
  have hn : n ≤ cg.next_id := h.1.1
  simp [Instruction.fresh, fresh_global_string, CodeGen.global_string, hf, hv, hn]

theorem Emits.cast {n b0 : Nat} {a cg : CodeGen} (h : Emits n b0 a cg) (op : CastOp)
    (v : LLVMValue) (dest ty : LLVMType) (hv : v.fresh n = true) :
    FineValue n b0 a (cg.build (fun id => Instruction.cast id op v dest) ty) :=
  h.built _ _ (by simp [Instruction.fresh, hv, h.1.1])

theorem Emits.print {n b0 : Nat} {a cg : CodeGen} (h : Emits n b0 a cg) (fn : LLVMValue)
    (val : LLVMValueRef) (hf : fn.fresh n = true) (hv : ∀ v, val = some v → v.fresh n = true) :
    Fine n b0 a (codegen_print cg fn val) := by
  cases val with
  | none => exact Fine.of_none h
  | some v =>
    have fv := hv v rfl
    have hc : ∀ (op : CastOp) (dest ty : LLVMType) (fmt : List Nat),
        Fine n b0 a (build_printf_call (cg.build (fun id => Instruction.cast id op v dest) ty).2
          fn fmt (cg.build (fun id => Instruction.cast id op v dest) ty).1) :=
      fun op dest ty fmt => (h.cast op v dest ty fv).1.call_printf _ _ _ hf (h.cast op v dest ty fv).fresh
    dsimp only [codegen_print]
    refine Fine.either_ref (hc _ _ _ _) ?_
    refine Fine.either_ref (h.call_printf _ _ _ hf fv) ?_
    refine Fine.either_ref (h.call_printf _ _ _ hf fv) ?_
    refine Fine.either_ref ?_ (h.call_printf _ _ _ hf fv)
    exact Fine.either_ref (hc _ _ _ _) (h.call_printf _ _ _ hf fv)

theorem Emits.comparison {n b0 : Nat} {a cg : CodeGen} (h : Emits n b0 a cg) (is_float : Bool)
    (fpred : LLVMRealPredicate) (ipred : LLVMIntPredicate) (l r : LLVMValue)
    (hl : l.fresh n = true) (hr : r.fresh n = true) :
    Fine n b0 a (build_compare cg is_float fpred ipred l r) := by
  dsimp only [build_compare]
  have hc : FineValue n b0 a
      (if is_float = true then cg.build (fun id => Instruction.fcmp id fpred l r) (LLVMType.int 1)
        else cg.build (fun id => Instruction.icmp id ipred l r) (LLVMType.int 1)) :=
    FineValue.either (h.built _ _ (by simp [Instruction.fresh, hl, hr, h.1.1]))
      (h.built _ _ (by simp [Instruction.fresh, hl, hr, h.1.1]))
  exact FineValue.ref (hc.1.cast _ _ _ _ hc.fresh)

theorem Emits.arithmetic {n b0 : Nat} {a cg : CodeGen} (h : Emits n b0 a cg) (is_float : Bool)
    (fop iop : Opcode) (l r : LLVMValue) (hl : l.fresh n = true) (hr : r.fresh n = true) :
    Fine n b0 a (build_arith cg is_float fop iop l r) := by
  dsimp only [build_arith]
  exact FineValue.ref (h.built _ _ (by simp [Instruction.fresh, hl, hr, h.1.1]))

theorem Emits.logic {n b0 : Nat} {a cg : CodeGen} (h : Emits n b0 a cg) (op : Opcode)
    (l r : LLVMValue) (hl : l.fresh n = true) (hr : r.fresh n = true) :
    Fine n b0 a (build_logical cg op l r) := by
  dsimp only [build_logical]
  have h1 := h.built (fun id => Instruction.icmp id LLVMIntNE l
    (LLVMValue.const_int (LLVMType.int 64) 0)) (LLVMType.int 1)
    (by simp [Instruction.fresh, fresh_const_int, hl, h.1.1])
  have h2 := h1.1.built (fun id => Instruction.icmp id LLVMIntNE r
    (LLVMValue.const_int (LLVMType.int 64) 0)) (LLVMType.int 1)
    (by simp [Instruction.fresh, fresh_const_int, hr, h1.1.1.1])
  have h3 := h2.1.built (fun id => Instruction.binop id op
    (cg.build (fun id => Instruction.icmp id LLVMIntNE l
      (LLVMValue.const_int (LLVMType.int 64) 0)) (LLVMType.int 1)).1
    ((cg.build (fun id => Instruction.icmp id LLVMIntNE l
      (LLVMValue.const_int (LLVMType.int 64) 0)) (LLVMType.int 1)).2.build
      (fun id => Instruction.icmp id LLVMIntNE r (LLVMValue.const_int (LLVMType.int 64) 0))
      (LLVMType.int 1)).1) (LLVMType.int 1)
    (by simp [Instruction.fresh, h1.fresh, h2.fresh, h2.1.1.1])
  exact FineValue.ref (h3.1.cast _ _ _ _ h3.fresh)

theorem Emits.switch_binary {n b0 : Nat} {a cg : CodeGen} (h : Emits n b0 a cg) (is_float : Bool)
    (op : Operator) (l r : LLVMValue) (hl : l.fresh n = true) (hr : r.fresh n = true) :
    Fine n b0 a (binary_switch cg is_float op l r) := by
  cases op <;> dsimp only [LambdaPhoton.binary_switch] <;>
    first
      | exact h.arithmetic _ _ _ _ _ hl hr
      | exact h.comparison _ _ _ _ _ hl hr
      | exact h.logic _ _ _ hl hr
      | exact Fine.of_none h

theorem Emits.binary {n b0 : Nat} {a cg : CodeGen} (h : Emits n b0 a cg) (op : Operator)
    (left right : LLVMValueRef) (hl : ∀ v, left = some v → v.fresh n = true)
    (hr : ∀ v, right = some v → v.fresh n = true) :
    Fine n b0 a (codegen_binary cg op left right) := by
  cases left with
  | none => exact Fine.of_none h
  | some l =>
    cases right with
    | none => exact Fine.of_none h
    | some r =>
      have fl := hl l rfl
      have fr := hr r rfl
      dsimp only [codegen_binary]
      have h1 : ∀ c : Prop, ∀ _ : Decidable c, FreshValue n b0 a
          (if c then cg.build (fun id => Instruction.cast id CastOp.SIToFP l LLVMType.double)
            LLVMType.double else (l, cg)) :=
        fun c _ => FreshValue.either_way (h.cast _ _ _ _ fl).weaken (FreshValue.of_value h l fl)
      have h2 : ∀ (x : LLVMValue × CodeGen), FreshValue n b0 a x → ∀ c : Prop, ∀ _ : Decidable c,
          FreshValue n b0 a
            (if c then x.2.build (fun id => Instruction.cast id CastOp.SIToFP r LLVMType.double)
              LLVMType.double else (r, x.2)) :=
        fun x hx c _ => FreshValue.either_way (hx.1.cast _ _ _ _ fr).weaken (FreshValue.of_value hx.1 r fr)
      exact (h2 _ (h1 _ _) _ _).1.switch_binary _ _ _ _ (h1 _ _).2 (h2 _ (h1 _ _) _ _).2

theorem Emits.unary {n b0 : Nat} {a cg : CodeGen} (h : Emits n b0 a cg) (op : Operator)
    (operand : LLVMValueRef) (hv : ∀ v, operand = some v → v.fresh n = true) :
    Fine n b0 a (codegen_unary cg op operand) := by
  cases operand with
  | none => exact Fine.of_none h
  | some v =>
    have fv := hv v rfl
    cases op <;> dsimp only [codegen_unary] <;>
      first
        | exact Fine.of_none h
        | exact FineValue.ref (FineValue.either
            (h.built _ _ (by simp [Instruction.fresh, fv, h.1.1]))
            (h.built _ _ (by simp [Instruction.fresh, fv, h.1.1])))
        | exact FineValue.ref ((h.built (fun id => Instruction.icmp id LLVMIntEQ v
            (LLVMValue.const_int (LLVMType.int 64) 0)) (LLVMType.int 1)
            (by simp [Instruction.fresh, fresh_const_int, fv, h.1.1])).1.cast _ _ _ _
            (h.built (fun id => Instruction.icmp id LLVMIntEQ v
            (LLVMValue.const_int (LLVMType.int 64) 0)) (LLVMType.int 1)
            (by simp [Instruction.fresh, fresh_const_int, fv, h.1.1])).fresh)

/-! ## The statements of a loop body -/

theorem find_symbol_mem (syms : List Symbol) (name : List Nat) (sym : Symbol)
    (h : find_symbol syms name = some sym) : sym ∈ syms := by
  induction syms with
  | nil => cases h
  | cons s rest ih =>
    simp only [find_symbol] at h
    split at h
    · cases h; exact List.mem_cons_self _ _
    · exact List.mem_cons_of_mem _ (ih h)

/-- A name that `scope_lookup` finds in scopes that hold slots only has a pointer for its
value, and `scope_lookup_type` finds its type. -/
theorem slots_lookup (scopes : List Scope) (hs : slots_only scopes) :
    ∀ (fuel : Nat) (cur : Option Nat) (name : List Nat) (v : LLVMValue),
      scope_lookup scopes fuel cur name = some (some v) →
      LLVMGetTypeKind (LLVMTypeOf v) = LLVMTypeKind.LLVMPointerTypeKind ∧
      ∃ ty, scope_lookup_type scopes fuel cur name = some (some ty)
  | 0, _, _, _, h => by simp [scope_lookup] at h
  | _ + 1, none, _, _, h => by simp [scope_lookup] at h
  | fuel + 1, some s, name, v, h => by
    simp only [scope_lookup, scope_lookup_type, List.get?_eq_getElem?] at h ⊢
    cases hg : scopes[s]? with
    | none => simp [hg] at h
    | some scope =>
      simp only [hg] at h ⊢
      cases hf : find_symbol scope.symbols name with
      | none =>
        simp only [hf] at h ⊢
        exact slots_lookup scopes hs fuel scope.parent name v h
      | some sym =>
        simp only [hf, Option.some.injEq] at h ⊢
        obtain ⟨w, ty, hw, hty, hk⟩ := hs scope (List.getElem?_mem hg) sym
          (find_symbol_mem _ _ _ hf)
        rw [hw, Option.some.injEq] at h
        subst h
        exact ⟨hk, ty, by rw [hty]⟩

theorem Emits.ident {n b0 : Nat} {a cg : CodeGen} (h : Emits n b0 a cg) (name : List Nat) :
    Fine n b0 a (codegen_ident cg name) := by
  unfold codegen_ident
  cases hl : cg.lookup name with
  | none => exact Fine.of_none h
  | some val =>
    have hsl : scope_lookup cg.scopes (cg.scopes.length + 1) cg.current_scope name =
        some (some val) := by
      unfold CodeGen.lookup at hl
      cases hx : scope_lookup cg.scopes (cg.scopes.length + 1) cg.current_scope name with
      | none => rw [hx] at hl; cases hl
      | some r =>
        rw [hx] at hl
        simp only [Option.getD_some] at hl
        rw [hl]
    obtain ⟨hk, ty, ht⟩ := slots_lookup cg.scopes h.1.2.2 _ _ _ _ hsl
    have hlt : cg.lookup_type name = some ty := by
      simp only [CodeGen.lookup_type, ht, Option.getD_some]
    simp only [hlt, hk, if_true]
    exact FineValue.ref (h.built _ _ (by simp [Instruction.fresh, h.1.1]))

/-- The lowering of an expression inside a loop body emits fresh instructions only and
returns a fresh value. -/
theorem fine_expr {n b0 : Nat} : ∀ (node : ASTNode) (cg a : CodeGen), Emits n b0 a cg →
    Fine n b0 a (codegen_expr cg node)
  | ASTNode.null, cg, a, h => by simp only [codegen_expr]; exact Fine.of_none h
  | ASTNode.IntLit _ _ _, cg, a, h => by
    simp only [codegen_expr]; exact Fine.of_some h _ rfl
  | ASTNode.FloatLit _ _ _, cg, a, h => by
    simp only [codegen_expr]; exact Fine.of_some h _ rfl
  | ASTNode.StringLit _ _ value _, cg, a, h => by
    simp only [codegen_expr]
    exact Fine.of_some (h.global_string value) _ rfl
  | ASTNode.Ident _ _ name _, cg, a, h => by simp only [codegen_expr]; exact h.ident name
  | ASTNode.Binary _ _ op l r, cg, a, h => by
    simp only [codegen_expr]
    have hl := fine_expr l cg a h
    have hr := fine_expr r _ a hl.1
    exact hr.1.binary op _ _ (fun v hv => within_fresh (hl.2 v hv)) (fun v hv => within_fresh (hr.2 v hv))
  | ASTNode.Unary _ _ op x, cg, a, h => by
    simp only [codegen_expr]
    have hx := fine_expr x cg a h
    exact hx.1.unary op _ (fun v hv => within_fresh (hx.2 v hv))
  | ASTNode.Lambda _ _ _ _ _, cg, a, h => by simp only [codegen_expr]; exact Fine.of_none h
  | ASTNode.Apply _ _ _ _, cg, a, h => by simp only [codegen_expr]; exact Fine.of_none h
  | ASTNode.Ternary _ _ c t e, cg, a, h => by
    simp only [codegen_expr]
    have hc := fine_expr c cg a h
    split
    · exact Fine.of_none hc.1
    · rename_i cond_val hcv
      have hb := hc.1.built (fun id => Instruction.icmp id LLVMIntNE cond_val
        (LLVMValue.const_int (LLVMType.int 64) 0)) (LLVMType.int 1)
        (by simp [Instruction.fresh, fresh_const_int, within_fresh (hc.2 _ hcv), hc.1.1.1])
      have ht := fine_expr t _ a hb.1
      have he := fine_expr e _ a ht.1
      split
      · rename_i then_val else_val htv hev
        exact FineValue.ref (he.1.built _ _
          (by simp [Instruction.fresh, hb.fresh, within_fresh (ht.2 _ htv),
            within_fresh (he.2 _ hev), he.1.1.1]))
      · exact Fine.of_none he.1
  | ASTNode.Array _ _ _, cg, a, h => by simp only [codegen_expr]; exact Fine.of_none h
  | ASTNode.Index _ _ _ _, cg, a, h => by simp only [codegen_expr]; exact Fine.of_none h
  | ASTNode.Builtin _ _ name [], cg, a, h => by
    simp only [codegen_expr]
    split
    · exact Fine.of_none h.printf.1
    · exact Fine.of_none h
  | ASTNode.Builtin _ _ name (element :: _), cg, a, h => by
    simp only [codegen_expr]
    split
    · have hv := fine_expr element _ a h.printf.1
      exact hv.1.print _ _ h.printf.2 (fun v hv1 => within_fresh (hv.2 v hv1))
    · exact Fine.of_none h
  | ASTNode.Let _ _ _ _ _, cg, a, h => by simp only [codegen_expr]; exact Fine.of_none h
  | ASTNode.For _ _ _ _ _ _ _, cg, a, h => by simp only [codegen_expr]; exact Fine.of_none h
  | ASTNode.Block _ _ _, cg, a, h => by simp only [codegen_expr]; exact Fine.of_none h
  | ASTNode.Async _ _ _, cg, a, h => by simp only [codegen_expr]; exact Fine.of_none h
  | ASTNode.Await _ _ _, cg, a, h => by simp only [codegen_expr]; exact Fine.of_none h
  | ASTNode.GpuKernel _ _ _ _ _ _, cg, a, h => by simp only [codegen_expr]; exact Fine.of_none h
  | ASTNode.Program _ _ _, cg, a, h => by simp only [codegen_expr]; exact Fine.of_none h

/-! ## The scopes and statements of a loop body -/

theorem slots_new (scopes : List Scope) (parent : Option Nat) (h : slots_only scopes) :
    slots_only (scope_new scopes parent).2 := by
  intro scope hs sym hsym
  simp only [scope_new, List.mem_append, List.mem_singleton] at hs
  rcases hs with hs | hs
  · exact h scope hs sym hsym
  · subst hs; cases hsym

theorem mem_update_scope (scopes : List Scope) (s : Nat) (f : Scope → Scope) (sc : Scope)
    (h : sc ∈ update_scope scopes s f) : sc ∈ scopes ∨ ∃ old, old ∈ scopes ∧ sc = f old := by
  induction scopes generalizing s with
  | nil => simp [update_scope] at h
  | cons x rest ih =>
    cases s with
    | zero =>
      simp only [update_scope, List.mem_cons] at h
      rcases h with h | h
      · exact Or.inr ⟨x, List.mem_cons_self _ _, h⟩
      · exact Or.inl (List.mem_cons_of_mem _ h)
    | succ s1 =>
      simp only [update_scope, List.mem_cons] at h
      rcases h with h | h
      · exact Or.inl (h ▸ List.mem_cons_self _ _)
      · rcases ih s1 h with h1 | ⟨old, ho, he⟩
        · exact Or.inl (List.mem_cons_of_mem _ h1)
        · exact Or.inr ⟨old, List.mem_cons_of_mem _ ho, he⟩

theorem slots_define (scopes : List Scope) (s : Nat) (name : List Nat) (v : LLVMValue)
    (ty : LLVMType) (h : slots_only scopes)
    (hv : LLVMGetTypeKind (LLVMTypeOf v) = LLVMTypeKind.LLVMPointerTypeKind) :
    slots_only (scope_define scopes s name (some v) (some ty)) := by
  intro scope hs sym hsym
  rcases mem_update_scope _ _ _ _ hs with hs | ⟨old, ho, rfl⟩
  · exact h scope hs sym hsym
  · simp only [List.mem_cons] at hsym
    rcases hsym with rfl | hsym
    · exact ⟨v, ty, rfl, rfl, hv⟩
    · exact h old ho sym hsym

theorem Emits.coerce {n b0 : Nat} {a cg : CodeGen} (h : Emits n b0 a cg) (init : LLVMValue)
    (type : LLVMType) (hv : init.fresh n = true) : FreshValue n b0 a (coerce_init cg init type) := by
  dsimp only [coerce_init]
  refine FreshValue.either_way (h.cast _ _ _ _ hv).weaken ?_
  refine FreshValue.either_way (h.cast _ _ _ _ hv).weaken ?_
  refine FreshValue.either_way (h.cast _ _ _ _ hv).weaken ?_
  refine FreshValue.either_way ?_ (FreshValue.of_value h _ hv)
  refine FreshValue.either_way (h.cast _ _ _ _ hv).weaken ?_
  exact FreshValue.either_way (h.cast _ _ _ _ hv).weaken (FreshValue.of_value h _ hv)

/-- The slot of a `let`: the `alloca`, the `store` of the fresh value, and the symbol. -/
theorem Emits.slot {n b0 : Nat} {a cg : CodeGen} (h : Emits n b0 a cg) (name : List Nat)
    (ty : LLVMType) (v : LLVMValue) (hv : v.fresh n = true) :
    Emits n b0 a
      (match ((cg.build (fun id => Instruction.alloca id ty) LLVMType.pointer).2.emit
          (Instruction.store v
            (cg.build (fun id => Instruction.alloca id ty) LLVMType.pointer).1)).current_scope with
      | some scope =>
        { (cg.build (fun id => Instruction.alloca id ty) LLVMType.pointer).2.emit
            (Instruction.store v
              (cg.build (fun id => Instruction.alloca id ty) LLVMType.pointer).1) with
          scopes := scope_define
            ((cg.build (fun id => Instruction.alloca id ty) LLVMType.pointer).2.emit
              (Instruction.store v
                (cg.build (fun id => Instruction.alloca id ty) LLVMType.pointer).1)).scopes
            scope name
            (some (cg.build (fun id => Instruction.alloca id ty) LLVMType.pointer).1)
            (some ty) }
      | none =>
        (cg.build (fun id => Instruction.alloca id ty) LLVMType.pointer).2.emit
          (Instruction.store v
            (cg.build (fun id => Instruction.alloca id ty) LLVMType.pointer).1)) := by
  have h1 := h.built (fun id => Instruction.alloca id ty) LLVMType.pointer
    (by simp [Instruction.fresh, h.1.1])
  have h2 := h1.1.emit (Instruction.store v
    (cg.build (fun id => Instruction.alloca id ty) LLVMType.pointer).1)
    (by simp [Instruction.fresh, hv, h1.fresh])
  split
  · exact h2.of_same_blocks _ rfl rfl (slots_define _ _ _ _ _ h2.1.2.2 rfl)
  · exact h2

theorem Emits.let_slot {n b0 : Nat} {a cg : CodeGen} (h : Emits n b0 a cg) (name : List Nat)
    (ann : Option AstType) (init : LLVMValueRef) (hv : ∀ v, init = some v → v.fresh n = true) :
    Emits n b0 a (codegen_let cg name ann init) := by
  cases init with
  | none => exact h
  | some v =>
    cases ann with
    | none => exact h.slot name (LLVMTypeOf v) v (hv v rfl)
    | some t =>
      have hc := h.coerce v (get_llvm_type (some t)) (hv v rfl)
      exact hc.1.slot name (get_llvm_type (some t)) _ hc.2

/-- The header of a loop that is lowered inside a loop body. -/
theorem Emits.header {n b0 : Nat} {a cg : CodeGen} (h : Emits n b0 a cg) (var : List Nat)
    (sv ev : LLVMValue) (parallel : Nat) (hs : sv.fresh n = true) (he : ev.fresh n = true) :
    Emits n b0 a (for_header cg var sv ev parallel).cg ∧
    (for_header cg var sv ev parallel).loop_var.fresh n = true ∧
    b0 ≤ (for_header cg var sv ev parallel).loop_bb := by
  let x1 := cg.build (fun id => Instruction.alloca id (LLVMType.int 64)) LLVMType.pointer
  let x2 := x1.2.emit (Instruction.store sv x1.1)
  let l := x2.append_block "loop"
  let b := l.2.append_block "body"
  let f := b.2.append_block "after"
  let x3 := f.2.emit (Instruction.br l.1)
  let x4 : CodeGen := { x3 with position := l.1 }
  let cur := x4.build (fun id => Instruction.load id (LLVMType.int 64) x1.1) (LLVMType.int 64)
  let cond := cur.2.build (fun id => Instruction.icmp id LLVMIntSLT cur.1 ev) (LLVMType.int 1)
  let x5 := cond.2.emit (Instruction.cond_br cond.1 b.1 f.1 (decide (parallel ≠ 0)))
  have hb0 : b0 ≤ cg.blocks.length := h.1.2.1
  have h1 : FineValue n b0 a x1 := h.built _ _ (by simp [Instruction.fresh, h.1.1])
  have h2 : Emits n b0 a x2 := h1.1.emit _ (by simp [Instruction.fresh, hs, h1.fresh])
  have hl1 : l.1 = cg.blocks.length := by
    simp [l, x2, x1, CodeGen.append_block, CodeGen.emit, CodeGen.build, append_instr_length]
  have hb1 : b.1 = cg.blocks.length + 1 := by
    simp [b, l, x2, x1, CodeGen.append_block, CodeGen.emit, CodeGen.build, append_instr_length]
  have hf1 : f.1 = cg.blocks.length + 2 := by
    simp [f, b, l, x2, x1, CodeGen.append_block, CodeGen.emit, CodeGen.build, append_instr_length]
  have h3 : Emits n b0 a x3 :=
    (((h2.append_block "loop").append_block "body").append_block "after").emit _
      (by simp only [Instruction.fresh, decide_eq_true_eq]; omega)
  have h4 : Emits n b0 a x4 := h3.of_same_blocks _ rfl rfl h3.1.2.2
  have h5 : FineValue n b0 a cur := h4.built _ _ (by simp [Instruction.fresh, h4.1.1])
  have h6 : FineValue n b0 a cond :=
    h5.1.built _ _ (by simp [Instruction.fresh, h5.fresh, he, h5.1.1.1])
  have h7 : Emits n b0 a x5 := h6.1.emit _
    (by simp only [Instruction.fresh, h6.fresh, Bool.true_and, Bool.and_eq_true, decide_eq_true_eq]
        omega)
  refine ⟨?_, h1.fresh, by show l.1 ≥ b0; omega⟩
  exact h7.of_same_blocks _ rfl rfl (slots_define _ _ _ _ _ (slots_new _ _ h7.1.2.2) rfl)

/-- The footer of a loop that is lowered inside a loop body. -/
theorem Emits.footer {n b0 : Nat} {a cg : CodeGen} (h : Emits n b0 a cg) (loop : ForLoop)
    (hv : loop.loop_var.fresh n = true) (hb : b0 ≤ loop.loop_bb) :
    Emits n b0 a (for_footer loop cg) := by
  let x0 : CodeGen := { cg with current_scope := loop.prev_scope }
  let cur := x0.build (fun id => Instruction.load id (LLVMType.int 64) loop.loop_var)
    (LLVMType.int 64)
  let next := cur.2.build
    (fun id => Instruction.binop id Opcode.Add cur.1 (LLVMValue.const_int (LLVMType.int 64) 1))
    (LLVMType.int 64)
  let x1 := next.2.emit (Instruction.store next.1 loop.loop_var)
  let x2 := x1.emit (Instruction.br loop.loop_bb)
  have h0 : Emits n b0 a x0 := h.of_same_blocks _ rfl rfl h.1.2.2
  have h1 : FineValue n b0 a cur := h0.built _ _ (by simp [Instruction.fresh, h0.1.1])
  have h2 : FineValue n b0 a next :=
    h1.1.built _ _ (by simp [Instruction.fresh, fresh_const_int, h1.fresh, h1.1.1.1])
  have h3 : Emits n b0 a x1 := h2.1.emit _ (by simp [Instruction.fresh, h2.fresh, hv])
  have h4 : Emits n b0 a x2 := h3.emit _ (by simp [Instruction.fresh, hb])
  exact h4.of_same_blocks _ rfl rfl h4.1.2.2

theorem Emits.scoped {n b0 : Nat} {a cg : CodeGen} (h : Emits n b0 a cg) (scopes : List Scope)
    (cur : Option Nat) (hs : slots_only scopes) :
    Emits n b0 a { cg with scopes := scopes, current_scope := cur } :=
  h.of_same_blocks _ rfl rfl hs

mutual

/-- The lowering of a statement inside a loop body emits fresh instructions only. -/
theorem emits_stmt {n b0 : Nat} : ∀ (node : ASTNode) (cg a : CodeGen), Emits n b0 a cg →
    Emits n b0 a (codegen_stmt cg node)
  | ASTNode.null, cg, a, h => by simp only [codegen_stmt]; exact h
  | ASTNode.IntLit _ _ _, cg, a, h => by simp only [codegen_stmt]; exact (fine_expr _ cg a h).1
  | ASTNode.FloatLit _ _ _, cg, a, h => by simp only [codegen_stmt]; exact (fine_expr _ cg a h).1
  | ASTNode.StringLit _ _ _ _, cg, a, h => by
    simp only [codegen_stmt]; exact (fine_expr _ cg a h).1
  | ASTNode.Ident _ _ _ _, cg, a, h => by simp only [codegen_stmt]; exact (fine_expr _ cg a h).1
  | ASTNode.Binary _ _ _ _ _, cg, a, h => by
    simp only [codegen_stmt]; exact (fine_expr _ cg a h).1
  | ASTNode.Unary _ _ _ _, cg, a, h => by simp only [codegen_stmt]; exact (fine_expr _ cg a h).1
  | ASTNode.Lambda _ _ _ _ _, cg, a, h => by
    simp only [codegen_stmt]; exact (fine_expr _ cg a h).1
  | ASTNode.Apply _ _ _ _, cg, a, h => by simp only [codegen_stmt]; exact (fine_expr _ cg a h).1
  | ASTNode.Ternary _ _ _ _ _, cg, a, h => by
    simp only [codegen_stmt]; exact (fine_expr _ cg a h).1
  | ASTNode.Array _ _ _, cg, a, h => by simp only [codegen_stmt]; exact (fine_expr _ cg a h).1
  | ASTNode.Index _ _ _ _, cg, a, h => by simp only [codegen_stmt]; exact (fine_expr _ cg a h).1
  | ASTNode.Builtin _ _ _ _, cg, a, h => by
    simp only [codegen_stmt]; exact (fine_expr _ cg a h).1
  | ASTNode.Let _ _ name ann value, cg, a, h => by
    simp only [codegen_stmt]
    have hv := fine_expr value cg a h
    exact hv.1.let_slot name ann _ (fun v hv1 => within_fresh (hv.2 v hv1))
  | ASTNode.For _ _ var start end_ body parallel, cg, a, h => by
    simp only [codegen_stmt]
    have hs := fine_expr start cg a h
    have he := fine_expr end_ _ a hs.1
    split
    · rename_i start_val end_val hsv hev
      have hh := he.1.header var start_val end_val parallel (within_fresh (hs.2 _ hsv))
        (within_fresh (he.2 _ hev))
      exact (emits_for_body body _ a hh.1).footer _ hh.2.1 hh.2.2
    · exact he.1
  | ASTNode.Block _ _ stmts, cg, a, h => by
    simp only [codegen_stmt]
    have h1 := h.scoped (scope_new cg.scopes cg.current_scope).2
      (some (scope_new cg.scopes cg.current_scope).1) (slots_new _ _ h.1.2.2)
    have h2 := emits_stmts stmts _ a h1
    exact h2.of_same_blocks _ rfl rfl h2.1.2.2
  | ASTNode.Async _ _ _, cg, a, h => by simp only [codegen_stmt]; exact (fine_expr _ cg a h).1
  | ASTNode.Await _ _ _, cg, a, h => by simp only [codegen_stmt]; exact (fine_expr _ cg a h).1
  | ASTNode.GpuKernel _ _ _ _ _ _, cg, a, h => by
    simp only [codegen_stmt]; exact (fine_expr _ cg a h).1
  | ASTNode.Program _ _ _, cg, a, h => by simp only [codegen_stmt]; exact (fine_expr _ cg a h).1

theorem emits_for_body {n b0 : Nat} : ∀ (node : ASTNode) (cg a : CodeGen), Emits n b0 a cg →
    Emits n b0 a (codegen_for_body cg node)
  | ASTNode.null, cg, a, h => by simp only [codegen_for_body]; exact h
  | ASTNode.IntLit _ _ _, cg, a, h => by simp only [codegen_for_body]; exact h
  | ASTNode.FloatLit _ _ _, cg, a, h => by simp only [codegen_for_body]; exact h
  | ASTNode.StringLit _ _ _ _, cg, a, h => by simp only [codegen_for_body]; exact h
  | ASTNode.Ident _ _ _ _, cg, a, h => by simp only [codegen_for_body]; exact h
  | ASTNode.Binary _ _ _ _ _, cg, a, h => by simp only [codegen_for_body]; exact h
  | ASTNode.Unary _ _ _ _, cg, a, h => by simp only [codegen_for_body]; exact h
  | ASTNode.Lambda _ _ _ _ _, cg, a, h => by simp only [codegen_for_body]; exact h
  | ASTNode.Apply _ _ _ _, cg, a, h => by simp only [codegen_for_body]; exact h
  | ASTNode.Ternary _ _ _ _ _, cg, a, h => by simp only [codegen_for_body]; exact h
  | ASTNode.Array _ _ _, cg, a, h => by simp only [codegen_for_body]; exact h
  | ASTNode.Index _ _ _ _, cg, a, h => by simp only [codegen_for_body]; exact h
  | ASTNode.Builtin _ _ _ _, cg, a, h => by simp only [codegen_for_body]; exact h
  | ASTNode.Let _ _ _ _ _, cg, a, h => by simp only [codegen_for_body]; exact h
  | ASTNode.For _ _ _ _ _ _ _, cg, a, h => by simp only [codegen_for_body]; exact h
  | ASTNode.Block _ _ stmts, cg, a, h => by
    simp only [codegen_for_body]; exact emits_stmts stmts cg a h
  | ASTNode.Async _ _ _, cg, a, h => by simp only [codegen_for_body]; exact h
  | ASTNode.Await _ _ _, cg, a, h => by simp only [codegen_for_body]; exact h
  | ASTNode.GpuKernel _ _ _ _ _ _, cg, a, h => by simp only [codegen_for_body]; exact h
  | ASTNode.Program _ _ stmts, cg, a, h => by
    simp only [codegen_for_body]; exact emits_stmts stmts cg a h

theorem emits_stmts {n b0 : Nat} : ∀ (stmts : List ASTNode) (cg a : CodeGen), Emits n b0 a cg →
    Emits n b0 a (codegen_stmts cg stmts)
  | [], cg, a, h => by simp only [codegen_stmts]; exact h
  | node :: rest, cg, a, h => by
    simp only [codegen_stmts]
    exact emits_stmts rest _ a (emits_stmt node cg a h)

end
/-! ## Runs of fresh instructions -/

theorem arrivals_nil (b c : Nat) : arrivals b c [] = [] := rfl

theorem Runs.zero (blocks : List BasicBlock) (b c : Nat) (m : Machine) :
    Runs blocks b c m 0 m [] 0 :=
  ⟨rfl, rfl, [], (List.append_nil _).symm, rfl⟩

theorem Runs.congr {blocks : List BasicBlock} {b c : Nat} {m m1 : Machine} {k k1 : Nat}
    {out out1 : List (Option RtValue)} {n n1 : Nat} (h : Runs blocks b c m k m1 out n)
    (hk : k = k1) (ho : out = out1) (hn : n = n1) : Runs blocks b c m k1 m1 out1 n1 := by
  subst hk; subst ho; subst hn; exact h

end LambdaPhoton
